import Mathlib

/-!
# Descale: the least-squares inverse of a separable resampler

A shallow embedding of `descale.cpp` (kernel evaluator, weight-matrix builder,
banded LDL' factoriser, vector solver) and proofs about it.

Conventions of the embedding.

* `double` and `float` values are elements of an arbitrary linearly ordered
  field `K` with a floor function (exact arithmetic, no rounding); the
  concrete scenarios are evaluated over `ℚ`.  A division by zero returns `0`
  (the convention of `K`); the theorems state the non-zero hypotheses they use.
* `std::sin` is a parameter `sin : K → K`.
* The guard `std::numeric_limits<double>::epsilon()` is a parameter `eps : K`.
* A `std::vector` is an `Array`; `rd` reads a cell and `wr` writes one.  A read
  outside the vector returns `0` and a write outside the vector is dropped
  (both are undefined behaviour in the source).
* `int` sizes and loop counters are natural numbers; where the source computes
  a signed intermediate value the embedding either uses `ℤ` or reorders the
  expression so that no truncated subtraction occurs (noted at each place).
* Raw frame pointers (`srcp`, `dstp`) are functions `ℕ → K`.
-/

namespace Descale

set_option linter.unusedSectionVars false

/-! ## Loops and vectors -/

/-- The loop `for (t = 0; t < n; ++t) s = body t s`. -/
def loop {σ : Type} (body : ℕ → σ → σ) : ℕ → σ → σ
  | 0, s => s
  | n + 1, s => body n (loop body n s)

/-- Read `a[i]`. -/
def rd {α : Type} [Zero α] (a : Array α) (i : ℕ) : α := a.getD i 0

/-- Write `a[i] = v`. -/
def wr {α : Type} (a : Array α) (i : ℕ) (v : α) : Array α := a.setD i v

/-- The call `a.resize(n)` of a `std::vector`: the first `n` cells are kept and
new cells are value-initialised. -/
def resize {α : Type} [Zero α] (a : Array α) (n : ℕ) : Array α :=
  Array.ofFn (fun i : Fin n => rd a i.val)

/-- Kernel selector `DescaleMode`. -/
inductive DescaleMode where
  | bilinear
  | bicubic
  | lanczos
  | spline16
  | spline36
  deriving DecidableEq, Repr

/-- Formal expressions over atoms (samples and coefficients, numbered) built
with the operations of the solver. Two expressions are equal only if they apply
the same operations to the same operands in the same order. -/
inductive OpTerm where
  | atom (n : ℕ)
  | zero
  | add (a b : OpTerm)
  | sub (a b : OpTerm)
  | mul (a b : OpTerm)
  deriving DecidableEq, Repr

instance OpTerm.instZero : Zero OpTerm := ⟨OpTerm.zero⟩

instance OpTerm.instAdd : Add OpTerm := ⟨OpTerm.add⟩

instance OpTerm.instSub : Sub OpTerm := ⟨OpTerm.sub⟩

instance OpTerm.instMul : Mul OpTerm := ⟨OpTerm.mul⟩

section Core

variable {K : Type} [LinearOrderedField K] [FloorRing K]

/-! ## Dense helpers of the factoriser -/

/-- `transpose_matrix`. -/
def transpose_matrix (rows : ℕ) (matrix : Array K) : Array K :=
  let columns := matrix.size / rows
  loop (fun i t =>
    loop (fun j t => wr t (i + rows * j) (rd matrix (i * columns + j))) columns t)
    rows (mkArray matrix.size 0)

/-- `multiply_sparse_matrices`. The loop `for (k = lidx[i]; k < ridx[i]; ++k)`
runs `ridx[i] - lidx[i]` times with `k = lidx[i] + t`. -/
def multiply_sparse_matrices (rows : ℕ) (lidx ridx : Array ℕ) (lm rm : Array K) : Array K :=
  let columns := lm.size / rows
  loop (fun i multiplied =>
    loop (fun j multiplied =>
      let sum := loop (fun t sum =>
        let k := rd lidx i + t
        sum + rd lm (i * columns + k) * rd rm (k * rows + j)) (rd ridx i - rd lidx i) 0
      wr multiplied (i * rows + j) sum) rows multiplied)
    rows (mkArray (rows * rows) 0)

/-- `multiply_banded_matrix_with_diagonal`. The loop `for (i = 1; i < rows; ++i)`
runs with `i = 1 + t`; `start = max(i - (c - 1), 0)` is the truncated
subtraction `i - (c - 1)`. -/
def multiply_banded_matrix_with_diagonal (rows bandwidth : ℕ) (matrix : Array K) : Array K :=
  let c := (bandwidth + 1) / 2
  loop (fun t matrix =>
    let i := 1 + t
    let start := i - (c - 1)
    loop (fun u matrix =>
      let j := start + u
      wr matrix (i * rows + j) (rd matrix (i * rows + j) * rd matrix (j * rows + j)))
      (i - start) matrix)
    (rows - 1) matrix

/-- `banded_cholesky_decomposition`, in place on the packed upper band. The
loops over `j` start at `1`, so they run with `j = 1 + t`. -/
def banded_cholesky_decomposition (eps : K) (rows bandwidth : ℕ) (matrix : Array K) : Array K :=
  let c := (bandwidth + 1) / 2
  loop (fun k matrix =>
    let last := min (k + c - 1) (rows - 1) - k
    let matrix := loop (fun t matrix =>
      let j := 1 + t
      let i := k + j
      let d := rd matrix (k * c + j) / (rd matrix (k * c) + eps)
      loop (fun l matrix =>
        wr matrix (i * c + l) (rd matrix (i * c + l) - d * rd matrix (k * c + j + l)))
        (last - j + 1) matrix) last matrix
    let e := 1 / (rd matrix (k * c) + eps)
    loop (fun t matrix =>
      let j := 1 + t
      wr matrix (k * c + j) (rd matrix (k * c + j) * e)) (c - 1) matrix)
    rows matrix

/-- `compress_matrix`. -/
def compress_matrix (rows : ℕ) (lidx ridx : Array ℕ) (matrix : Array K) : Array K :=
  let columns := matrix.size / rows
  let max := loop (fun i max =>
    if rd ridx i - rd lidx i > max then rd ridx i - rd lidx i else max) lidx.size 0
  loop (fun i compressed =>
    loop (fun j compressed =>
      wr compressed (i * max + j) (rd matrix (i * columns + rd lidx i + j))) max compressed)
    rows (mkArray (rows * max) 0)

/-- `compress_symmetric_banded_matrix`. The signed test `i < rows - c - 1` is
written `i + c + 1 < rows`; the loops over `j` start at `i`, so `j = i + t`. -/
def compress_symmetric_banded_matrix (rows bandwidth : ℕ) (matrix : Array K) : Array K :=
  let c := (bandwidth + 1) / 2
  loop (fun i compressed =>
    if i + c + 1 < rows then
      loop (fun t compressed =>
        let j := i + t
        wr compressed (i * c + (j - i)) (rd matrix (i * rows + j))) c compressed
    else
      loop (fun t compressed =>
        let j := i + t
        wr compressed (i * c + (j - i)) (rd matrix (i * rows + j))) (rows - i) compressed)
    rows (mkArray (rows * c) 0)

/-- `uncrompress_symmetric_banded_matrix`. -/
def uncrompress_symmetric_banded_matrix (rows bandwidth : ℕ) (matrix : Array K) : Array K :=
  let c := (bandwidth + 1) / 2
  loop (fun i uncompressed =>
    loop (fun j uncompressed =>
      let idx := i + j
      if idx < rows then wr uncompressed (i * rows + idx) (rd matrix (i * c + j))
      else uncompressed) c uncompressed)
    rows (mkArray (rows * rows) 0)

/-- `extract_compressed_lower_upper_diagonal`; returns the three output vectors
`(compressed_lower, compressed_upper, diagonal)`. `start = max(i - c + 1, 0)`
is the truncated subtraction `i + 1 - c`; the first inner loop runs `c - 1`
times with `j = start + t`; the descending loop `for (j = start; j > i; --j)`
runs `start - i` times with `j = start - t`; the write index
`i * (c - 1) + c - 2 + j - start` is reordered to keep every intermediate value
non-negative. -/
def extract_compressed_lower_upper_diagonal (eps : K) (rows bandwidth : ℕ)
    (lower upper compressed_lower compressed_upper diagonal : Array K) :
    Array K × Array K × Array K :=
  let columns := lower.size / rows
  let c := (bandwidth + 1) / 2
  let compressed_lower := loop (fun i compressed_lower =>
    let start := i + 1 - c
    loop (fun t compressed_lower =>
      let j := start + t
      wr compressed_lower (i * (c - 1) + j - start) (rd lower (i * columns + j)))
      (c - 1) compressed_lower) rows compressed_lower
  let compressed_upper := loop (fun i compressed_upper =>
    let start := min (i + c - 1) (rows - 1)
    loop (fun t compressed_upper =>
      let j := start - t
      wr compressed_upper (i * (c - 1) + c - 2 + j - start) (rd upper (i * columns + j)))
      (start - i) compressed_upper) rows compressed_upper
  let diagonal := loop (fun i diagonal =>
    wr diagonal i (1 / (rd lower (i * columns + i) + eps))) rows diagonal
  (compressed_lower, compressed_upper, diagonal)

/-! ## Kernel evaluator -/

/-- The constant `PI` of the source, a decimal literal. -/
def PI : K := 314159265358979323846 / 100000000000000000000

/-- `sinc`. -/
def sinc (sin : K → K) (x : K) : K :=
  if x = 0 then 1 else sin (x * PI) / (x * PI)

/-- `square`. -/
def square (x : K) : K := x * x

/-- `cube`. -/
def cube (x : K) : K := x * x * x

/-- `calculate_weight`. -/
def calculate_weight (sin : K → K) (mode : DescaleMode) (support : ℕ) (distance b c : K) : K :=
  let distance := |distance|
  match mode with
  | .bilinear => max (1 - distance) 0
  | .bicubic =>
    if distance < 1 then
      ((12 - 9 * b - 6 * c) * cube distance
        + (-18 + 12 * b + 6 * c) * square distance + (6 - 2 * b)) / 6
    else if distance < 2 then
      ((-b - 6 * c) * cube distance + (6 * b + 30 * c) * square distance
        + (-12 * b - 48 * c) * distance + (8 * b + 24 * c)) / 6
    else 0
  | .lanczos =>
    if distance < (support : K) then sinc sin distance * sinc sin (distance / (support : K))
    else 0
  | .spline16 =>
    if distance < 1 then
      1 - (1 / 5 * distance) - (9 / 5 * square distance) + cube distance
    else if distance < 2 then
      let distance := distance - 1
      (-7 / 15 * distance) + (4 / 5 * square distance) - (1 / 3 * cube distance)
    else 0
  | .spline36 =>
    if distance < 1 then
      1 - (3 / 209 * distance) - (453 / 209 * square distance) + (13 / 11 * cube distance)
    else if distance < 2 then
      let distance := distance - 1
      (-156 / 209 * distance) + (270 / 209 * square distance) - (6 / 11 * cube distance)
    else if distance < 3 then
      let distance := distance - 2
      (26 / 209 * distance) - (45 / 209 * square distance) + (1 / 11 * cube distance)
    else 0

/-- `std::round` on a non-negative argument: nearest integer, halves up. -/
def std_round (x : K) : ℤ := ⌊x + 1 / 2⌋

/-- `round_halfup`: `sign = signbit(x)`, `x = round(abs(x))`, `sign ? -x : x`. -/
def round_halfup (x : K) : K :=
  let sign := decide (x < 0)
  let x : K := (std_round |x| : ℤ)
  if sign then -x else x

/-! ## Weight-matrix builder -/

/-- The sampling position `pos` of row `i` in `scaling_weights`:
`ratio = dst_dim / src_dim`, `pos = (i + 0.5) / ratio + shift`. -/
def sample_pos (src_dim dst_dim : ℕ) (shift : K) (i : ℕ) : K :=
  let ratio : K := (dst_dim : K) / (src_dim : K)
  ((i : K) + 1 / 2) / ratio + shift

/-- The first tap position of a row: `begin_pos = round_halfup(pos - support) + 0.5`. -/
def begin_pos (support : ℕ) (pos : K) : K :=
  round_halfup (pos - (support : K)) + 1 / 2

/-- The mirrored position `real_pos` of a tap at `xpos`. -/
def mirror_pos (src_dim : ℕ) (xpos : K) : K :=
  if xpos < 0 then -xpos
  else if xpos ≥ (src_dim : K) then min (2 * (src_dim : K) - xpos) ((src_dim : K) - 1 / 2)
  else xpos

/-- The column `idx = static_cast<int>(std::floor(real_pos))` of tap `j` of row `i`. -/
def tap_idx (support src_dim dst_dim : ℕ) (shift : K) (i j : ℕ) : ℤ :=
  ⌊mirror_pos src_dim (begin_pos support (sample_pos src_dim dst_dim shift i) + (j : K))⌋

/-- The statement `weights[k] += v` with a signed index `k`. -/
def add_at (weights : Array K) (k : ℤ) (v : K) : Array K :=
  if 0 ≤ k then wr weights k.toNat (rd weights k.toNat + v) else weights

/-- The tap total of row `i` (first inner loop of `scaling_weights`). -/
def row_total (sin : K → K) (mode : DescaleMode) (support src_dim dst_dim : ℕ)
    (b c shift : K) (i : ℕ) : K :=
  let pos := sample_pos src_dim dst_dim shift i
  loop (fun j total =>
    let xpos := begin_pos support pos + (j : K)
    total + calculate_weight sin mode support (xpos - pos) b c) (2 * support) 0

/-- `scaling_weights`: the `dst_dim × src_dim` matrix, row-major. -/
def scaling_weights (sin : K → K) (mode : DescaleMode) (support src_dim dst_dim : ℕ)
    (b c shift : K) : Array K :=
  loop (fun i weights =>
    let total := row_total sin mode support src_dim dst_dim b c shift i
    let pos := sample_pos src_dim dst_dim shift i
    loop (fun j weights =>
      let xpos := begin_pos support pos + (j : K)
      let idx := tap_idx support src_dim dst_dim shift i j
      add_at weights ((i : ℤ) * (src_dim : ℤ) + idx)
        (calculate_weight sin mode support (xpos - pos) b c / total)) (2 * support) weights)
    dst_dim (mkArray (src_dim * dst_dim) 0)

/-! ## Vector solver

The solver is written over any type of values with `0`, `+`, `-` and `·`; no law
of arithmetic enters its definition. -/

/-- The body of the outer loop of `process_plane_h` for one row: `srcp` and
`dstp` are the row pointers. The backward loop `for (j = width - 2; j >= 0; --j)`
runs `width - 1` times with `j = width - 2 - t`, and its inner descending loop
`for (k = start; k > j; --k)` runs `start - j` times with `k = start - u`. The
index `j * (c - 1) + k - start + c - 2` is reordered to
`j * (c - 1) + k + c - 2 - start` to keep every intermediate value non-negative. -/
def solve_row_h {α : Type} [Zero α] [Add α] [Sub α] [Mul α] (width c columns : ℕ)
    (weights_left_idx weights_right_idx : Array ℕ)
    (weights lower upper diagonal : Array α) (srcp dstp : ℕ → α) : ℕ → α :=
  -- Solve LD y = A' b
  let dstp := loop (fun j dstp =>
    let start := j + 1 - c
    let sum := loop (fun t sum =>
      let k := rd weights_left_idx j + t
      sum + rd weights (j * columns + k - rd weights_left_idx j) * srcp k)
      (rd weights_right_idx j - rd weights_left_idx j) 0
    let dstp := Function.update dstp j sum
    let sum := loop (fun t sum =>
      let k := start + t
      sum + rd lower (j * (c - 1) + k - start) * dstp k) (j - start) 0
    Function.update dstp j ((dstp j - sum) * rd diagonal j)) width dstp
  -- Solve L' x = y
  loop (fun t dstp =>
    let j := width - 2 - t
    let start := min (width - 1) (j + c - 1)
    let sum := loop (fun u sum =>
      let k := start - u
      sum + rd upper (j * (c - 1) + k + c - 2 - start) * dstp k) (start - j) 0
    Function.update dstp j (dstp j - sum)) (width - 1) dstp

/-- `process_plane_h`: returns the destination memory after the call. Row `i`
is read at `srcp + i * src_stride` and written at `dstp + i * dst_stride`. -/
def process_plane_h {α : Type} [Zero α] [Add α] [Sub α] [Mul α]
    (width current_height bandwidth : ℕ)
    (weights_left_idx weights_right_idx : Array ℕ) (weights lower upper diagonal : Array α)
    (src_stride dst_stride : ℕ) (srcp dstp : ℕ → α) : ℕ → α :=
  let c := (bandwidth + 1) / 2
  let columns := weights.size / width
  loop (fun i mem =>
    let row := solve_row_h width c columns weights_left_idx weights_right_idx
      weights lower upper diagonal (fun k => srcp (i * src_stride + k))
      (fun j => mem (i * dst_stride + j))
    fun n => if i * dst_stride ≤ n then row (n - i * dst_stride) else mem n)
    current_height dstp

/-- `process_plane_v`: returns the destination memory after the call. Column
`i` is read at `srcp[k * src_stride + i]` and written at `dstp[j * dst_stride + i]`. -/
def process_plane_v {α : Type} [Zero α] [Add α] [Sub α] [Mul α]
    (height current_width bandwidth : ℕ)
    (weights_left_idx weights_right_idx : Array ℕ) (weights lower upper diagonal : Array α)
    (src_stride dst_stride : ℕ) (srcp dstp : ℕ → α) : ℕ → α :=
  let c := (bandwidth + 1) / 2
  let columns := weights.size / height
  loop (fun i dstp =>
    -- Solve LD y = A' b
    let dstp := loop (fun j dstp =>
      let start := j + 1 - c
      let sum := loop (fun t sum =>
        let k := rd weights_left_idx j + t
        sum + rd weights (j * columns + k - rd weights_left_idx j) * srcp (k * src_stride + i))
        (rd weights_right_idx j - rd weights_left_idx j) 0
      let dstp := Function.update dstp (j * dst_stride + i) sum
      let sum := loop (fun t sum =>
        let k := start + t
        sum + rd lower (j * (c - 1) + k - start) * dstp (k * dst_stride + i)) (j - start) 0
      Function.update dstp (j * dst_stride + i)
        ((dstp (j * dst_stride + i) - sum) * rd diagonal j)) height dstp
    -- Solve L' x = y
    loop (fun t dstp =>
      let j := height - 2 - t
      let start := min (height - 1) (j + c - 1)
      let sum := loop (fun u sum =>
        let k := start - u
        sum + rd upper (j * (c - 1) + k + c - 2 - start) * dstp (k * dst_stride + i))
        (start - j) 0
      Function.update dstp (j * dst_stride + i) (dstp (j * dst_stride + i) - sum))
      (height - 1) dstp)
    current_width dstp

/-! ## Core construction -/

/-- The solver arrays of one axis, the `_h` or the `_v` fields of `DescaleData`. -/
structure AxisCore (K : Type) where
  upper : Array K
  diagonal : Array K
  lower : Array K
  weights : Array K
  weights_left_idx : Array ℕ
  weights_right_idx : Array ℕ

/-- The fields of `DescaleData` that the core uses: `width`, `height` are the
requested (low-res) size, `vi_width`, `vi_height` the size of the input clip
(`d.vi->width`, `d.vi->height`). -/
structure DescaleData (K : Type) where
  vi_width : ℕ
  vi_height : ℕ
  width : ℕ
  height : ℕ
  bandwidth : ℕ
  taps : ℕ
  b : K
  c : K
  shift_h : K
  shift_v : K
  process_h : Bool
  process_v : Bool
  h : AxisCore K
  v : AxisCore K

/-- The value-initialised solver arrays of `DescaleData d{}`. -/
def AxisCore.empty : AxisCore K := ⟨#[], #[], #[], #[], #[], #[]⟩

/-- The two search loops of `descale_create` for row `i` of the transposed
weights: the first non-zero column goes to `left_idx[i]`, one past the last
non-zero column to `right_idx[i]`; a loop that finds nothing writes nothing. -/
def find_idx (dim vi_dim : ℕ) (transposed_weights : Array K)
    (idx : Array ℕ × Array ℕ) : Array ℕ × Array ℕ :=
  loop (fun i idx =>
    let left := match (List.range vi_dim).find?
        (fun j => decide (rd transposed_weights (i * vi_dim + j) ≠ 0)) with
      | some j => wr idx.1 i j
      | none => idx.1
    let right := match (List.range vi_dim).reverse.find?
        (fun j => decide (rd transposed_weights (i * vi_dim + j) ≠ 0)) with
      | some j => wr idx.2 i (j + 1)
      | none => idx.2
    (left, right)) dim idx

/-- One branch (`if (d.process_h)` or `if (d.process_v)`) of `descale_create`:
`dim` is `d.width` or `d.height`, `vi_dim` is `d.vi->width` or `d.vi->height`,
`shift` is `d.shift_h` or `d.shift_v`, and `core` holds the fields of that axis. -/
def descale_create_axis (sin : K → K) (eps : K) (mode : DescaleMode) (support : ℕ)
    (dim vi_dim bandwidth : ℕ) (b c shift : K) (core : AxisCore K) : AxisCore K :=
  let weights := scaling_weights sin mode support dim vi_dim b c shift
  let transposed_weights := transpose_matrix vi_dim weights
  let idx := find_idx dim vi_dim transposed_weights
    (resize core.weights_left_idx dim, resize core.weights_right_idx dim)
  let weights_left_idx := idx.1
  let weights_right_idx := idx.2
  let multiplied_weights :=
    multiply_sparse_matrices dim weights_left_idx weights_right_idx transposed_weights weights
  let upper := compress_symmetric_banded_matrix dim bandwidth multiplied_weights
  let upper := banded_cholesky_decomposition eps dim bandwidth upper
  let upper := uncrompress_symmetric_banded_matrix dim bandwidth upper
  let lower := transpose_matrix dim upper
  let lower := multiply_banded_matrix_with_diagonal dim bandwidth lower
  let transposed_weights :=
    compress_matrix dim weights_left_idx weights_right_idx transposed_weights
  let compressed_columns := transposed_weights.size / dim
  let weights_out := resize core.weights (dim * compressed_columns)
  let diagonal := resize core.diagonal dim
  let lower_out := resize core.lower (dim * ((bandwidth + 1) / 2 - 1))
  let upper_out := resize core.upper (dim * ((bandwidth + 1) / 2 - 1))
  let ex := extract_compressed_lower_upper_diagonal eps dim bandwidth lower upper
    lower_out upper_out diagonal
  let weights_out := loop (fun i weights_out =>
    loop (fun j weights_out =>
      wr weights_out (i * compressed_columns + j)
        (rd transposed_weights (i * compressed_columns + j))) compressed_columns weights_out)
    dim weights_out
  { upper := ex.2.1, diagonal := ex.2.2, lower := ex.1, weights := weights_out,
    weights_left_idx := weights_left_idx, weights_right_idx := weights_right_idx }

/-- `descale_create`. -/
def descale_create (sin : K → K) (eps : K) (mode : DescaleMode) (support : ℕ)
    (d : DescaleData K) : DescaleData K :=
  let d1 : DescaleData K :=
    if d.process_h then
      { d with h := (descale_create_axis sin eps mode support d.width d.vi_width
          d.bandwidth d.b d.c d.shift_h d.h) }
    else d
  if d1.process_v then
    { d1 with v := (descale_create_axis sin eps mode support d1.height d1.vi_height
        d1.bandwidth d1.b d1.c d1.shift_v d1.v) }
  else d1

/-- The `DescaleData d{}` of a `*_create` function at the call of
`descale_create`: the arguments are stored, `process_h = (width != vi->width)`,
`process_v = (height != vi->height)`, `bandwidth = support * 4 - 1`, and the
solver vectors are empty. -/
def fresh_data (support vi_width vi_height width height taps : ℕ) (b c shift_h shift_v : K) :
    DescaleData K :=
  { vi_width := vi_width, vi_height := vi_height, width := width, height := height,
    bandwidth := support * 4 - 1, taps := taps, b := b, c := c,
    shift_h := shift_h, shift_v := shift_v,
    process_h := decide (width ≠ vi_width), process_v := decide (height ≠ vi_height),
    h := AxisCore.empty, v := AxisCore.empty }

/-- The common part of the `*_create` functions after the arguments are read:
the dimension check and the call of `descale_create` on the fresh data. -/
def create_filter (sin : K → K) (eps : K) (mode : DescaleMode) (support : ℕ)
    (vi_width vi_height width height taps : ℕ) (b c shift_h shift_v : K) :
    Except String (DescaleData K) :=
  if width > vi_width ∨ height > vi_height then
    .error "Descale: Output dimension has to be smaller or equal to input dimension."
  else
    .ok (descale_create sin eps mode support
      (fresh_data support vi_width vi_height width height taps b c shift_h shift_v))

/-- `debilinear_create`: `mode = bilinear`, `support = 1`. -/
def debilinear_create (sin : K → K) (eps : K) (vi_width vi_height width height : ℕ)
    (shift_h shift_v : K) : Except String (DescaleData K) :=
  create_filter sin eps .bilinear 1 vi_width vi_height width height 0 0 0 shift_h shift_v

/-- `debicubic_create`: `mode = bicubic`, `support = 2`. -/
def debicubic_create (sin : K → K) (eps : K) (vi_width vi_height width height : ℕ)
    (b c shift_h shift_v : K) : Except String (DescaleData K) :=
  create_filter sin eps .bicubic 2 vi_width vi_height width height 0 b c shift_h shift_v

/-- `delanczos_create`: `mode = lanczos`, `support = taps`. -/
def delanczos_create (sin : K → K) (eps : K) (vi_width vi_height width height taps : ℕ)
    (shift_h shift_v : K) : Except String (DescaleData K) :=
  create_filter sin eps .lanczos taps vi_width vi_height width height taps 0 0 shift_h shift_v

/-- `despline16_create`: `mode = spline16`, `support = 2`. -/
def despline16_create (sin : K → K) (eps : K) (vi_width vi_height width height : ℕ)
    (shift_h shift_v : K) : Except String (DescaleData K) :=
  create_filter sin eps .spline16 2 vi_width vi_height width height 0 0 0 shift_h shift_v

/-- `despline36_create`: `mode = spline36`, `support = 3`. -/
def despline36_create (sin : K → K) (eps : K) (vi_width vi_height width height : ℕ)
    (shift_h shift_v : K) : Except String (DescaleData K) :=
  create_filter sin eps .spline36 3 vi_width vi_height width height 0 0 0 shift_h shift_v

/-! ## Statements of the specification and scenario harness -/

/-- The support that each `*_create` function passes to `descale_create`:
`1` for bilinear, `2` for bicubic and spline16, `3` for spline36 and `taps`
for lanczos. -/
def kernel_support (mode : DescaleMode) (taps : ℕ) : ℕ :=
  match mode with
  | .bilinear => 1
  | .bicubic => 2
  | .lanczos => taps
  | .spline16 => 2
  | .spline36 => 3

/-- The bilinear kernel in the words of the specification: `max(1 − |d|, 0)`. -/
def spec_bilinear (d : K) : K := max (1 - |d|) 0

/-- The bicubic kernel in the words of the specification. -/
def spec_bicubic (b c d : K) : K :=
  if 0 ≤ |d| ∧ |d| < 1 then
    ((12 - 9 * b - 6 * c) * |d| ^ 3 + (-18 + 12 * b + 6 * c) * |d| ^ 2 + (6 - 2 * b)) / 6
  else if 1 ≤ |d| ∧ |d| < 2 then
    ((-b - 6 * c) * |d| ^ 3 + (6 * b + 30 * c) * |d| ^ 2 + (-12 * b - 48 * c) * |d|
      + (8 * b + 24 * c)) / 6
  else 0

/-- The constant `π` of the specification, to 21 significant digits:
`3.14159265358979323846`. -/
def spec_pi : K := 314159265358979323846 / 10 ^ 20

/-- The normalised sinc of the specification: `sinc(x) = sin(π·x)/(π·x)` with
`sinc(0) = 1`. -/
def spec_sinc (sin : K → K) (x : K) : K :=
  if x = 0 then 1 else sin (spec_pi * x) / (spec_pi * x)

/-- The lanczos kernel in the words of the specification, on the signed
distance `d`: `sinc(d)·sinc(d/taps)` if `|d| < taps`, else `0`. -/
def spec_lanczos (sin : K → K) (taps : ℕ) (d : K) : K :=
  if |d| < (taps : K) then spec_sinc sin d * spec_sinc sin (d / (taps : K)) else 0

/-- The sampling position in the words of the specification (§4.2 step 1):
`(i + 0.5)·(active_dim/dst_dim) + shift − 0.5·(active_dim/dst_dim − 1)`. -/
def spec_pos (active_dim dst_dim : ℕ) (shift : K) (i : ℕ) : K :=
  ((i : K) + 1 / 2) * ((active_dim : K) / (dst_dim : K)) + shift
    - 1 / 2 * ((active_dim : K) / (dst_dim : K) - 1)

/-- The packed cell `(r, t)` of a vector with row width `c`. -/
def cells (P : Array K) (c : ℕ) (r t : ℕ) : K := rd P (r * c + t)

/-- The effect of iteration `k` of the outer loop of
`banded_cholesky_decomposition` on the packed cells `B r t`: the rows
`k < r ≤ k + last` lose the multiple `B k (r - k) / (B k 0 + eps)` of row `k`,
then the cells `t ≥ 1` of row `k` are scaled by `1 / (B k 0 + eps)`. -/
def chol_step (eps : K) (rows c k : ℕ) (B : ℕ → ℕ → K) (r t : ℕ) : K :=
  if r = k then
    if 0 < t then B k t * (1 / (B k 0 + eps)) else B k t
  else if k < r ∧ r ≤ min (k + c - 1) (rows - 1)
      ∧ r - k + t ≤ min (k + c - 1) (rows - 1) - k then
    B r t - B k (r - k) / (B k 0 + eps) * B k (r - k + t)
  else B r t

/-- The packed cells after the first `k` iterations of the outer loop of
`banded_cholesky_decomposition`. -/
def chol_iter (eps : K) (rows c : ℕ) : ℕ → (ℕ → ℕ → K) → ℕ → ℕ → K
  | 0, B => B
  | k + 1, B => chol_step eps rows c k (chol_iter eps rows c k B)

/-- Row `m` of the packed cells at the moment iteration `m` of
`banded_cholesky_decomposition` starts (the unscaled pivot row), extended by
`0` beyond the band. -/
def chol_u (eps : K) (rows c : ℕ) (B : ℕ → ℕ → K) (m x : ℕ) : K :=
  if x < c then chol_iter eps rows c m B m x else 0

/-- Entry `(m, j)` of the unit upper triangular factor `L'` stored in packed
cells `F`: `1` on the diagonal, `F m (j - m)` inside the band above it. -/
def lt_entry (c : ℕ) (F : ℕ → ℕ → K) (m j : ℕ) : K :=
  if m = j then 1 else if m < j ∧ j - m < c then F m (j - m) else 0

/-- The pivot `D_kk`: the value `upper[k * c]` of the packed band in
`descale_create` after `banded_cholesky_decomposition` has run. -/
def axis_pivot (sin : K → K) (eps : K) (mode : DescaleMode) (support : ℕ)
    (dim vi_dim bandwidth : ℕ) (b c shift : K) (core : AxisCore K) (k : ℕ) : K :=
  let weights := scaling_weights sin mode support dim vi_dim b c shift
  let transposed_weights := transpose_matrix vi_dim weights
  let idx := find_idx dim vi_dim transposed_weights
    (resize core.weights_left_idx dim, resize core.weights_right_idx dim)
  let multiplied_weights :=
    multiply_sparse_matrices dim idx.1 idx.2 transposed_weights weights
  let upper := compress_symmetric_banded_matrix dim bandwidth multiplied_weights
  let upper := banded_cholesky_decomposition eps dim bandwidth upper
  rd upper (k * ((bandwidth + 1) / 2))

/-- The normal equations `(A'A)·x = A'·b` for a row-major matrix `A` with `H`
rows and `N` columns. -/
def normal_equations (A : Array K) (N H : ℕ) (b x : ℕ → K) : Prop :=
  ∀ i, i < N →
    ∑ j in Finset.range N,
      (∑ k in Finset.range H, rd A (k * N + i) * rd A (k * N + j)) * x j
    = ∑ k in Finset.range H, rd A (k * N + i) * b k

instance normal_equations_decidable (A : Array K) (N H : ℕ) (b x : ℕ → K) :
    Decidable (normal_equations A N H b x) := by
  unfold normal_equations
  infer_instance

/-- Entry `(i, j)` of the symmetric matrix that the packed cells represent
after `k` iterations of `banded_cholesky_decomposition` (with `eps = 0`): the
cell `(min i j, |i - j|)` inside the band and `0` outside it. For rows and
columns `≥ k` this is the Schur complement of the leading `k × k` block. -/
def schur_entry (rows c : ℕ) (B : ℕ → ℕ → K) (k i j : ℕ) : K :=
  if i ≤ j then
    if j - i < c then chol_iter 0 rows c k B i (j - i) else 0
  else
    if i - j < c then chol_iter 0 rows c k B j (i - j) else 0

/-- The quadratic form `v' S v` of an `n × n` matrix given by its entries. -/
def quad_form (n : ℕ) (S : ℕ → ℕ → K) (v : ℕ → K) : K :=
  ∑ i in Finset.range n, ∑ j in Finset.range n, S i j * v i * v j

/-- The matrix `A'A` is invertible, stated on its kernel: `(A'A)·v = 0` only for
`v = 0` (for a square matrix this is invertibility). -/
def normal_matrix_invertible (A : Array K) (N H : ℕ) : Prop :=
  ∀ v : ℕ → K,
    (∀ i, i < N →
      ∑ j in Finset.range N,
        (∑ k in Finset.range H, rd A (k * N + i) * rd A (k * N + j)) * v j = 0) →
    ∀ j, j < N → v j = 0

/-- The forward scale `Y = A·X` of a low-res row `X`. -/
def forward_scale (A : Array K) (N : ℕ) (X : ℕ → K) : ℕ → K :=
  fun k => ∑ j in Finset.range N, rd A (k * N + j) * X j

/-- The value that tap `j` of row `i` adds in `scaling_weights`:
`calculate_weight(mode, support, xpos - pos, b, c) / total`. -/
def tap_weight (sin : K → K) (mode : DescaleMode) (support src_dim dst_dim : ℕ)
    (b c shift : K) (i j : ℕ) : K :=
  let pos := sample_pos src_dim dst_dim shift i
  let xpos := begin_pos support pos + (j : K)
  calculate_weight sin mode support (xpos - pos) b c
    / row_total sin mode support src_dim dst_dim b c shift i

/-- Every tap index computed by `scaling_weights` is a column of the matrix:
`0 ≤ idx < src_dim` for every row `i < dst_dim` and tap `j < 2·support`. -/
def taps_in_range (support src_dim dst_dim : ℕ) (shift : K) : Prop :=
  ∀ i, i < dst_dim → ∀ j, j < 2 * support →
    0 ≤ tap_idx support src_dim dst_dim shift i j
    ∧ tap_idx support src_dim dst_dim shift i j < (src_dim : ℤ)

instance taps_in_range_decidable (support src_dim dst_dim : ℕ) (shift : K) :
    Decidable (taps_in_range support src_dim dst_dim shift) := by
  unfold taps_in_range
  infer_instance

/-- The sum of row `i` of an `n`-column row-major matrix. -/
def row_sum (A : Array K) (n i : ℕ) : K :=
  ∑ j in Finset.range n, rd A (i * n + j)

/-- The value of `std::numeric_limits<double>::epsilon()`. -/
def DBL_EPSILON : K := 1 / 2 ^ 52

/-- Stand-in for `std::sin` in scenarios whose kernel never calls it. -/
def no_sin : K → K := fun _ => 0

/-- `descale_get_frame` (branch `arAllFramesReady`) on the plane of the source
frame: `current_width × current_height` samples at `srcp` with stride
`src_stride`. The frames made by `newVideoFrame` have the strides
`intermediate_stride`, `dst_stride` and the initial contents `intermediatep`,
`dstp`. Returns the memory of the returned frame; `process_plane_h` sets
`current_width = width` before its caller runs `process_plane_v`. -/
def descale_get_frame (d : DescaleData K)
    (current_width current_height src_stride intermediate_stride dst_stride : ℕ)
    (srcp intermediatep dstp : ℕ → K) : ℕ → K :=
  if d.process_h && d.process_v then
    let intermediatep :=
      if d.process_h then
        process_plane_h d.width current_height d.bandwidth d.h.weights_left_idx
          d.h.weights_right_idx d.h.weights d.h.lower d.h.upper d.h.diagonal
          src_stride intermediate_stride srcp intermediatep
      else intermediatep
    let current_width := if d.process_h then d.width else current_width
    if d.process_v then
      process_plane_v d.height current_width d.bandwidth d.v.weights_left_idx
        d.v.weights_right_idx d.v.weights d.v.lower d.v.upper d.v.diagonal
        intermediate_stride dst_stride intermediatep dstp
    else dstp
  else if d.process_h then
    process_plane_h d.width current_height d.bandwidth d.h.weights_left_idx
      d.h.weights_right_idx d.h.weights d.h.lower d.h.upper d.h.diagonal
      src_stride dst_stride srcp dstp
  else if d.process_v then
    process_plane_v d.height current_width d.bandwidth d.v.weights_left_idx
      d.v.weights_right_idx d.v.weights d.v.lower d.v.upper d.v.diagonal
      src_stride dst_stride srcp dstp
  else srcp

/-- The frame that `descale_get_frame` returns for a source frame of one row
stored without padding (strides equal to the widths), the new frames being
zero-filled. A failed creation yields no frame (modelled as the zero row). -/
def descale_row (r : Except String (DescaleData K)) (srcp : ℕ → K) : ℕ → K :=
  match r with
  | .ok d =>
    descale_get_frame d d.vi_width 1 d.vi_width d.width d.width srcp (fun _ => 0) (fun _ => 0)
  | .error _ => fun _ => 0

/-- The row written at row `r` by the horizontal pass with the filter data `d`:
`process_plane_h` called as in `descale_get_frame`, with the `_h` fields of `d`. -/
def solved_row (d : DescaleData K) (current_height src_stride dst_stride : ℕ)
    (srcp dstp : ℕ → K) (r : ℕ) : ℕ → K :=
  fun j =>
    process_plane_h d.width current_height d.bandwidth d.h.weights_left_idx
      d.h.weights_right_idx d.h.weights d.h.lower d.h.upper d.h.diagonal
      src_stride dst_stride srcp dstp (r * dst_stride + j)

/-- The unit impulse row `[1, 0, 0, ...]`. -/
def impulse_input : ℕ → ℚ := fun k => if k = 0 then 1 else 0

/-- The input row of scenario 1, `Y = [1, 3, 5, 7]`. -/
def scenario1_input : ℕ → ℚ := fun k => [1, 3, 5, 7].getD k 0

/-- Scenario 1: `Debilinear` from width 4 to width 2, no shift, applied to `Y`. -/
def scenario1_output : ℕ → ℚ :=
  descale_row (debilinear_create no_sin DBL_EPSILON 4 1 2 1 0 0) scenario1_input

/-- The input row of scenario 2, the ramp `Y = [0, 1, 2, 3, 4, 5]`. -/
def scenario2_input : ℕ → ℚ := fun k => [0, 1, 2, 3, 4, 5].getD k 0

/-- Scenario 2: `Debicubic` with `b = 0`, `c = 0.5` from width 6 to width 3,
no shift, applied to the ramp. -/
def scenario2_output : ℕ → ℚ :=
  descale_row (debicubic_create no_sin DBL_EPSILON 6 1 3 1 0 (1 / 2) 0 0) scenario2_input

/-- The index-range invariant of a core in the words of the specification, for a
matrix `A` with `H` rows and `N` columns and the brackets `L`, `R` of its
transpose: for every solver row `i`, `0 ≤ L[i] ≤ R[i] ≤ H`, `A'[i][j] = 0` for
every `j` outside `[L[i], R[i])`, and when row `i` of `A'` has a non-zero entry,
`L[i]` is the smallest `j` with `A'[i][j] ≠ 0` and `R[i]` is one past the
largest such `j`. -/
def idx_invariant (A : Array K) (N H : ℕ) (L R : Array ℕ) : Prop :=
  ∀ i, i < N →
    rd L i ≤ rd R i ∧ rd R i ≤ H
    ∧ (∀ j, j < H → (j < rd L i ∨ rd R i ≤ j) → rd A (j * N + i) = 0)
    ∧ ((∃ j, j < H ∧ rd A (j * N + i) ≠ 0) →
        rd L i < rd R i ∧ rd A (rd L i * N + i) ≠ 0 ∧ rd A ((rd R i - 1) * N + i) ≠ 0)

/-- The matrix `multiplied_weights` of `descale_create`, `M = A'A`: the
product of the transposed weights and the weights computed by
`multiply_sparse_matrices` with the index brackets found in `descale_create`. -/
def multiplied_weights (sin : K → K) (mode : DescaleMode) (support dim vi_dim : ℕ)
    (b c shift : K) : Array K :=
  let weights := scaling_weights sin mode support dim vi_dim b c shift
  let transposed_weights := transpose_matrix vi_dim weights
  let idx := find_idx dim vi_dim transposed_weights
    (resize (#[] : Array ℕ) dim, resize (#[] : Array ℕ) dim)
  multiply_sparse_matrices dim idx.1 idx.2 transposed_weights weights

/-- Entry `(i, j)` of the symmetric matrix that the packed cells represent
after `k` iterations of `banded_cholesky_decomposition` with the guard `eps`:
the cell `(min i j, |i - j|)` inside the band and `0` outside it. -/
def schur_eps (eps : K) (rows c : ℕ) (B : ℕ → ℕ → K) (k i j : ℕ) : K :=
  if i ≤ j then
    if j - i < c then chol_iter eps rows c k B i (j - i) else 0
  else
    if i - j < c then chol_iter eps rows c k B j (i - j) else 0

/-! ## The filter constructor of the plugin (`vsplugin.c`) -/

namespace VSPlugin

/-- The kernel selector `params.mode` that the registration passes in
`user_data`. -/
inductive Mode where
  | bilinear
  | bicubic
  | lanczos
  | spline16
  | spline36
  | spline64
  | custom
  deriving DecidableEq, Repr

/-- `VSVideoFormat`, the fields that `descale_create` reads; `sample_float` is
`sampleType == stFloat` (the other sample type is `stInteger`). -/
structure VideoFormat where
  sample_float : Bool
  bitsPerSample : ℤ
  subSamplingW : ℕ
  subSamplingH : ℕ
  numPlanes : ℤ
  deriving DecidableEq, Repr

/-- `VSVideoInfo` of a node, with the answer of `vsh_isConstantVideoFormat`. -/
structure VideoInfo where
  format : VideoFormat
  width : ℤ
  height : ℤ
  numFrames : ℤ
  constant_format : Bool
  deriving DecidableEq, Repr

/-- The call of `descale_create`: `mode` and `upscale` come from `user_data`
(`mode = none` is a value outside the `switch`), `src` is the video info of the
node `src`, the other fields are the entries of the map `in`, `none` for an
absent key (the `err` of the getter is set). `post_conv` lists the elements of
the key `post_conv`. -/
structure Args (K : Type) where
  mode : Option Mode
  upscale : Bool
  src : VideoInfo
  width : ℤ
  height : ℤ
  ignore_mask : Option VideoInfo
  src_left : Option K
  src_top : Option K
  src_width : Option K
  src_height : Option K
  border_handling : Option ℤ
  opt : Option ℤ
  b : Option K
  c : Option K
  taps : Option ℤ
  blur : Option K
  force : Option ℤ
  force_h : Option ℤ
  force_v : Option ℤ
  post_conv : Option (List K)

/-- What a call of `descale_create` has done when it returns: the error set on
`out` by the last `mapSetError`, whether `mapSetNode(out, "clip", d.node)` and
`createVideoFilter` were executed, the number of calls `freeNode(d.node)`,
whether `d.node` was handed to `mapSetNode`, `createVideoFilter` or `freeNode`
after it had been freed, and the flags `process_h`, `process_v` at the return. -/
structure Outcome where
  error : Option String
  clip_returned : Bool
  filter_created : Bool
  node_frees : ℕ
  stale_use : Bool
  process_h : Bool
  process_v : Bool
  deriving DecidableEq, Repr

/-- `get_error`: the message `funcname: error`. -/
def get_error (funcname error : String) : String := funcname ++ ": " ++ error

/-- The `switch` on `params.mode` that sets `funcname`. -/
def funcname (mode : Mode) (upscale : Bool) : String :=
  match mode with
  | .bilinear => if upscale then "Bilinear" else "Debilinear"
  | .bicubic => if upscale then "Bicubic" else "Debicubic"
  | .lanczos => if upscale then "Lanczos" else "Delanczos"
  | .spline16 => if upscale then "Spline16" else "Despline16"
  | .spline36 => if upscale then "Spline36" else "Despline36"
  | .spline64 => if upscale then "Spline64" else "Despline64"
  | .custom => if upscale then "ScaleCustom" else "Decustom"

/-- The state before the first `mapSetError`: nothing set, nothing freed. -/
def Outcome.start : Outcome :=
  { error := none, clip_returned := false, filter_created := false, node_frees := 0,
    stale_use := false, process_h := false, process_v := false }

/-- An error exit: `mapSetError(out, get_error(funcname, error))`, then
`freeNode(d.node)` (and `freeNode(d.ignore_mask_node)`), then `return`. -/
def Outcome.fail (o : Outcome) (funcname error : String) : Outcome :=
  { o with error := some (get_error funcname error), node_frees := o.node_frees + 1,
           stale_use := o.stale_use || decide (0 < o.node_frees) }

/-- `descale_create` of `vsplugin.c`. The statements that only store values
the checks never read (custom-kernel data, border handling, `opt`, the copy of
`post_conv`) are left out. `x >> s` is `x / 2 ^ s` and `x % (1 << s) != 0` is
`x % 2 ^ s ≠ 0`; the `int` arithmetic is exact. -/
def descale_create (a : Args K) : Outcome :=
  match a.mode with
  | none => { Outcome.start with error := some (get_error "Descale" "Wrong API use!") }
  | some mode =>
    let funcname := funcname mode a.upscale
    let vi := a.src
    if ¬ vi.constant_format then
      Outcome.start.fail funcname "Only constant format input is supported."
    else if vi.format.sample_float = false ∨ vi.format.bitsPerSample ≠ 32 then
      Outcome.start.fail funcname "Only float32 input is supported."
    else
    let src_width := vi.width
    let src_height := vi.height
    let dst_width := a.width
    let dst_height := a.height
    let subsampling_h := vi.format.subSamplingW
    let subsampling_v := vi.format.subSamplingH
    if dst_width % 2 ^ subsampling_h ≠ 0 then
      Outcome.start.fail funcname "Output width and output subsampling are not compatible."
    else if dst_height % 2 ^ subsampling_v ≠ 0 then
      Outcome.start.fail funcname "Output height and output subsampling are not compatible."
    else
    let mask_error : Option String :=
      match a.ignore_mask with
      | none => none
      | some mvi =>
        if mvi.format.sample_float = true ∨ mvi.format.bitsPerSample ≠ 8 then
          some "Ignore mask must use 8 bit integer samples."
        else if mvi.format.numPlanes ≠ vi.format.numPlanes
            ∨ mvi.format.subSamplingH ≠ vi.format.subSamplingH
            ∨ mvi.format.subSamplingW ≠ vi.format.subSamplingW
            ∨ mvi.width ≠ src_width
            ∨ mvi.height ≠ src_height
            ∨ mvi.numFrames ≠ vi.numFrames then
          some "Ignore mask format must match clip format."
        else none
    match mask_error with
    | some e => Outcome.start.fail funcname e
    | none =>
    let shift_h : K := a.src_left.getD 0
    let shift_v : K := a.src_top.getD 0
    let active_width : K := a.src_width.getD (if a.upscale then (src_width : K) else (dst_width : K))
    let active_height : K :=
      a.src_height.getD (if a.upscale then (src_height : K) else (dst_height : K))
    if dst_width < 1 then
      Outcome.start.fail funcname "width must be greater than 0."
    else if dst_height < 8 then
      Outcome.start.fail funcname "Output height must be greater than or equal to 8."
    else if ¬ a.upscale ∧ (dst_width > src_width ∨ dst_height > src_height) then
      Outcome.start.fail funcname
        "Output dimension must be less than or equal to input dimension."
    else if a.upscale ∧ (dst_width < src_width ∨ dst_height < src_height) then
      Outcome.start.fail funcname
        "Output dimension must be larger than or equal to input dimension."
    else
    let process_h : Bool :=
      decide (dst_width ≠ src_width ∨ shift_h ≠ 0 ∨ active_width ≠ (dst_width : K))
    let process_v : Bool :=
      decide (dst_height ≠ src_height ∨ shift_v ≠ 0 ∨ active_height ≠ (dst_height : K))
    if (mode = .lanczos ∨ mode = .custom) ∧ a.taps.getD 3 < 1 then
      Outcome.start.fail funcname "taps must be greater than 0."
    else
    let blur : K := a.blur.getD 1
    -- the block of the blur check sets the error and frees the nodes; it has no `return`
    let o : Outcome :=
      if blur ≥ ((src_width / 2 ^ subsampling_h : ℤ) : K)
          ∨ blur ≥ ((src_height / 2 ^ subsampling_v : ℤ) : K) ∨ blur ≤ 0 then
        Outcome.start.fail funcname "blur parameter is out of bounds."
      else Outcome.start
    let force := a.force.getD 0
    let force_h := a.force_h.getD force
    let force_v := a.force_v.getD force
    let process_h : Bool := process_h || decide (force_h ≠ 0)
    let process_v : Bool := process_v || decide (force_v ≠ 0)
    let o : Outcome := { o with process_h := process_h, process_v := process_v }
    -- Return the input clip if no processing is necessary
    if process_h = false ∧ process_v = false then
      { o with clip_returned := true, node_frees := o.node_frees + 1,
               stale_use := o.stale_use || decide (0 < o.node_frees) }
    else if process_h = true ∧ process_v = true ∧ a.ignore_mask.isSome then
      o.fail funcname "Ignore mask is not supported when descaling along both axes."
    else if a.upscale ∧ a.ignore_mask.isSome then
      o.fail funcname "Ignore mask is not supported when upscaling."
    else
    let post_conv_size : ℕ := match a.post_conv with
      | none => 0
      | some l => l.length
    if post_conv_size ≠ 0 ∧ post_conv_size % 2 ≠ 1 then
      o.fail funcname "Post-convolution kernel must have odd length."
    else if post_conv_size ≠ 0
        ∧ ((process_h = true ∧ (post_conv_size : ℤ) > 2 * dst_width + 1)
          ∨ (process_v = true ∧ (post_conv_size : ℤ) > 2 * dst_height + 1)) then
      o.fail funcname "Post-convolution kernel is too large, exceeds clip dimensions."
    else
      { o with filter_created := true, stale_use := o.stale_use || decide (0 < o.node_frees) }


/-- A constant-format float32 clip without subsampling (one plane, `GrayS`) of
the given size. -/
def gray_clip (width height : ℤ) : VideoInfo :=
  { format := { sample_float := true, bitsPerSample := 32, subSamplingW := 0,
                subSamplingH := 0, numPlanes := 1 },
    width := width, height := height, numFrames := 1, constant_format := true }

/-- A call in descale mode with only the mandatory arguments `src`, `width` and
`height`. -/
def plain_call (mode : Mode) (src : VideoInfo) (width height : ℤ) : Args K :=
  { mode := some mode, upscale := false, src := src, width := width, height := height,
    ignore_mask := none, src_left := none, src_top := none, src_width := none,
    src_height := none, border_handling := none, opt := none, b := none, c := none,
    taps := none, blur := none, force := none, force_h := none, force_v := none,
    post_conv := none }

/-- The arguments other than the sizes and `post_conv` are valid, in descale
mode: a registered kernel, a constant-format float32 clip, no ignore mask,
`taps ≥ 1` for lanczos and custom, and `0 < blur < min(src_width >> ss_w,
src_height >> ss_h)` (absent `taps` is 3 and absent `blur` is 1). -/
def base_args_valid (a : Args K) : Prop :=
  a.mode.isSome = true ∧ a.upscale = false
  ∧ a.src.constant_format = true ∧ a.src.format.sample_float = true
  ∧ a.src.format.bitsPerSample = 32 ∧ a.ignore_mask = none
  ∧ ((a.mode = some .lanczos ∨ a.mode = some .custom) → 1 ≤ a.taps.getD 3)
  ∧ 0 < a.blur.getD 1
  ∧ a.blur.getD 1 < ((a.src.width / 2 ^ a.src.format.subSamplingW : ℤ) : K)
  ∧ a.blur.getD 1 < ((a.src.height / 2 ^ a.src.format.subSamplingH : ℤ) : K)

instance base_args_valid_decidable (a : Args K) : Decidable (base_args_valid a) := by
  unfold base_args_valid
  infer_instance

/-- The number of elements of the key `post_conv` (`0` when it is absent). -/
def post_conv_size (a : Args K) : ℕ :=
  match a.post_conv with
  | none => 0
  | some l => l.length

/-- The value of `d.dd.process_h` after the `force` arguments are applied. -/
def process_h_flag (a : Args K) : Bool :=
  decide (a.width ≠ a.src.width ∨ a.src_left.getD 0 ≠ 0
      ∨ a.src_width.getD (if a.upscale then (a.src.width : K) else (a.width : K)) ≠ (a.width : K))
    || decide (a.force_h.getD (a.force.getD 0) ≠ 0)

/-- The value of `d.dd.process_v` after the `force` arguments are applied. -/
def process_v_flag (a : Args K) : Bool :=
  decide (a.height ≠ a.src.height ∨ a.src_top.getD 0 ≠ 0
      ∨ a.src_height.getD (if a.upscale then (a.src.height : K) else (a.height : K))
        ≠ (a.height : K))
    || decide (a.force_v.getD (a.force.getD 0) ≠ 0)

/-- The sizes that `descale_create` rejects in descale mode: a size that the
output subsampling does not divide, `width < 1`, `height < 8`, or a size larger
than the input. -/
def dims_rejected (a : Args K) : Prop :=
  a.width % 2 ^ a.src.format.subSamplingW ≠ 0 ∨ a.height % 2 ^ a.src.format.subSamplingH ≠ 0
  ∨ a.width < 1 ∨ a.height < 8 ∨ a.width > a.src.width ∨ a.height > a.src.height

instance dims_rejected_decidable (a : Args K) : Decidable (dims_rejected a) := by
  unfold dims_rejected
  infer_instance

/-- The error `e` is one of the dimension errors of `descale_create`. -/
def dimension_error (a : Args K) (e : Option String) : Prop :=
  match a.mode with
  | none => False
  | some mode =>
    e = some (get_error (funcname mode a.upscale)
          "Output width and output subsampling are not compatible.")
    ∨ e = some (get_error (funcname mode a.upscale)
          "Output height and output subsampling are not compatible.")
    ∨ e = some (get_error (funcname mode a.upscale) "width must be greater than 0.")
    ∨ e = some (get_error (funcname mode a.upscale)
          "Output height must be greater than or equal to 8.")
    ∨ e = some (get_error (funcname mode a.upscale)
          "Output dimension must be less than or equal to input dimension.")

/-- The rule of the specification for `post_conv`: empty, or of odd length at
most `2·dst_dim + 1` for each processed axis. -/
def post_conv_valid (a : Args K) : Prop :=
  post_conv_size a = 0
  ∨ (post_conv_size a % 2 = 1
    ∧ (process_h_flag a = true → (post_conv_size a : ℤ) ≤ 2 * a.width + 1)
    ∧ (process_v_flag a = true → (post_conv_size a : ℤ) ≤ 2 * a.height + 1))

instance post_conv_valid_decidable (a : Args K) : Decidable (post_conv_valid a) := by
  unfold post_conv_valid
  infer_instance

end VSPlugin

/-- The value `max` of `compress_matrix`: the largest `ridx[i] - lidx[i]` over
`i < lidx.size()`, the row width of the packed weights. -/
def compress_matrix_width (lidx ridx : Array ℕ) : ℕ :=
  loop (fun i max =>
    if rd ridx i - rd lidx i > max then rd ridx i - rd lidx i else max) lidx.size 0

/-- The index `i * columns + lidx[i] + j` that `compress_matrix` reads from a
matrix of `size` cells for the cell `(i, j)` of the packed weights
(`columns = matrix.size() / rows`). -/
def compress_matrix_read (rows : ℕ) (lidx : Array ℕ) (size i j : ℕ) : ℕ :=
  let columns := size / rows
  i * columns + rd lidx i + j

/-- The index `i * columns + j` that the first loop of
`extract_compressed_lower_upper_diagonal` reads from `lower` (of `size` cells)
at iteration `t` of row `i`: `columns = lower.size() / rows`,
`start = max(i - c + 1, 0)` and `j = start + t`, `t < c - 1`. -/
def extract_lower_read (rows bandwidth size i t : ℕ) : ℕ :=
  let columns := size / rows
  let c := (bandwidth + 1) / 2
  let start := i + 1 - c
  i * columns + (start + t)

/-- The tap total of a row of `scaling_weights` with sampling position `pos`
(the first inner loop): `begin_pos = round_halfup(pos - support) + 0.5` and
`total += calculate_weight(mode, support, begin_pos + j - pos, b, c)` for
`j < 2·support`. -/
def tap_total (sin : K → K) (mode : DescaleMode) (support : ℕ) (b c pos : K) : K :=
  loop (fun j total =>
    let xpos := begin_pos support pos + (j : K)
    total + calculate_weight sin mode support (xpos - pos) b c) (2 * support) 0

end Core

/-! # Theorems -/

/-! ## Vectors and loops -/

theorem size_wr {α : Type} (a : Array α) (i : ℕ) (v : α) : (wr a i v).size = a.size := by
  simp [wr]

theorem rd_wr {α : Type} [Zero α] (a : Array α) (i j : ℕ) (v : α) :
    rd (wr a i v) j = if i = j ∧ i < a.size then v else rd a j := by
  by_cases hi : i < a.size
  · have hs : wr a i v = a.set ⟨i, hi⟩ v := by simp [wr, Array.setD, hi]
    rw [hs]
    unfold rd Array.getD
    simp only [Array.size_set]
    by_cases hj : j < a.size
    · simp only [hj, dite_true, Array.get_eq_getElem, Array.getElem_set]
      by_cases hij : i = j
      · simp [hij, hj]
      · simp [hij]
    · have : i ≠ j := by omega
      simp [hj, this]
  · have hs : wr a i v = a := by simp [wr, Array.setD, hi]
    rw [hs]; simp [hi]

theorem rd_mkArray {α : Type} [Zero α] (n i : ℕ) : rd (mkArray n (0 : α)) i = 0 := by
  unfold rd Array.getD
  by_cases h : i < n <;> simp [h]

theorem rd_of_size_le {α : Type} [Zero α] (a : Array α) (i : ℕ) (h : a.size ≤ i) : rd a i = 0 := by
  unfold rd Array.getD
  simp [Nat.not_lt.mpr h]

theorem size_resize {α : Type} [Zero α] (a : Array α) (n : ℕ) : (resize a n).size = n := by
  simp [resize]

theorem rd_resize {α : Type} [Zero α] (a : Array α) (n i : ℕ) :
    rd (resize a n) i = if i < n then rd a i else 0 := by
  by_cases h : i < n
  · rw [if_pos h]
    conv_lhs => unfold rd Array.getD
    simp [resize, h]
  · rw [if_neg h]
    exact rd_of_size_le _ _ (by rw [size_resize]; omega)

theorem loop_succ {σ : Type} (body : ℕ → σ → σ) (n : ℕ) (s : σ) :
    loop body (n + 1) s = body n (loop body n s) := rfl

theorem loop_inv {σ : Type} (P : ℕ → σ → Prop) (body : ℕ → σ → σ) (n : ℕ) (s : σ)
    (h0 : P 0 s) (hstep : ∀ t, t < n → ∀ s, P t s → P (t + 1) (body t s)) :
    P n (loop body n s) := by
  induction n with
  | zero => exact h0
  | succ m ih =>
    exact hstep m (Nat.lt_succ_self m) _ (ih (fun t ht s hs => hstep t (Nat.lt_succ_of_lt ht) s hs))

/-- Two loops whose bodies agree on the iterations that run compute the same
state. -/
theorem loop_congr {σ : Type} (body body' : ℕ → σ → σ) (n : ℕ) (s : σ)
    (h : ∀ t, t < n → ∀ s, body t s = body' t s) : loop body n s = loop body' n s := by
  induction n with
  | zero => rfl
  | succ m ih =>
    rw [loop_succ, loop_succ, ih (fun t ht s => h t (Nat.lt_succ_of_lt ht) s),
      h m (Nat.lt_succ_self m)]

/-- A relation between the states of two loops that every pair of iterations
keeps holds between their final states. -/
theorem loop_inv2 {σ τ : Type} (P : ℕ → σ → τ → Prop) (body : ℕ → σ → σ) (body' : ℕ → τ → τ)
    (n : ℕ) (s : σ) (s' : τ) (h0 : P 0 s s')
    (hstep : ∀ t, t < n → ∀ s s', P t s s' → P (t + 1) (body t s) (body' t s')) :
    P n (loop body n s) (loop body' n s') := by
  induction n with
  | zero => exact h0
  | succ m ih =>
    exact hstep m (Nat.lt_succ_self m) _ _
      (ih (fun t ht s s' hs => hstep t (Nat.lt_succ_of_lt ht) s s' hs))

theorem idx_lt (r l n w : ℕ) (hr : r < n) (hl : l < w) : r * w + l < n * w := by
  calc r * w + l < r * w + w := by omega
    _ = (r + 1) * w := by ring
    _ ≤ n * w := Nat.mul_le_mul_right w hr

theorem idx_inj (r l r' l' w : ℕ) (hl : l < w) (hl' : l' < w) (h : r * w + l = r' * w + l') :
    r = r' ∧ l = l' := by
  have h1 : (r * w + l) / w = r := by
    rw [Nat.mul_comm, Nat.mul_add_div (by omega), Nat.div_eq_of_lt hl]; rfl
  have h2 : (r' * w + l') / w = r' := by
    rw [Nat.mul_comm, Nat.mul_add_div (by omega), Nat.div_eq_of_lt hl']; rfl
  have hr : r = r' := by rw [← h1, ← h2, h]
  subst hr
  exact ⟨rfl, by omega⟩


section WeightTheorems

variable {K : Type} [LinearOrderedField K] [FloorRing K]

theorem loop_add_eq_sum (f : ℕ → K) (n : ℕ) (init : K) :
    loop (fun j acc => acc + f j) n init = init + ∑ j in Finset.range n, f j := by
  induction n with
  | zero => simp [loop]
  | succ m ih => rw [loop_succ, ih, Finset.sum_range_succ, add_assoc]

theorem row_total_eq (sin : K → K) (mode : DescaleMode) (support src_dim dst_dim : ℕ)
    (b c shift : K) (i : ℕ) :
    row_total sin mode support src_dim dst_dim b c shift i
      = ∑ j in Finset.range (2 * support),
          calculate_weight sin mode support
            (begin_pos support (sample_pos src_dim dst_dim shift i) + (j : K)
              - sample_pos src_dim dst_dim shift i) b c := by
  unfold row_total
  simp only []
  rw [loop_add_eq_sum, zero_add]

theorem size_add_at (w : Array K) (k : ℤ) (v : K) : (add_at w k v).size = w.size := by
  unfold add_at
  split
  · exact size_wr _ _ _
  · rfl

theorem rd_add_at (w : Array K) (k : ℤ) (v : K) (n : ℕ) :
    rd (add_at w k v) n = rd w n + (if k = (n : ℤ) ∧ n < w.size then v else 0) := by
  unfold add_at
  by_cases hk : 0 ≤ k
  · rw [if_pos hk, rd_wr]
    by_cases h : k = (n : ℤ) ∧ n < w.size
    · have h1 : k.toNat = n := by omega
      rw [if_pos h, if_pos ⟨h1, by omega⟩, h1]
    · have h1 : ¬ (k.toNat = n ∧ k.toNat < w.size) := by
        intro hh; apply h; omega
      rw [if_neg h, if_neg h1, add_zero]
  · rw [if_neg hk]
    have h : ¬ (k = (n : ℤ) ∧ n < w.size) := by omega
    rw [if_neg h, add_zero]

/-- Every entry of the matrix built by `scaling_weights`, when all tap indices
are columns: the sum of the tap weights that land on the column. -/
theorem scaling_weights_entry (sin : K → K) (mode : DescaleMode) (support src_dim dst_dim : ℕ)
    (b c shift : K) (hr : taps_in_range support src_dim dst_dim shift)
    (i col : ℕ) (hcol : col < src_dim) :
    rd (scaling_weights sin mode support src_dim dst_dim b c shift) (i * src_dim + col)
      = if i < dst_dim then
          ∑ j in Finset.range (2 * support),
            if tap_idx support src_dim dst_dim shift i j = (col : ℤ)
            then tap_weight sin mode support src_dim dst_dim b c shift i j else 0
        else 0 := by
  unfold scaling_weights
  have key := loop_inv
    (fun (I : ℕ) (w : Array K) => w.size = src_dim * dst_dim ∧
      ∀ r cl, cl < src_dim → rd w (r * src_dim + cl)
        = if r < I then
            ∑ j in Finset.range (2 * support),
              if tap_idx support src_dim dst_dim shift r j = (cl : ℤ)
              then tap_weight sin mode support src_dim dst_dim b c shift r j else 0
          else 0)
    (fun i weights =>
      let total := row_total sin mode support src_dim dst_dim b c shift i
      let pos := sample_pos src_dim dst_dim shift i
      loop (fun j weights =>
        let xpos := begin_pos support pos + (j : K)
        let idx := tap_idx support src_dim dst_dim shift i j
        add_at weights ((i : ℤ) * (src_dim : ℤ) + idx)
          (calculate_weight sin mode support (xpos - pos) b c / total)) (2 * support) weights)
    dst_dim (mkArray (src_dim * dst_dim) 0) ?_ ?_
  · exact key.2 i col hcol
  · refine ⟨by simp, ?_⟩
    intro r cl _
    rw [rd_mkArray]; simp
  · intro I hI w hw
    simp only []
    have inner := loop_inv
      (fun (J : ℕ) (w' : Array K) => w'.size = src_dim * dst_dim ∧
        ∀ r cl, cl < src_dim → rd w' (r * src_dim + cl)
          = (if r < I then
              ∑ j in Finset.range (2 * support),
                if tap_idx support src_dim dst_dim shift r j = (cl : ℤ)
                then tap_weight sin mode support src_dim dst_dim b c shift r j else 0
            else 0)
            + (if r = I then
                ∑ j in Finset.range J,
                  if tap_idx support src_dim dst_dim shift r j = (cl : ℤ)
                  then tap_weight sin mode support src_dim dst_dim b c shift r j else 0
              else 0))
      (fun j weights =>
        add_at weights ((I : ℤ) * (src_dim : ℤ) + tap_idx support src_dim dst_dim shift I j)
          (calculate_weight sin mode support
            (begin_pos support (sample_pos src_dim dst_dim shift I) + (j : K)
              - sample_pos src_dim dst_dim shift I) b c
            / row_total sin mode support src_dim dst_dim b c shift I))
      (2 * support) w ?_ ?_
    · refine ⟨inner.1, ?_⟩
      intro r cl hcl
      rw [inner.2 r cl hcl]
      by_cases h1 : r < I
      · have h2 : r ≠ I := by omega
        have h3 : r < I + 1 := by omega
        rw [if_pos h1, if_neg h2, if_pos h3, add_zero]
      · by_cases h2 : r = I
        · have h3 : r < I + 1 := by omega
          rw [if_neg h1, if_pos h2, if_pos h3, zero_add]
        · have h3 : ¬ r < I + 1 := by omega
          rw [if_neg h1, if_neg h2, if_neg h3, add_zero]
    · refine ⟨hw.1, ?_⟩
      intro r cl hcl
      rw [hw.2 r cl hcl]
      simp
    · intro J hJ w' hw'
      refine ⟨by rw [size_add_at]; exact hw'.1, ?_⟩
      intro r cl hcl
      rw [rd_add_at, hw'.2 r cl hcl, hw'.1]
      obtain ⟨hlo, hhi⟩ := hr I hI J hJ
      have hbound : r * src_dim + cl < src_dim * dst_dim ↔ r < dst_dim := by
        constructor
        · intro h
          by_contra hcon
          have : src_dim * dst_dim ≤ r * src_dim := by
            rw [Nat.mul_comm src_dim]; exact Nat.mul_le_mul_right _ (by omega)
          omega
        · intro h
          rw [Nat.mul_comm src_dim]; exact idx_lt r cl dst_dim src_dim h hcl
      by_cases hrI : r = I
      · subst hrI
        rw [if_pos rfl, if_pos rfl, Finset.sum_range_succ, add_assoc]
        congr 2
        by_cases hidx : tap_idx support src_dim dst_dim shift r J = (cl : ℤ)
        · have hb : r * src_dim + cl < src_dim * dst_dim := hbound.mpr hI
          have hc : (r : ℤ) * (src_dim : ℤ) + tap_idx support src_dim dst_dim shift r J
              = ((r * src_dim + cl : ℕ) : ℤ) := by
            rw [hidx]; push_cast; ring
          rw [if_pos ⟨hc, hb⟩, if_pos hidx]
          rfl
        · have hc : ¬ ((r : ℤ) * (src_dim : ℤ) + tap_idx support src_dim dst_dim shift r J
              = ((r * src_dim + cl : ℕ) : ℤ) ∧ r * src_dim + cl < src_dim * dst_dim) := by
            intro hh; apply hidx
            have := hh.1
            push_cast at this
            linarith
          rw [if_neg hc, if_neg hidx]
      · rw [if_neg hrI, if_neg hrI]
        have hc : ¬ ((I : ℤ) * (src_dim : ℤ) + tap_idx support src_dim dst_dim shift I J
            = ((r * src_dim + cl : ℕ) : ℤ) ∧ r * src_dim + cl < src_dim * dst_dim) := by
          intro hh
          apply hrI
          obtain ⟨n, hn⟩ := Int.eq_ofNat_of_zero_le hlo
          rw [hn] at hh hhi
          have h1 : I * src_dim + n = r * src_dim + cl := by
            have := hh.1
            exact_mod_cast this
          have h2 : n < src_dim := by exact_mod_cast hhi
          exact ((idx_inj I n r cl src_dim h2 hcl h1).1).symm
        rw [if_neg hc, add_zero]

/-- The entries of a row with in-range tap indices and non-zero tap total sum
to `1`. -/
theorem row_sum_eq_one (sin : K → K) (mode : DescaleMode)
    (support src_dim dst_dim : ℕ) (b c shift : K)
    (hr : taps_in_range support src_dim dst_dim shift) (i : ℕ) (hi : i < dst_dim)
    (ht : row_total sin mode support src_dim dst_dim b c shift i ≠ 0) :
    row_sum (scaling_weights sin mode support src_dim dst_dim b c shift) src_dim i = 1 := by
  unfold row_sum
  have h1 : ∀ col ∈ Finset.range src_dim,
      rd (scaling_weights sin mode support src_dim dst_dim b c shift) (i * src_dim + col)
        = ∑ j in Finset.range (2 * support),
            if tap_idx support src_dim dst_dim shift i j = (col : ℤ)
            then tap_weight sin mode support src_dim dst_dim b c shift i j else 0 := by
    intro col hcol
    rw [scaling_weights_entry sin mode support src_dim dst_dim b c shift hr i col
      (Finset.mem_range.mp hcol), if_pos hi]
  rw [Finset.sum_congr rfl h1, Finset.sum_comm]
  have h2 : ∀ j ∈ Finset.range (2 * support),
      (∑ col in Finset.range src_dim,
        if tap_idx support src_dim dst_dim shift i j = (col : ℤ)
        then tap_weight sin mode support src_dim dst_dim b c shift i j else 0)
      = tap_weight sin mode support src_dim dst_dim b c shift i j := by
    intro j hj
    obtain ⟨hlo, hhi⟩ := hr i hi j (Finset.mem_range.mp hj)
    obtain ⟨n, hn⟩ := Int.eq_ofNat_of_zero_le hlo
    rw [hn] at hhi
    have hn2 : n < src_dim := by exact_mod_cast hhi
    rw [hn]
    simp only [Nat.cast_inj]
    rw [Finset.sum_ite_eq, if_pos (Finset.mem_range.mpr hn2)]
  rw [Finset.sum_congr rfl h2]
  unfold tap_weight
  simp only []
  rw [← Finset.sum_div, ← row_total_eq, div_self ht]

/-- C3 fails on the code: for the bilinear matrix with 4 rows and 3 columns built
with shift 3, row 3 has tap total `1` but its entries sum to `7/8` (its second
tap has index `-1` and lands in row 2, whose entries sum to `9/8`). -/
theorem row_sum_not_one :
    row_total no_sin .bilinear 1 3 4 (0 : ℚ) 0 3 3 ≠ 0
    ∧ row_sum (scaling_weights no_sin .bilinear 1 3 4 (0 : ℚ) 0 3) 3 3 = 7 / 8
    ∧ row_sum (scaling_weights no_sin .bilinear 1 3 4 (0 : ℚ) 0 3) 3 2 = 9 / 8 := by
  decide!

/-- Partition of unity where the indices are in range: when every tap index computed by
`scaling_weights` is a column (`0 ≤ idx < src_dim`), the entries of every row
`i` of the returned matrix whose tap total is non-zero sum to `1`. -/
theorem scaling_weights_row_sum (sin : K → K) (mode : DescaleMode)
    (support src_dim dst_dim : ℕ) (b c shift : K)
    (hr : taps_in_range support src_dim dst_dim shift) (i : ℕ) (hi : i < dst_dim)
    (ht : row_total sin mode support src_dim dst_dim b c shift i ≠ 0) :
    row_sum (scaling_weights sin mode support src_dim dst_dim b c shift) src_dim i = 1 := by
  exact row_sum_eq_one sin mode support src_dim dst_dim b c shift hr i hi ht

/-- An instance of `scaling_weights_row_sum`: row 1 of the bilinear matrix with 4 rows and 2
columns, no shift. -/
theorem scaling_weights_row_sum_witness :
    taps_in_range 1 2 4 (0 : ℚ) ∧ 1 < 4
    ∧ row_total no_sin .bilinear 1 2 4 (0 : ℚ) 0 0 1 ≠ 0
    ∧ row_sum (scaling_weights no_sin .bilinear 1 2 4 (0 : ℚ) 0 0) 2 1 = 1 :=
  ⟨by decide!, by decide, by decide!,
    scaling_weights_row_sum no_sin .bilinear 1 2 4 0 0 0 (by decide!) 1 (by decide)
      (by decide!)⟩

end WeightTheorems

section LoopWrites
variable {α : Type} [Zero α]

/-- A single loop that writes cell `f t` with a value `g t` that does not depend
on the vector. -/
theorem loop_wr (n : ℕ) (f : ℕ → ℕ) (g : ℕ → α) (a : Array α)
    (hinj : ∀ t t', t < n → t' < n → f t = f t' → t = t')
    (hb : ∀ t, t < n → f t < a.size) :
    (loop (fun t v => wr v (f t) (g t)) n a).size = a.size
    ∧ (∀ t, t < n → rd (loop (fun t v => wr v (f t) (g t)) n a) (f t) = g t)
    ∧ (∀ x, (∀ t, t < n → f t ≠ x) → rd (loop (fun t v => wr v (f t) (g t)) n a) x = rd a x) := by
  induction n with
  | zero =>
    refine ⟨rfl, fun t ht => absurd ht (Nat.not_lt_zero t), fun x _ => rfl⟩
  | succ m ih =>
    obtain ⟨ih1, ih2, ih3⟩ := ih (fun t t' ht ht' => hinj t t' (by omega) (by omega))
      (fun t ht => hb t (by omega))
    refine ⟨?_, ?_, ?_⟩
    · rw [loop_succ, size_wr, ih1]
    · intro t ht
      rw [loop_succ, rd_wr]
      by_cases h : t = m
      · subst h
        rw [if_pos ⟨rfl, by rw [ih1]; exact hb t (by omega)⟩]
      · have hne : f m ≠ f t := fun e => h (hinj t m (by omega) (by omega) e.symm)
        rw [if_neg (fun hh => hne hh.1)]
        exact ih2 t (by omega)
    · intro x hx
      rw [loop_succ, rd_wr, if_neg (fun hh => hx m (by omega) hh.1)]
      exact ih3 x (fun t ht => hx t (by omega))

/-- A double loop that writes cell `f i j` with a value `g i j` that does not
depend on the vector; the inner bound may depend on the outer counter. -/
theorem loop2_wr (n : ℕ) (m : ℕ → ℕ) (f : ℕ → ℕ → ℕ) (g : ℕ → ℕ → α) (a : Array α)
    (hinj : ∀ i j i' j', i < n → j < m i → i' < n → j' < m i' → f i j = f i' j' →
      i = i' ∧ j = j')
    (hb : ∀ i j, i < n → j < m i → f i j < a.size) :
    (loop (fun i v => loop (fun j v => wr v (f i j) (g i j)) (m i) v) n a).size = a.size
    ∧ (∀ i j, i < n → j < m i →
        rd (loop (fun i v => loop (fun j v => wr v (f i j) (g i j)) (m i) v) n a) (f i j)
          = g i j)
    ∧ (∀ x, (∀ i j, i < n → j < m i → f i j ≠ x) →
        rd (loop (fun i v => loop (fun j v => wr v (f i j) (g i j)) (m i) v) n a) x
          = rd a x) := by
  induction n with
  | zero =>
    refine ⟨rfl, fun i j hi => absurd hi (Nat.not_lt_zero i), fun x _ => rfl⟩
  | succ k ih =>
    obtain ⟨ih1, ih2, ih3⟩ := ih
      (fun i j i' j' hi hj hi' hj' => hinj i j i' j' (by omega) hj (by omega) hj')
      (fun i j hi hj => hb i j (by omega) hj)
    obtain ⟨s1, s2, s3⟩ := loop_wr (m k) (f k) (g k)
      (loop (fun i v => loop (fun j v => wr v (f i j) (g i j)) (m i) v) k a)
      (fun t t' ht ht' e => (hinj k t k t' (by omega) ht (by omega) ht' e).2)
      (fun t ht => by rw [ih1]; exact hb k t (by omega) ht)
    refine ⟨?_, ?_, ?_⟩
    · rw [loop_succ]; rw [s1, ih1]
    · intro i j hi hj
      rw [loop_succ]
      by_cases h : i = k
      · subst h
        exact s2 j hj
      · rw [s3 (f i j) (fun t ht e =>
          h (hinj i j k t (by omega) hj (by omega) ht e.symm).1)]
        exact ih2 i j (by omega) hj
    · intro x hx
      rw [loop_succ, s3 x (fun t ht => hx k t (by omega) ht)]
      exact ih3 x (fun i j hi hj => hx i j (by omega) hj)

end LoopWrites

section Transpose
variable {K : Type} [LinearOrderedField K] [FloorRing K]

theorem size_transpose_matrix (rows : ℕ) (matrix : Array K) :
    (transpose_matrix rows matrix).size = matrix.size := by
  unfold transpose_matrix
  simp only []
  have h := loop_inv (fun (_ : ℕ) (t : Array K) => t.size = matrix.size)
    (fun i t => loop (fun j t => wr t (i + rows * j) (rd matrix (i * (matrix.size / rows) + j)))
      (matrix.size / rows) t) rows (mkArray matrix.size 0) (by simp) ?_
  · exact h
  · intro I _ s hs
    exact loop_inv (fun (_ : ℕ) (t : Array K) => t.size = matrix.size) _ _ s hs
      (fun J _ s' hs' => by show (wr _ _ _).size = _; rw [size_wr]; exact hs')

/-- `transpose_matrix` on a `rows × cols` matrix: cell `(j, i)` of the result
(row stride `rows`) is cell `(i, j)` of the argument. -/
theorem rd_transpose_matrix (rows cols : ℕ) (matrix : Array K) (hrows : 0 < rows)
    (hsize : matrix.size = rows * cols) (i j : ℕ) (hi : i < rows) (hj : j < cols) :
    rd (transpose_matrix rows matrix) (j * rows + i) = rd matrix (i * cols + j) := by
  have hcols : matrix.size / rows = cols := by
    rw [hsize]; exact Nat.mul_div_cancel_left cols hrows
  unfold transpose_matrix
  simp only []
  rw [hcols]
  obtain ⟨_, h2, _⟩ := loop2_wr rows (fun _ => cols) (fun i j => i + rows * j)
    (fun i j => rd matrix (i * cols + j)) (mkArray matrix.size (0 : K))
    (by
      intro a b a' b' ha _ ha' _ e
      dsimp only at e
      have e' : b * rows + a = b' * rows + a' := by
        have h1 : a + rows * b = b * rows + a := by ring
        have h2 : a' + rows * b' = b' * rows + a' := by ring
        omega
      have := idx_inj b a b' a' rows ha ha' e'
      exact ⟨this.2, this.1⟩)
    (by
      intro a b ha hb
      dsimp only at hb ⊢
      have h1 : a + rows * b = b * rows + a := by ring
      rw [h1, Array.size_mkArray, hsize, Nat.mul_comm rows cols]
      exact idx_lt b a cols rows hb ha)
  have e : j * rows + i = i + rows * j := by ring
  rw [e]
  exact h2 i j hi hj

end Transpose

section FindIdx
variable {K : Type} [LinearOrderedField K] [FloorRing K]

theorem find_first (p : ℕ → Bool) (n j : ℕ) (h : (List.range n).find? p = some j) :
    j < n ∧ p j = true ∧ ∀ k, k < n → p k = true → j ≤ k := by
  induction n with
  | zero => simp at h
  | succ m ih =>
    rw [List.range_succ, List.find?_append] at h
    cases hm : (List.range m).find? p with
    | some j' =>
      rw [hm] at h
      simp only [Option.or_some, Option.some.injEq] at h
      subst h
      obtain ⟨h1, h2, h3⟩ := ih hm
      refine ⟨by omega, h2, ?_⟩
      intro k hk hpk
      by_cases hkm : k < m
      · exact h3 k hkm hpk
      · omega
    | none =>
      rw [hm] at h
      simp only [Option.none_or, List.find?_singleton] at h
      by_cases hp : p m = true
      · rw [if_pos hp] at h
        simp only [Option.some.injEq] at h
        subst h
        refine ⟨by omega, hp, ?_⟩
        intro k hk hpk
        by_contra hcon
        have hkm : k < m := by omega
        have := (List.find?_eq_none.mp hm) k (List.mem_range.mpr hkm)
        exact this hpk
      · rw [if_neg hp] at h
        simp at h

theorem find_last (p : ℕ → Bool) (n j : ℕ) (h : (List.range n).reverse.find? p = some j) :
    j < n ∧ p j = true ∧ ∀ k, k < n → p k = true → k ≤ j := by
  induction n with
  | zero => simp at h
  | succ m ih =>
    rw [List.range_succ, List.reverse_append, List.reverse_singleton, List.singleton_append,
      List.find?_cons] at h
    cases hp : p m with
    | true =>
      rw [hp] at h
      simp only [Option.some.injEq] at h
      subst h
      exact ⟨by omega, hp, fun k hk _ => by omega⟩
    | false =>
      rw [hp] at h
      simp only at h
      obtain ⟨h1, h2, h3⟩ := ih h
      refine ⟨by omega, h2, ?_⟩
      intro k hk hpk
      by_cases hkm : k < m
      · exact h3 k hkm hpk
      · have : k = m := by omega
        subst this
        rw [hp] at hpk
        exact absurd hpk (by simp)

theorem find_last_none (p : ℕ → Bool) (n : ℕ) (h : (List.range n).reverse.find? p = none) :
    ∀ k, k < n → p k = false := by
  intro k hk
  have := (List.find?_eq_none.mp h) k (List.mem_reverse.mpr (List.mem_range.mpr hk))
  simpa using this

theorem find_first_none (p : ℕ → Bool) (n : ℕ) (h : (List.range n).find? p = none) :
    ∀ k, k < n → p k = false := by
  intro k hk
  have := (List.find?_eq_none.mp h) k (List.mem_range.mpr hk)
  simpa using this

/-- The index vectors computed by the search loops of `descale_create`: they
keep their size, every non-zero cell of row `i` lies in `[left, right)`, and a
row with a non-zero cell has `left < right ≤ vi_dim` with non-zero cells at
`left` and `right - 1`; a row of zeros keeps its previous entries. -/
theorem find_idx_spec (dim vi_dim : ℕ) (T : Array K) (L0 R0 : Array ℕ)
    (hL : L0.size = dim) (hR : R0.size = dim) :
    (find_idx dim vi_dim T (L0, R0)).1.size = dim
    ∧ (find_idx dim vi_dim T (L0, R0)).2.size = dim
    ∧ ∀ i, i < dim →
      ((∀ k, k < vi_dim → rd T (i * vi_dim + k) = 0) →
        rd (find_idx dim vi_dim T (L0, R0)).1 i = rd L0 i
        ∧ rd (find_idx dim vi_dim T (L0, R0)).2 i = rd R0 i)
      ∧ ((∃ k, k < vi_dim ∧ rd T (i * vi_dim + k) ≠ 0) →
        rd (find_idx dim vi_dim T (L0, R0)).1 i < rd (find_idx dim vi_dim T (L0, R0)).2 i
        ∧ rd (find_idx dim vi_dim T (L0, R0)).2 i ≤ vi_dim
        ∧ rd T (i * vi_dim + rd (find_idx dim vi_dim T (L0, R0)).1 i) ≠ 0
        ∧ rd T (i * vi_dim + (rd (find_idx dim vi_dim T (L0, R0)).2 i - 1)) ≠ 0
        ∧ ∀ k, k < vi_dim → rd T (i * vi_dim + k) ≠ 0 →
          rd (find_idx dim vi_dim T (L0, R0)).1 i ≤ k
          ∧ k < rd (find_idx dim vi_dim T (L0, R0)).2 i) := by
  unfold find_idx
  have key := loop_inv
    (fun (I : ℕ) (idx : Array ℕ × Array ℕ) => idx.1.size = dim ∧ idx.2.size = dim
      ∧ (∀ i, I ≤ i → rd idx.1 i = rd L0 i ∧ rd idx.2 i = rd R0 i)
      ∧ ∀ i, i < I →
        ((∀ k, k < vi_dim → rd T (i * vi_dim + k) = 0) →
          rd idx.1 i = rd L0 i ∧ rd idx.2 i = rd R0 i)
        ∧ ((∃ k, k < vi_dim ∧ rd T (i * vi_dim + k) ≠ 0) →
          rd idx.1 i < rd idx.2 i ∧ rd idx.2 i ≤ vi_dim
          ∧ rd T (i * vi_dim + rd idx.1 i) ≠ 0
          ∧ rd T (i * vi_dim + (rd idx.2 i - 1)) ≠ 0
          ∧ ∀ k, k < vi_dim → rd T (i * vi_dim + k) ≠ 0 → rd idx.1 i ≤ k ∧ k < rd idx.2 i))
    (fun i idx =>
      let left := match (List.range vi_dim).find?
          (fun j => decide (rd T (i * vi_dim + j) ≠ 0)) with
        | some j => wr idx.1 i j
        | none => idx.1
      let right := match (List.range vi_dim).reverse.find?
          (fun j => decide (rd T (i * vi_dim + j) ≠ 0)) with
        | some j => wr idx.2 i (j + 1)
        | none => idx.2
      (left, right)) dim (L0, R0) ?_ ?_
  · exact ⟨key.1, key.2.1, fun i hi => key.2.2.2 i hi⟩
  · exact ⟨hL, hR, fun i _ => ⟨rfl, rfl⟩, fun i hi => absurd hi (Nat.not_lt_zero i)⟩
  · intro I hI idx hidx
    obtain ⟨h1, h2, h3, h4⟩ := hidx
    dsimp only
    cases hf : (List.range vi_dim).find? (fun j => decide (rd T (I * vi_dim + j) ≠ 0)) with
    | none =>
      have hz := find_first_none _ _ hf
      cases hl : (List.range vi_dim).reverse.find?
          (fun j => decide (rd T (I * vi_dim + j) ≠ 0)) with
      | some j =>
        obtain ⟨a1, a2, _⟩ := find_last _ _ _ hl
        have := hz j a1
        rw [a2] at this
        exact absurd this (by simp)
      | none =>
        dsimp only
        refine ⟨h1, h2, fun i hi => h3 i (by omega), ?_⟩
        intro i hi
        by_cases hiI : i = I
        · subst hiI
          refine ⟨fun _ => h3 i (Nat.le_refl i), ?_⟩
          rintro ⟨k, hk, hne⟩
          have := hz k hk
          simp only [ne_eq, decide_not, Bool.not_eq_false', decide_eq_true_eq] at this
          exact absurd this hne
        · exact h4 i (by omega)
    | some jl =>
      obtain ⟨a1, a2, a3⟩ := find_first _ _ _ hf
      cases hl : (List.range vi_dim).reverse.find?
          (fun j => decide (rd T (I * vi_dim + j) ≠ 0)) with
      | none =>
        have := find_last_none _ _ hl jl a1
        rw [a2] at this
        exact absurd this (by simp)
      | some jr =>
        obtain ⟨b1, b2, b3⟩ := find_last _ _ _ hl
        dsimp only
        have hp : ∀ k, rd T (I * vi_dim + k) ≠ 0 →
            (fun j => decide (rd T (I * vi_dim + j) ≠ 0)) k = true := by
          intro k hk; simpa using hk
        have a2' : rd T (I * vi_dim + jl) ≠ 0 := by simpa using a2
        have b2' : rd T (I * vi_dim + jr) ≠ 0 := by simpa using b2
        refine ⟨by rw [size_wr]; exact h1, by rw [size_wr]; exact h2, ?_, ?_⟩
        · intro i hi
          have hne : ¬ (I = i ∧ I < idx.1.size) := fun hh => by omega
          have hne2 : ¬ (I = i ∧ I < idx.2.size) := fun hh => by omega
          rw [rd_wr, rd_wr, if_neg hne, if_neg hne2]
          exact h3 i (by omega)
        · intro i hi
          by_cases hiI : i = I
          · subst hiI
            have e1 : rd (wr idx.1 i jl) i = jl := by
              rw [rd_wr, if_pos ⟨rfl, by omega⟩]
            have e2 : rd (wr idx.2 i (jr + 1)) i = jr + 1 := by
              rw [rd_wr, if_pos ⟨rfl, by omega⟩]
            rw [e1, e2]
            refine ⟨?_, ?_⟩
            · intro hz
              exact absurd (hz jl a1) a2'
            · intro _
              have hjl : jl ≤ jr := a3 jr b1 b2
              refine ⟨by omega, by omega, a2', ?_, ?_⟩
              · simpa using b2'
              · intro k hk hne
                exact ⟨a3 k hk (hp k hne), by have := b3 k hk (hp k hne); omega⟩
          · have hne : ¬ (I = i ∧ I < idx.1.size) := fun hh => hiI hh.1.symm
            have hne2 : ¬ (I = i ∧ I < idx.2.size) := fun hh => hiI hh.1.symm
            rw [rd_wr, rd_wr, if_neg hne, if_neg hne2]
            exact h4 i (by omega)

end FindIdx

section GuardedLoopWrites
variable {α : Type} [Zero α]

/-- A guarded single loop: cell `f t` is written with `g t` when `p t` holds. -/
theorem loop_wr_guard (n : ℕ) (p : ℕ → Prop) [DecidablePred p] (f : ℕ → ℕ) (g : ℕ → α)
    (a : Array α)
    (hinj : ∀ t t', t < n → t' < n → p t → p t' → f t = f t' → t = t')
    (hb : ∀ t, t < n → p t → f t < a.size) :
    (loop (fun t v => if p t then wr v (f t) (g t) else v) n a).size = a.size
    ∧ (∀ t, t < n → p t →
        rd (loop (fun t v => if p t then wr v (f t) (g t) else v) n a) (f t) = g t)
    ∧ (∀ x, (∀ t, t < n → p t → f t ≠ x) →
        rd (loop (fun t v => if p t then wr v (f t) (g t) else v) n a) x = rd a x) := by
  induction n with
  | zero =>
    refine ⟨rfl, fun t ht => absurd ht (Nat.not_lt_zero t), fun x _ => rfl⟩
  | succ m ih =>
    obtain ⟨ih1, ih2, ih3⟩ := ih (fun t t' ht ht' => hinj t t' (by omega) (by omega))
      (fun t ht => hb t (by omega))
    refine ⟨?_, ?_, ?_⟩
    · rw [loop_succ]
      by_cases hp : p m
      · rw [if_pos hp, size_wr, ih1]
      · rw [if_neg hp, ih1]
    · intro t ht hpt
      rw [loop_succ]
      by_cases hp : p m
      · rw [if_pos hp, rd_wr]
        by_cases h : t = m
        · subst h
          rw [if_pos ⟨rfl, by rw [ih1]; exact hb t (by omega) hpt⟩]
        · have hne : f m ≠ f t := fun e => h (hinj t m (by omega) (by omega) hpt hp e.symm)
          rw [if_neg (fun hh => hne hh.1)]
          exact ih2 t (by omega) hpt
      · rw [if_neg hp]
        have h : t ≠ m := fun e => hp (e ▸ hpt)
        exact ih2 t (by omega) hpt
    · intro x hx
      rw [loop_succ]
      by_cases hp : p m
      · rw [if_pos hp, rd_wr, if_neg (fun hh => hx m (by omega) hp hh.1)]
        exact ih3 x (fun t ht => hx t (by omega))
      · rw [if_neg hp]
        exact ih3 x (fun t ht => hx t (by omega))

/-- A guarded double loop. -/
theorem loop2_wr_guard (n : ℕ) (m : ℕ → ℕ) (p : ℕ → ℕ → Prop) [∀ i, DecidablePred (p i)]
    (f : ℕ → ℕ → ℕ) (g : ℕ → ℕ → α) (a : Array α)
    (hinj : ∀ i j i' j', i < n → j < m i → i' < n → j' < m i' → p i j → p i' j' →
      f i j = f i' j' → i = i' ∧ j = j')
    (hb : ∀ i j, i < n → j < m i → p i j → f i j < a.size) :
    (loop (fun i v => loop (fun j v => if p i j then wr v (f i j) (g i j) else v) (m i) v)
      n a).size = a.size
    ∧ (∀ i j, i < n → j < m i → p i j →
        rd (loop (fun i v =>
          loop (fun j v => if p i j then wr v (f i j) (g i j) else v) (m i) v) n a) (f i j)
          = g i j)
    ∧ (∀ x, (∀ i j, i < n → j < m i → p i j → f i j ≠ x) →
        rd (loop (fun i v =>
          loop (fun j v => if p i j then wr v (f i j) (g i j) else v) (m i) v) n a) x
          = rd a x) := by
  induction n with
  | zero =>
    refine ⟨rfl, fun i j hi => absurd hi (Nat.not_lt_zero i), fun x _ => rfl⟩
  | succ k ih =>
    obtain ⟨ih1, ih2, ih3⟩ := ih
      (fun i j i' j' hi hj hi' hj' => hinj i j i' j' (by omega) hj (by omega) hj')
      (fun i j hi hj => hb i j (by omega) hj)
    obtain ⟨s1, s2, s3⟩ := loop_wr_guard (m k) (p k) (f k) (g k)
      (loop (fun i v => loop (fun j v => if p i j then wr v (f i j) (g i j) else v) (m i) v)
        k a)
      (fun t t' ht ht' hp hp' e => (hinj k t k t' (by omega) ht (by omega) ht' hp hp' e).2)
      (fun t ht hp => by rw [ih1]; exact hb k t (by omega) ht hp)
    refine ⟨?_, ?_, ?_⟩
    · rw [loop_succ]; rw [s1, ih1]
    · intro i j hi hj hp
      rw [loop_succ]
      by_cases h : i = k
      · subst h
        exact s2 j hj hp
      · rw [s3 (f i j) (fun t ht hp' e =>
          h (hinj i j k t (by omega) hj (by omega) ht hp hp' e.symm).1)]
        exact ih2 i j (by omega) hj hp
    · intro x hx
      rw [loop_succ, s3 x (fun t ht => hx k t (by omega) ht)]
      exact ih3 x (fun i j hi hj => hx i j (by omega) hj)

end GuardedLoopWrites

section SparseProduct
variable {K : Type} [LinearOrderedField K] [FloorRing K]

/-- `multiply_sparse_matrices`: cell `(i, j)` of the product is the sum over
`k ∈ [lidx[i], ridx[i])` of `lm[i][k] · rm[k][j]`. -/
theorem rd_multiply_sparse_matrices (rows H : ℕ) (lidx ridx : Array ℕ) (lm rm : Array K)
    (hrows : 0 < rows) (hsize : lm.size = rows * H) :
    (multiply_sparse_matrices rows lidx ridx lm rm).size = rows * rows
    ∧ ∀ i j, i < rows → j < rows →
      rd (multiply_sparse_matrices rows lidx ridx lm rm) (i * rows + j)
        = ∑ t in Finset.range (rd ridx i - rd lidx i),
            rd lm (i * H + (rd lidx i + t)) * rd rm ((rd lidx i + t) * rows + j) := by
  have hcols : lm.size / rows = H := by
    rw [hsize]; exact Nat.mul_div_cancel_left H hrows
  unfold multiply_sparse_matrices
  simp only []
  rw [hcols]
  obtain ⟨h1, h2, _⟩ := loop2_wr rows (fun _ => rows) (fun i j => i * rows + j)
    (fun i j => loop (fun t sum =>
        sum + rd lm (i * H + (rd lidx i + t)) * rd rm ((rd lidx i + t) * rows + j))
      (rd ridx i - rd lidx i) 0) (mkArray (rows * rows) (0 : K))
    (by
      intro a b a' b' _ hb _ hb' e
      exact idx_inj a b a' b' rows hb hb' e)
    (by
      intro a b ha hb
      rw [Array.size_mkArray]
      exact idx_lt a b rows rows ha hb)
  refine ⟨by rw [h1, Array.size_mkArray], ?_⟩
  intro i j hi hj
  rw [h2 i j hi hj, loop_add_eq_sum, zero_add]

/-- A sum over `[L, R)` equals the sum over `[0, H)` when the summand vanishes
outside `[L, R)` and `R ≤ H`, or vanishes everywhere. -/
theorem sum_bracket (f : ℕ → K) (L R H : ℕ)
    (h : (∀ k, k < H → f k = 0) ∨ (R ≤ H ∧ ∀ k, k < H → f k ≠ 0 → L ≤ k ∧ k < R))
    (hz : (∀ k, k < H → f k = 0) → ∀ t, t < R - L → f (L + t) = 0) :
    ∑ t in Finset.range (R - L), f (L + t) = ∑ k in Finset.range H, f k := by
  rcases h with h | ⟨hR, h⟩
  · rw [Finset.sum_eq_zero (fun k hk => h k (Finset.mem_range.mp hk)),
      Finset.sum_eq_zero (fun t ht => hz h t (Finset.mem_range.mp ht))]
  · rw [← Finset.sum_Ico_eq_sum_range]
    apply Finset.sum_subset
    · intro k hk
      rw [Finset.mem_Ico] at hk
      exact Finset.mem_range.mpr (by omega)
    · intro k hk hnot
      by_contra hne
      have := h k (Finset.mem_range.mp hk) hne
      exact hnot (Finset.mem_Ico.mpr this)

theorem compress_matrix_max (lidx ridx : Array ℕ) (n : ℕ) :
    ∀ i, i < n → rd ridx i - rd lidx i
      ≤ loop (fun i max => if rd ridx i - rd lidx i > max then rd ridx i - rd lidx i else max)
          n 0 := by
  induction n with
  | zero => intro i hi; exact absurd hi (Nat.not_lt_zero i)
  | succ m ih =>
    intro i hi
    rw [loop_succ]
    by_cases hc : rd ridx m - rd lidx m
        > loop (fun i max => if rd ridx i - rd lidx i > max then rd ridx i - rd lidx i else max)
            m 0
    · rw [if_pos hc]
      by_cases him : i = m
      · subst him; exact Nat.le_refl _
      · have := ih i (by omega); omega
    · rw [if_neg hc]
      by_cases him : i = m
      · subst him; omega
      · exact ih i (by omega)

/-- `compress_matrix`: the result has `rows · max` cells, where `max` bounds
every `ridx[i] - lidx[i]`, and cell `(i, j)` is `matrix[i][lidx[i] + j]`. -/
theorem rd_compress_matrix (rows H : ℕ) (lidx ridx : Array ℕ) (matrix : Array K)
    (hrows : 0 < rows) (hsize : matrix.size = rows * H) :
    ∃ mx, (compress_matrix rows lidx ridx matrix).size = rows * mx
      ∧ (∀ i, i < lidx.size → rd ridx i - rd lidx i ≤ mx)
      ∧ ∀ i j, i < rows → j < mx →
        rd (compress_matrix rows lidx ridx matrix) (i * mx + j)
          = rd matrix (i * H + rd lidx i + j) := by
  have hcols : matrix.size / rows = H := by
    rw [hsize]; exact Nat.mul_div_cancel_left H hrows
  have hmaxb := compress_matrix_max lidx ridx lidx.size
  unfold compress_matrix
  simp only []
  rw [hcols]
  generalize loop (fun i max => if rd ridx i - rd lidx i > max then rd ridx i - rd lidx i
    else max) lidx.size 0 = mx at hmaxb ⊢
  obtain ⟨h1, h2, _⟩ := loop2_wr rows (fun _ => mx) (fun i j => i * mx + j)
    (fun i j => rd matrix (i * H + rd lidx i + j)) (mkArray (rows * mx) (0 : K))
    (by
      intro a b a' b' _ hb _ hb' e
      exact idx_inj a b a' b' mx hb hb' e)
    (by
      intro a b ha hb
      rw [Array.size_mkArray]
      exact idx_lt a b rows mx ha hb)
  exact ⟨mx, by rw [h1, Array.size_mkArray], hmaxb, fun i j hi hj => h2 i j hi hj⟩

end SparseProduct

section BandedLayout
variable {K : Type} [LinearOrderedField K] [FloorRing K]

/-- `uncrompress_symmetric_banded_matrix`: cell `(i, j)` of the result is the
packed cell `(i, j - i)` when `i ≤ j < i + c`, and `0` otherwise. -/
theorem rd_uncrompress (rows bandwidth : ℕ) (P : Array K) :
    (uncrompress_symmetric_banded_matrix rows bandwidth P).size = rows * rows
    ∧ ∀ i j, i < rows → j < rows →
      rd (uncrompress_symmetric_banded_matrix rows bandwidth P) (i * rows + j)
        = if i ≤ j ∧ j - i < (bandwidth + 1) / 2 then rd P (i * ((bandwidth + 1) / 2) + (j - i))
          else 0 := by
  unfold uncrompress_symmetric_banded_matrix
  simp only []
  generalize (bandwidth + 1) / 2 = c
  obtain ⟨h1, h2, h3⟩ := loop2_wr_guard rows (fun _ => c) (fun i j => i + j < rows)
    (fun i j => i * rows + (i + j)) (fun i j => rd P (i * c + j)) (mkArray (rows * rows) (0 : K))
    (by
      intro a b a' b' _ _ _ _ hp hp' e
      have := idx_inj a (a + b) a' (a' + b') rows hp hp' e
      exact ⟨this.1, by omega⟩)
    (by
      intro a b ha _ hp
      rw [Array.size_mkArray]
      exact idx_lt a (a + b) rows rows ha hp)
  refine ⟨by rw [h1, Array.size_mkArray], ?_⟩
  intro i j hi hj
  by_cases hc : i ≤ j ∧ j - i < c
  · rw [if_pos hc]
    have e : j = i + (j - i) := by omega
    have := h2 i (j - i) hi hc.2 (by omega)
    rw [← e] at this
    exact this
  · rw [if_neg hc, h3, rd_mkArray]
    intro a b ha hb hp e
    have := idx_inj a (a + b) i j rows hp hj e
    apply hc
    omega

/-- `compress_symmetric_banded_matrix`: packed cell `(i, t)` is `M[i][i + t]`
when `i + t < rows`, and `0` for the cells off the end. -/
theorem rd_compress_symmetric (rows bandwidth : ℕ) (M : Array K)
    (hc : 0 < (bandwidth + 1) / 2) :
    (compress_symmetric_banded_matrix rows bandwidth M).size = rows * ((bandwidth + 1) / 2)
    ∧ ∀ i t, i < rows → t < (bandwidth + 1) / 2 →
      rd (compress_symmetric_banded_matrix rows bandwidth M) (i * ((bandwidth + 1) / 2) + t)
        = if i + t < rows then rd M (i * rows + (i + t)) else 0 := by
  unfold compress_symmetric_banded_matrix
  simp only []
  generalize (bandwidth + 1) / 2 = c at hc ⊢
  have key := loop_inv
    (fun (I : ℕ) (P : Array K) => P.size = rows * c ∧ ∀ i t, t < c →
      (i < I → rd P (i * c + t) = if i + t < rows then rd M (i * rows + (i + t)) else 0)
      ∧ (I < i → rd P (i * c + t) = 0)
      ∧ (i = I → 0 < t → rd P (i * c + t) = 0))
    (fun i compressed =>
      if i + c + 1 < rows then
        loop (fun t compressed =>
          wr compressed (i * c + (i + t - i)) (rd M (i * rows + (i + t)))) c compressed
      else
        loop (fun t compressed =>
          wr compressed (i * c + (i + t - i)) (rd M (i * rows + (i + t)))) (rows - i) compressed)
    rows (mkArray (rows * c) 0) ?_ ?_
  · exact ⟨key.1, fun i t hi ht => (key.2 i t ht).1 hi⟩
  · refine ⟨by simp, fun i t _ => ⟨fun h => absurd h (Nat.not_lt_zero i), ?_, ?_⟩⟩
    · intro _; rw [rd_mkArray]
    · intro _ _; rw [rd_mkArray]
  · intro I hI P hP
    obtain ⟨hsz, hinv⟩ := hP
    dsimp only
    -- the common shape of both branches
    have step : ∀ T, 0 < T → T ≤ c + 1 → I + T ≤ rows → (T = c + 1 → I + 1 < rows) →
        (T < c → I + T = rows) →
        (fun (P' : Array K) => P'.size = rows * c ∧ ∀ i t, t < c →
          (i < I + 1 → rd P' (i * c + t) = if i + t < rows then rd M (i * rows + (i + t)) else 0)
          ∧ (I + 1 < i → rd P' (i * c + t) = 0)
          ∧ (i = I + 1 → 0 < t → rd P' (i * c + t) = 0))
        (loop (fun t compressed =>
          wr compressed (I * c + (I + t - I)) (rd M (I * rows + (I + t)))) T P) := by
      intro T hT0 hTc hTr hover hshort
      have hf : ∀ t, I * c + (I + t - I) = I * c + t := fun t => by omega
      obtain ⟨s1, s2, s3⟩ := loop_wr T (fun t => I * c + (I + t - I))
        (fun t => rd M (I * rows + (I + t))) P
        (by intro a b _ _ e; dsimp only at e; omega)
        (by
          intro a ha
          dsimp only
          rw [hf, hsz]
          by_cases hac : a < c
          · exact idx_lt I a rows c hI hac
          · have hac' : a = c := by omega
            have h1 : I + 1 < rows := hover (by omega)
            have := idx_lt (I + 1) 0 rows c h1 hc
            have e : (I + 1) * c = I * c + c := by ring
            omega)
      refine ⟨by rw [s1, hsz], ?_⟩
      intro i t ht
      -- which loop iteration, if any, writes cell (i, t)
      have hit : ∀ a, a < T → (I * c + (I + a - I) = i * c + t ↔
          (i = I ∧ a = t) ∨ (i = I + 1 ∧ t = 0 ∧ a = c)) := by
        intro a ha
        rw [hf]
        constructor
        · intro e
          by_cases hac : a < c
          · have := idx_inj I a i t c hac ht e
            left; exact ⟨this.1.symm, this.2⟩
          · have hac' : a = c := by omega
            have e2 : (I + 1) * c + 0 = i * c + t := by
              have e3 : (I + 1) * c = I * c + c := by ring
              omega
            have := idx_inj (I + 1) 0 i t c hc ht e2
            right; exact ⟨this.1.symm, this.2.symm, hac'⟩
        · rintro (⟨h1, h2⟩ | ⟨h1, h2, h3⟩)
          · rw [h1, h2]
          · rw [h1, h2, h3]; ring
      refine ⟨?_, ?_, ?_⟩
      · intro hi
        by_cases hiI : i = I
        · subst hiI
          by_cases htT : t < T
          · have := s2 t htT
            rw [hf] at this
            rw [this, if_pos (by omega)]
          · rw [s3]
            · have h0 : 0 < t := by omega
              rw [(hinv i t ht).2.2 rfl h0, if_neg (by have := hshort (by omega); omega)]
            · intro a ha e
              rcases (hit a ha).mp e with ⟨_, h2⟩ | ⟨h1, _, _⟩
              · omega
              · omega
        · rw [s3]
          · exact (hinv i t ht).1 (by omega)
          · intro a ha e
            rcases (hit a ha).mp e with ⟨h1, _⟩ | ⟨h1, _, _⟩
            · exact hiI h1
            · omega
      · intro hi
        rw [s3]
        · exact (hinv i t ht).2.1 (by omega)
        · intro a ha e
          rcases (hit a ha).mp e with ⟨h1, _⟩ | ⟨h1, _, _⟩
          · omega
          · omega
      · intro hi h0
        rw [s3]
        · exact (hinv i t ht).2.1 (by omega)
        · intro a ha e
          rcases (hit a ha).mp e with ⟨h1, _⟩ | ⟨_, h2, _⟩
          · omega
          · omega
    by_cases hbr : I + c + 1 < rows
    · rw [if_pos hbr]
      exact step c hc (by omega) (by omega) (by omega) (by omega)
    · rw [if_neg hbr]
      exact step (rows - I) (by omega) (by omega) (by omega) (by omega) (by omega)

end BandedLayout

section DiagonalProduct
variable {K : Type} [LinearOrderedField K] [FloorRing K]

/-- `multiply_banded_matrix_with_diagonal`: every cell `(i, j)` strictly below
the diagonal and inside the band is multiplied by the diagonal cell `(j, j)` of
its column; every other cell is unchanged. -/
theorem rd_multiply_banded (rows bandwidth : ℕ) (Lw : Array K) (hsize : Lw.size = rows * rows) :
    (multiply_banded_matrix_with_diagonal rows bandwidth Lw).size = rows * rows
    ∧ ∀ i j, i < rows → j < rows →
      rd (multiply_banded_matrix_with_diagonal rows bandwidth Lw) (i * rows + j)
        = if j < i ∧ i - ((bandwidth + 1) / 2 - 1) ≤ j
          then rd Lw (i * rows + j) * rd Lw (j * rows + j) else rd Lw (i * rows + j) := by
  unfold multiply_banded_matrix_with_diagonal
  simp only []
  generalize (bandwidth + 1) / 2 = c
  have key := loop_inv
    (fun (T : ℕ) (m : Array K) => m.size = rows * rows ∧ ∀ i j, i < rows → j < rows →
      rd m (i * rows + j)
        = if (j < i ∧ i - (c - 1) ≤ j) ∧ i ≤ T
          then rd Lw (i * rows + j) * rd Lw (j * rows + j) else rd Lw (i * rows + j))
    (fun t matrix =>
      loop (fun u matrix =>
        wr matrix ((1 + t) * rows + ((1 + t) - (c - 1) + u))
          (rd matrix ((1 + t) * rows + ((1 + t) - (c - 1) + u))
            * rd matrix (((1 + t) - (c - 1) + u) * rows + ((1 + t) - (c - 1) + u))))
        ((1 + t) - ((1 + t) - (c - 1))) matrix)
    (rows - 1) Lw ?_ ?_
  · refine ⟨key.1, ?_⟩
    intro i j hi hj
    rw [key.2 i j hi hj]
    by_cases h : j < i ∧ i - (c - 1) ≤ j
    · rw [if_pos ⟨h, by omega⟩, if_pos h]
    · rw [if_neg (fun hh => h hh.1), if_neg h]
  · refine ⟨hsize, ?_⟩
    intro i j _ _
    rw [if_neg (fun hh => by omega)]
  · intro T hT m hm
    obtain ⟨hsz, hinv⟩ := hm
    dsimp only
    have inner := loop_inv
      (fun (U : ℕ) (m' : Array K) => m'.size = rows * rows ∧ ∀ i j, i < rows → j < rows →
        rd m' (i * rows + j)
          = if (j < i ∧ i - (c - 1) ≤ j) ∧ (i ≤ T ∨ (i = 1 + T ∧ j < (1 + T) - (c - 1) + U))
            then rd Lw (i * rows + j) * rd Lw (j * rows + j) else rd Lw (i * rows + j))
      (fun u matrix =>
        wr matrix ((1 + T) * rows + ((1 + T) - (c - 1) + u))
          (rd matrix ((1 + T) * rows + ((1 + T) - (c - 1) + u))
            * rd matrix (((1 + T) - (c - 1) + u) * rows + ((1 + T) - (c - 1) + u))))
      ((1 + T) - ((1 + T) - (c - 1))) m ?_ ?_
    · refine ⟨inner.1, ?_⟩
      intro i j hi hj
      rw [inner.2 i j hi hj]
      by_cases h : j < i ∧ i - (c - 1) ≤ j
      · by_cases h2 : i ≤ T + 1
        · rw [if_pos ⟨h, by omega⟩, if_pos ⟨h, h2⟩]
        · rw [if_neg (fun hh => by omega), if_neg (fun hh => h2 hh.2)]
      · rw [if_neg (fun hh => h hh.1), if_neg (fun hh => h hh.1)]
    · refine ⟨hsz, ?_⟩
      intro i j hi hj
      rw [hinv i j hi hj]
      by_cases h : (j < i ∧ i - (c - 1) ≤ j) ∧ i ≤ T
      · rw [if_pos h, if_pos ⟨h.1, Or.inl h.2⟩]
      · rw [if_neg h, if_neg (fun hh => by
          rcases hh.2 with h2 | h2
          · exact h ⟨hh.1, h2⟩
          · omega)]
    · intro U hU m' hm'
      obtain ⟨hsz', hinv'⟩ := hm'
      dsimp only
      have hrow : 1 + T < rows := by omega
      have hcol : (1 + T) - (c - 1) + U < 1 + T := by omega
      refine ⟨by rw [size_wr]; exact hsz', ?_⟩
      intro i j hi hj
      rw [rd_wr, hsz']
      have hread1 := hinv' (1 + T) ((1 + T) - (c - 1) + U) hrow (by omega)
      have hread2 := hinv' ((1 + T) - (c - 1) + U) ((1 + T) - (c - 1) + U) (by omega) (by omega)
      rw [if_neg (fun hh => by omega)] at hread1 hread2
      by_cases hcell : i = 1 + T ∧ j = (1 + T) - (c - 1) + U
      · obtain ⟨e1, e2⟩ := hcell
        subst e1 e2
        rw [if_pos ⟨rfl, idx_lt _ _ rows rows hrow (by omega)⟩, hread1, hread2,
          if_pos ⟨⟨by omega, by omega⟩, Or.inr ⟨rfl, by omega⟩⟩]
      · have hne : ¬ ((1 + T) * rows + ((1 + T) - (c - 1) + U) = i * rows + j
            ∧ (1 + T) * rows + ((1 + T) - (c - 1) + U) < rows * rows) := by
          intro hh
          have := idx_inj (1 + T) ((1 + T) - (c - 1) + U) i j rows (by omega) hj hh.1
          exact hcell ⟨this.1.symm, this.2.symm⟩
        rw [if_neg hne, hinv' i j hi hj]
        by_cases h : (j < i ∧ i - (c - 1) ≤ j) ∧ (i ≤ T ∨ (i = 1 + T ∧ j < (1 + T) - (c - 1) + U))
        · rw [if_pos h, if_pos ⟨h.1, by
            rcases h.2 with h2 | h2
            · exact Or.inl h2
            · exact Or.inr ⟨h2.1, by omega⟩⟩]
        · rw [if_neg h, if_neg (fun hh => by
            apply h
            refine ⟨hh.1, ?_⟩
            rcases hh.2 with h2 | h2
            · exact Or.inl h2
            · refine Or.inr ⟨h2.1, ?_⟩
              by_contra hcon
              apply hcell
              exact ⟨h2.1, by omega⟩)]

end DiagonalProduct

section ExtractFactors
variable {K : Type} [LinearOrderedField K] [FloorRing K]

/-- `extract_compressed_lower_upper_diagonal`: the cells of the three output
vectors, in the layout that the solver indexes. -/
theorem rd_extract (eps : K) (rows bandwidth : ℕ) (lower upper cl cu dg : Array K)
    (hrows : 0 < rows) (hlower : lower.size = rows * rows)
    (hcl : cl.size = rows * ((bandwidth + 1) / 2 - 1))
    (hcu : cu.size = rows * ((bandwidth + 1) / 2 - 1)) (hdg : dg.size = rows) :
    (∀ i t, i < rows → t < (bandwidth + 1) / 2 - 1 →
      rd (extract_compressed_lower_upper_diagonal eps rows bandwidth lower upper cl cu dg).1
          (i * ((bandwidth + 1) / 2 - 1) + t)
        = rd lower (i * rows + (i + 1 - (bandwidth + 1) / 2 + t)))
    ∧ (∀ i t, i < rows → t < min (i + (bandwidth + 1) / 2 - 1) (rows - 1) - i →
      rd (extract_compressed_lower_upper_diagonal eps rows bandwidth lower upper cl cu dg).2.1
          (i * ((bandwidth + 1) / 2 - 1) + ((bandwidth + 1) / 2 - 2 - t))
        = rd upper (i * rows + (min (i + (bandwidth + 1) / 2 - 1) (rows - 1) - t)))
    ∧ (∀ i, i < rows →
      rd (extract_compressed_lower_upper_diagonal eps rows bandwidth lower upper cl cu dg).2.2 i
        = 1 / (rd lower (i * rows + i) + eps)) := by
  have hcols : lower.size / rows = rows := by
    rw [hlower]; exact Nat.mul_div_cancel_left rows hrows
  unfold extract_compressed_lower_upper_diagonal
  simp only []
  rw [hcols]
  generalize (bandwidth + 1) / 2 = c at hcl hcu ⊢
  refine ⟨?_, ?_, ?_⟩
  · obtain ⟨_, h2, _⟩ := loop2_wr rows (fun _ => c - 1)
      (fun i t => i * (c - 1) + (i + 1 - c + t) - (i + 1 - c))
      (fun i t => rd lower (i * rows + (i + 1 - c + t))) cl
      (by
        intro a b a' b' _ hb _ hb' e
        dsimp only at e hb hb'
        exact idx_inj a b a' b' (c - 1) hb hb' (by omega))
      (by
        intro a b ha hb
        dsimp only at hb ⊢
        have := idx_lt a b rows (c - 1) ha hb
        omega)
    intro i t hi ht
    have := h2 i t hi ht
    have e : i * (c - 1) + (i + 1 - c + t) - (i + 1 - c) = i * (c - 1) + t := by omega
    rw [e] at this
    exact this
  · have hfa : ∀ i t, t < min (i + c - 1) (rows - 1) - i →
        i * (c - 1) + c - 2 + (min (i + c - 1) (rows - 1) - t) - min (i + c - 1) (rows - 1)
          = i * (c - 1) + (c - 2 - t) ∧ c - 2 - t < c - 1 ∧ t + 2 ≤ c := by
      intro i t ht
      have hS := Nat.min_le_left (i + c - 1) (rows - 1)
      generalize min (i + c - 1) (rows - 1) = S at ht hS ⊢
      generalize i * (c - 1) = X
      omega
    obtain ⟨_, h2, _⟩ := loop2_wr rows (fun i => min (i + c - 1) (rows - 1) - i)
      (fun i t => i * (c - 1) + c - 2 + (min (i + c - 1) (rows - 1) - t)
        - min (i + c - 1) (rows - 1))
      (fun i t => rd upper (i * rows + (min (i + c - 1) (rows - 1) - t))) cu
      (by
        intro a b a' b' _ hb _ hb' e
        dsimp only at e hb hb'
        obtain ⟨e1, e2, e3⟩ := hfa a b hb
        obtain ⟨e1', e2', e3'⟩ := hfa a' b' hb'
        rw [e1, e1'] at e
        have := idx_inj a (c - 2 - b) a' (c - 2 - b') (c - 1) e2 e2' e
        exact ⟨this.1, by omega⟩)
      (by
        intro a b ha hb
        dsimp only at hb ⊢
        obtain ⟨e1, e2, _⟩ := hfa a b hb
        rw [e1, hcu]
        exact idx_lt a (c - 2 - b) rows (c - 1) ha e2)
    intro i t hi ht
    have := h2 i t hi ht
    rw [(hfa i t ht).1] at this
    exact this
  · obtain ⟨_, h2, _⟩ := loop_wr rows (fun i => i)
      (fun i => 1 / (rd lower (i * rows + i) + eps)) dg
      (by intro a b _ _ e; exact e)
      (by intro a ha; rw [hdg]; exact ha)
    intro i hi
    exact h2 i hi

end ExtractFactors

section CholeskyBody
variable {K : Type} [LinearOrderedField K] [FloorRing K]

/-- One iteration of the outer loop of `banded_cholesky_decomposition` acts on
the packed cells as `chol_step`. -/
theorem cholesky_body_cells (eps : K) (rows c k : ℕ) (P : Array K) (hk : k < rows)
    (hc : 0 < c) (hsz : P.size = rows * c) :
    (loop (fun t matrix =>
        wr matrix (k * c + (1 + t)) (rd matrix (k * c + (1 + t))
          * (1 / (rd (loop (fun t matrix =>
              loop (fun l matrix' =>
                wr matrix' ((k + (1 + t)) * c + l)
                  (rd matrix' ((k + (1 + t)) * c + l)
                    - rd matrix (k * c + (1 + t)) / (rd matrix (k * c) + eps)
                      * rd matrix' (k * c + (1 + t) + l)))
                (min (k + c - 1) (rows - 1) - k - (1 + t) + 1) matrix)
              (min (k + c - 1) (rows - 1) - k) P) (k * c) + eps))))
      (c - 1)
      (loop (fun t matrix =>
        loop (fun l matrix' =>
          wr matrix' ((k + (1 + t)) * c + l)
            (rd matrix' ((k + (1 + t)) * c + l)
              - rd matrix (k * c + (1 + t)) / (rd matrix (k * c) + eps)
                * rd matrix' (k * c + (1 + t) + l)))
          (min (k + c - 1) (rows - 1) - k - (1 + t) + 1) matrix)
        (min (k + c - 1) (rows - 1) - k) P)).size = rows * c
    ∧ ∀ r t, t < c →
      cells (loop (fun t matrix =>
        wr matrix (k * c + (1 + t)) (rd matrix (k * c + (1 + t))
          * (1 / (rd (loop (fun t matrix =>
              loop (fun l matrix' =>
                wr matrix' ((k + (1 + t)) * c + l)
                  (rd matrix' ((k + (1 + t)) * c + l)
                    - rd matrix (k * c + (1 + t)) / (rd matrix (k * c) + eps)
                      * rd matrix' (k * c + (1 + t) + l)))
                (min (k + c - 1) (rows - 1) - k - (1 + t) + 1) matrix)
              (min (k + c - 1) (rows - 1) - k) P) (k * c) + eps))))
      (c - 1)
      (loop (fun t matrix =>
        loop (fun l matrix' =>
          wr matrix' ((k + (1 + t)) * c + l)
            (rd matrix' ((k + (1 + t)) * c + l)
              - rd matrix (k * c + (1 + t)) / (rd matrix (k * c) + eps)
                * rd matrix' (k * c + (1 + t) + l)))
          (min (k + c - 1) (rows - 1) - k - (1 + t) + 1) matrix)
        (min (k + c - 1) (rows - 1) - k) P)) c r t
        = chol_step eps rows c k (cells P c) r t := by
  have hlast : min (k + c - 1) (rows - 1) - k ≤ c - 1 := by omega
  have hlastN : k + (min (k + c - 1) (rows - 1) - k) ≤ rows - 1 := by omega
  generalize hL : min (k + c - 1) (rows - 1) - k = last at hlast hlastN ⊢
  -- phase 1: the elimination loops
  have ph1 := loop_inv
    (fun (T : ℕ) (m : Array K) => m.size = rows * c ∧ ∀ r t, t < c →
      rd m (r * c + t)
        = if k < r ∧ r ≤ k + T ∧ r - k + t ≤ last
          then rd P (r * c + t)
            - rd P (k * c + (r - k)) / (rd P (k * c) + eps) * rd P (k * c + (r - k + t))
          else rd P (r * c + t))
    (fun t matrix =>
      loop (fun l matrix' =>
        wr matrix' ((k + (1 + t)) * c + l)
          (rd matrix' ((k + (1 + t)) * c + l)
            - rd matrix (k * c + (1 + t)) / (rd matrix (k * c) + eps)
              * rd matrix' (k * c + (1 + t) + l)))
        (last - (1 + t) + 1) matrix)
    last P ?_ ?_
  rotate_left
  · refine ⟨hsz, ?_⟩
    intro r t _
    rw [if_neg (fun hh => by omega)]
  · intro T hT m hm
    obtain ⟨hmsz, hminv⟩ := hm
    dsimp only
    have hrowk : ∀ x, x < c → rd m (k * c + x) = rd P (k * c + x) := by
      intro x hx
      rw [hminv k x hx, if_neg (fun hh => by omega)]
    have hk0 : rd m (k * c) = rd P (k * c) := by
      have := hrowk 0 hc
      rwa [Nat.add_zero] at this
    have inner := loop_inv
      (fun (L : ℕ) (m' : Array K) => m'.size = rows * c ∧ ∀ r t, t < c →
        rd m' (r * c + t)
          = if k < r ∧ (r ≤ k + T ∨ (r = k + (1 + T) ∧ t < L)) ∧ r - k + t ≤ last
            then rd P (r * c + t)
              - rd P (k * c + (r - k)) / (rd P (k * c) + eps) * rd P (k * c + (r - k + t))
            else rd P (r * c + t))
      (fun l matrix' =>
        wr matrix' ((k + (1 + T)) * c + l)
          (rd matrix' ((k + (1 + T)) * c + l)
            - rd m (k * c + (1 + T)) / (rd m (k * c) + eps)
              * rd matrix' (k * c + (1 + T) + l)))
      (last - (1 + T) + 1) m ?_ ?_
    · refine ⟨inner.1, ?_⟩
      intro r t ht
      rw [inner.2 r t ht]
      by_cases h : k < r ∧ r ≤ k + (T + 1) ∧ r - k + t ≤ last
      · rw [if_pos h, if_pos ⟨h.1, by omega, h.2.2⟩]
      · rw [if_neg h, if_neg (fun hh => h ⟨hh.1, by omega, hh.2.2⟩)]
    · refine ⟨hmsz, ?_⟩
      intro r t ht
      rw [hminv r t ht]
      by_cases h : k < r ∧ r ≤ k + T ∧ r - k + t ≤ last
      · rw [if_pos h, if_pos ⟨h.1, Or.inl h.2.1, h.2.2⟩]
      · rw [if_neg h, if_neg (fun hh => h ⟨hh.1, by omega, hh.2.2⟩)]
    · intro L hL' m' hm'
      obtain ⟨hsz', hinv'⟩ := hm'
      dsimp only
      have hLc : L < c := by omega
      have hrow : k + (1 + T) < rows := by omega
      refine ⟨by rw [size_wr]; exact hsz', ?_⟩
      intro r t ht
      rw [rd_wr, hsz']
      by_cases hcell : r = k + (1 + T) ∧ t = L
      · obtain ⟨e1, e2⟩ := hcell
        subst e1 e2
        rw [if_pos ⟨rfl, idx_lt _ _ rows c hrow ht⟩]
        have r1 := hinv' (k + (1 + T)) t ht
        rw [if_neg (fun hh => by omega)] at r1
        have r2 : rd m' (k * c + (1 + T) + t) = rd P (k * c + (1 + T + t)) := by
          have := hinv' k (1 + T + t) (by omega)
          rw [if_neg (fun hh => by omega)] at this
          rw [← this]; congr 1; omega
        rw [r1, r2, hrowk (1 + T) (by omega), hk0,
          if_pos ⟨by omega, Or.inr ⟨rfl, by omega⟩, by omega⟩]
        have e3 : k + (1 + T) - k = 1 + T := by omega
        rw [e3]
      · have hne : ¬ ((k + (1 + T)) * c + L = r * c + t
            ∧ (k + (1 + T)) * c + L < rows * c) := by
          intro hh
          have := idx_inj (k + (1 + T)) L r t c hLc ht hh.1
          exact hcell ⟨this.1.symm, this.2.symm⟩
        rw [if_neg hne, hinv' r t ht]
        by_cases h : k < r ∧ (r ≤ k + T ∨ (r = k + (1 + T) ∧ t < L)) ∧ r - k + t ≤ last
        · rw [if_pos h, if_pos ⟨h.1, by
            rcases h.2.1 with h2 | h2
            · exact Or.inl h2
            · exact Or.inr ⟨h2.1, by omega⟩, h.2.2⟩]
        · rw [if_neg h, if_neg (fun hh => by
            apply h
            refine ⟨hh.1, ?_, hh.2.2⟩
            rcases hh.2.1 with h2 | h2
            · exact Or.inl h2
            · refine Or.inr ⟨h2.1, ?_⟩
              by_contra hcon
              exact hcell ⟨h2.1, by omega⟩)]
  obtain ⟨p1sz, p1⟩ := ph1
  generalize (loop (fun t matrix =>
      loop (fun l matrix' =>
        wr matrix' ((k + (1 + t)) * c + l)
          (rd matrix' ((k + (1 + t)) * c + l)
            - rd matrix (k * c + (1 + t)) / (rd matrix (k * c) + eps)
              * rd matrix' (k * c + (1 + t) + l)))
        (last - (1 + t) + 1) matrix)
      last P) = P1 at p1sz p1 ⊢
  have hP1k : ∀ x, x < c → rd P1 (k * c + x) = rd P (k * c + x) := by
    intro x hx
    rw [p1 k x hx, if_neg (fun hh => by omega)]
  have hP1k0 : rd P1 (k * c) = rd P (k * c) := by
    have := hP1k 0 hc
    rwa [Nat.add_zero] at this
  -- phase 2: scaling of row k
  have ph2 := loop_inv
    (fun (T : ℕ) (m : Array K) => m.size = rows * c ∧ ∀ r t, t < c →
      rd m (r * c + t)
        = if r = k ∧ 0 < t ∧ t ≤ T then rd P (k * c + t) * (1 / (rd P (k * c) + eps))
          else rd P1 (r * c + t))
    (fun t matrix =>
      wr matrix (k * c + (1 + t)) (rd matrix (k * c + (1 + t)) * (1 / (rd P1 (k * c) + eps))))
    (c - 1) P1 ?_ ?_
  rotate_left
  · refine ⟨p1sz, ?_⟩
    intro r t _
    rw [if_neg (fun hh => by omega)]
  · intro T hT m hm
    obtain ⟨hmsz, hminv⟩ := hm
    dsimp only
    refine ⟨by rw [size_wr]; exact hmsz, ?_⟩
    intro r t ht
    rw [rd_wr, hmsz]
    by_cases hcell : r = k ∧ t = 1 + T
    · obtain ⟨e1, e2⟩ := hcell
      subst e1 e2
      rw [if_pos ⟨rfl, idx_lt _ _ rows c hk ht⟩]
      have r1 := hminv r (1 + T) ht
      rw [if_neg (fun hh => by omega)] at r1
      rw [r1, hP1k (1 + T) ht, hP1k0, if_pos ⟨rfl, by omega, by omega⟩]
    · have hne : ¬ (k * c + (1 + T) = r * c + t ∧ k * c + (1 + T) < rows * c) := by
        intro hh
        have := idx_inj k (1 + T) r t c (by omega) ht hh.1
        exact hcell ⟨this.1.symm, this.2.symm⟩
      rw [if_neg hne, hminv r t ht]
      by_cases h : r = k ∧ 0 < t ∧ t ≤ T
      · rw [if_pos h, if_pos ⟨h.1, h.2.1, by omega⟩]
      · rw [if_neg h, if_neg (fun hh => by
          apply h
          refine ⟨hh.1, hh.2.1, ?_⟩
          by_contra hcon
          exact hcell ⟨hh.1, by omega⟩)]
  refine ⟨ph2.1, ?_⟩
  intro r t ht
  unfold cells
  rw [ph2.2 r t ht]
  unfold chol_step
  dsimp only
  by_cases hrk : r = k
  · subst hrk
    rw [if_pos rfl]
    by_cases h0 : 0 < t
    · rw [if_pos ⟨rfl, h0, by omega⟩, if_pos h0, Nat.add_zero]
    · rw [if_neg (fun hh => h0 hh.2.1), if_neg h0, hP1k t ht]
  · rw [if_neg (fun hh => hrk hh.1), if_neg hrk, p1 r t ht]
    have hmin : min (k + c - 1) (rows - 1) = k + last := by omega
    rw [hmin, Nat.add_zero]
    by_cases h : k < r ∧ r ≤ k + last ∧ r - k + t ≤ last
    · rw [if_pos h, if_pos ⟨h.1, h.2.1, by omega⟩]
    · rw [if_neg h, if_neg (fun hh => h ⟨hh.1, hh.2.1, by omega⟩)]

end CholeskyBody

section CholeskyCells
variable {K : Type} [LinearOrderedField K] [FloorRing K]

theorem chol_step_congr (eps : K) (rows c k : ℕ) (B B' : ℕ → ℕ → K) (hc : 0 < c)
    (h : ∀ r t, t < c → B r t = B' r t) (r t : ℕ) (ht : t < c) :
    chol_step eps rows c k B r t = chol_step eps rows c k B' r t := by
  unfold chol_step
  by_cases hrk : r = k
  · rw [if_pos hrk, if_pos hrk, h k t ht, h k 0 hc]
  · rw [if_neg hrk, if_neg hrk]
    by_cases hcond : k < r ∧ r ≤ min (k + c - 1) (rows - 1)
        ∧ r - k + t ≤ min (k + c - 1) (rows - 1) - k
    · rw [if_pos hcond, if_pos hcond, h r t ht, h k (r - k) (by omega), h k 0 hc,
        h k (r - k + t) (by omega)]
    · rw [if_neg hcond, if_neg hcond, h r t ht]

/-- `banded_cholesky_decomposition` acts on the packed cells as `rows`
iterations of `chol_step`. -/
theorem cholesky_cells (eps : K) (rows bandwidth : ℕ) (P0 : Array K)
    (hc : 0 < (bandwidth + 1) / 2) (hsz : P0.size = rows * ((bandwidth + 1) / 2)) :
    (banded_cholesky_decomposition eps rows bandwidth P0).size = rows * ((bandwidth + 1) / 2)
    ∧ ∀ r t, t < (bandwidth + 1) / 2 →
      cells (banded_cholesky_decomposition eps rows bandwidth P0) ((bandwidth + 1) / 2) r t
        = chol_iter eps rows ((bandwidth + 1) / 2) rows (cells P0 ((bandwidth + 1) / 2)) r t := by
  unfold banded_cholesky_decomposition
  simp only []
  generalize (bandwidth + 1) / 2 = c at hc hsz ⊢
  refine loop_inv
    (fun (k : ℕ) (P : Array K) => P.size = rows * c ∧ ∀ r t, t < c →
      cells P c r t = chol_iter eps rows c k (cells P0 c) r t) _ rows P0 ?_ ?_
  · exact ⟨hsz, fun r t _ => rfl⟩
  · intro k hk P hP
    obtain ⟨h1, h2⟩ := cholesky_body_cells eps rows c k P hk hc hP.1
    refine ⟨h1, ?_⟩
    intro r t ht
    have := h2 r t ht
    rw [chol_step_congr eps rows c k (cells P c) (chol_iter eps rows c k (cells P0 c)) hc
      hP.2 r t ht] at this
    exact this

end CholeskyCells

section CholeskyFactor
variable {K : Type} [LinearOrderedField K] [FloorRing K]

theorem chol_iter_frozen (eps : K) (rows c : ℕ) (B : ℕ → ℕ → K) (k r t : ℕ) (hr : r < k) :
    ∀ k', k ≤ k' → chol_iter eps rows c k' B r t = chol_iter eps rows c k B r t := by
  intro k' hk'
  induction k' with
  | zero =>
    have : k = 0 := by omega
    subst this; rfl
  | succ n ih =>
    by_cases h : k = n + 1
    · rw [h]
    · have hn : k ≤ n := by omega
      rw [← ih hn]
      show chol_step eps rows c n (chol_iter eps rows c n B) r t = _
      unfold chol_step
      rw [if_neg (by omega), if_neg (fun hh => by omega)]

theorem chol_iter_zero (eps : K) (rows c : ℕ) (B : ℕ → ℕ → K)
    (hz : ∀ r t, rows ≤ r + t → B r t = 0) :
    ∀ k r t, rows ≤ r + t → chol_iter eps rows c k B r t = 0 := by
  intro k
  induction k with
  | zero => exact hz
  | succ n ih =>
    intro r t hrt
    show chol_step eps rows c n (chol_iter eps rows c n B) r t = 0
    unfold chol_step
    by_cases hrn : r = n
    · subst hrn
      rw [if_pos rfl, ih r t hrt]
      simp
    · rw [if_neg hrn, if_neg (fun hh => by omega)]
      exact ih r t hrt

theorem chol_iter_diag (eps : K) (rows c : ℕ) (B : ℕ → ℕ → K) (m : ℕ) :
    chol_iter eps rows c (m + 1) B m 0 = chol_iter eps rows c m B m 0 := by
  show chol_step eps rows c m (chol_iter eps rows c m B) m 0 = _
  unfold chol_step
  rw [if_pos rfl, if_neg (Nat.lt_irrefl 0)]

theorem chol_iter_offdiag (eps : K) (rows c : ℕ) (B : ℕ → ℕ → K) (m t : ℕ) (ht : 0 < t) :
    chol_iter eps rows c (m + 1) B m t
      = chol_iter eps rows c m B m t * (1 / (chol_iter eps rows c m B m 0 + eps)) := by
  show chol_step eps rows c m (chol_iter eps rows c m B) m t = _
  unfold chol_step
  rw [if_pos rfl, if_pos ht]

/-- The Schur-complement form of the cells of the rows not yet eliminated. -/
theorem chol_iter_schur (rows c : ℕ) (B : ℕ → ℕ → K) :
    ∀ k r t, k ≤ r → r + t < rows → t < c →
      chol_iter 0 rows c k B r t
        = B r t - ∑ m in Finset.range k,
            chol_u 0 rows c B m (r - m) / chol_iter 0 rows c m B m 0
              * chol_u 0 rows c B m (r - m + t) := by
  intro k
  induction k with
  | zero =>
    intro r t _ _ _
    simp [chol_iter]
  | succ n ih =>
    intro r t hr hrt ht
    show chol_step 0 rows c n (chol_iter 0 rows c n B) r t = _
    rw [Finset.sum_range_succ, ← sub_sub, ← ih r t (by omega) hrt ht]
    unfold chol_step
    rw [if_neg (by omega)]
    by_cases hcond : n < r ∧ r ≤ min (n + c - 1) (rows - 1)
        ∧ r - n + t ≤ min (n + c - 1) (rows - 1) - n
    · rw [if_pos hcond, add_zero]
      unfold chol_u
      rw [if_pos (by omega), if_pos (by omega)]
    · rw [if_neg hcond]
      have hzero : chol_u 0 rows c B n (r - n) / chol_iter 0 rows c n B n 0
          * chol_u 0 rows c B n (r - n + t) = 0 := by
        by_cases h1 : r - n < c
        · have h2 : ¬ r - n + t < c := by
            intro h2
            apply hcond
            omega
          unfold chol_u
          rw [if_neg h2, mul_zero]
        · unfold chol_u
          rw [if_neg h1, zero_div, zero_mul]
      rw [hzero, sub_zero]

/-- The factorisation identity on the packed cells: with `eps = 0` and
non-zero pivots, the rows of the final cells are the rows of `L'`, cell `0` of
row `m` is `D_mm`, and `L·D·L'` reproduces the initial band. -/
theorem chol_iter_factor (rows c : ℕ) (B : ℕ → ℕ → K) (hc : 0 < c)
    (hp : ∀ m, m < rows → chol_iter 0 rows c rows B m 0 ≠ 0)
    (i j : ℕ) (hij : i ≤ j) (hj : j < rows) :
    ∑ m in Finset.range (i + 1),
      lt_entry c (chol_iter 0 rows c rows B) m i * chol_iter 0 rows c rows B m 0
        * lt_entry c (chol_iter 0 rows c rows B) m j
      = if j - i < c then B i (j - i) else 0 := by
  -- final cells in terms of the pivot rows
  have hD : ∀ m, m < rows → chol_iter 0 rows c rows B m 0 = chol_iter 0 rows c m B m 0 := by
    intro m hm
    rw [chol_iter_frozen 0 rows c B (m + 1) m 0 (by omega) rows (by omega), chol_iter_diag]
  have hDne : ∀ m, m < rows → chol_iter 0 rows c m B m 0 ≠ 0 := by
    intro m hm
    rw [← hD m hm]; exact hp m hm
  have hL : ∀ m x, m < rows → m < x →
      lt_entry c (chol_iter 0 rows c rows B) m x
        = chol_u 0 rows c B m (x - m) / chol_iter 0 rows c m B m 0 := by
    intro m x hm hmx
    unfold lt_entry chol_u
    rw [if_neg (by omega)]
    by_cases hb : x - m < c
    · rw [if_pos ⟨hmx, hb⟩, if_pos hb,
        chol_iter_frozen 0 rows c B (m + 1) m (x - m) (by omega) rows (by omega),
        chol_iter_offdiag 0 rows c B m (x - m) (by omega), add_zero, mul_one_div]
    · rw [if_neg (fun hh => hb hh.2), if_neg hb, zero_div]
  have hLd : ∀ m, lt_entry c (chol_iter 0 rows c rows B) m m = 1 := by
    intro m; unfold lt_entry; rw [if_pos rfl]
  rw [Finset.sum_range_succ, hLd, one_mul, hD i (by omega)]
  have hterms : ∀ m ∈ Finset.range i,
      lt_entry c (chol_iter 0 rows c rows B) m i * chol_iter 0 rows c rows B m 0
        * lt_entry c (chol_iter 0 rows c rows B) m j
      = chol_u 0 rows c B m (i - m) / chol_iter 0 rows c m B m 0
          * chol_u 0 rows c B m (i - m + (j - i)) := by
    intro m hm
    have hmi : m < i := Finset.mem_range.mp hm
    have e : i - m + (j - i) = j - m := by omega
    rw [hL m i (by omega) hmi, hL m j (by omega) (by omega), hD m (by omega), e]
    field_simp [hDne m (by omega)]
  rw [Finset.sum_congr rfl hterms]
  by_cases hb : j - i < c
  · rw [if_pos hb]
    have hs := chol_iter_schur rows c B i i (j - i) (Nat.le_refl i) (by omega) hb
    by_cases hij' : i = j
    · subst hij'
      rw [hLd, mul_one]
      rw [Nat.sub_self] at hs ⊢
      rw [hs]; ring
    · rw [hL i j (by omega) (by omega)]
      unfold chol_u at hs ⊢
      rw [if_pos hb]
      rw [mul_div_cancel₀ _ (hDne i (by omega)), hs]
      ring
  · rw [if_neg hb]
    have h1 : lt_entry c (chol_iter 0 rows c rows B) i j = 0 := by
      unfold lt_entry
      rw [if_neg (by omega), if_neg (fun hh => hb hh.2)]
    rw [h1, mul_zero, add_zero]
    apply Finset.sum_eq_zero
    intro m hm
    have hmi : m < i := Finset.mem_range.mp hm
    have h2 : ¬ (i - m + (j - i) < c) := by omega
    have h3 : chol_u 0 rows c B m (i - m + (j - i)) = 0 := by
      unfold chol_u
      rw [if_neg h2]
    rw [h3, mul_zero]

end CholeskyFactor

section SolveRow
variable {K : Type} [LinearOrderedField K] [FloorRing K]

/-- The two substitution loops of `solve_row_h`: there is an intermediate row
`z` (the state after the first loop) such that `z` satisfies the forward
substitution equations and the result satisfies the backward substitution
equations; cells at or beyond `width` are untouched. -/
theorem solve_row_h_spec (width c columns : ℕ) (L R : Array ℕ)
    (weights lower upper diagonal : Array K) (srcp dstp : ℕ → K) :
    ∃ z : ℕ → K,
      (∀ j, j < width →
        z j = (∑ t in Finset.range (rd R j - rd L j),
                rd weights (j * columns + (rd L j + t) - rd L j) * srcp (rd L j + t)
              - ∑ t in Finset.range (j - (j + 1 - c)),
                rd lower (j * (c - 1) + (j + 1 - c + t) - (j + 1 - c)) * z (j + 1 - c + t))
              * rd diagonal j)
      ∧ (∀ j, j < width →
        solve_row_h width c columns L R weights lower upper diagonal srcp dstp j
          = z j - ∑ u in Finset.range (min (width - 1) (j + c - 1) - j),
              rd upper (j * (c - 1) + (min (width - 1) (j + c - 1) - u) + c - 2
                  - min (width - 1) (j + c - 1))
                * solve_row_h width c columns L R weights lower upper diagonal srcp dstp
                    (min (width - 1) (j + c - 1) - u))
      ∧ (∀ j, width ≤ j →
        solve_row_h width c columns L R weights lower upper diagonal srcp dstp j = dstp j) := by
  -- forward substitution
  have fwd := loop_inv
    (fun (J : ℕ) (d : ℕ → K) =>
      (∀ j, j < J →
        d j = (∑ t in Finset.range (rd R j - rd L j),
                rd weights (j * columns + (rd L j + t) - rd L j) * srcp (rd L j + t)
              - ∑ t in Finset.range (j - (j + 1 - c)),
                rd lower (j * (c - 1) + (j + 1 - c + t) - (j + 1 - c)) * d (j + 1 - c + t))
              * rd diagonal j)
      ∧ ∀ j, J ≤ j → d j = dstp j)
    (fun j dstp =>
      Function.update
        (Function.update dstp j
          (loop (fun t sum =>
            sum + rd weights (j * columns + (rd L j + t) - rd L j) * srcp (rd L j + t))
            (rd R j - rd L j) 0))
        j
        ((Function.update dstp j
            (loop (fun t sum =>
              sum + rd weights (j * columns + (rd L j + t) - rd L j) * srcp (rd L j + t))
              (rd R j - rd L j) 0) j
          - loop (fun t sum =>
              sum + rd lower (j * (c - 1) + (j + 1 - c + t) - (j + 1 - c))
                * Function.update dstp j
                    (loop (fun t sum =>
                      sum + rd weights (j * columns + (rd L j + t) - rd L j) * srcp (rd L j + t))
                      (rd R j - rd L j) 0) (j + 1 - c + t))
              (j - (j + 1 - c)) 0)
          * rd diagonal j))
    width dstp ?_ ?_
  rotate_left
  · exact ⟨fun j hj => absurd hj (Nat.not_lt_zero j), fun j _ => rfl⟩
  · intro J hJ d hd
    obtain ⟨hd1, hd2⟩ := hd
    dsimp only
    rw [loop_add_eq_sum, loop_add_eq_sum, zero_add, zero_add]
    refine ⟨?_, ?_⟩
    · intro j hj
      by_cases hjJ : j = J
      · subst hjJ
        rw [Function.update_same, Function.update_same]
        congr 2
        apply Finset.sum_congr rfl
        intro t ht
        have ht' := Finset.mem_range.mp ht
        rw [Function.update_noteq (by omega), Function.update_noteq (by omega),
          Function.update_noteq (by omega)]
      · rw [Function.update_noteq hjJ, Function.update_noteq hjJ, hd1 j (by omega)]
        congr 2
        apply Finset.sum_congr rfl
        intro t ht
        have ht' := Finset.mem_range.mp ht
        rw [Function.update_noteq (by omega), Function.update_noteq (by omega)]
    · intro j hj
      rw [Function.update_noteq (by omega), Function.update_noteq (by omega)]
      exact hd2 j (by omega)
  obtain ⟨f1, f2⟩ := fwd
  generalize hz : (loop (fun j dstp =>
      Function.update
        (Function.update dstp j
          (loop (fun t sum =>
            sum + rd weights (j * columns + (rd L j + t) - rd L j) * srcp (rd L j + t))
            (rd R j - rd L j) 0))
        j
        ((Function.update dstp j
            (loop (fun t sum =>
              sum + rd weights (j * columns + (rd L j + t) - rd L j) * srcp (rd L j + t))
              (rd R j - rd L j) 0) j
          - loop (fun t sum =>
              sum + rd lower (j * (c - 1) + (j + 1 - c + t) - (j + 1 - c))
                * Function.update dstp j
                    (loop (fun t sum =>
                      sum + rd weights (j * columns + (rd L j + t) - rd L j) * srcp (rd L j + t))
                      (rd R j - rd L j) 0) (j + 1 - c + t))
              (j - (j + 1 - c)) 0)
          * rd diagonal j))
    width dstp) = z at f1 f2
  -- backward substitution
  have bwd := loop_inv
    (fun (T : ℕ) (d : ℕ → K) =>
      (∀ j, width - 1 - T ≤ j → j < width →
        d j = z j - ∑ u in Finset.range (min (width - 1) (j + c - 1) - j),
              rd upper (j * (c - 1) + (min (width - 1) (j + c - 1) - u) + c - 2
                  - min (width - 1) (j + c - 1))
                * d (min (width - 1) (j + c - 1) - u))
      ∧ ∀ j, j < width - 1 - T ∨ width ≤ j → d j = z j)
    (fun t dstp =>
      Function.update dstp (width - 2 - t)
        (dstp (width - 2 - t)
          - loop (fun u sum =>
              sum + rd upper ((width - 2 - t) * (c - 1)
                  + (min (width - 1) (width - 2 - t + c - 1) - u) + c - 2
                  - min (width - 1) (width - 2 - t + c - 1))
                * dstp (min (width - 1) (width - 2 - t + c - 1) - u))
              (min (width - 1) (width - 2 - t + c - 1) - (width - 2 - t)) 0))
    (width - 1) z ?_ ?_
  rotate_left
  · refine ⟨?_, fun j _ => rfl⟩
    intro j hj1 hj2
    have hj : j = width - 1 := by omega
    have hmin : min (width - 1) (j + c - 1) - j = 0 := by omega
    rw [hmin, Finset.sum_range_zero, sub_zero]
  · intro T hT d hd
    obtain ⟨hd1, hd2⟩ := hd
    dsimp only
    rw [loop_add_eq_sum, zero_add]
    refine ⟨?_, ?_⟩
    · intro j hj1 hj2
      by_cases hjT : j = width - 2 - T
      · subst hjT
        rw [Function.update_same, hd2 _ (Or.inl (by omega))]
        congr 1
        apply Finset.sum_congr rfl
        intro u hu
        have hu' := Finset.mem_range.mp hu
        rw [Function.update_noteq (by omega)]
      · rw [Function.update_noteq hjT, hd1 j (by omega) hj2]
        congr 1
        apply Finset.sum_congr rfl
        intro u hu
        have hu' := Finset.mem_range.mp hu
        rw [Function.update_noteq (by omega)]
    · intro j hj
      rw [Function.update_noteq (by omega)]
      exact hd2 j (by omega)
  refine ⟨z, f1, ?_, ?_⟩
  · intro j hj
    unfold solve_row_h
    dsimp only
    rw [hz]
    exact bwd.1 j (by omega) hj
  · intro j hj
    unfold solve_row_h
    dsimp only
    rw [hz, bwd.2 j (Or.inr hj)]
    exact f2 j hj

end SolveRow

section TapIndex
variable {K : Type} [LinearOrderedField K] [FloorRing K]

/-- The algebra of the solve: if `M = L·D·L'` with `L'` unit upper triangular,
`z` solves `L·D·z = y` and `x` solves `L'·x = z`, then `M·x = y`. -/
theorem ldl_solve (N : ℕ) (Mf lt : ℕ → ℕ → K) (D y z x : ℕ → K)
    (hM : ∀ i j, i < N → j < N → Mf i j = ∑ m in Finset.range N, lt m i * D m * lt m j)
    (hlow : ∀ m i, i < m → lt m i = 0) (hone : ∀ i, lt i i = 1)
    (hfwd : ∀ j, j < N → D j * z j = y j - ∑ k in Finset.range j, lt k j * D k * z k)
    (hbwd : ∀ j, j < N → z j = ∑ k in Finset.range N, lt j k * x k) :
    ∀ i, i < N → ∑ j in Finset.range N, Mf i j * x j = y i := by
  intro i hi
  have h1 : ∀ j ∈ Finset.range N,
      Mf i j * x j = ∑ m in Finset.range N, lt m i * D m * (lt m j * x j) := by
    intro j hj
    rw [hM i j hi (Finset.mem_range.mp hj), Finset.sum_mul]
    apply Finset.sum_congr rfl
    intro m _
    ring
  rw [Finset.sum_congr rfl h1, Finset.sum_comm]
  have h2 : ∀ m ∈ Finset.range N,
      (∑ j in Finset.range N, lt m i * D m * (lt m j * x j)) = lt m i * D m * z m := by
    intro m hm
    rw [← Finset.mul_sum, ← hbwd m (Finset.mem_range.mp hm)]
  rw [Finset.sum_congr rfl h2]
  have h3 : ∑ m in Finset.range N, lt m i * D m * z m
      = ∑ m in Finset.range (i + 1), lt m i * D m * z m := by
    symm
    apply Finset.sum_subset
    · intro m hm
      exact Finset.mem_range.mpr (by have := Finset.mem_range.mp hm; omega)
    · intro m _ hm
      have : i < m := by
        by_contra hcon
        exact hm (Finset.mem_range.mpr (by omega))
      rw [hlow m i this, zero_mul, zero_mul]
  rw [h3, Finset.sum_range_succ, hone, one_mul, hfwd i hi]
  ring

theorem floor_int_add_half (a : ℤ) : ⌊(a : K) + 1 / 2⌋ = a := by
  rw [Int.floor_eq_iff]
  constructor
  · linarith
  · linarith

/-- `round_halfup` returns an integer. -/
theorem round_halfup_int (x : K) : ∃ z : ℤ, round_halfup x = (z : K) := by
  unfold round_halfup
  dsimp only
  by_cases h : x < 0
  · refine ⟨-std_round |x|, ?_⟩
    simp [h]
  · exact ⟨std_round |x|, by simp [h]⟩

/-- The column of a tap at the half-integer position `a + 1/2` is the single
reflection of `a` at the two ends of `[0, src_dim)`. -/
theorem floor_mirror_pos (src_dim : ℕ) (a : ℤ) :
    ⌊mirror_pos src_dim ((a : K) + 1 / 2)⌋
      = if a < 0 then -a - 1 else if (src_dim : ℤ) ≤ a then 2 * (src_dim : ℤ) - a - 1 else a := by
  unfold mirror_pos
  by_cases h1 : a < 0
  · have h1' : (a : K) + 1 / 2 < 0 := by
      have : (a : K) ≤ -1 := by exact_mod_cast (by omega : a ≤ -1)
      linarith
    rw [if_pos h1', if_pos h1]
    have e : -((a : K) + 1 / 2) = ((-a - 1 : ℤ) : K) + 1 / 2 := by push_cast; ring
    rw [e, floor_int_add_half]
  · have h1' : ¬ ((a : K) + 1 / 2 < 0) := by
      have : (0 : K) ≤ (a : K) := by exact_mod_cast (by omega : 0 ≤ a)
      linarith
    rw [if_neg h1', if_neg h1]
    by_cases h2 : (src_dim : ℤ) ≤ a
    · have h2k : (src_dim : K) ≤ (a : K) := by
        have : ((src_dim : ℤ) : K) ≤ (a : K) := by exact_mod_cast h2
        simpa only [Int.cast_natCast] using this
      have h2' : (a : K) + 1 / 2 ≥ (src_dim : K) := by linarith
      rw [if_pos h2', if_pos h2]
      have e : min (2 * (src_dim : K) - ((a : K) + 1 / 2)) ((src_dim : K) - 1 / 2)
          = ((2 * (src_dim : ℤ) - a - 1 : ℤ) : K) + 1 / 2 := by
        rw [min_eq_left (by linarith)]
        push_cast; ring
      rw [e, floor_int_add_half]
    · have h2' : ¬ ((a : K) + 1 / 2 ≥ (src_dim : K)) := by
        have : (a : K) + 1 ≤ ((src_dim : ℤ) : K) := by exact_mod_cast (by omega : a + 1 ≤ src_dim)
        simp only [Int.cast_natCast] at this
        intro hh
        linarith
      rw [if_neg h2', if_neg h2, floor_int_add_half]

/-- The taps of one row are the reflections of `2·support` consecutive
integers. -/
theorem tap_idx_reflect (support src_dim dst_dim : ℕ) (shift : K) (i : ℕ) :
    ∃ z : ℤ, ∀ j : ℕ, tap_idx support src_dim dst_dim shift i j
      = if z + j < 0 then -(z + j) - 1
        else if (src_dim : ℤ) ≤ z + j then 2 * (src_dim : ℤ) - (z + j) - 1 else z + j := by
  obtain ⟨z, hz⟩ := round_halfup_int (sample_pos src_dim dst_dim shift i - (support : K))
  refine ⟨z, ?_⟩
  intro j
  unfold tap_idx begin_pos
  rw [hz]
  have e : (z : K) + 1 / 2 + (j : K) = ((z + j : ℤ) : K) + 1 / 2 := by push_cast; ring
  rw [e, floor_mirror_pos]

/-- Two taps of one row that are both columns are less than `2·support` apart. -/
theorem tap_idx_window (support src_dim dst_dim : ℕ) (shift : K)
    (hr : taps_in_range support src_dim dst_dim shift) (i : ℕ) (hi : i < dst_dim)
    (j j' : ℕ) (hj : j < 2 * support) (hj' : j' < 2 * support) :
    tap_idx support src_dim dst_dim shift i j - tap_idx support src_dim dst_dim shift i j'
      < 2 * (support : ℤ) := by
  obtain ⟨z, hz⟩ := tap_idx_reflect support src_dim dst_dim shift i
  obtain ⟨a1, a2⟩ := hr i hi j hj
  obtain ⟨b1, b2⟩ := hr i hi j' hj'
  rw [hz j] at a1 a2 ⊢
  rw [hz j'] at b1 b2 ⊢
  split_ifs at a1 a2 b1 b2 ⊢ <;> omega

end TapIndex

section NormalMatrix
variable {K : Type} [LinearOrderedField K] [FloorRing K]

theorem size_scaling_weights (sin : K → K) (mode : DescaleMode) (support src_dim dst_dim : ℕ)
    (b c shift : K) :
    (scaling_weights sin mode support src_dim dst_dim b c shift).size = src_dim * dst_dim := by
  unfold scaling_weights
  refine loop_inv (fun (_ : ℕ) (w : Array K) => w.size = src_dim * dst_dim) _ dst_dim _
    (by simp) ?_
  intro I _ w hw
  dsimp only
  exact loop_inv (fun (_ : ℕ) (w : Array K) => w.size = src_dim * dst_dim) _ _ w hw
    (fun J _ w' hw' => by dsimp only; rw [size_add_at]; exact hw')

/-- A non-zero entry of the matrix built by `scaling_weights` is hit by a tap. -/
theorem scaling_weights_entry_ne_zero (sin : K → K) (mode : DescaleMode)
    (support src_dim dst_dim : ℕ) (b c shift : K)
    (hr : taps_in_range support src_dim dst_dim shift) (i col : ℕ) (hcol : col < src_dim)
    (hne : rd (scaling_weights sin mode support src_dim dst_dim b c shift)
      (i * src_dim + col) ≠ 0) :
    i < dst_dim ∧ ∃ j, j < 2 * support ∧ tap_idx support src_dim dst_dim shift i j = (col : ℤ) := by
  rw [scaling_weights_entry sin mode support src_dim dst_dim b c shift hr i col hcol] at hne
  by_cases hi : i < dst_dim
  · refine ⟨hi, ?_⟩
    rw [if_pos hi] at hne
    by_contra hcon
    apply hne
    apply Finset.sum_eq_zero
    intro j hj
    rw [if_neg (fun h => hcon ⟨j, Finset.mem_range.mp hj, h⟩)]
  · rw [if_neg hi] at hne
    exact absurd rfl hne

/-- Two entries of one row of the matrix that are `2·support` or more columns
apart are not both non-zero. -/
theorem scaling_weights_band (sin : K → K) (mode : DescaleMode)
    (support src_dim dst_dim : ℕ) (b c shift : K)
    (hr : taps_in_range support src_dim dst_dim shift) (k i j : ℕ)
    (hi : i < src_dim) (hj : j < src_dim) (hij : i + 2 * support ≤ j) :
    rd (scaling_weights sin mode support src_dim dst_dim b c shift) (k * src_dim + i)
      * rd (scaling_weights sin mode support src_dim dst_dim b c shift) (k * src_dim + j) = 0 := by
  by_contra hne
  have h1 := left_ne_zero_of_mul hne
  have h2 := right_ne_zero_of_mul hne
  obtain ⟨hk, t, ht, e1⟩ :=
    scaling_weights_entry_ne_zero sin mode support src_dim dst_dim b c shift hr k i hi h1
  obtain ⟨_, t', ht', e2⟩ :=
    scaling_weights_entry_ne_zero sin mode support src_dim dst_dim b c shift hr k j hj h2
  have := tap_idx_window support src_dim dst_dim shift hr k hk t' t ht' ht
  rw [e1, e2] at this
  omega

/-- The index vectors of a fresh core bracket the non-zero cells of every row
of the transposed weights, so a sum over `[left, right)` is the full sum. -/
theorem idx_bracket (N H : ℕ) (T : Array K) (i : ℕ) (hi : i < N) (f : ℕ → K)
    (hf : ∀ k, k < H → rd T (i * H + k) = 0 → f k = 0) :
    ∑ t in Finset.range
        (rd (find_idx N H T (resize (#[] : Array ℕ) N, resize (#[] : Array ℕ) N)).2 i
          - rd (find_idx N H T (resize (#[] : Array ℕ) N, resize (#[] : Array ℕ) N)).1 i),
        f (rd (find_idx N H T (resize (#[] : Array ℕ) N, resize (#[] : Array ℕ) N)).1 i + t)
      = ∑ k in Finset.range H, f k := by
  obtain ⟨_, _, hspec⟩ := find_idx_spec N H T (resize (#[] : Array ℕ) N)
    (resize (#[] : Array ℕ) N) (size_resize _ _) (size_resize _ _)
  obtain ⟨hzero, hnz⟩ := hspec i hi
  have hrz : rd (resize (#[] : Array ℕ) N) i = 0 := by
    rw [rd_resize, if_pos hi]
    exact rd_of_size_le _ _ (Nat.zero_le _)
  by_cases hall : ∀ k, k < H → rd T (i * H + k) = 0
  · obtain ⟨e1, e2⟩ := hzero hall
    rw [e1, e2, hrz, Nat.sub_zero, Finset.sum_range_zero]
    symm
    apply Finset.sum_eq_zero
    intro k hk
    exact hf k (Finset.mem_range.mp hk) (hall k (Finset.mem_range.mp hk))
  · have hex : ∃ k, k < H ∧ rd T (i * H + k) ≠ 0 := by
      by_contra hcon
      apply hall
      intro k hk
      by_contra hne
      exact hcon ⟨k, hk, hne⟩
    obtain ⟨_, hR, _, _, hbr⟩ := hnz hex
    apply sum_bracket f _ _ H
    · right
      refine ⟨hR, ?_⟩
      intro k hk hfk
      apply hbr k hk
      intro hz
      exact hfk (hf k hk hz)
    · intro hz t ht
      exact hz _ (by omega)

/-- `multiply_sparse_matrices` on the transposed weights and the weights of a
fresh core is the full product `A'·A`. -/
theorem normal_matrix_entry (N H : ℕ) (W : Array K) (hN : 0 < N) (hH : 0 < H)
    (hW : W.size = N * H) :
    (multiply_sparse_matrices N
      (find_idx N H (transpose_matrix H W)
        (resize (#[] : Array ℕ) N, resize (#[] : Array ℕ) N)).1
      (find_idx N H (transpose_matrix H W)
        (resize (#[] : Array ℕ) N, resize (#[] : Array ℕ) N)).2
      (transpose_matrix H W) W).size = N * N
    ∧ ∀ i j, i < N → j < N →
      rd (multiply_sparse_matrices N
        (find_idx N H (transpose_matrix H W)
          (resize (#[] : Array ℕ) N, resize (#[] : Array ℕ) N)).1
        (find_idx N H (transpose_matrix H W)
          (resize (#[] : Array ℕ) N, resize (#[] : Array ℕ) N)).2
        (transpose_matrix H W) W) (i * N + j)
      = ∑ k in Finset.range H, rd W (k * N + i) * rd W (k * N + j) := by
  have hT : ∀ i k, i < N → k < H → rd (transpose_matrix H W) (i * H + k) = rd W (k * N + i) :=
    fun i k hi hk => rd_transpose_matrix H N W hH (by rw [hW, Nat.mul_comm]) k i hk hi
  have hTs : (transpose_matrix H W).size = N * H := by rw [size_transpose_matrix, hW]
  obtain ⟨h1, h2⟩ := rd_multiply_sparse_matrices N H
    (find_idx N H (transpose_matrix H W)
      (resize (#[] : Array ℕ) N, resize (#[] : Array ℕ) N)).1
    (find_idx N H (transpose_matrix H W)
      (resize (#[] : Array ℕ) N, resize (#[] : Array ℕ) N)).2
    (transpose_matrix H W) W hN hTs
  refine ⟨h1, ?_⟩
  intro i j hi hj
  rw [h2 i j hi hj]
  rw [idx_bracket N H (transpose_matrix H W) i hi
    (fun k => rd (transpose_matrix H W) (i * H + k) * rd W (k * N + j))
    (fun k _ hz => by dsimp only; rw [hz, zero_mul])]
  apply Finset.sum_congr rfl
  intro k hk
  rw [hT i k hi (Finset.mem_range.mp hk)]

end NormalMatrix

section BandFactor
variable {K : Type} [LinearOrderedField K] [FloorRing K]

theorem lt_entry_congr (c : ℕ) (F F' : ℕ → ℕ → K) (h : ∀ r t, t < c → F r t = F' r t)
    (m j : ℕ) : lt_entry c F m j = lt_entry c F' m j := by
  unfold lt_entry
  by_cases h1 : m = j
  · rw [if_pos h1, if_pos h1]
  · rw [if_neg h1, if_neg h1]
    by_cases h2 : m < j ∧ j - m < c
    · rw [if_pos h2, if_pos h2, h m (j - m) h2.2]
    · rw [if_neg h2, if_neg h2]

/-- The factorisation computed by `descale_create`: for a banded matrix `Mf`
stored in `Mx`, the packed vector after `compress_symmetric_banded_matrix` and
`banded_cholesky_decomposition` (with `eps = 0` and non-zero pivots) holds `D`
in cell `0` of each row and `L'` in the other cells, with `L·D·L' = Mf` on the
upper triangle. -/
theorem band_factor (N bandwidth : ℕ) (Mx : Array K) (Mf : ℕ → ℕ → K)
    (hc : 0 < (bandwidth + 1) / 2)
    (hMx : ∀ i j, i < N → j < N → rd Mx (i * N + j) = Mf i j)
    (hband : ∀ i j, i < N → j < N → i + (bandwidth + 1) / 2 ≤ j → Mf i j = 0)
    (hp : ∀ k, k < N →
      rd (banded_cholesky_decomposition 0 N bandwidth
        (compress_symmetric_banded_matrix N bandwidth Mx)) (k * ((bandwidth + 1) / 2)) ≠ 0)
    (i j : ℕ) (hij : i ≤ j) (hj : j < N) :
    Mf i j = ∑ m in Finset.range (i + 1),
      lt_entry ((bandwidth + 1) / 2)
          (cells (banded_cholesky_decomposition 0 N bandwidth
            (compress_symmetric_banded_matrix N bandwidth Mx)) ((bandwidth + 1) / 2)) m i
        * rd (banded_cholesky_decomposition 0 N bandwidth
            (compress_symmetric_banded_matrix N bandwidth Mx)) (m * ((bandwidth + 1) / 2))
        * lt_entry ((bandwidth + 1) / 2)
          (cells (banded_cholesky_decomposition 0 N bandwidth
            (compress_symmetric_banded_matrix N bandwidth Mx)) ((bandwidth + 1) / 2)) m j := by
  obtain ⟨hs0, hc0⟩ := rd_compress_symmetric N bandwidth Mx hc
  obtain ⟨_, hcells⟩ := cholesky_cells (0 : K) N bandwidth
    (compress_symmetric_banded_matrix N bandwidth Mx) hc hs0
  generalize compress_symmetric_banded_matrix N bandwidth Mx = P0 at hs0 hc0 hcells hp ⊢
  generalize banded_cholesky_decomposition 0 N bandwidth P0 = P at hcells hp ⊢
  generalize (bandwidth + 1) / 2 = c at hc hband hs0 hc0 hcells hp ⊢
  have hcell0 : ∀ m, rd P (m * c) = chol_iter 0 N c N (cells P0 c) m 0 := by
    intro m
    rw [← hcells m 0 hc]
    unfold cells
    rw [Nat.add_zero]
  have hfac := chol_iter_factor N c (cells P0 c) hc
    (fun m hm => by rw [← hcell0 m]; exact hp m hm) i j hij hj
  have hterm : ∀ m ∈ Finset.range (i + 1),
      lt_entry c (cells P c) m i * rd P (m * c) * lt_entry c (cells P c) m j
        = lt_entry c (chol_iter 0 N c N (cells P0 c)) m i * chol_iter 0 N c N (cells P0 c) m 0
          * lt_entry c (chol_iter 0 N c N (cells P0 c)) m j := by
    intro m _
    rw [lt_entry_congr c _ _ hcells m i, lt_entry_congr c _ _ hcells m j, hcell0 m]
  rw [Finset.sum_congr rfl hterm, hfac]
  by_cases hb : j - i < c
  · rw [if_pos hb]
    unfold cells
    rw [hc0 i (j - i) (by omega) hb]
    have e : i + (j - i) = j := by omega
    rw [e, if_pos hj, hMx i j (by omega) hj]
  · rw [if_neg hb]
    exact hband i j (by omega) hj (by omega)

/-- The solver arrays produced from the factorised band `P`: `lower` holds
`L[j][k]·D_kk`, `upper` holds `L'[j][k]` and `diagonal` holds `1/D_jj`, at the
indices that `process_plane_h` reads. -/
theorem solver_arrays (N bandwidth : ℕ) (P cl cu dg : Array K) (hN : 0 < N)
    (hc : 0 < (bandwidth + 1) / 2)
    (hcl : cl.size = N * ((bandwidth + 1) / 2 - 1))
    (hcu : cu.size = N * ((bandwidth + 1) / 2 - 1)) (hdg : dg.size = N) :
    (∀ j t, j < N → t < j - (j + 1 - (bandwidth + 1) / 2) →
      rd (extract_compressed_lower_upper_diagonal 0 N bandwidth
          (multiply_banded_matrix_with_diagonal N bandwidth
            (transpose_matrix N (uncrompress_symmetric_banded_matrix N bandwidth P)))
          (uncrompress_symmetric_banded_matrix N bandwidth P) cl cu dg).1
        (j * ((bandwidth + 1) / 2 - 1) + (j + 1 - (bandwidth + 1) / 2 + t)
          - (j + 1 - (bandwidth + 1) / 2))
      = lt_entry ((bandwidth + 1) / 2) (cells P ((bandwidth + 1) / 2))
          (j + 1 - (bandwidth + 1) / 2 + t) j
        * rd P ((j + 1 - (bandwidth + 1) / 2 + t) * ((bandwidth + 1) / 2)))
    ∧ (∀ j u, j < N → u < min (N - 1) (j + (bandwidth + 1) / 2 - 1) - j →
      rd (extract_compressed_lower_upper_diagonal 0 N bandwidth
          (multiply_banded_matrix_with_diagonal N bandwidth
            (transpose_matrix N (uncrompress_symmetric_banded_matrix N bandwidth P)))
          (uncrompress_symmetric_banded_matrix N bandwidth P) cl cu dg).2.1
        (j * ((bandwidth + 1) / 2 - 1) + (min (N - 1) (j + (bandwidth + 1) / 2 - 1) - u)
          + (bandwidth + 1) / 2 - 2 - min (N - 1) (j + (bandwidth + 1) / 2 - 1))
      = lt_entry ((bandwidth + 1) / 2) (cells P ((bandwidth + 1) / 2)) j
          (min (N - 1) (j + (bandwidth + 1) / 2 - 1) - u))
    ∧ (∀ j, j < N →
      rd (extract_compressed_lower_upper_diagonal 0 N bandwidth
          (multiply_banded_matrix_with_diagonal N bandwidth
            (transpose_matrix N (uncrompress_symmetric_banded_matrix N bandwidth P)))
          (uncrompress_symmetric_banded_matrix N bandwidth P) cl cu dg).2.2 j
      = 1 / rd P (j * ((bandwidth + 1) / 2))) := by
  obtain ⟨hUs, hU⟩ := rd_uncrompress N bandwidth P
  have hLw : ∀ i j, i < N → j < N →
      rd (transpose_matrix N (uncrompress_symmetric_banded_matrix N bandwidth P)) (i * N + j)
        = rd (uncrompress_symmetric_banded_matrix N bandwidth P) (j * N + i) :=
    fun i j hi hj => rd_transpose_matrix N N _ hN hUs j i hj hi
  have hLws : (transpose_matrix N
      (uncrompress_symmetric_banded_matrix N bandwidth P)).size = N * N := by
    rw [size_transpose_matrix, hUs]
  obtain ⟨hLs, hL'⟩ := rd_multiply_banded N bandwidth
    (transpose_matrix N (uncrompress_symmetric_banded_matrix N bandwidth P)) hLws
  obtain ⟨e1, e2, e3⟩ := rd_extract (0 : K) N bandwidth
    (multiply_banded_matrix_with_diagonal N bandwidth
      (transpose_matrix N (uncrompress_symmetric_banded_matrix N bandwidth P)))
    (uncrompress_symmetric_banded_matrix N bandwidth P) cl cu dg hN hLs hcl hcu hdg
  generalize uncrompress_symmetric_banded_matrix N bandwidth P = U at hU hLw hL' e1 e2 e3 ⊢
  generalize transpose_matrix N U = Lw at hLw hL' e1 e2 e3 ⊢
  generalize multiply_banded_matrix_with_diagonal N bandwidth Lw = Lw' at hL' e1 e2 e3 ⊢
  generalize extract_compressed_lower_upper_diagonal 0 N bandwidth Lw' U cl cu dg = ex
    at e1 e2 e3 ⊢
  generalize (bandwidth + 1) / 2 = c at hc hU hL' e1 e2 e3 ⊢
  refine ⟨?_, ?_, ?_⟩
  · intro j t hj ht
    have hidx : j * (c - 1) + (j + 1 - c + t) - (j + 1 - c) = j * (c - 1) + t := by omega
    rw [hidx, e1 j t hj (by omega), hL' j (j + 1 - c + t) hj (by omega),
      if_pos ⟨by omega, by omega⟩, hLw j (j + 1 - c + t) hj (by omega),
      hLw (j + 1 - c + t) (j + 1 - c + t) (by omega) (by omega),
      hU (j + 1 - c + t) j (by omega) hj, hU (j + 1 - c + t) (j + 1 - c + t) (by omega) (by omega),
      if_pos ⟨by omega, by omega⟩, if_pos ⟨Nat.le_refl _, by omega⟩, Nat.sub_self]
    unfold lt_entry cells
    rw [if_neg (by omega), if_pos ⟨by omega, by omega⟩]
    simp only [Nat.add_zero]
  · intro j u hj hu
    have hmin : min (N - 1) (j + c - 1) = min (j + c - 1) (N - 1) := Nat.min_comm _ _
    rw [hmin] at hu ⊢
    have hS := Nat.min_le_left (j + c - 1) (N - 1)
    have hS2 := Nat.min_le_right (j + c - 1) (N - 1)
    have e2' := e2 j u hj hu
    generalize min (j + c - 1) (N - 1) = S at hu hS hS2 e2' ⊢
    have hidx : j * (c - 1) + (S - u) + c - 2 - S = j * (c - 1) + (c - 2 - u) := by
      generalize j * (c - 1) = X
      omega
    rw [hidx, e2', hU j (S - u) hj (by omega), if_pos ⟨by omega, by omega⟩]
    unfold lt_entry cells
    rw [if_neg (by omega), if_pos ⟨by omega, by omega⟩]
  · intro j hj
    rw [e3 j hj, hL' j j hj hj, if_neg (fun hh => by omega), hLw j j hj hj, hU j j hj hj,
      add_zero]
    rw [if_pos ⟨Nat.le_refl _, by omega⟩, Nat.sub_self, Nat.add_zero]

end BandFactor

section AxisFields
variable {K : Type} [LinearOrderedField K] [FloorRing K]

theorem sum_band_lower (f : ℕ → K) (j start : ℕ) (hstart : start ≤ j)
    (hz : ∀ k, k < start → f k = 0) :
    ∑ t in Finset.range (j - start), f (start + t) = ∑ k in Finset.range j, f k := by
  have e : j = start + (j - start) := by omega
  conv_rhs => rw [e, Finset.sum_range_add]
  rw [Finset.sum_eq_zero (fun k hk => hz k (Finset.mem_range.mp hk)), zero_add]

theorem sum_band_upper (f : ℕ → K) (j S N : ℕ) (hjS : j ≤ S) (hSN : S < N)
    (hlow : ∀ k, k < j → f k = 0) (hhigh : ∀ k, S < k → k < N → f k = 0) :
    f j + ∑ u in Finset.range (S - j), f (S - u) = ∑ k in Finset.range N, f k := by
  have h1 : ∑ k in Finset.range N, f k = ∑ k in Finset.range (S + 1), f k := by
    symm
    apply Finset.sum_subset
    · intro k hk
      exact Finset.mem_range.mpr (by have := Finset.mem_range.mp hk; omega)
    · intro k hk hnk
      have h1 := Finset.mem_range.mp hk
      have h2 : S < k := by
        by_contra hcon
        exact hnk (Finset.mem_range.mpr (by omega))
      exact hhigh k h2 h1
  have e : S + 1 = (j + 1) + (S - j) := by omega
  rw [h1, e, Finset.sum_range_add, Finset.sum_range_succ,
    Finset.sum_eq_zero (fun k hk => hlow k (Finset.mem_range.mp hk)), zero_add]
  congr 1
  rw [← Finset.sum_range_reflect]
  apply Finset.sum_congr rfl
  intro u hu
  have := Finset.mem_range.mp hu
  congr 1
  omega

theorem descale_create_axis_fields (sin : K → K) (eps : K) (mode : DescaleMode) (support : ℕ)
    (dim vi_dim bandwidth : ℕ) (b c shift : K) :
    (descale_create_axis sin eps mode support dim vi_dim bandwidth b c shift
        AxisCore.empty).weights_left_idx
      = (find_idx dim vi_dim
          (transpose_matrix vi_dim (scaling_weights sin mode support dim vi_dim b c shift))
          (resize (#[] : Array ℕ) dim, resize (#[] : Array ℕ) dim)).1
    ∧ (descale_create_axis sin eps mode support dim vi_dim bandwidth b c shift
        AxisCore.empty).weights_right_idx
      = (find_idx dim vi_dim
          (transpose_matrix vi_dim (scaling_weights sin mode support dim vi_dim b c shift))
          (resize (#[] : Array ℕ) dim, resize (#[] : Array ℕ) dim)).2 :=
  ⟨rfl, rfl⟩

end AxisFields

section AxisSolve
variable {K : Type} [LinearOrderedField K] [FloorRing K]

theorem lt_entry_low (c : ℕ) (F : ℕ → ℕ → K) (m i : ℕ) (h : i < m) : lt_entry c F m i = 0 := by
  unfold lt_entry
  rw [if_neg (by omega), if_neg (fun hh => by omega)]

theorem lt_entry_far (c : ℕ) (F : ℕ → ℕ → K) (m j : ℕ) (h : m + c ≤ j) (hc : 0 < c) :
    lt_entry c F m j = 0 := by
  unfold lt_entry
  rw [if_neg (by omega), if_neg (fun hh => by omega)]

theorem lt_entry_self (c : ℕ) (F : ℕ → ℕ → K) (m : ℕ) : lt_entry c F m m = 1 := by
  unfold lt_entry
  rw [if_pos rfl]

/-- The solve of one row with the core that `descale_create` builds from a
value-initialised `DescaleData`, for `eps = 0`: when every tap index is a
column and every pivot is non-zero, the row written by `solve_row_h` satisfies
the normal equations. -/
theorem axis_solve (sin : K → K) (mode : DescaleMode) (s N H : ℕ) (b c shift : K)
    (hs : 0 < s) (hN : 0 < N) (hH : 0 < H) (hr : taps_in_range s N H shift)
    (hp : ∀ k, k < N →
      axis_pivot sin 0 mode s N H (s * 4 - 1) b c shift AxisCore.empty k ≠ 0)
    (srcp dstp : ℕ → K) :
    normal_equations (scaling_weights sin mode s N H b c shift) N H srcp
      (solve_row_h N ((s * 4 - 1 + 1) / 2)
        ((descale_create_axis sin 0 mode s N H (s * 4 - 1) b c shift
          AxisCore.empty).weights.size / N)
        (descale_create_axis sin 0 mode s N H (s * 4 - 1) b c shift
          AxisCore.empty).weights_left_idx
        (descale_create_axis sin 0 mode s N H (s * 4 - 1) b c shift
          AxisCore.empty).weights_right_idx
        (descale_create_axis sin 0 mode s N H (s * 4 - 1) b c shift AxisCore.empty).weights
        (descale_create_axis sin 0 mode s N H (s * 4 - 1) b c shift AxisCore.empty).lower
        (descale_create_axis sin 0 mode s N H (s * 4 - 1) b c shift AxisCore.empty).upper
        (descale_create_axis sin 0 mode s N H (s * 4 - 1) b c shift AxisCore.empty).diagonal
        srcp dstp) := by
  have hW := size_scaling_weights sin mode s N H b c shift
  have hband := scaling_weights_band sin mode s N H b c shift hr
  unfold axis_pivot at hp
  unfold descale_create_axis
  dsimp only [AxisCore.empty] at hp ⊢
  generalize scaling_weights sin mode s N H b c shift = W at hW hband hp ⊢
  have hcval : (s * 4 - 1 + 1) / 2 = 2 * s := by omega
  have hc : 0 < (s * 4 - 1 + 1) / 2 := by omega
  generalize s * 4 - 1 = bw at hcval hc hp ⊢
  -- the stages of the construction
  have hTs : (transpose_matrix H W).size = N * H := by rw [size_transpose_matrix, hW]
  have hT : ∀ i k, i < N → k < H → rd (transpose_matrix H W) (i * H + k) = rd W (k * N + i) :=
    fun i k hi hk => rd_transpose_matrix H N W hH (by rw [hW, Nat.mul_comm]) k i hk hi
  obtain ⟨_, hM⟩ := normal_matrix_entry N H W hN hH hW
  have hbr := fun i hi f hf => idx_bracket N H (transpose_matrix H W) i hi f hf
  obtain ⟨hLsz, _, _⟩ := find_idx_spec N H (transpose_matrix H W) (resize (#[] : Array ℕ) N)
    (resize (#[] : Array ℕ) N) (size_resize _ _) (size_resize _ _)
  generalize transpose_matrix H W = T at hTs hT hM hbr hLsz hp ⊢
  generalize (find_idx N H T (resize (#[] : Array ℕ) N, resize (#[] : Array ℕ) N)).1 = L
    at hM hbr hLsz hp ⊢
  generalize (find_idx N H T (resize (#[] : Array ℕ) N, resize (#[] : Array ℕ) N)).2 = R
    at hM hbr hp ⊢
  obtain ⟨mx, hcs, hmxb, hcm⟩ := rd_compress_matrix N H L R T hN hTs
  have hcols : (compress_matrix N L R T).size / N = mx := by
    rw [hcs]; exact Nat.mul_div_cancel_left mx hN
  rw [hcols]
  obtain ⟨hws, hwr, _⟩ := loop2_wr N (fun _ => mx) (fun i j => i * mx + j)
    (fun i j => rd (compress_matrix N L R T) (i * mx + j)) (resize (#[] : Array K) (N * mx))
    (by
      intro a b a' b' _ hb _ hb' e
      exact idx_inj a b a' b' mx hb hb' e)
    (by
      intro a b ha hb
      rw [size_resize]
      exact idx_lt a b N mx ha hb)
  generalize (loop (fun i v => loop (fun j v => wr v ((fun i j => i * mx + j) i j)
    ((fun i j => rd (compress_matrix N L R T) (i * mx + j)) i j)) ((fun _ => mx) i) v) N
    (resize (#[] : Array K) (N * mx))) = Wout at hws hwr ⊢
  have hwcols : Wout.size / N = mx := by
    rw [hws, size_resize]; exact Nat.mul_div_cancel_left mx hN
  rw [hwcols]
  have hfac := band_factor N bw (multiply_sparse_matrices N L R T W)
    (fun i j => ∑ k in Finset.range H, rd W (k * N + i) * rd W (k * N + j)) hc hM
    (fun i j hi hj hij =>
      Finset.sum_eq_zero (fun k _ => hband k i j hi hj (by omega))) hp
  obtain ⟨sa1, sa2, sa3⟩ := solver_arrays N bw
    (banded_cholesky_decomposition 0 N bw
      (compress_symmetric_banded_matrix N bw (multiply_sparse_matrices N L R T W)))
    (resize (#[] : Array K) (N * ((bw + 1) / 2 - 1)))
    (resize (#[] : Array K) (N * ((bw + 1) / 2 - 1))) (resize (#[] : Array K) N) hN hc
    (size_resize _ _) (size_resize _ _) (size_resize _ _)
  generalize banded_cholesky_decomposition 0 N bw
    (compress_symmetric_banded_matrix N bw (multiply_sparse_matrices N L R T W)) = P
    at hp hfac sa1 sa2 sa3 ⊢
  generalize extract_compressed_lower_upper_diagonal 0 N bw
    (multiply_banded_matrix_with_diagonal N bw
      (transpose_matrix N (uncrompress_symmetric_banded_matrix N bw P)))
    (uncrompress_symmetric_banded_matrix N bw P)
    (resize (#[] : Array K) (N * ((bw + 1) / 2 - 1)))
    (resize (#[] : Array K) (N * ((bw + 1) / 2 - 1))) (resize (#[] : Array K) N) = ex
    at sa1 sa2 sa3 ⊢
  obtain ⟨z, hz1, hz2, _⟩ := solve_row_h_spec N ((bw + 1) / 2) mx L R Wout ex.1 ex.2.1 ex.2.2
    srcp dstp
  generalize solve_row_h N ((bw + 1) / 2) mx L R Wout ex.1 ex.2.1 ex.2.2 srcp dstp = x
    at hz2 ⊢
  generalize (bw + 1) / 2 = cc at hcval hc hp hfac sa1 sa2 sa3 hz1 hz2 ⊢
  -- the algebra
  unfold normal_equations
  apply ldl_solve N (fun i j => ∑ k in Finset.range H, rd W (k * N + i) * rd W (k * N + j))
    (lt_entry cc (cells P cc)) (fun m => rd P (m * cc))
    (fun i => ∑ k in Finset.range H, rd W (k * N + i) * srcp k) z x
  · -- M = L D L'
    have hup : ∀ i j, i ≤ j → j < N →
        (∑ k in Finset.range H, rd W (k * N + i) * rd W (k * N + j))
          = ∑ m in Finset.range N,
              lt_entry cc (cells P cc) m i * rd P (m * cc) * lt_entry cc (cells P cc) m j := by
      intro i j hij hj
      have := hfac i j hij hj
      dsimp only at this
      rw [this]
      apply Finset.sum_subset
      · intro m hm
        exact Finset.mem_range.mpr (by have := Finset.mem_range.mp hm; omega)
      · intro m _ hnm
        have : i < m := by
          by_contra hcon
          exact hnm (Finset.mem_range.mpr (by omega))
        rw [lt_entry_low cc _ m i this, zero_mul, zero_mul]
    intro i j hi hj
    by_cases hij : i ≤ j
    · exact hup i j hij hj
    · have h1 : (∑ k in Finset.range H, rd W (k * N + i) * rd W (k * N + j))
          = ∑ k in Finset.range H, rd W (k * N + j) * rd W (k * N + i) :=
        Finset.sum_congr rfl (fun k _ => mul_comm _ _)
      rw [h1, hup j i (by omega) hi]
      apply Finset.sum_congr rfl
      intro m _
      ring
  · exact fun m i h => lt_entry_low cc _ m i h
  · exact fun i => lt_entry_self cc _ i
  · -- forward substitution
    intro j hj
    have hy : ∑ t in Finset.range (rd R j - rd L j),
          rd Wout (j * mx + (rd L j + t) - rd L j) * srcp (rd L j + t)
        = ∑ k in Finset.range H, rd W (k * N + j) * srcp k := by
      have h1 : ∀ t ∈ Finset.range (rd R j - rd L j),
          rd Wout (j * mx + (rd L j + t) - rd L j) * srcp (rd L j + t)
            = (fun k => rd T (j * H + k) * srcp k) (rd L j + t) := by
        intro t ht
        have ht' := Finset.mem_range.mp ht
        have hb := hmxb j (by rw [hLsz]; exact hj)
        have e : j * mx + (rd L j + t) - rd L j = j * mx + t := by omega
        have := hwr j t hj (by omega)
        rw [e, this, hcm j t hj (by omega)]
        dsimp only
        rw [Nat.add_assoc]
      rw [Finset.sum_congr rfl h1,
        hbr j hj (fun k => rd T (j * H + k) * srcp k)
          (fun k _ hz => by dsimp only; rw [hz, zero_mul])]
      apply Finset.sum_congr rfl
      intro k hk
      dsimp only
      rw [hT j k hj (Finset.mem_range.mp hk)]
    have hlo : ∑ t in Finset.range (j - (j + 1 - cc)),
          rd ex.1 (j * (cc - 1) + (j + 1 - cc + t) - (j + 1 - cc)) * z (j + 1 - cc + t)
        = ∑ k in Finset.range j, lt_entry cc (cells P cc) k j * rd P (k * cc) * z k := by
      have h1 : ∀ t ∈ Finset.range (j - (j + 1 - cc)),
          rd ex.1 (j * (cc - 1) + (j + 1 - cc + t) - (j + 1 - cc)) * z (j + 1 - cc + t)
            = (fun k => lt_entry cc (cells P cc) k j * rd P (k * cc) * z k) (j + 1 - cc + t) := by
        intro t ht
        rw [sa1 j t hj (Finset.mem_range.mp ht)]
      rw [Finset.sum_congr rfl h1]
      exact sum_band_lower (fun k => lt_entry cc (cells P cc) k j * rd P (k * cc) * z k) j
        (j + 1 - cc) (by omega)
        (fun k hk => by
          dsimp only
          rw [lt_entry_far cc _ k j (by omega) hc, zero_mul, zero_mul])
    rw [hz1 j hj, hy, hlo, sa3 j hj]
    field_simp [hp j hj]
  · -- backward substitution
    intro j hj
    have hup : ∑ u in Finset.range (min (N - 1) (j + cc - 1) - j),
          rd ex.2.1 (j * (cc - 1) + (min (N - 1) (j + cc - 1) - u) + cc - 2
              - min (N - 1) (j + cc - 1)) * x (min (N - 1) (j + cc - 1) - u)
        = ∑ u in Finset.range (min (N - 1) (j + cc - 1) - j),
            (fun k => lt_entry cc (cells P cc) j k * x k) (min (N - 1) (j + cc - 1) - u) := by
      apply Finset.sum_congr rfl
      intro u hu
      rw [sa2 j u hj (Finset.mem_range.mp hu)]
    have hx := hz2 j hj
    rw [hup] at hx
    have hsum := sum_band_upper (fun k => lt_entry cc (cells P cc) j k * x k) j
      (min (N - 1) (j + cc - 1)) N (by omega) (by omega)
      (fun k hk => by
        dsimp only
        rw [lt_entry_low cc _ j k hk, zero_mul])
      (fun k hk hkN => by
        dsimp only
        rw [lt_entry_far cc _ j k (by omega) hc, zero_mul])
    rw [← hsum]
    dsimp only
    rw [lt_entry_self, one_mul, hx]
    ring

end AxisSolve

section PlaneRow
variable {K : Type} [LinearOrderedField K] [FloorRing K]

/-- Each row that `process_plane_h` writes is the result of `solve_row_h` on
the corresponding source row, when the destination rows do not overlap. -/
theorem process_plane_h_row {α : Type} [Zero α] [Add α] [Sub α] [Mul α]
    (width current_height bandwidth : ℕ) (L R : Array ℕ)
    (weights lower upper diagonal : Array α) (src_stride dst_stride : ℕ) (srcp dstp : ℕ → α)
    (hstride : width ≤ dst_stride) (r : ℕ) (hr : r < current_height) :
    ∃ mem : ℕ → α, ∀ j, j < width →
      process_plane_h width current_height bandwidth L R weights lower upper diagonal
          src_stride dst_stride srcp dstp (r * dst_stride + j)
        = solve_row_h width ((bandwidth + 1) / 2) (weights.size / width) L R weights lower upper
            diagonal (fun k => srcp (r * src_stride + k)) (fun j => mem (r * dst_stride + j)) j := by
  unfold process_plane_h
  dsimp only
  have key := loop_inv
    (fun (I : ℕ) (m : ℕ → α) => ∀ r, r < I → ∃ mem : ℕ → α, ∀ j, j < width →
      m (r * dst_stride + j)
        = solve_row_h width ((bandwidth + 1) / 2) (weights.size / width) L R weights lower upper
            diagonal (fun k => srcp (r * src_stride + k)) (fun j => mem (r * dst_stride + j)) j)
    (fun i mem =>
      fun n => if i * dst_stride ≤ n then
        solve_row_h width ((bandwidth + 1) / 2) (weights.size / width) L R weights lower upper
          diagonal (fun k => srcp (i * src_stride + k)) (fun j => mem (i * dst_stride + j))
          (n - i * dst_stride)
      else mem n)
    current_height dstp ?_ ?_
  · exact key r hr
  · intro r hr
    exact absurd hr (Nat.not_lt_zero r)
  · intro I _ m hm r hr
    by_cases hrI : r = I
    · subst hrI
      refine ⟨m, ?_⟩
      intro j _
      dsimp only
      rw [if_pos (Nat.le_add_right _ _), Nat.add_sub_cancel_left]
    · obtain ⟨mem, hmem⟩ := hm r (by omega)
      refine ⟨mem, ?_⟩
      intro j hj
      dsimp only
      have hlt : r * dst_stride + j < I * dst_stride :=
        idx_lt r j I dst_stride (by omega) (by omega)
      rw [if_neg (by omega)]
      exact hmem j hj

theorem normal_equations_congr (A : Array K) (N H : ℕ) (b x x' : ℕ → K)
    (h : ∀ j, j < N → x j = x' j) (hx : normal_equations A N H b x') :
    normal_equations A N H b x := by
  intro i hi
  rw [← hx i hi]
  apply Finset.sum_congr rfl
  intro j hj
  rw [h j (Finset.mem_range.mp hj)]

/-- The horizontal branch of `descale_create` leaves the dimensions alone and
stores the result of `descale_create_axis` in the `_h` fields. -/
theorem descale_create_h (sin : K → K) (eps : K) (mode : DescaleMode) (support : ℕ)
    (d : DescaleData K) (hph : d.process_h = true) :
    (descale_create sin eps mode support d).width = d.width
    ∧ (descale_create sin eps mode support d).bandwidth = d.bandwidth
    ∧ (descale_create sin eps mode support d).h
      = descale_create_axis sin eps mode support d.width d.vi_width d.bandwidth d.b d.c
          d.shift_h d.h := by
  unfold descale_create
  dsimp only
  rw [if_pos hph]
  by_cases hv : d.process_v = true
  · rw [if_pos hv]
    exact ⟨rfl, rfl, rfl⟩
  · rw [if_neg hv]
    exact ⟨rfl, rfl, rfl⟩

/-- The row written by the horizontal pass of a core built from the data of a
`*_create` function satisfies the normal equations, when every tap index is a
column and every pivot is non-zero. -/
theorem solved_row_normal_equations (sin : K → K) (mode : DescaleMode)
    (support vi_width vi_height width height taps : ℕ) (b c shift_h shift_v : K)
    (hs : 0 < support) (hvi : 0 < vi_width) (hph : width ≠ vi_width)
    (hr : taps_in_range support width vi_width shift_h)
    (hp : ∀ k, k < width →
      axis_pivot sin 0 mode support width vi_width (support * 4 - 1) b c shift_h
        AxisCore.empty k ≠ 0)
    (current_height src_stride dst_stride : ℕ) (hstride : width ≤ dst_stride)
    (srcp dstp : ℕ → K) (r : ℕ) (hrow : r < current_height) :
    normal_equations (scaling_weights sin mode support width vi_width b c shift_h)
      width vi_width (fun k => srcp (r * src_stride + k))
      (solved_row
        (descale_create sin 0 mode support
          (fresh_data support vi_width vi_height width height taps b c shift_h shift_v))
        current_height src_stride dst_stride srcp dstp r) := by
  by_cases hw : width = 0
  · intro i hi
    omega
  have hw' : 0 < width := Nat.pos_of_ne_zero hw
  obtain ⟨e1, e2, e3⟩ := descale_create_h sin 0 mode support
    (fresh_data support vi_width vi_height width height taps b c shift_h shift_v)
    (by simp [fresh_data, hph])
  unfold solved_row
  rw [e1, e2, e3]
  have f1 : (fresh_data support vi_width vi_height width height taps b c shift_h shift_v).width
      = width := rfl
  have f2 : (fresh_data support vi_width vi_height width height taps b c shift_h
      shift_v).vi_width = vi_width := rfl
  have f3 : (fresh_data support vi_width vi_height width height taps b c shift_h
      shift_v).bandwidth = support * 4 - 1 := rfl
  have f4 : (fresh_data support vi_width vi_height width height taps b c shift_h shift_v).b
      = b := rfl
  have f5 : (fresh_data support vi_width vi_height width height taps b c shift_h shift_v).c
      = c := rfl
  have f6 : (fresh_data support vi_width vi_height width height taps b c shift_h
      shift_v).shift_h = shift_h := rfl
  have f7 : (fresh_data support vi_width vi_height width height taps b c shift_h shift_v).h
      = AxisCore.empty := rfl
  rw [f1, f2, f3, f4, f5, f6, f7]
  obtain ⟨mem, hmem⟩ := process_plane_h_row width current_height (support * 4 - 1)
    (descale_create_axis sin 0 mode support width vi_width (support * 4 - 1) b c shift_h
      AxisCore.empty).weights_left_idx
    (descale_create_axis sin 0 mode support width vi_width (support * 4 - 1) b c shift_h
      AxisCore.empty).weights_right_idx
    (descale_create_axis sin 0 mode support width vi_width (support * 4 - 1) b c shift_h
      AxisCore.empty).weights
    (descale_create_axis sin 0 mode support width vi_width (support * 4 - 1) b c shift_h
      AxisCore.empty).lower
    (descale_create_axis sin 0 mode support width vi_width (support * 4 - 1) b c shift_h
      AxisCore.empty).upper
    (descale_create_axis sin 0 mode support width vi_width (support * 4 - 1) b c shift_h
      AxisCore.empty).diagonal
    src_stride dst_stride srcp dstp hstride r hrow
  refine normal_equations_congr _ _ _ _ _ _ hmem ?_
  exact axis_solve sin mode support width vi_width b c shift_h hs hw' hvi hr hp
    (fun k => srcp (r * src_stride + k)) (fun j => mem (r * dst_stride + j))

end PlaneRow

section NormalEquations
variable {K : Type} [LinearOrderedField K] [FloorRing K]

/-- C1 fails on the code: for the bilinear core built for high-res length 4 and
low-res length 3 with shift 3 (exact arithmetic, `eps = 0`), every pivot is
non-zero, but the row that `process_plane_h` writes for the input `[1, 0, 0, 0]`
does not satisfy the normal equations: a tap of row 3 has index `-1`, so `A'A`
has a non-zero entry outside the band that the factoriser keeps. -/
theorem normal_equations_fail_out_of_range :
    (∀ k, k < 3 →
      axis_pivot no_sin (0 : ℚ) .bilinear 1 3 4 3 0 0 3 AxisCore.empty k ≠ 0)
    ∧ ¬ taps_in_range 1 3 4 (3 : ℚ)
    ∧ ¬ normal_equations (scaling_weights no_sin .bilinear 1 3 4 (0 : ℚ) 0 3) 3 4 impulse_input
        (solved_row (descale_create no_sin 0 .bilinear 1 (fresh_data 1 4 1 3 1 0 0 0 3 0))
          1 4 3 impulse_input (fun _ => 0) 0) := by
  decide!

/-- The normal equations where the indices are in range: for every core built by
`descale_create` from the data of a
`*_create` function (exact arithmetic, `eps = 0`) such that every tap index
computed by `scaling_weights` is a column of `A` and every pivot `D_kk` is
non-zero, and every input row `b`, the row `x` that `process_plane_h` writes
satisfies the normal equations `(A'A)·x = A'·b`. -/
theorem process_plane_h_normal_equations (sin : K → K) (mode : DescaleMode)
    (support vi_width vi_height width height taps : ℕ) (b c shift_h shift_v : K)
    (hs : 0 < support) (hvi : 0 < vi_width) (hph : width ≠ vi_width)
    (hr : taps_in_range support width vi_width shift_h)
    (hp : ∀ k, k < width →
      axis_pivot sin 0 mode support width vi_width (support * 4 - 1) b c shift_h
        AxisCore.empty k ≠ 0)
    (current_height src_stride dst_stride : ℕ) (hstride : width ≤ dst_stride)
    (srcp dstp : ℕ → K) (r : ℕ) (hrow : r < current_height) :
    normal_equations (scaling_weights sin mode support width vi_width b c shift_h)
      width vi_width (fun k => srcp (r * src_stride + k))
      (solved_row
        (descale_create sin 0 mode support
          (fresh_data support vi_width vi_height width height taps b c shift_h shift_v))
        current_height src_stride dst_stride srcp dstp r) := by
  exact solved_row_normal_equations sin mode support vi_width vi_height width height taps
    b c shift_h shift_v hs hvi hph hr hp current_height src_stride dst_stride hstride
    srcp dstp r hrow

/-- An instance of `process_plane_h_normal_equations`: the bilinear core for high-res length 4 and
low-res length 2, no shift, applied to the row `[1, 3, 5, 7]`. -/
theorem process_plane_h_normal_equations_witness :
    0 < 1 ∧ 0 < 4 ∧ 2 ≠ 4 ∧ taps_in_range 1 2 4 (0 : ℚ)
    ∧ (∀ k, k < 2 →
        axis_pivot no_sin (0 : ℚ) .bilinear 1 2 4 (1 * 4 - 1) 0 0 0 AxisCore.empty k ≠ 0)
    ∧ 2 ≤ 2 ∧ 0 < 1
    ∧ normal_equations (scaling_weights no_sin .bilinear 1 2 4 (0 : ℚ) 0 0) 2 4
        (fun k => scenario1_input (0 * 4 + k))
        (solved_row (descale_create no_sin 0 .bilinear 1 (fresh_data 1 4 1 2 1 0 0 0 0 0))
          1 4 2 scenario1_input (fun _ => 0) 0) :=
  ⟨by decide, by decide, by decide, by decide!, by decide!, by decide, by decide,
    process_plane_h_normal_equations no_sin .bilinear 1 4 1 2 1 0 0 0 0 0 (by decide)
      (by decide) (by decide) (by decide!) (by decide!) 1 4 2 (by decide) scenario1_input
      (fun _ => 0) 0 (by decide)⟩

end NormalEquations

section SchurEntries
variable {K : Type} [LinearOrderedField K] [FloorRing K]

/-- One elimination step on a row that is not yet eliminated. -/
theorem chol_iter_step_row (rows c : ℕ) (B : ℕ → ℕ → K) (k r t : ℕ) (hr : k < r)
    (hrt : r + t < rows) (ht : t < c) :
    chol_iter 0 rows c (k + 1) B r t
      = chol_iter 0 rows c k B r t
        - chol_u 0 rows c B k (r - k) / chol_iter 0 rows c k B k 0
          * chol_u 0 rows c B k (r - k + t) := by
  show chol_step 0 rows c k (chol_iter 0 rows c k B) r t = _
  unfold chol_step
  rw [if_neg (by omega)]
  by_cases hcond : k < r ∧ r ≤ min (k + c - 1) (rows - 1)
      ∧ r - k + t ≤ min (k + c - 1) (rows - 1) - k
  · rw [if_pos hcond, add_zero]
    unfold chol_u
    rw [if_pos (by omega), if_pos (by omega)]
  · rw [if_neg hcond]
    have hzero : chol_u 0 rows c B k (r - k) / chol_iter 0 rows c k B k 0
        * chol_u 0 rows c B k (r - k + t) = 0 := by
      by_cases h1 : r - k < c
      · have h2 : ¬ r - k + t < c := by
          intro h2
          apply hcond
          omega
        unfold chol_u
        rw [if_neg h2, mul_zero]
      · unfold chol_u
        rw [if_neg h1, zero_div, zero_mul]
    rw [hzero, sub_zero]

theorem schur_entry_symm (rows c : ℕ) (B : ℕ → ℕ → K) (k i j : ℕ) :
    schur_entry rows c B k i j = schur_entry rows c B k j i := by
  unfold schur_entry
  by_cases h1 : i ≤ j
  · by_cases h2 : j ≤ i
    · have : i = j := by omega
      subst this; rfl
    · rw [if_pos h1, if_neg h2]
  · have h2 : j ≤ i := by omega
    rw [if_neg h1, if_pos h2]

theorem schur_entry_pivot_row (rows c : ℕ) (B : ℕ → ℕ → K) (k i : ℕ) (hki : k ≤ i) :
    schur_entry rows c B k k i = chol_u 0 rows c B k (i - k) := by
  unfold schur_entry chol_u
  rw [if_pos hki]

theorem schur_entry_diag (rows c : ℕ) (B : ℕ → ℕ → K) (k : ℕ) (hc : 0 < c) :
    schur_entry rows c B k k k = chol_iter 0 rows c k B k 0 := by
  unfold schur_entry
  rw [if_pos (Nat.le_refl k), Nat.sub_self, if_pos hc]

/-- One elimination step on the symmetric matrix: the Schur complement. -/
theorem schur_entry_step (rows c : ℕ) (B : ℕ → ℕ → K) (hc : 0 < c) (k i j : ℕ)
    (hi : k < i) (hj : k < j) (hiN : i < rows) (hjN : j < rows) :
    schur_entry rows c B (k + 1) i j
      = schur_entry rows c B k i j
        - schur_entry rows c B k k i * schur_entry rows c B k k j
          / schur_entry rows c B k k k := by
  have main : ∀ a b, k < a → a ≤ b → b < rows →
      schur_entry rows c B (k + 1) a b
        = schur_entry rows c B k a b
          - schur_entry rows c B k k a * schur_entry rows c B k k b
            / schur_entry rows c B k k k := by
    intro a b ha hab hb
    rw [schur_entry_pivot_row rows c B k a (by omega),
      schur_entry_pivot_row rows c B k b (by omega), schur_entry_diag rows c B k hc]
    unfold schur_entry
    rw [if_pos hab, if_pos hab]
    by_cases hband : b - a < c
    · rw [if_pos hband, if_pos hband, chol_iter_step_row rows c B k a (b - a) ha (by omega) hband]
      have e : a - k + (b - a) = b - k := by omega
      rw [e, div_mul_eq_mul_div]
    · rw [if_neg hband, if_neg hband]
      have h0 : chol_u 0 rows c B k (b - k) = 0 := by
        unfold chol_u
        rw [if_neg (by omega)]
      rw [h0, mul_zero, zero_div, sub_zero]
  by_cases hij : i ≤ j
  · exact main i j hi hij hjN
  · rw [schur_entry_symm rows c B (k + 1) i j, schur_entry_symm rows c B k i j,
      main j i hj (by omega) hiN, mul_comm (schur_entry rows c B k k j)]

end SchurEntries

section QuadForm
variable {K : Type} [LinearOrderedField K] [FloorRing K]

theorem quad_form_congr (n : ℕ) (S S' : ℕ → ℕ → K) (v : ℕ → K)
    (h : ∀ i j, i < n → j < n → S i j * v i * v j = S' i j * v i * v j) :
    quad_form n S v = quad_form n S' v := by
  unfold quad_form
  apply Finset.sum_congr rfl
  intro i hi
  apply Finset.sum_congr rfl
  intro j hj
  exact h i j (Finset.mem_range.mp hi) (Finset.mem_range.mp hj)

/-- The quadratic form after coordinate `k` of `v` (which is `0`) is set to `t`. -/
theorem quad_form_shift (n : ℕ) (S : ℕ → ℕ → K) (hS : ∀ i j, S i j = S j i) (k : ℕ)
    (hk : k < n) (v : ℕ → K) (hvk : v k = 0) (t : K) :
    quad_form n S (fun i => if i = k then t else v i)
      = quad_form n S v + 2 * t * (∑ j in Finset.range n, S k j * v j) + t ^ 2 * S k k := by
  have hv' : ∀ i, (if i = k then t else v i) = v i + t * (if i = k then 1 else 0) := by
    intro i
    by_cases h : i = k
    · subst h; rw [if_pos rfl, if_pos rfl, hvk]; ring
    · rw [if_neg h, if_neg h]; ring
  have hterm : ∀ i j : ℕ,
      S i j * (v i + t * (if i = k then 1 else 0)) * (v j + t * (if j = k then 1 else 0))
        = S i j * v i * v j + t * ((if i = k then 1 else 0) * (S i j * v j))
          + t * ((if j = k then 1 else 0) * (S i j * v i))
          + t ^ 2 * ((if i = k then 1 else 0) * ((if j = k then 1 else 0) * S i j)) := by
    intro i j; ring
  unfold quad_form
  simp only [hv', hterm, Finset.sum_add_distrib, ← Finset.mul_sum]
  have hkm : k ∈ Finset.range n := Finset.mem_range.mpr hk
  have s1 : ∑ i in Finset.range n, (if i = k then (1 : K) else 0)
      * ∑ j in Finset.range n, S i j * v j = ∑ j in Finset.range n, S k j * v j := by
    rw [Finset.sum_eq_single k]
    · rw [if_pos rfl, one_mul]
    · intro i _ hik; rw [if_neg hik, zero_mul]
    · intro h; exact absurd hkm h
  have s2 : ∑ i in Finset.range n, ∑ j in Finset.range n,
      (if j = k then (1 : K) else 0) * (S i j * v i) = ∑ j in Finset.range n, S k j * v j := by
    apply Finset.sum_congr rfl
    intro i _
    rw [Finset.sum_eq_single k]
    · rw [if_pos rfl, one_mul, hS i k]
    · intro j _ hjk; rw [if_neg hjk, zero_mul]
    · intro h; exact absurd hkm h
  have s3 : ∑ i in Finset.range n, (if i = k then (1 : K) else 0)
      * ∑ j in Finset.range n, (if j = k then (1 : K) else 0) * S i j = S k k := by
    rw [Finset.sum_eq_single k]
    · rw [if_pos rfl, one_mul, Finset.sum_eq_single k]
      · rw [if_pos rfl, one_mul]
      · intro j _ hjk; rw [if_neg hjk, zero_mul]
      · intro h; exact absurd hkm h
    · intro i _ hik; rw [if_neg hik, zero_mul]
    · intro h; exact absurd hkm h
  rw [s1, s2, s3]
  ring

/-- The quadratic form of the next Schur complement on a vector that vanishes
up to coordinate `k`. -/
theorem quad_form_schur (rows c : ℕ) (B : ℕ → ℕ → K) (hc : 0 < c) (k : ℕ) (v : ℕ → K)
    (hv : ∀ i, i ≤ k → v i = 0) :
    quad_form rows (schur_entry rows c B (k + 1)) v
      = quad_form rows (schur_entry rows c B k) v
        - (∑ j in Finset.range rows, schur_entry rows c B k k j * v j) ^ 2
          / schur_entry rows c B k k k := by
  have h1 : quad_form rows (schur_entry rows c B (k + 1)) v
      = quad_form rows (fun i j => schur_entry rows c B k i j
          - schur_entry rows c B k k i * schur_entry rows c B k k j
            / schur_entry rows c B k k k) v := by
    apply quad_form_congr
    intro i j hi hj
    by_cases hik : i ≤ k
    · rw [hv i hik]; ring
    · by_cases hjk : j ≤ k
      · rw [hv j hjk]; ring
      · rw [schur_entry_step rows c B hc k i j (by omega) (by omega) hi hj]
  rw [h1]
  unfold quad_form
  have hterm : ∀ i j : ℕ,
      (schur_entry rows c B k i j
          - schur_entry rows c B k k i * schur_entry rows c B k k j
            / schur_entry rows c B k k k) * v i * v j
        = schur_entry rows c B k i j * v i * v j
          - (schur_entry rows c B k k i * v i) * (schur_entry rows c B k k j * v j)
            / schur_entry rows c B k k k := by
    intro i j; ring
  simp only [hterm, Finset.sum_sub_distrib]
  congr 1
  rw [pow_two, Finset.sum_mul_sum, Finset.sum_div]
  apply Finset.sum_congr rfl
  intro i _
  rw [Finset.sum_div]

/-- Positive definiteness is inherited by the Schur complements, so every
pivot is positive. -/
theorem pivot_pos (rows c : ℕ) (B : ℕ → ℕ → K) (hc : 0 < c)
    (hQ : ∀ v : ℕ → K, (∃ i, i < rows ∧ v i ≠ 0) →
      0 < quad_form rows (schur_entry rows c B 0) v) :
    ∀ k, k ≤ rows →
      (∀ m, m < k → 0 < chol_iter 0 rows c m B m 0)
      ∧ ∀ v : ℕ → K, (∀ i, i < k → v i = 0) → (∃ i, i < rows ∧ v i ≠ 0) →
        0 < quad_form rows (schur_entry rows c B k) v := by
  intro k
  induction k with
  | zero =>
    intro _
    exact ⟨fun m hm => absurd hm (Nat.not_lt_zero m), fun v _ hne => hQ v hne⟩
  | succ n ih =>
    intro hn
    obtain ⟨ih1, ih2⟩ := ih (by omega)
    have hnr : n < rows := by omega
    -- the pivot is the quadratic form at the unit vector
    have hD : 0 < schur_entry rows c B n n n := by
      have h : 0 < quad_form rows (schur_entry rows c B n)
          (fun i => if i = n then (1 : K) else (fun _ => (0 : K)) i) :=
        ih2 (fun i => if i = n then 1 else 0)
          (fun i hi => by dsimp only; rw [if_neg (by omega)])
          ⟨n, hnr, by dsimp only; rw [if_pos rfl]; exact one_ne_zero⟩
      have e := quad_form_shift rows (schur_entry rows c B n)
        (schur_entry_symm rows c B n) n hnr (fun _ => 0) rfl 1
      have z : quad_form rows (schur_entry rows c B n) (fun _ => (0 : K)) = 0 := by
        unfold quad_form
        simp
      rw [e, z] at h
      simpa using h
    refine ⟨?_, ?_⟩
    · intro m hm
      by_cases hmn : m = n
      · subst hmn
        rw [← schur_entry_diag rows c B m hc]
        exact hD
      · exact ih1 m (by omega)
    · intro v hv hne
      rw [quad_form_schur rows c B hc n v (fun i hi => hv i (by omega))]
      have hvn : v n = 0 := hv n (by omega)
      have e := quad_form_shift rows (schur_entry rows c B n)
        (schur_entry_symm rows c B n) n hnr v hvn
        (-(∑ j in Finset.range rows, schur_entry rows c B n n j * v j)
          / schur_entry rows c B n n n)
      have hpos := ih2 (fun i => if i = n then
          -(∑ j in Finset.range rows, schur_entry rows c B n n j * v j)
            / schur_entry rows c B n n n else v i)
        (fun i hi => by dsimp only; rw [if_neg (by omega)]; exact hv i (by omega))
        (by
          obtain ⟨i, hi, hvi⟩ := hne
          refine ⟨i, hi, ?_⟩
          have : i ≠ n := fun h => hvi (h ▸ hvn)
          dsimp only
          rw [if_neg this]
          exact hvi)
      rw [e] at hpos
      have hDne : schur_entry rows c B n n n ≠ 0 := ne_of_gt hD
      have calc1 : quad_form rows (schur_entry rows c B n) v
          + 2 * (-(∑ j in Finset.range rows, schur_entry rows c B n n j * v j)
              / schur_entry rows c B n n n)
            * (∑ j in Finset.range rows, schur_entry rows c B n n j * v j)
          + (-(∑ j in Finset.range rows, schur_entry rows c B n n j * v j)
              / schur_entry rows c B n n n) ^ 2 * schur_entry rows c B n n n
          = quad_form rows (schur_entry rows c B n) v
            - (∑ j in Finset.range rows, schur_entry rows c B n n j * v j) ^ 2
              / schur_entry rows c B n n n := by
        field_simp
        ring
      rw [calc1] at hpos
      exact hpos

end QuadForm

section PivotPositivity
variable {K : Type} [LinearOrderedField K] [FloorRing K]

/-- The quadratic form of a Gram matrix `A'A` is a sum of squares. -/
theorem gram_quad_form (N H : ℕ) (A : ℕ → ℕ → K) (v : ℕ → K) :
    quad_form N (fun i j => ∑ h in Finset.range H, A h i * A h j) v
      = ∑ h in Finset.range H, (∑ i in Finset.range N, A h i * v i) ^ 2 := by
  unfold quad_form
  have h1 : ∀ i j : ℕ, (∑ h in Finset.range H, A h i * A h j) * v i * v j
      = ∑ h in Finset.range H, (A h i * v i) * (A h j * v j) := by
    intro i j
    rw [Finset.sum_mul, Finset.sum_mul]
    apply Finset.sum_congr rfl
    intro h _
    ring
  have h3 : ∀ h : ℕ, (∑ i in Finset.range N, A h i * v i) ^ 2
      = ∑ i in Finset.range N, ∑ j in Finset.range N, (A h i * v i) * (A h j * v j) := by
    intro h
    rw [pow_two, Finset.sum_mul_sum]
  simp only [h1, h3]
  symm
  rw [Finset.sum_comm]
  apply Finset.sum_congr rfl
  intro i _
  rw [Finset.sum_comm]

/-- A Gram matrix with trivial kernel is positive definite. -/
theorem gram_pos (N H : ℕ) (A : ℕ → ℕ → K)
    (hinv : ∀ v : ℕ → K,
      (∀ i, i < N → ∑ j in Finset.range N, (∑ h in Finset.range H, A h i * A h j) * v j = 0) →
      ∀ j, j < N → v j = 0)
    (v : ℕ → K) (hv : ∃ i, i < N ∧ v i ≠ 0) :
    0 < quad_form N (fun i j => ∑ h in Finset.range H, A h i * A h j) v := by
  rw [gram_quad_form]
  have hnn : ∀ h ∈ Finset.range H, 0 ≤ (∑ i in Finset.range N, A h i * v i) ^ 2 :=
    fun h _ => sq_nonneg _
  rcases (Finset.sum_nonneg hnn).lt_or_eq with hlt | heq
  · exact hlt
  · exfalso
    have hz := (Finset.sum_eq_zero_iff_of_nonneg hnn).mp heq.symm
    have hAv : ∀ h, h < H → ∑ i in Finset.range N, A h i * v i = 0 := by
      intro h hh
      have := hz h (Finset.mem_range.mpr hh)
      exact pow_eq_zero_iff (two_ne_zero) |>.mp this
    obtain ⟨i, hi, hvi⟩ := hv
    apply hvi
    apply hinv v _ i hi
    intro i' _
    have h1 : ∀ j ∈ Finset.range N, (∑ h in Finset.range H, A h i' * A h j) * v j
        = ∑ h in Finset.range H, A h i' * (A h j * v j) := by
      intro j _
      rw [Finset.sum_mul]
      apply Finset.sum_congr rfl
      intro h _
      ring
    rw [Finset.sum_congr rfl h1, Finset.sum_comm]
    apply Finset.sum_eq_zero
    intro h hh
    rw [← Finset.mul_sum, hAv h (Finset.mem_range.mp hh), mul_zero]

/-- For a core with all tap indices in range and invertible `A'A`, every pivot
of the factorisation with `eps = 0` is positive. -/
theorem axis_pivot_pos (sin : K → K) (mode : DescaleMode) (s N H : ℕ) (b c shift : K)
    (hs : 0 < s) (hN : 0 < N) (hH : 0 < H) (hr : taps_in_range s N H shift)
    (hinv : normal_matrix_invertible (scaling_weights sin mode s N H b c shift) N H) :
    ∀ k, k < N → 0 < axis_pivot sin 0 mode s N H (s * 4 - 1) b c shift AxisCore.empty k := by
  have hW := size_scaling_weights sin mode s N H b c shift
  have hband := scaling_weights_band sin mode s N H b c shift hr
  unfold normal_matrix_invertible at hinv
  unfold axis_pivot
  dsimp only [AxisCore.empty]
  generalize scaling_weights sin mode s N H b c shift = W at hW hband hinv ⊢
  have hcval : (s * 4 - 1 + 1) / 2 = 2 * s := by omega
  have hc : 0 < (s * 4 - 1 + 1) / 2 := by omega
  generalize s * 4 - 1 = bw at hcval hc ⊢
  obtain ⟨_, hM⟩ := normal_matrix_entry N H W hN hH hW
  generalize multiply_sparse_matrices N
    (find_idx N H (transpose_matrix H W) (resize (#[] : Array ℕ) N, resize (#[] : Array ℕ) N)).1
    (find_idx N H (transpose_matrix H W) (resize (#[] : Array ℕ) N, resize (#[] : Array ℕ) N)).2
    (transpose_matrix H W) W = Mx at hM ⊢
  obtain ⟨hs0, hc0⟩ := rd_compress_symmetric N bw Mx hc
  obtain ⟨_, hcells⟩ := cholesky_cells (0 : K) N bw (compress_symmetric_banded_matrix N bw Mx)
    hc hs0
  generalize compress_symmetric_banded_matrix N bw Mx = P0 at hs0 hc0 hcells ⊢
  generalize banded_cholesky_decomposition 0 N bw P0 = P at hcells ⊢
  generalize (bw + 1) / 2 = cc at hcval hc hc0 hcells ⊢
  -- the initial matrix is A'A
  have hinit : ∀ i j, i < N → j < N →
      schur_entry N cc (cells P0 cc) 0 i j
        = ∑ h in Finset.range H, rd W (h * N + i) * rd W (h * N + j) := by
    have hupper : ∀ i j, i ≤ j → j < N →
        (if j - i < cc then cells P0 cc i (j - i) else 0)
          = ∑ h in Finset.range H, rd W (h * N + i) * rd W (h * N + j) := by
      intro i j hij hj
      by_cases hb : j - i < cc
      · rw [if_pos hb]
        unfold cells
        rw [hc0 i (j - i) (by omega) hb]
        have e : i + (j - i) = j := by omega
        rw [e, if_pos hj, hM i j (by omega) hj]
      · rw [if_neg hb]
        symm
        exact Finset.sum_eq_zero (fun h _ => hband h i j (by omega) hj (by omega))
    intro i j hi hj
    unfold schur_entry
    by_cases hij : i ≤ j
    · rw [if_pos hij]
      exact hupper i j hij hj
    · rw [if_neg hij]
      have := hupper j i (by omega) hi
      rw [show chol_iter 0 N cc 0 (cells P0 cc) j (i - j) = cells P0 cc j (i - j) from rfl, this]
      exact Finset.sum_congr rfl (fun h _ => mul_comm _ _)
  have hQ : ∀ v : ℕ → K, (∃ i, i < N ∧ v i ≠ 0) →
      0 < quad_form N (schur_entry N cc (cells P0 cc) 0) v := by
    intro v hv
    rw [quad_form_congr N _ (fun i j => ∑ h in Finset.range H,
      (fun h i => rd W (h * N + i)) h i * (fun h i => rd W (h * N + i)) h j) v
      (fun i j hi hj => by rw [hinit i j hi hj])]
    exact gram_pos N H (fun h i => rd W (h * N + i)) hinv v hv
  intro k hk
  have hpos := (pivot_pos N cc (cells P0 cc) hc hQ N (Nat.le_refl N)).1 k hk
  have e : rd P (k * cc) = chol_iter 0 N cc k (cells P0 cc) k 0 := by
    have := hcells k 0 hc
    unfold cells at this
    rw [Nat.add_zero] at this
    rw [this, chol_iter_frozen 0 N cc (fun r t => rd P0 (r * cc + t)) (k + 1) k 0 (by omega) N
      (by omega), chol_iter_diag]
    rfl
  rw [e]
  exact hpos

end PivotPositivity

section RoundTrip
variable {K : Type} [LinearOrderedField K] [FloorRing K]

/-- C2 fails on the code: for the bilinear matrix `A` with 4 rows and 3 columns
built with shift 3 (exact arithmetic, `eps = 0`), `A'A` is invertible, but the
solver applied to `Y = A·X` for `X = [1, 2, 3]` returns `1369/1165 ≠ 1` in
component `0` (a tap of row 3 has index `-1`). -/
theorem round_trip_fails_out_of_range :
    normal_matrix_invertible (scaling_weights no_sin .bilinear 1 3 4 (0 : ℚ) 0 3) 3 4
    ∧ solved_row (descale_create no_sin 0 .bilinear 1 (fresh_data 1 4 1 3 1 0 0 0 3 0))
        1 4 3 (forward_scale (scaling_weights no_sin .bilinear 1 3 4 (0 : ℚ) 0 3) 3
          (fun j => [1, 2, 3].getD j 0)) (fun _ => 0) 0 0 = 1369 / 1165
    ∧ solved_row (descale_create no_sin 0 .bilinear 1 (fresh_data 1 4 1 3 1 0 0 0 3 0))
        1 4 3 (forward_scale (scaling_weights no_sin .bilinear 1 3 4 (0 : ℚ) 0 3) 3
          (fun j => [1, 2, 3].getD j 0)) (fun _ => 0) 0 0
        ≠ (fun j => [1, 2, 3].getD j 0) 0 := by
  refine ⟨?_, by decide!, by decide!⟩
  intro v h
  have g00 : (∑ k in Finset.range 4,
      rd (scaling_weights no_sin .bilinear 1 3 4 (0 : ℚ) 0 3) (k * 3 + 0)
        * rd (scaling_weights no_sin .bilinear 1 3 4 (0 : ℚ) 0 3) (k * 3 + 0)) = 29 / 32 := by
    decide!
  have g01 : (∑ k in Finset.range 4,
      rd (scaling_weights no_sin .bilinear 1 3 4 (0 : ℚ) 0 3) (k * 3 + 0)
        * rd (scaling_weights no_sin .bilinear 1 3 4 (0 : ℚ) 0 3) (k * 3 + 1)) = 15 / 64 := by
    decide!
  have g02 : (∑ k in Finset.range 4,
      rd (scaling_weights no_sin .bilinear 1 3 4 (0 : ℚ) 0 3) (k * 3 + 0)
        * rd (scaling_weights no_sin .bilinear 1 3 4 (0 : ℚ) 0 3) (k * 3 + 2)) = 3 / 64 := by
    decide!
  have g10 : (∑ k in Finset.range 4,
      rd (scaling_weights no_sin .bilinear 1 3 4 (0 : ℚ) 0 3) (k * 3 + 1)
        * rd (scaling_weights no_sin .bilinear 1 3 4 (0 : ℚ) 0 3) (k * 3 + 0)) = 15 / 64 := by
    decide!
  have g11 : (∑ k in Finset.range 4,
      rd (scaling_weights no_sin .bilinear 1 3 4 (0 : ℚ) 0 3) (k * 3 + 1)
        * rd (scaling_weights no_sin .bilinear 1 3 4 (0 : ℚ) 0 3) (k * 3 + 1)) = 25 / 32 := by
    decide!
  have g12 : (∑ k in Finset.range 4,
      rd (scaling_weights no_sin .bilinear 1 3 4 (0 : ℚ) 0 3) (k * 3 + 1)
        * rd (scaling_weights no_sin .bilinear 1 3 4 (0 : ℚ) 0 3) (k * 3 + 2)) = 5 / 16 := by
    decide!
  have g20 : (∑ k in Finset.range 4,
      rd (scaling_weights no_sin .bilinear 1 3 4 (0 : ℚ) 0 3) (k * 3 + 2)
        * rd (scaling_weights no_sin .bilinear 1 3 4 (0 : ℚ) 0 3) (k * 3 + 0)) = 3 / 64 := by
    decide!
  have g21 : (∑ k in Finset.range 4,
      rd (scaling_weights no_sin .bilinear 1 3 4 (0 : ℚ) 0 3) (k * 3 + 2)
        * rd (scaling_weights no_sin .bilinear 1 3 4 (0 : ℚ) 0 3) (k * 3 + 1)) = 5 / 16 := by
    decide!
  have g22 : (∑ k in Finset.range 4,
      rd (scaling_weights no_sin .bilinear 1 3 4 (0 : ℚ) 0 3) (k * 3 + 2)
        * rd (scaling_weights no_sin .bilinear 1 3 4 (0 : ℚ) 0 3) (k * 3 + 2)) = 37 / 32 := by
    decide!
  have h0 := h 0 (by decide)
  have h1 := h 1 (by decide)
  have h2 := h 2 (by decide)
  rw [Finset.sum_range_succ, Finset.sum_range_succ, Finset.sum_range_succ,
    Finset.sum_range_zero, g00, g01, g02] at h0
  rw [Finset.sum_range_succ, Finset.sum_range_succ, Finset.sum_range_succ,
    Finset.sum_range_zero, g10, g11, g12] at h1
  rw [Finset.sum_range_succ, Finset.sum_range_succ, Finset.sum_range_succ,
    Finset.sum_range_zero, g20, g21, g22] at h2
  intro j hj
  interval_cases j <;> linarith

/-- Round trip where the indices are in range: for every kernel, every pair of lengths and every
low-res row `X`, if every tap index computed by `scaling_weights` is a column
of `A`, `A'A` is invertible and `Y = A·X`, then the solver (the core built by
`descale_create` with `eps = 0`, applied by `process_plane_h`) returns `X`
exactly. -/
theorem round_trip (sin : K → K) (mode : DescaleMode)
    (support vi_width vi_height width height taps : ℕ) (b c shift_h shift_v : K)
    (hs : 0 < support) (hvi : 0 < vi_width) (hph : width ≠ vi_width)
    (hr : taps_in_range support width vi_width shift_h)
    (hinv : normal_matrix_invertible
      (scaling_weights sin mode support width vi_width b c shift_h) width vi_width)
    (X : ℕ → K) (current_height src_stride dst_stride : ℕ) (hstride : width ≤ dst_stride)
    (srcp dstp : ℕ → K) (r : ℕ) (hrow : r < current_height)
    (hY : ∀ k, k < vi_width → srcp (r * src_stride + k)
      = forward_scale (scaling_weights sin mode support width vi_width b c shift_h) width X k) :
    ∀ j, j < width →
      solved_row
        (descale_create sin 0 mode support
          (fresh_data support vi_width vi_height width height taps b c shift_h shift_v))
        current_height src_stride dst_stride srcp dstp r j = X j := by
  intro j hj
  have hw' : 0 < width := by omega
  have hne := solved_row_normal_equations sin mode support vi_width vi_height width height taps
    b c shift_h shift_v hs hvi hph hr
    (fun k hk => ne_of_gt
      (axis_pivot_pos sin mode support width vi_width b c shift_h hs hw' hvi hr hinv k hk))
    current_height src_stride dst_stride hstride srcp dstp r hrow
  generalize solved_row
    (descale_create sin 0 mode support
      (fresh_data support vi_width vi_height width height taps b c shift_h shift_v))
    current_height src_stride dst_stride srcp dstp r = x at hne ⊢
  generalize scaling_weights sin mode support width vi_width b c shift_h = A at hinv hY hne
  have hzero := hinv (fun j => x j - X j) (by
    intro i hi
    have h1 := hne i hi
    have h2 : ∑ k in Finset.range vi_width, rd A (k * width + i) * srcp (r * src_stride + k)
        = ∑ j in Finset.range width,
            (∑ k in Finset.range vi_width, rd A (k * width + i) * rd A (k * width + j)) * X j := by
      have h3 : ∀ k ∈ Finset.range vi_width,
          rd A (k * width + i) * srcp (r * src_stride + k)
            = ∑ j in Finset.range width, rd A (k * width + i) * rd A (k * width + j) * X j := by
        intro k hk
        rw [hY k (Finset.mem_range.mp hk)]
        unfold forward_scale
        rw [Finset.mul_sum]
        apply Finset.sum_congr rfl
        intro j _
        ring
      rw [Finset.sum_congr rfl h3, Finset.sum_comm]
      apply Finset.sum_congr rfl
      intro j _
      rw [Finset.sum_mul]
    rw [h2] at h1
    have h4 : ∀ j ∈ Finset.range width,
        (∑ k in Finset.range vi_width, rd A (k * width + i) * rd A (k * width + j))
            * (fun j => x j - X j) j
          = (∑ k in Finset.range vi_width, rd A (k * width + i) * rd A (k * width + j)) * x j
            - (∑ k in Finset.range vi_width, rd A (k * width + i) * rd A (k * width + j))
              * X j := by
      intro j _
      dsimp only
      ring
    rw [Finset.sum_congr rfl h4, Finset.sum_sub_distrib, h1, sub_self]) j hj
  dsimp only at hzero
  linarith

/-- The normal matrix of the bilinear matrix with 4 rows and 2 columns, no
shift, is invertible. -/
theorem bilinear_2_4_invertible :
    normal_matrix_invertible (scaling_weights no_sin .bilinear 1 2 4 (0 : ℚ) 0 0) 2 4 := by
  intro v h
  have g00 : (∑ k in Finset.range 4,
      rd (scaling_weights no_sin .bilinear 1 2 4 (0 : ℚ) 0 0) (k * 2 + 0)
        * rd (scaling_weights no_sin .bilinear 1 2 4 (0 : ℚ) 0 0) (k * 2 + 0)) = 13 / 8 := by
    decide!
  have g01 : (∑ k in Finset.range 4,
      rd (scaling_weights no_sin .bilinear 1 2 4 (0 : ℚ) 0 0) (k * 2 + 0)
        * rd (scaling_weights no_sin .bilinear 1 2 4 (0 : ℚ) 0 0) (k * 2 + 1)) = 3 / 8 := by
    decide!
  have g10 : (∑ k in Finset.range 4,
      rd (scaling_weights no_sin .bilinear 1 2 4 (0 : ℚ) 0 0) (k * 2 + 1)
        * rd (scaling_weights no_sin .bilinear 1 2 4 (0 : ℚ) 0 0) (k * 2 + 0)) = 3 / 8 := by
    decide!
  have g11 : (∑ k in Finset.range 4,
      rd (scaling_weights no_sin .bilinear 1 2 4 (0 : ℚ) 0 0) (k * 2 + 1)
        * rd (scaling_weights no_sin .bilinear 1 2 4 (0 : ℚ) 0 0) (k * 2 + 1)) = 13 / 8 := by
    decide!
  have h0 := h 0 (by decide)
  have h1 := h 1 (by decide)
  rw [Finset.sum_range_succ, Finset.sum_range_succ, Finset.sum_range_zero, g00, g01] at h0
  rw [Finset.sum_range_succ, Finset.sum_range_succ, Finset.sum_range_zero, g10, g11] at h1
  intro j hj
  interval_cases j <;> linarith

/-- An instance of `round_trip`: the bilinear matrix with 4 rows and 2 columns, no
shift, and `X = [1, 2]`. -/
theorem round_trip_witness :
    0 < 1 ∧ 0 < 4 ∧ 2 ≠ 4 ∧ taps_in_range 1 2 4 (0 : ℚ)
    ∧ normal_matrix_invertible (scaling_weights no_sin .bilinear 1 2 4 (0 : ℚ) 0 0) 2 4
    ∧ ∀ j, j < 2 →
      solved_row (descale_create no_sin 0 .bilinear 1 (fresh_data 1 4 1 2 1 0 0 0 0 0))
        1 4 2 (forward_scale (scaling_weights no_sin .bilinear 1 2 4 (0 : ℚ) 0 0) 2
          (fun j => [1, 2].getD j 0)) (fun _ => 0) 0 j
        = (fun j => [1, 2].getD j 0) j := by
  have hinv := bilinear_2_4_invertible
  exact ⟨by decide, by decide, by decide, by decide!, hinv,
    round_trip no_sin .bilinear 1 4 1 2 1 0 0 0 0 0 (by decide) (by decide) (by decide)
      (by decide!) hinv (fun j => [1, 2].getD j 0) 1 4 2 (by decide)
      (forward_scale (scaling_weights no_sin .bilinear 1 2 4 (0 : ℚ) 0 0) 2
        (fun j => [1, 2].getD j 0)) (fun _ => 0) 0 (by decide)
      (fun k _ => by rw [Nat.zero_mul, Nat.zero_add])⟩

end RoundTrip

section IndexRange
variable {K : Type} [LinearOrderedField K] [FloorRing K]

/-- The transposed weights of `descale_create` hold `A'`: cell `(i, j)` is
`A[j][i]`. -/
theorem rd_transposed_weights (sin : K → K) (mode : DescaleMode) (support dim vi_dim : ℕ)
    (b c shift : K) (hvi : 0 < vi_dim) (i j : ℕ) (hi : i < dim) (hj : j < vi_dim) :
    rd (transpose_matrix vi_dim (scaling_weights sin mode support dim vi_dim b c shift))
        (i * vi_dim + j)
      = rd (scaling_weights sin mode support dim vi_dim b c shift) (j * dim + i) :=
  rd_transpose_matrix vi_dim dim _ hvi
    (by rw [size_scaling_weights, Nat.mul_comm]) j i hj hi

/-- The index brackets of a core built from empty solver vectors satisfy the
index-range invariant. -/
theorem axis_idx_spec (sin : K → K) (eps : K) (mode : DescaleMode)
    (support dim vi_dim bandwidth : ℕ) (b c shift : K) :
    idx_invariant (scaling_weights sin mode support dim vi_dim b c shift) dim vi_dim
      (descale_create_axis sin eps mode support dim vi_dim bandwidth b c shift
        AxisCore.empty).weights_left_idx
      (descale_create_axis sin eps mode support dim vi_dim bandwidth b c shift
        AxisCore.empty).weights_right_idx := by
  intro i hi
  obtain ⟨eL, eR⟩ := descale_create_axis_fields sin eps mode support dim vi_dim bandwidth b c shift
  rw [eL, eR]
  have hT : ∀ j, j < vi_dim →
      rd (transpose_matrix vi_dim (scaling_weights sin mode support dim vi_dim b c shift))
          (i * vi_dim + j)
        = rd (scaling_weights sin mode support dim vi_dim b c shift) (j * dim + i) :=
    fun j hj => rd_transposed_weights sin mode support dim vi_dim b c shift (by omega) i j hi hj
  obtain ⟨_, _, hspec⟩ := find_idx_spec dim vi_dim
    (transpose_matrix vi_dim (scaling_weights sin mode support dim vi_dim b c shift))
    (resize (#[] : Array ℕ) dim) (resize (#[] : Array ℕ) dim)
    (size_resize _ _) (size_resize _ _)
  obtain ⟨hzero, hnz⟩ := hspec i hi
  generalize (find_idx dim vi_dim
    (transpose_matrix vi_dim (scaling_weights sin mode support dim vi_dim b c shift))
    (resize (#[] : Array ℕ) dim, resize (#[] : Array ℕ) dim)).1 = L at hzero hnz ⊢
  generalize (find_idx dim vi_dim
    (transpose_matrix vi_dim (scaling_weights sin mode support dim vi_dim b c shift))
    (resize (#[] : Array ℕ) dim, resize (#[] : Array ℕ) dim)).2 = R at hzero hnz ⊢
  have h0 : rd (resize (#[] : Array ℕ) dim) i = 0 := by
    rw [rd_resize, if_pos hi]
    exact rd_of_size_le _ _ (Nat.zero_le _)
  by_cases hex : ∃ k, k < vi_dim
      ∧ rd (transpose_matrix vi_dim (scaling_weights sin mode support dim vi_dim b c shift))
        (i * vi_dim + k) ≠ 0
  · obtain ⟨h1, h2, h3, h4, h5⟩ := hnz hex
    have hLlt : rd L i < vi_dim := by omega
    have hRlt : rd R i - 1 < vi_dim := by omega
    refine ⟨by omega, h2, ?_, ?_⟩
    · intro j hj hout
      by_contra hne
      rw [← hT j hj] at hne
      obtain ⟨h6, h7⟩ := h5 j hj hne
      omega
    · intro _
      refine ⟨h1, ?_, ?_⟩
      · rw [← hT _ hLlt]; exact h3
      · rw [← hT _ hRlt]; exact h4
  · have hz : ∀ k, k < vi_dim →
        rd (transpose_matrix vi_dim (scaling_weights sin mode support dim vi_dim b c shift))
          (i * vi_dim + k) = 0 := by
      intro k hk
      by_contra hne
      exact hex ⟨k, hk, hne⟩
    obtain ⟨h1, h2⟩ := hzero hz
    rw [h0] at h1 h2
    refine ⟨by omega, by omega, ?_, ?_⟩
    · intro j hj _
      rw [← hT j hj]
      exact hz j hj
    · intro ⟨j, hj, hne⟩
      rw [← hT j hj] at hne
      exact absurd (hz j hj) hne

/-- The two cores that `descale_create` builds from the data of a `*_create`
function. -/
theorem descale_create_fresh (sin : K → K) (eps : K) (mode : DescaleMode)
    (support vi_width vi_height width height taps : ℕ) (b c shift_h shift_v : K) :
    (width ≠ vi_width →
      (descale_create sin eps mode support
        (fresh_data support vi_width vi_height width height taps b c shift_h shift_v)).h
      = descale_create_axis sin eps mode support width vi_width (support * 4 - 1) b c shift_h
          AxisCore.empty)
    ∧ (height ≠ vi_height →
      (descale_create sin eps mode support
        (fresh_data support vi_width vi_height width height taps b c shift_h shift_v)).v
      = descale_create_axis sin eps mode support height vi_height (support * 4 - 1) b c shift_v
          AxisCore.empty) := by
  unfold descale_create fresh_data
  by_cases hh : width = vi_width <;> by_cases hv : height = vi_height <;> simp [hh, hv]

/-- C17. Index-range invariant of every built core: for both cores that
`descale_create` builds (horizontal when `width ≠ vi_width`, vertical when
`height ≠ vi_height`), for every solver row `i` in `[0, N)`,
`0 ≤ weights_left_idx[i] ≤ weights_right_idx[i] ≤ H`, `A'[i][j] = 0` for every
`j` outside `[left, right)`, and when row `i` of `A'` has a non-zero entry,
`left` is the smallest `j` with `A'[i][j] ≠ 0` and `right` is one past the
largest such `j`. -/
theorem weights_idx_range (sin : K → K) (eps : K) (mode : DescaleMode)
    (support vi_width vi_height width height taps : ℕ) (b c shift_h shift_v : K) :
    (width ≠ vi_width →
      idx_invariant (scaling_weights sin mode support width vi_width b c shift_h) width vi_width
        (descale_create sin eps mode support
          (fresh_data support vi_width vi_height width height taps b c shift_h
            shift_v)).h.weights_left_idx
        (descale_create sin eps mode support
          (fresh_data support vi_width vi_height width height taps b c shift_h
            shift_v)).h.weights_right_idx)
    ∧ (height ≠ vi_height →
      idx_invariant (scaling_weights sin mode support height vi_height b c shift_v) height
        vi_height
        (descale_create sin eps mode support
          (fresh_data support vi_width vi_height width height taps b c shift_h
            shift_v)).v.weights_left_idx
        (descale_create sin eps mode support
          (fresh_data support vi_width vi_height width height taps b c shift_h
            shift_v)).v.weights_right_idx) := by
  obtain ⟨eh, ev⟩ := descale_create_fresh sin eps mode support vi_width vi_height width height
    taps b c shift_h shift_v
  constructor
  · intro hw
    rw [eh hw]
    exact axis_idx_spec sin eps mode support width vi_width (support * 4 - 1) b c shift_h
  · intro hh
    rw [ev hh]
    exact axis_idx_spec sin eps mode support height vi_height (support * 4 - 1) b c shift_v

/-- Witness of C17: the cores of `Debicubic` from 6 × 8 to 3 × 4 with
`src_left = 1/2`. -/
theorem weights_idx_range_witness :
    3 ≠ 6 ∧ 4 ≠ 8
    ∧ idx_invariant (scaling_weights no_sin .bicubic 2 3 6 (0 : ℚ) (1 / 2) (1 / 2)) 3 6
        (descale_create no_sin (DBL_EPSILON : ℚ) .bicubic 2
          (fresh_data 2 6 8 3 4 0 0 (1 / 2) (1 / 2) 0)).h.weights_left_idx
        (descale_create no_sin (DBL_EPSILON : ℚ) .bicubic 2
          (fresh_data 2 6 8 3 4 0 0 (1 / 2) (1 / 2) 0)).h.weights_right_idx
    ∧ idx_invariant (scaling_weights no_sin .bicubic 2 4 8 (0 : ℚ) (1 / 2) 0) 4 8
        (descale_create no_sin (DBL_EPSILON : ℚ) .bicubic 2
          (fresh_data 2 6 8 3 4 0 0 (1 / 2) (1 / 2) 0)).v.weights_left_idx
        (descale_create no_sin (DBL_EPSILON : ℚ) .bicubic 2
          (fresh_data 2 6 8 3 4 0 0 (1 / 2) (1 / 2) 0)).v.weights_right_idx :=
  ⟨by decide, by decide,
    (weights_idx_range no_sin DBL_EPSILON .bicubic 2 6 8 3 4 0 0 (1 / 2) (1 / 2) 0).1
      (by decide),
    (weights_idx_range no_sin DBL_EPSILON .bicubic 2 6 8 3 4 0 0 (1 / 2) (1 / 2) 0).2
      (by decide)⟩

end IndexRange

section NormalMatrixBand
variable {K : Type} [LinearOrderedField K] [FloorRing K]

/-- Entry `(i, j)` of `multiplied_weights` is the inner product of the columns
`i` and `j` of `A`. -/
theorem rd_multiplied_weights (sin : K → K) (mode : DescaleMode) (support N H : ℕ)
    (b c shift : K) (hH : 0 < H) (i j : ℕ) (hi : i < N) (hj : j < N) :
    rd (multiplied_weights sin mode support N H b c shift) (i * N + j)
      = ∑ k in Finset.range H,
          rd (scaling_weights sin mode support N H b c shift) (k * N + i)
            * rd (scaling_weights sin mode support N H b c shift) (k * N + j) :=
  (normal_matrix_entry N H (scaling_weights sin mode support N H b c shift) (by omega) hH
    (size_scaling_weights sin mode support N H b c shift)).2 i j hi hj

/-- C20. The normal matrix is symmetric and banded with half-bandwidth
`c = 2·support`: for the matrix `A` returned by `scaling_weights` with all tap
indices in range, the matrix `M` computed by `multiply_sparse_matrices` in
`descale_create` is `A'A`, `M[i][j] = Σ_k A[k][i]·A[k][j]`; it satisfies
`M[i][j] = M[j][i]` and `M[i][j] = 0` whenever `|i − j| ≥ 2·support`; the
packed width `c = (bandwidth + 1)/2` for `bandwidth = 4·support − 1` is
`2·support`, and every non-zero entry `M[i][j]`, `i ≤ j`, is kept by
`compress_symmetric_banded_matrix` in cell `i·c + (j − i)`. -/
theorem normal_matrix_symmetric_banded (sin : K → K) (mode : DescaleMode) (support N H : ℕ)
    (b c shift : K) (hs : 0 < support) (hH : 0 < H)
    (hr : taps_in_range support N H shift) :
    (∀ i j, i < N → j < N →
      rd (multiplied_weights sin mode support N H b c shift) (i * N + j)
        = ∑ k in Finset.range H,
            rd (scaling_weights sin mode support N H b c shift) (k * N + i)
              * rd (scaling_weights sin mode support N H b c shift) (k * N + j))
    ∧ (∀ i j, i < N → j < N →
      rd (multiplied_weights sin mode support N H b c shift) (i * N + j)
        = rd (multiplied_weights sin mode support N H b c shift) (j * N + i))
    ∧ (∀ i j, i < N → j < N → (i + 2 * support ≤ j ∨ j + 2 * support ≤ i) →
      rd (multiplied_weights sin mode support N H b c shift) (i * N + j) = 0)
    ∧ (support * 4 - 1 + 1) / 2 = 2 * support
    ∧ (∀ i j, i ≤ j → j < N →
      rd (multiplied_weights sin mode support N H b c shift) (i * N + j) ≠ 0 →
      j - i < (support * 4 - 1 + 1) / 2
      ∧ rd (compress_symmetric_banded_matrix N (support * 4 - 1)
            (multiplied_weights sin mode support N H b c shift))
          (i * ((support * 4 - 1 + 1) / 2) + (j - i))
        = rd (multiplied_weights sin mode support N H b c shift) (i * N + j)) := by
  have hband := scaling_weights_band sin mode support N H b c shift hr
  have hsym : ∀ i j, i < N → j < N →
      rd (multiplied_weights sin mode support N H b c shift) (i * N + j)
        = rd (multiplied_weights sin mode support N H b c shift) (j * N + i) := by
    intro i j hi hj
    rw [rd_multiplied_weights sin mode support N H b c shift hH i j hi hj,
      rd_multiplied_weights sin mode support N H b c shift hH j i hj hi]
    exact Finset.sum_congr rfl (fun k _ => mul_comm _ _)
  have hup : ∀ i j, i < N → j < N → i + 2 * support ≤ j →
      rd (multiplied_weights sin mode support N H b c shift) (i * N + j) = 0 := by
    intro i j hi hj hij
    rw [rd_multiplied_weights sin mode support N H b c shift hH i j hi hj]
    exact Finset.sum_eq_zero (fun k _ => hband k i j hi hj hij)
  have hcval : (support * 4 - 1 + 1) / 2 = 2 * support := by omega
  refine ⟨fun i j hi hj => rd_multiplied_weights sin mode support N H b c shift hH i j hi hj,
    hsym, ?_, hcval, ?_⟩
  · intro i j hi hj hij
    rcases hij with h | h
    · exact hup i j hi hj h
    · rw [hsym i j hi hj]
      exact hup j i hj hi h
  · intro i j hij hj hne
    have hlt : j - i < (support * 4 - 1 + 1) / 2 := by
      rw [hcval]
      by_contra hcon
      exact hne (hup i j (by omega) hj (by omega))
    refine ⟨hlt, ?_⟩
    rw [(rd_compress_symmetric N (support * 4 - 1)
      (multiplied_weights sin mode support N H b c shift) (by omega)).2 i (j - i) (by omega) hlt]
    have e : i + (j - i) = j := by omega
    rw [e, if_pos hj]

/-- Witness of C20: the bilinear matrix with 8 rows and 4 columns, no shift
(`2·support = 2 < 4`): `M = A'A` is the tridiagonal matrix with rows
`[13/8, 3/8, 0, 0]`, `[3/8, 5/4, 3/8, 0]`, `[0, 3/8, 5/4, 3/8]`,
`[0, 0, 3/8, 13/8]`, equal to the sums `Σ_k A[k][i]·A[k][j]`, symmetric, and
zero at the entries with `|i − j| ≥ 2`. -/
theorem normal_matrix_symmetric_banded_witness :
    0 < 1 ∧ 0 < 8 ∧ taps_in_range 1 4 8 (0 : ℚ)
    ∧ multiplied_weights no_sin .bilinear 1 4 8 (0 : ℚ) 0 0
      = #[13 / 8, 3 / 8, 0, 0, 3 / 8, 5 / 4, 3 / 8, 0, 0, 3 / 8, 5 / 4, 3 / 8,
          0, 0, 3 / 8, 13 / 8]
    ∧ (∀ i j, i < 4 → j < 4 →
      rd (multiplied_weights no_sin .bilinear 1 4 8 (0 : ℚ) 0 0) (i * 4 + j)
        = ∑ k in Finset.range 8,
            rd (scaling_weights no_sin .bilinear 1 4 8 (0 : ℚ) 0 0) (k * 4 + i)
              * rd (scaling_weights no_sin .bilinear 1 4 8 (0 : ℚ) 0 0) (k * 4 + j))
    ∧ (∀ i j, i < 4 → j < 4 → (i + 2 * 1 ≤ j ∨ j + 2 * 1 ≤ i) →
      rd (multiplied_weights no_sin .bilinear 1 4 8 (0 : ℚ) 0 0) (i * 4 + j) = 0) :=
  ⟨by decide, by decide, by decide!, by decide!,
    (normal_matrix_symmetric_banded no_sin .bilinear 1 4 8 0 0 0 (by decide) (by decide)
      (by decide!)).1,
    (normal_matrix_symmetric_banded no_sin .bilinear 1 4 8 0 0 0 (by decide) (by decide)
      (by decide!)).2.2.1⟩

end NormalMatrixBand

section RowWidth
variable {K : Type} [LinearOrderedField K] [FloorRing K]

/-- C18 as stated fails: the bilinear core (support 1) built for high-res
length 4 and low-res length 2 with no shift has
`weights_right_idx[0] − weights_left_idx[0] = 3 > 2·support`: column 0 of
`A = [[1, 0], [3/4, 1/4], [1/4, 3/4], [0, 1]]` has three non-zero entries. -/
theorem row_width_exceeds_support :
    rd (descale_create no_sin (DBL_EPSILON : ℚ) .bilinear 1
          (fresh_data 1 4 1 2 1 0 0 0 0 0)).h.weights_right_idx 0
        - rd (descale_create no_sin (DBL_EPSILON : ℚ) .bilinear 1
          (fresh_data 1 4 1 2 1 0 0 0 0 0)).h.weights_left_idx 0 = 3
    ∧ ¬ (rd (descale_create no_sin (DBL_EPSILON : ℚ) .bilinear 1
          (fresh_data 1 4 1 2 1 0 0 0 0 0)).h.weights_right_idx 0
        - rd (descale_create no_sin (DBL_EPSILON : ℚ) .bilinear 1
          (fresh_data 1 4 1 2 1 0 0 0 0 0)).h.weights_left_idx 0 ≤ 2 * 1) := by
  decide!

end RowWidth

section ConstantRows
variable {K : Type} [LinearOrderedField K] [FloorRing K]

/-- A row of `A` with in-range tap indices is either zero (its tap total is
zero) or maps a constant vector to the same constant. -/
theorem forward_scale_const (sin : K → K) (mode : DescaleMode) (support N H : ℕ)
    (b c shift : K) (hr : taps_in_range support N H shift) (k : ℕ) (hk : k < H) (Kc : K) :
    (∀ j, j < N → rd (scaling_weights sin mode support N H b c shift) (k * N + j) = 0)
    ∨ forward_scale (scaling_weights sin mode support N H b c shift) N (fun _ => Kc) k = Kc := by
  by_cases ht : row_total sin mode support N H b c shift k = 0
  · left
    intro j hj
    rw [scaling_weights_entry sin mode support N H b c shift hr k j hj, if_pos hk]
    apply Finset.sum_eq_zero
    intro t _
    have h0 : tap_weight sin mode support N H b c shift k t = 0 := by
      unfold tap_weight
      simp only []
      rw [ht, div_zero]
    rw [h0, ite_self]
  · right
    have h1 := row_sum_eq_one sin mode support N H b c shift hr k hk ht
    unfold row_sum at h1
    unfold forward_scale
    rw [← Finset.sum_mul, h1, one_mul]

/-- The constant vector solves the normal equations of a constant right-hand
side when all tap indices are in range. -/
theorem normal_equations_const (sin : K → K) (mode : DescaleMode) (support N H : ℕ)
    (b c shift : K) (hr : taps_in_range support N H shift) (Kc : K) (y : ℕ → K)
    (hy : ∀ k, k < H → y k = Kc) :
    normal_equations (scaling_weights sin mode support N H b c shift) N H y (fun _ => Kc) := by
  intro i hi
  have h1 : ∀ j ∈ Finset.range N,
      (∑ k in Finset.range H,
        rd (scaling_weights sin mode support N H b c shift) (k * N + i)
          * rd (scaling_weights sin mode support N H b c shift) (k * N + j)) * Kc
      = ∑ k in Finset.range H,
          rd (scaling_weights sin mode support N H b c shift) (k * N + i)
            * (rd (scaling_weights sin mode support N H b c shift) (k * N + j) * Kc) := by
    intro j _
    rw [Finset.sum_mul]
    exact Finset.sum_congr rfl (fun k _ => by ring)
  rw [Finset.sum_congr rfl h1, Finset.sum_comm]
  apply Finset.sum_congr rfl
  intro k hk
  have hk' : k < H := Finset.mem_range.mp hk
  rw [← Finset.mul_sum, hy k hk']
  rcases forward_scale_const sin mode support N H b c shift hr k hk' Kc with h | h
  · rw [h i hi, zero_mul, zero_mul]
  · unfold forward_scale at h
    rw [h]

/-- Two solutions of the normal equations agree when `A'A` is invertible. -/
theorem normal_equations_unique (A : Array K) (N H : ℕ)
    (hinv : normal_matrix_invertible A N H) (y x x' : ℕ → K)
    (hx : normal_equations A N H y x) (hx' : normal_equations A N H y x') :
    ∀ j, j < N → x j = x' j := by
  intro j hj
  have hzero := hinv (fun j => x j - x' j) (by
    intro i hi
    have h4 : ∀ j ∈ Finset.range N,
        (∑ k in Finset.range H, rd A (k * N + i) * rd A (k * N + j)) * (fun j => x j - x' j) j
          = (∑ k in Finset.range H, rd A (k * N + i) * rd A (k * N + j)) * x j
            - (∑ k in Finset.range H, rd A (k * N + i) * rd A (k * N + j)) * x' j := by
      intro j _
      dsimp only
      ring
    rw [Finset.sum_congr rfl h4, Finset.sum_sub_distrib, hx i hi, hx' i hi, sub_self]) j hj
  dsimp only at hzero
  linarith

/-- C11 fails on the code: for the bicubic matrix `A` (`b = 0`, `c = 1/2`) with 3
rows and 1 column and no shift, `A'A` is invertible, but the solver applied to
the constant vector `(1, 1, 1)` returns `729/731`: tap indices `1` and `-1`
are not columns and their weights land in neighbouring rows, so
`A = [28/27, 25/27, 28/27]'`. -/
theorem constant_not_preserved_out_of_range :
    1 ≤ 3 ∧ normal_matrix_invertible (scaling_weights no_sin .bicubic 2 1 3 (0 : ℚ) (1 / 2) 0) 1 3
    ∧ solved_row (descale_create no_sin 0 .bicubic 2 (fresh_data 2 3 1 1 1 0 0 (1 / 2) 0 0))
        1 3 1 (fun _ => (1 : ℚ)) (fun _ => 0) 0 0 = 729 / 731
    ∧ solved_row (descale_create no_sin 0 .bicubic 2 (fresh_data 2 3 1 1 1 0 0 (1 / 2) 0 0))
        1 3 1 (fun _ => (1 : ℚ)) (fun _ => 0) 0 0 ≠ 1 := by
  refine ⟨by decide, ?_, by decide!, by decide!⟩
  intro v h
  have g00 : (∑ k in Finset.range 3,
      rd (scaling_weights no_sin .bicubic 2 1 3 (0 : ℚ) (1 / 2) 0) (k * 1 + 0)
        * rd (scaling_weights no_sin .bicubic 2 1 3 (0 : ℚ) (1 / 2) 0) (k * 1 + 0))
      = 731 / 243 := by
    decide!
  have h0 := h 0 (by decide)
  rw [Finset.sum_range_succ, Finset.sum_range_zero, g00] at h0
  intro j hj
  interval_cases j
  linarith

/-- Constants are preserved where the indices are in range: for every
kernel, every pair of lengths and every constant `Kc`, if every tap index
computed by `scaling_weights` is a column of `A` and `A'A` is invertible, then
the solver (the core built by `descale_create` with `eps = 0`, applied by
`process_plane_h`) applied to the constant vector `(Kc, …, Kc)` of length `H`
returns the constant vector `(Kc, …, Kc)` of length `N`. -/
theorem constant_preserved (sin : K → K) (mode : DescaleMode)
    (support vi_width vi_height width height taps : ℕ) (b c shift_h shift_v : K)
    (hs : 0 < support) (hvi : 0 < vi_width) (hph : width ≠ vi_width)
    (hr : taps_in_range support width vi_width shift_h)
    (hinv : normal_matrix_invertible
      (scaling_weights sin mode support width vi_width b c shift_h) width vi_width)
    (Kc : K) (current_height src_stride dst_stride : ℕ) (hstride : width ≤ dst_stride)
    (srcp dstp : ℕ → K) (r : ℕ) (hrow : r < current_height)
    (hY : ∀ k, k < vi_width → srcp (r * src_stride + k) = Kc) :
    ∀ j, j < width →
      solved_row
        (descale_create sin 0 mode support
          (fresh_data support vi_width vi_height width height taps b c shift_h shift_v))
        current_height src_stride dst_stride srcp dstp r j = Kc := by
  intro j hj
  have hw' : 0 < width := by omega
  have hne := solved_row_normal_equations sin mode support vi_width vi_height width height taps
    b c shift_h shift_v hs hvi hph hr
    (fun k hk => ne_of_gt
      (axis_pivot_pos sin mode support width vi_width b c shift_h hs hw' hvi hr hinv k hk))
    current_height src_stride dst_stride hstride srcp dstp r hrow
  have hc := normal_equations_const sin mode support width vi_width b c shift_h hr Kc
    (fun k => srcp (r * src_stride + k)) hY
  exact normal_equations_unique _ width vi_width hinv _ _ _ hne hc j hj

/-- An instance of `constant_preserved`: the bilinear core for high-res length 4 and
low-res length 2, no shift, applied to the constant row `(1/2, 1/2, 1/2, 1/2)`. -/
theorem constant_preserved_witness :
    0 < 1 ∧ 0 < 4 ∧ 2 ≠ 4 ∧ taps_in_range 1 2 4 (0 : ℚ)
    ∧ normal_matrix_invertible (scaling_weights no_sin .bilinear 1 2 4 (0 : ℚ) 0 0) 2 4
    ∧ ∀ j, j < 2 →
      solved_row (descale_create no_sin 0 .bilinear 1 (fresh_data 1 4 1 2 1 0 0 0 0 0))
        1 4 2 (fun _ => (1 / 2 : ℚ)) (fun _ => 0) 0 j = 1 / 2 :=
  ⟨by decide, by decide, by decide, by decide!, bilinear_2_4_invertible,
    constant_preserved no_sin .bilinear 1 4 1 2 1 0 0 0 0 0 (by decide) (by decide) (by decide)
      (by decide!) bilinear_2_4_invertible (1 / 2) 1 4 2 (by decide)
      (fun _ => (1 / 2 : ℚ)) (fun _ => 0) 0 (by decide) (fun _ _ => rfl)⟩

end ConstantRows

section GuardedSchur
variable {K : Type} [LinearOrderedField K] [FloorRing K]

/-- One elimination step with the guard `eps` on a row that is not yet
eliminated. -/
theorem chol_iter_step_row_eps (eps : K) (rows c : ℕ) (B : ℕ → ℕ → K) (k r t : ℕ) (hr : k < r)
    (hrt : r + t < rows) (ht : t < c) :
    chol_iter eps rows c (k + 1) B r t
      = chol_iter eps rows c k B r t
        - chol_u eps rows c B k (r - k) / (chol_iter eps rows c k B k 0 + eps)
          * chol_u eps rows c B k (r - k + t) := by
  show chol_step eps rows c k (chol_iter eps rows c k B) r t = _
  unfold chol_step
  rw [if_neg (by omega)]
  by_cases hcond : k < r ∧ r ≤ min (k + c - 1) (rows - 1)
      ∧ r - k + t ≤ min (k + c - 1) (rows - 1) - k
  · rw [if_pos hcond]
    unfold chol_u
    rw [if_pos (by omega), if_pos (by omega)]
  · rw [if_neg hcond]
    have hzero : chol_u eps rows c B k (r - k) / (chol_iter eps rows c k B k 0 + eps)
        * chol_u eps rows c B k (r - k + t) = 0 := by
      by_cases h1 : r - k < c
      · have h2 : ¬ r - k + t < c := by
          intro h2
          apply hcond
          omega
        unfold chol_u
        rw [if_neg h2, mul_zero]
      · unfold chol_u
        rw [if_neg h1, zero_div, zero_mul]
    rw [hzero, sub_zero]

theorem schur_eps_symm (eps : K) (rows c : ℕ) (B : ℕ → ℕ → K) (k i j : ℕ) :
    schur_eps eps rows c B k i j = schur_eps eps rows c B k j i := by
  unfold schur_eps
  by_cases h1 : i ≤ j
  · by_cases h2 : j ≤ i
    · have : i = j := by omega
      subst this; rfl
    · rw [if_pos h1, if_neg h2]
  · have h2 : j ≤ i := by omega
    rw [if_neg h1, if_pos h2]

theorem schur_eps_pivot_row (eps : K) (rows c : ℕ) (B : ℕ → ℕ → K) (k i : ℕ) (hki : k ≤ i) :
    schur_eps eps rows c B k k i = chol_u eps rows c B k (i - k) := by
  unfold schur_eps chol_u
  rw [if_pos hki]

theorem schur_eps_diag (eps : K) (rows c : ℕ) (B : ℕ → ℕ → K) (k : ℕ) (hc : 0 < c) :
    schur_eps eps rows c B k k k = chol_iter eps rows c k B k 0 := by
  unfold schur_eps
  rw [if_pos (Nat.le_refl k), Nat.sub_self, if_pos hc]

/-- One guarded elimination step on the symmetric matrix. -/
theorem schur_eps_step (eps : K) (rows c : ℕ) (B : ℕ → ℕ → K) (hc : 0 < c) (k i j : ℕ)
    (hi : k < i) (hj : k < j) (hiN : i < rows) (hjN : j < rows) :
    schur_eps eps rows c B (k + 1) i j
      = schur_eps eps rows c B k i j
        - schur_eps eps rows c B k k i * schur_eps eps rows c B k k j
          / (schur_eps eps rows c B k k k + eps) := by
  have main : ∀ a b, k < a → a ≤ b → b < rows →
      schur_eps eps rows c B (k + 1) a b
        = schur_eps eps rows c B k a b
          - schur_eps eps rows c B k k a * schur_eps eps rows c B k k b
            / (schur_eps eps rows c B k k k + eps) := by
    intro a b ha hab hb
    rw [schur_eps_pivot_row eps rows c B k a (by omega),
      schur_eps_pivot_row eps rows c B k b (by omega), schur_eps_diag eps rows c B k hc]
    unfold schur_eps
    rw [if_pos hab, if_pos hab]
    by_cases hband : b - a < c
    · rw [if_pos hband, if_pos hband,
        chol_iter_step_row_eps eps rows c B k a (b - a) ha (by omega) hband]
      have e : a - k + (b - a) = b - k := by omega
      rw [e, div_mul_eq_mul_div]
    · rw [if_neg hband, if_neg hband]
      have h0 : chol_u eps rows c B k (b - k) = 0 := by
        unfold chol_u
        rw [if_neg (by omega)]
      rw [h0, mul_zero, zero_div, sub_zero]
  by_cases hij : i ≤ j
  · exact main i j hi hij hjN
  · rw [schur_eps_symm eps rows c B (k + 1) i j, schur_eps_symm eps rows c B k i j,
      main j i hj (by omega) hiN, mul_comm (schur_eps eps rows c B k k j)]

/-- The quadratic form after a guarded elimination step, on a vector that
vanishes up to coordinate `k`. -/
theorem quad_form_schur_eps (eps : K) (rows c : ℕ) (B : ℕ → ℕ → K) (hc : 0 < c) (k : ℕ)
    (v : ℕ → K) (hv : ∀ i, i ≤ k → v i = 0) :
    quad_form rows (schur_eps eps rows c B (k + 1)) v
      = quad_form rows (schur_eps eps rows c B k) v
        - (∑ j in Finset.range rows, schur_eps eps rows c B k k j * v j) ^ 2
          / (schur_eps eps rows c B k k k + eps) := by
  have h1 : quad_form rows (schur_eps eps rows c B (k + 1)) v
      = quad_form rows (fun i j => schur_eps eps rows c B k i j
          - schur_eps eps rows c B k k i * schur_eps eps rows c B k k j
            / (schur_eps eps rows c B k k k + eps)) v := by
    apply quad_form_congr
    intro i j hi hj
    by_cases hik : i ≤ k
    · rw [hv i hik]; ring
    · by_cases hjk : j ≤ k
      · rw [hv j hjk]; ring
      · rw [schur_eps_step eps rows c B hc k i j (by omega) (by omega) hi hj]
  rw [h1]
  unfold quad_form
  have hterm : ∀ i j : ℕ,
      (schur_eps eps rows c B k i j
          - schur_eps eps rows c B k k i * schur_eps eps rows c B k k j
            / (schur_eps eps rows c B k k k + eps)) * v i * v j
        = schur_eps eps rows c B k i j * v i * v j
          - (schur_eps eps rows c B k k i * v i) * (schur_eps eps rows c B k k j * v j)
            / (schur_eps eps rows c B k k k + eps) := by
    intro i j; ring
  simp only [hterm, Finset.sum_sub_distrib]
  congr 1
  rw [pow_two, Finset.sum_mul_sum, Finset.sum_div]
  apply Finset.sum_congr rfl
  intro i _
  rw [Finset.sum_div]

/-- Positive semi-definiteness is inherited by the guarded elimination steps,
so every pivot is non-negative. -/
theorem pivot_nonneg (eps : K) (heps : 0 < eps) (rows c : ℕ) (B : ℕ → ℕ → K) (hc : 0 < c)
    (hQ : ∀ v : ℕ → K, 0 ≤ quad_form rows (schur_eps eps rows c B 0) v) :
    ∀ k, k ≤ rows →
      (∀ m, m < k → 0 ≤ chol_iter eps rows c m B m 0)
      ∧ ∀ v : ℕ → K, (∀ i, i < k → v i = 0) →
        0 ≤ quad_form rows (schur_eps eps rows c B k) v := by
  intro k
  induction k with
  | zero =>
    intro _
    exact ⟨fun m hm => absurd hm (Nat.not_lt_zero m), fun v _ => hQ v⟩
  | succ n ih =>
    intro hn
    obtain ⟨ih1, ih2⟩ := ih (by omega)
    have hnr : n < rows := by omega
    have hD : 0 ≤ schur_eps eps rows c B n n n := by
      have h : 0 ≤ quad_form rows (schur_eps eps rows c B n)
          (fun i => if i = n then (1 : K) else (fun _ => (0 : K)) i) :=
        ih2 (fun i => if i = n then 1 else 0)
          (fun i hi => by dsimp only; rw [if_neg (by omega)])
      have e := quad_form_shift rows (schur_eps eps rows c B n)
        (schur_eps_symm eps rows c B n) n hnr (fun _ => 0) rfl 1
      have z : quad_form rows (schur_eps eps rows c B n) (fun _ => (0 : K)) = 0 := by
        unfold quad_form
        simp
      rw [e, z] at h
      simpa using h
    refine ⟨?_, ?_⟩
    · intro m hm
      by_cases hmn : m = n
      · subst hmn
        rw [← schur_eps_diag eps rows c B m hc]
        exact hD
      · exact ih1 m (by omega)
    · intro v hv
      rw [quad_form_schur_eps eps rows c B hc n v (fun i hi => hv i (by omega))]
      have hvn : v n = 0 := hv n (by omega)
      have e := quad_form_shift rows (schur_eps eps rows c B n)
        (schur_eps_symm eps rows c B n) n hnr v hvn
        (-(∑ j in Finset.range rows, schur_eps eps rows c B n n j * v j)
          / (schur_eps eps rows c B n n n + eps))
      have hpos := ih2 (fun i => if i = n then
          -(∑ j in Finset.range rows, schur_eps eps rows c B n n j * v j)
            / (schur_eps eps rows c B n n n + eps) else v i)
        (fun i hi => by dsimp only; rw [if_neg (by omega)]; exact hv i (by omega))
      rw [e] at hpos
      have hden : 0 < schur_eps eps rows c B n n n + eps := by linarith
      have hDne : schur_eps eps rows c B n n n + eps ≠ 0 := ne_of_gt hden
      generalize quad_form rows (schur_eps eps rows c B n) v = q at hpos ⊢
      generalize (∑ j in Finset.range rows, schur_eps eps rows c B n n j * v j) = β at hpos ⊢
      generalize schur_eps eps rows c B n n n = a at hpos hden hDne hD ⊢
      have calc1 : q - β ^ 2 / (a + eps)
          = (q + 2 * (-β / (a + eps)) * β + (-β / (a + eps)) ^ 2 * a)
            + β ^ 2 * eps / (a + eps) ^ 2 := by
        field_simp
        ring
      rw [calc1]
      exact add_nonneg hpos
        (div_nonneg (mul_nonneg (sq_nonneg β) heps.le) (sq_nonneg _))

/-- For a core with all tap indices in range, every pivot of the factorisation
with a positive guard `eps` is non-negative. -/
theorem axis_pivot_nonneg (sin : K → K) (eps : K) (heps : 0 < eps) (mode : DescaleMode)
    (s N H : ℕ) (b c shift : K)
    (hs : 0 < s) (hN : 0 < N) (hH : 0 < H) (hr : taps_in_range s N H shift) :
    ∀ k, k < N → 0 ≤ axis_pivot sin eps mode s N H (s * 4 - 1) b c shift AxisCore.empty k := by
  have hW := size_scaling_weights sin mode s N H b c shift
  have hband := scaling_weights_band sin mode s N H b c shift hr
  unfold axis_pivot
  dsimp only [AxisCore.empty]
  generalize scaling_weights sin mode s N H b c shift = W at hW hband ⊢
  have hcval : (s * 4 - 1 + 1) / 2 = 2 * s := by omega
  have hc : 0 < (s * 4 - 1 + 1) / 2 := by omega
  generalize s * 4 - 1 = bw at hcval hc ⊢
  obtain ⟨_, hM⟩ := normal_matrix_entry N H W hN hH hW
  generalize multiply_sparse_matrices N
    (find_idx N H (transpose_matrix H W) (resize (#[] : Array ℕ) N, resize (#[] : Array ℕ) N)).1
    (find_idx N H (transpose_matrix H W) (resize (#[] : Array ℕ) N, resize (#[] : Array ℕ) N)).2
    (transpose_matrix H W) W = Mx at hM ⊢
  obtain ⟨hs0, hc0⟩ := rd_compress_symmetric N bw Mx hc
  obtain ⟨_, hcells⟩ := cholesky_cells eps N bw (compress_symmetric_banded_matrix N bw Mx)
    hc hs0
  generalize compress_symmetric_banded_matrix N bw Mx = P0 at hs0 hc0 hcells ⊢
  generalize banded_cholesky_decomposition eps N bw P0 = P at hcells ⊢
  generalize (bw + 1) / 2 = cc at hcval hc hc0 hcells ⊢
  have hinit : ∀ i j, i < N → j < N →
      schur_eps eps N cc (cells P0 cc) 0 i j
        = ∑ h in Finset.range H, rd W (h * N + i) * rd W (h * N + j) := by
    have hupper : ∀ i j, i ≤ j → j < N →
        (if j - i < cc then cells P0 cc i (j - i) else 0)
          = ∑ h in Finset.range H, rd W (h * N + i) * rd W (h * N + j) := by
      intro i j hij hj
      by_cases hb : j - i < cc
      · rw [if_pos hb]
        unfold cells
        rw [hc0 i (j - i) (by omega) hb]
        have e : i + (j - i) = j := by omega
        rw [e, if_pos hj, hM i j (by omega) hj]
      · rw [if_neg hb]
        symm
        exact Finset.sum_eq_zero (fun h _ => hband h i j (by omega) hj (by omega))
    intro i j hi hj
    unfold schur_eps
    by_cases hij : i ≤ j
    · rw [if_pos hij]
      exact hupper i j hij hj
    · rw [if_neg hij]
      have := hupper j i (by omega) hi
      rw [show chol_iter eps N cc 0 (cells P0 cc) j (i - j) = cells P0 cc j (i - j) from rfl,
        this]
      exact Finset.sum_congr rfl (fun h _ => mul_comm _ _)
  have hQ : ∀ v : ℕ → K, 0 ≤ quad_form N (schur_eps eps N cc (cells P0 cc) 0) v := by
    intro v
    rw [quad_form_congr N _ (fun i j => ∑ h in Finset.range H,
      (fun h i => rd W (h * N + i)) h i * (fun h i => rd W (h * N + i)) h j) v
      (fun i j hi hj => by rw [hinit i j hi hj]), gram_quad_form]
    exact Finset.sum_nonneg (fun h _ => sq_nonneg _)
  intro k hk
  have hpos := (pivot_nonneg eps heps N cc (cells P0 cc) hc hQ N (Nat.le_refl N)).1 k hk
  have e : rd P (k * cc) = chol_iter eps N cc k (cells P0 cc) k 0 := by
    have := hcells k 0 hc
    unfold cells at this
    rw [Nat.add_zero] at this
    rw [this, chol_iter_frozen eps N cc (fun r t => rd P0 (r * cc + t)) (k + 1) k 0 (by omega) N
      (by omega), chol_iter_diag]
    rfl
  rw [e]
  exact hpos

end GuardedSchur

section DiagonalPositive
variable {K : Type} [LinearOrderedField K] [FloorRing K]

/-- The vector `diagonal` of a built core holds `1 / (D_jj + eps)`. -/
theorem axis_diagonal (sin : K → K) (eps : K) (mode : DescaleMode) (s N H bw : ℕ)
    (b c shift : K) (hc : 0 < (bw + 1) / 2) (j : ℕ) (hj : j < N) :
    rd (descale_create_axis sin eps mode s N H bw b c shift AxisCore.empty).diagonal j
      = 1 / (axis_pivot sin eps mode s N H bw b c shift AxisCore.empty j + eps) := by
  have hN : 0 < N := by omega
  unfold descale_create_axis axis_pivot
  dsimp only [AxisCore.empty]
  generalize banded_cholesky_decomposition eps N bw
    (compress_symmetric_banded_matrix N bw
      (multiply_sparse_matrices N
        (find_idx N H (transpose_matrix H (scaling_weights sin mode s N H b c shift))
          (resize (#[] : Array ℕ) N, resize (#[] : Array ℕ) N)).1
        (find_idx N H (transpose_matrix H (scaling_weights sin mode s N H b c shift))
          (resize (#[] : Array ℕ) N, resize (#[] : Array ℕ) N)).2
        (transpose_matrix H (scaling_weights sin mode s N H b c shift))
        (scaling_weights sin mode s N H b c shift))) = P
  obtain ⟨hUs, hU⟩ := rd_uncrompress N bw P
  have hLw : rd (transpose_matrix N (uncrompress_symmetric_banded_matrix N bw P)) (j * N + j)
      = rd (uncrompress_symmetric_banded_matrix N bw P) (j * N + j) :=
    rd_transpose_matrix N N _ hN hUs j j hj hj
  have hLws : (transpose_matrix N (uncrompress_symmetric_banded_matrix N bw P)).size = N * N := by
    rw [size_transpose_matrix, hUs]
  obtain ⟨hLs, hL'⟩ := rd_multiply_banded N bw
    (transpose_matrix N (uncrompress_symmetric_banded_matrix N bw P)) hLws
  obtain ⟨_, _, e3⟩ := rd_extract eps N bw
    (multiply_banded_matrix_with_diagonal N bw
      (transpose_matrix N (uncrompress_symmetric_banded_matrix N bw P)))
    (uncrompress_symmetric_banded_matrix N bw P)
    (resize (#[] : Array K) (N * ((bw + 1) / 2 - 1)))
    (resize (#[] : Array K) (N * ((bw + 1) / 2 - 1)))
    (resize (#[] : Array K) N) hN hLs (size_resize _ _) (size_resize _ _) (size_resize _ _)
  rw [e3 j hj, hL' j j hj hj, if_neg (fun hh => by omega), hLw, hU j j hj hj,
    if_pos ⟨Nat.le_refl _, by omega⟩, Nat.sub_self, Nat.add_zero]

/-- C16 fails on the code: for the bicubic core (`b = 1`, `c = 0`) built for
high-res length 6 and low-res length 5 with shift `-7` and the guard
`eps = DBL_EPSILON`, the last pivot satisfies `D_44 + eps < 0` and
`diagonal[4] = 1/(D_44 + eps)` is negative: tap indices outside `[0, 5)` put
entries of `A'A` outside the band that the factoriser keeps. -/
theorem diagonal_negative_out_of_range :
    5 ≤ 6 ∧ ¬ taps_in_range 2 5 6 (-7 : ℚ)
    ∧ axis_pivot no_sin (DBL_EPSILON : ℚ) .bicubic 2 5 6 (2 * 4 - 1) 1 0 (-7) AxisCore.empty 4
        + DBL_EPSILON < 0
    ∧ rd (descale_create no_sin (DBL_EPSILON : ℚ) .bicubic 2
        (fresh_data 2 6 1 5 1 0 1 0 (-7) 0)).h.diagonal 4 < 0 := by
  decide!

/-- Positive pivots where the indices are in range: for every core built by
`descale_create` with a positive
guard `eps` for which every tap index computed by `scaling_weights` is a
column of `A`, every pivot produced by `banded_cholesky_decomposition`
satisfies `D_ii + eps > 0`, and every entry `diagonal[i] = 1/(D_ii + eps)`,
`0 ≤ i < N`, is strictly positive. -/
theorem diagonal_positive (sin : K → K) (eps : K) (heps : 0 < eps) (mode : DescaleMode)
    (support vi_width vi_height width height taps : ℕ) (b c shift_h shift_v : K)
    (hs : 0 < support) (hvi : 0 < vi_width) (hph : width ≠ vi_width)
    (hr : taps_in_range support width vi_width shift_h) (i : ℕ) (hi : i < width) :
    0 < axis_pivot sin eps mode support width vi_width (support * 4 - 1) b c shift_h
          AxisCore.empty i + eps
    ∧ rd (descale_create sin eps mode support
          (fresh_data support vi_width vi_height width height taps b c shift_h shift_v)).h.diagonal
        i
      = 1 / (axis_pivot sin eps mode support width vi_width (support * 4 - 1) b c shift_h
          AxisCore.empty i + eps)
    ∧ 0 < rd (descale_create sin eps mode support
          (fresh_data support vi_width vi_height width height taps b c shift_h shift_v)).h.diagonal
        i := by
  have hp := axis_pivot_nonneg sin eps heps mode support width vi_width b c shift_h hs (by omega)
    hvi hr i hi
  have hd := axis_diagonal sin eps mode support width vi_width (support * 4 - 1) b c shift_h
    (by omega) i hi
  rw [(descale_create_fresh sin eps mode support vi_width vi_height width height taps b c
    shift_h shift_v).1 hph]
  have hpos : 0 < axis_pivot sin eps mode support width vi_width (support * 4 - 1) b c shift_h
      AxisCore.empty i + eps := by linarith
  refine ⟨hpos, hd, ?_⟩
  rw [hd]
  exact one_div_pos.mpr hpos

/-- An instance of `diagonal_positive`: `Debilinear` from width 4 to width 2 with no
shift and the guard `eps = DBL_EPSILON`, pivot and diagonal entry 1. -/
theorem diagonal_positive_witness :
    (0 : ℚ) < DBL_EPSILON ∧ 0 < 1 ∧ 0 < 4 ∧ 2 ≠ 4 ∧ taps_in_range 1 2 4 (0 : ℚ) ∧ 1 < 2
    ∧ 0 < rd (descale_create no_sin (DBL_EPSILON : ℚ) .bilinear 1
          (fresh_data 1 4 1 2 1 0 0 0 0 0)).h.diagonal 1 :=
  ⟨by decide!, by decide, by decide, by decide, by decide!, by decide,
    (diagonal_positive no_sin DBL_EPSILON (by decide!) .bilinear 1 4 1 2 1 0 0 0 0 0
      (by decide) (by decide) (by decide) (by decide!) 1 (by decide)).2.2⟩

end DiagonalPositive

section SolverVectors
variable {K : Type} [LinearOrderedField K] [FloorRing K]

/-- The entries `j < width` of the row solved by `solve_row_h` depend only on
the input samples that the projection reads; the previous contents of the
destination do not matter. -/
theorem solve_row_h_congr {α : Type} [Zero α] [Add α] [Sub α] [Mul α]
    (width c columns : ℕ) (L R : Array ℕ)
    (weights lower upper diagonal : Array α) (srcp srcp' dstp dstp' : ℕ → α)
    (hsrc : ∀ j, j < width → ∀ t, t < rd R j - rd L j → srcp (rd L j + t) = srcp' (rd L j + t)) :
    ∀ j, j < width →
      solve_row_h width c columns L R weights lower upper diagonal srcp dstp j
        = solve_row_h width c columns L R weights lower upper diagonal srcp' dstp' j := by
  unfold solve_row_h
  dsimp only
  refine loop_inv2 (fun (_ : ℕ) (d d' : ℕ → α) => ∀ k, k < width → d k = d' k) _ _
    (width - 1) _ _ ?_ ?_
  · -- forward substitution
    have fwd := loop_inv2 (fun (J : ℕ) (d d' : ℕ → α) => ∀ k, k < J → d k = d' k)
      (fun j dstp =>
        Function.update
          (Function.update dstp j
            (loop (fun t sum =>
              sum + rd weights (j * columns + (rd L j + t) - rd L j) * srcp (rd L j + t))
              (rd R j - rd L j) 0))
          j
          ((Function.update dstp j
              (loop (fun t sum =>
                sum + rd weights (j * columns + (rd L j + t) - rd L j) * srcp (rd L j + t))
                (rd R j - rd L j) 0) j
            - loop (fun t sum =>
                sum + rd lower (j * (c - 1) + (j + 1 - c + t) - (j + 1 - c))
                  * Function.update dstp j
                      (loop (fun t sum =>
                        sum + rd weights (j * columns + (rd L j + t) - rd L j)
                          * srcp (rd L j + t)) (rd R j - rd L j) 0)
                      (j + 1 - c + t))
              (j - (j + 1 - c)) 0)
            * rd diagonal j))
      (fun j dstp =>
        Function.update
          (Function.update dstp j
            (loop (fun t sum =>
              sum + rd weights (j * columns + (rd L j + t) - rd L j) * srcp' (rd L j + t))
              (rd R j - rd L j) 0))
          j
          ((Function.update dstp j
              (loop (fun t sum =>
                sum + rd weights (j * columns + (rd L j + t) - rd L j) * srcp' (rd L j + t))
                (rd R j - rd L j) 0) j
            - loop (fun t sum =>
                sum + rd lower (j * (c - 1) + (j + 1 - c + t) - (j + 1 - c))
                  * Function.update dstp j
                      (loop (fun t sum =>
                        sum + rd weights (j * columns + (rd L j + t) - rd L j)
                          * srcp' (rd L j + t)) (rd R j - rd L j) 0)
                      (j + 1 - c + t))
              (j - (j + 1 - c)) 0)
            * rd diagonal j))
      width dstp dstp' (fun k hk => absurd hk (Nat.not_lt_zero k)) ?_
    · exact fwd
    · intro J hJ d d' hd k hk
      dsimp only
      have hy : loop (fun t sum =>
            sum + rd weights (J * columns + (rd L J + t) - rd L J) * srcp (rd L J + t))
            (rd R J - rd L J) 0
          = loop (fun t sum =>
            sum + rd weights (J * columns + (rd L J + t) - rd L J) * srcp' (rd L J + t))
            (rd R J - rd L J) 0 :=
        loop_congr _ _ _ _ (fun t ht s => by rw [hsrc J hJ t ht])
      by_cases hkJ : k = J
      · subst hkJ
        rw [Function.update_same, Function.update_same, Function.update_same,
          Function.update_same, hy]
        congr 2
        apply loop_congr
        intro t ht s
        rw [Function.update_noteq (by omega), Function.update_noteq (by omega),
          hd (k + 1 - c + t) (by omega)]
      · rw [Function.update_noteq hkJ, Function.update_noteq hkJ,
          Function.update_noteq hkJ, Function.update_noteq hkJ]
        exact hd k (by omega)
  · -- backward substitution
    intro t ht d d' hd k hk
    dsimp only
    have hsum : loop (fun u sum =>
          sum + rd upper ((width - 2 - t) * (c - 1)
              + (min (width - 1) (width - 2 - t + c - 1) - u) + c - 2
              - min (width - 1) (width - 2 - t + c - 1))
            * d (min (width - 1) (width - 2 - t + c - 1) - u))
          (min (width - 1) (width - 2 - t + c - 1) - (width - 2 - t)) 0
        = loop (fun u sum =>
          sum + rd upper ((width - 2 - t) * (c - 1)
              + (min (width - 1) (width - 2 - t + c - 1) - u) + c - 2
              - min (width - 1) (width - 2 - t + c - 1))
            * d' (min (width - 1) (width - 2 - t + c - 1) - u))
          (min (width - 1) (width - 2 - t + c - 1) - (width - 2 - t)) 0 := by
      apply loop_congr
      intro u _ s
      have hS : min (width - 1) (width - 2 - t + c - 1) ≤ width - 1 := Nat.min_le_left _ _
      rw [hd (min (width - 1) (width - 2 - t + c - 1) - u) (by omega)]
    by_cases hkj : k = width - 2 - t
    · rw [hkj, Function.update_same, Function.update_same, hsum, hd (width - 2 - t) (by omega)]
    · rw [Function.update_noteq hkj, Function.update_noteq hkj]
      exact hd k hk

/-- Row `r` of the output of `process_plane_h` is the row that `solve_row_h`
computes from row `r` of the input. -/
theorem process_plane_h_solved {α : Type} [Zero α] [Add α] [Sub α] [Mul α]
    (width current_height bandwidth : ℕ) (L R : Array ℕ)
    (weights lower upper diagonal : Array α) (src_stride dst_stride : ℕ) (srcp dstp : ℕ → α)
    (hstride : width ≤ dst_stride) (r : ℕ) (hr : r < current_height) (j : ℕ) (hj : j < width) :
    process_plane_h width current_height bandwidth L R weights lower upper diagonal
        src_stride dst_stride srcp dstp (r * dst_stride + j)
      = solve_row_h width ((bandwidth + 1) / 2) (weights.size / width) L R weights lower upper
          diagonal (fun k => srcp (r * src_stride + k)) (fun _ => 0) j := by
  obtain ⟨mem, hmem⟩ := process_plane_h_row width current_height bandwidth L R weights lower
    upper diagonal src_stride dst_stride srcp dstp hstride r hr
  rw [hmem j hj]
  exact solve_row_h_congr width ((bandwidth + 1) / 2) (weights.size / width) L R weights lower
    upper diagonal _ _ _ _ (fun _ _ _ _ => rfl) j hj

end SolverVectors

section VerticalSolver
variable {K : Type} [LinearOrderedField K] [FloorRing K]

theorem loop_proj {σ τ : Type} (proj : σ → τ) (bodyA : ℕ → σ → σ) (bodyB : ℕ → τ → τ)
    (h : ∀ t s, proj (bodyA t s) = bodyB t (proj s)) (n : ℕ) (s : σ) :
    proj (loop bodyA n s) = loop bodyB n (proj s) := by
  induction n with
  | zero => rfl
  | succ m ih => rw [loop_succ, loop_succ, h, ih]

/-- A store into cell `j` of column `i`, seen on the column. -/
theorem col_update {α : Type} (ds i : ℕ) (hds : 0 < ds) (mem : ℕ → α) (j : ℕ) (v : α) :
    (fun k => Function.update mem (j * ds + i) v (k * ds + i))
      = Function.update (fun k => mem (k * ds + i)) j v := by
  funext k
  by_cases hk : k = j
  · subst hk
    simp
  · have hne : k * ds + i ≠ j * ds + i := by
      intro h
      apply hk
      have h2 : k * ds = j * ds := by omega
      exact Nat.eq_of_mul_eq_mul_right hds h2
    rw [Function.update_noteq hne, Function.update_noteq hk]

/-- A store into column `i'` leaves a different column `i` unchanged. -/
theorem col_update_other {α : Type} (ds i i' : ℕ) (hi : i < ds) (hi' : i' < ds) (hne : i ≠ i')
    (mem : ℕ → α) (j : ℕ) (v : α) (k : ℕ) :
    Function.update mem (j * ds + i') v (k * ds + i) = mem (k * ds + i) := by
  apply Function.update_noteq
  intro h
  exact hne (idx_inj k i j i' ds hi hi' h).2

/-- One iteration of the outer loop of `process_plane_v`, seen on its own
column `i`: the column is solved as `solve_row_h` solves a row. -/
theorem process_plane_v_own {α : Type} [Zero α] [Add α] [Sub α] [Mul α]
    (height c columns : ℕ) (L R : Array ℕ)
    (weights lower upper diagonal : Array α) (src_stride dst_stride : ℕ) (srcp : ℕ → α)
    (hds : 0 < dst_stride) (i : ℕ) (mem : ℕ → α) :
    (fun k =>
      (loop (fun t dstp =>
        Function.update dstp ((height - 2 - t) * dst_stride + i)
          (dstp ((height - 2 - t) * dst_stride + i)
            - loop (fun u sum =>
                sum + rd upper ((height - 2 - t) * (c - 1)
                    + (min (height - 1) (height - 2 - t + c - 1) - u) + c - 2
                    - min (height - 1) (height - 2 - t + c - 1))
                  * dstp ((min (height - 1) (height - 2 - t + c - 1) - u) * dst_stride + i))
              (min (height - 1) (height - 2 - t + c - 1) - (height - 2 - t)) 0))
        (height - 1)
        (loop (fun j dstp =>
          Function.update
            (Function.update dstp (j * dst_stride + i)
              (loop (fun t sum =>
                sum + rd weights (j * columns + (rd L j + t) - rd L j)
                  * srcp ((rd L j + t) * src_stride + i)) (rd R j - rd L j) 0))
            (j * dst_stride + i)
            ((Function.update dstp (j * dst_stride + i)
                (loop (fun t sum =>
                  sum + rd weights (j * columns + (rd L j + t) - rd L j)
                    * srcp ((rd L j + t) * src_stride + i)) (rd R j - rd L j) 0)
                (j * dst_stride + i)
              - loop (fun t sum =>
                  sum + rd lower (j * (c - 1) + (j + 1 - c + t) - (j + 1 - c))
                    * Function.update dstp (j * dst_stride + i)
                        (loop (fun t sum =>
                          sum + rd weights (j * columns + (rd L j + t) - rd L j)
                            * srcp ((rd L j + t) * src_stride + i)) (rd R j - rd L j) 0)
                        ((j + 1 - c + t) * dst_stride + i))
                (j - (j + 1 - c)) 0)
              * rd diagonal j))
          height mem)) (k * dst_stride + i))
      = solve_row_h height c columns L R weights lower upper diagonal
          (fun k => srcp (k * src_stride + i)) (fun k => mem (k * dst_stride + i)) := by
  unfold solve_row_h
  dsimp only
  rw [loop_proj (fun (m : ℕ → α) => fun k => m (k * dst_stride + i)) _
    (fun t dstp =>
      Function.update dstp (height - 2 - t)
        (dstp (height - 2 - t)
          - loop (fun u sum =>
              sum + rd upper ((height - 2 - t) * (c - 1)
                  + (min (height - 1) (height - 2 - t + c - 1) - u) + c - 2
                  - min (height - 1) (height - 2 - t + c - 1))
                * dstp (min (height - 1) (height - 2 - t + c - 1) - u))
            (min (height - 1) (height - 2 - t + c - 1) - (height - 2 - t)) 0))
    (fun t s => col_update dst_stride i hds s (height - 2 - t) _)]
  congr 1
  rw [loop_proj (fun (m : ℕ → α) => fun k => m (k * dst_stride + i)) _
    (fun j dstp =>
      Function.update
        (Function.update dstp j
          (loop (fun t sum =>
            sum + rd weights (j * columns + (rd L j + t) - rd L j)
              * srcp ((rd L j + t) * src_stride + i)) (rd R j - rd L j) 0))
        j
        ((Function.update dstp j
            (loop (fun t sum =>
              sum + rd weights (j * columns + (rd L j + t) - rd L j)
                * srcp ((rd L j + t) * src_stride + i)) (rd R j - rd L j) 0) j
          - loop (fun t sum =>
              sum + rd lower (j * (c - 1) + (j + 1 - c + t) - (j + 1 - c))
                * Function.update dstp j
                    (loop (fun t sum =>
                      sum + rd weights (j * columns + (rd L j + t) - rd L j)
                        * srcp ((rd L j + t) * src_stride + i)) (rd R j - rd L j) 0)
                    (j + 1 - c + t))
            (j - (j + 1 - c)) 0)
          * rd diagonal j))]
  intro j s
  have e1 := col_update dst_stride i hds s j
    (loop (fun t sum =>
      sum + rd weights (j * columns + (rd L j + t) - rd L j)
        * srcp ((rd L j + t) * src_stride + i)) (rd R j - rd L j) 0)
  have e2 := col_update dst_stride i hds
    (Function.update s (j * dst_stride + i)
      (loop (fun t sum =>
        sum + rd weights (j * columns + (rd L j + t) - rd L j)
          * srcp ((rd L j + t) * src_stride + i)) (rd R j - rd L j) 0)) j
  rw [e2, e1]
  have e3 : ∀ k, Function.update s (j * dst_stride + i)
        (loop (fun t sum =>
          sum + rd weights (j * columns + (rd L j + t) - rd L j)
            * srcp ((rd L j + t) * src_stride + i)) (rd R j - rd L j) 0) (k * dst_stride + i)
      = Function.update (fun k => s (k * dst_stride + i)) j
        (loop (fun t sum =>
          sum + rd weights (j * columns + (rd L j + t) - rd L j)
            * srcp ((rd L j + t) * src_stride + i)) (rd R j - rd L j) 0) k :=
    fun k => congrFun e1 k
  simp only [e3]

/-- Column `i` of the output of `process_plane_v` is the vector that
`solve_row_h` computes from column `i` of the input. -/
theorem process_plane_v_solved {α : Type} [Zero α] [Add α] [Sub α] [Mul α]
    (height current_width bandwidth : ℕ) (L R : Array ℕ)
    (weights lower upper diagonal : Array α) (src_stride dst_stride : ℕ) (srcp dstp : ℕ → α)
    (hstride : current_width ≤ dst_stride) (i : ℕ) (hi : i < current_width) (j : ℕ)
    (hj : j < height) :
    process_plane_v height current_width bandwidth L R weights lower upper diagonal
        src_stride dst_stride srcp dstp (j * dst_stride + i)
      = solve_row_h height ((bandwidth + 1) / 2) (weights.size / height) L R weights lower upper
          diagonal (fun k => srcp (k * src_stride + i)) (fun _ => 0) j := by
  unfold process_plane_v
  dsimp only
  revert hj j hi i
  refine loop_inv
    (fun (I : ℕ) (mem : ℕ → α) => ∀ i, i < I → ∀ j, j < height →
      mem (j * dst_stride + i)
        = solve_row_h height ((bandwidth + 1) / 2) (weights.size / height) L R weights lower
            upper diagonal (fun k => srcp (k * src_stride + i)) (fun _ => 0) j)
    _ current_width dstp (fun i hi => absurd hi (Nat.not_lt_zero i)) ?_
  · intro I hI mem hmem i' hi' j' hj'
    by_cases hiI : i' = I
    · subst hiI
      have own := congrFun (process_plane_v_own height ((bandwidth + 1) / 2)
        (weights.size / height) L R weights lower upper diagonal src_stride dst_stride srcp
        (by omega) i' mem) j'
      rw [own]
      exact solve_row_h_congr height ((bandwidth + 1) / 2) (weights.size / height) L R weights
        lower upper diagonal _ _ _ _ (fun _ _ _ _ => rfl) j' hj'
    · rw [← hmem i' (by omega) j' hj']
      have hne : ∀ k, k * dst_stride + I ≠ j' * dst_stride + i' := by
        intro k h
        exact hiI (idx_inj k I j' i' dst_stride (by omega) (by omega) h).2.symm
      have back := loop_inv
        (fun (_ : ℕ) (m : ℕ → α) => m (j' * dst_stride + i') = mem (j' * dst_stride + i'))
      refine back _ (height - 1) _ ?_ ?_
      · refine back _ height mem rfl ?_
        intro t _ m hm
        dsimp only
        rw [Function.update_noteq (hne t).symm, Function.update_noteq (hne t).symm]
        exact hm
      · intro t _ m hm
        dsimp only
        rw [Function.update_noteq (hne _).symm]
        exact hm

/-- C19. The horizontal and vertical solvers are the same computation up to
indexing: for every type of values with operations `0`, `+`, `-`, `·` on which
no law is assumed, every core (arrays `L`, `R`, `weights`, `lower`, `upper`,
`diagonal`), every vector count and every input image, column `i` of the
output of `process_plane_v` (cells `j·dst_stride + i`) is exactly the row `r`
that `process_plane_h` writes (cells `r·dst_stride + j`) when row `r` of its
input holds the `n` samples of column `i` (`srcp[k·src_stride + i]`). Taken at
the formal expressions `OpTerm`, where `a + b` and `b + a` differ, the equality
says that both functions apply the same operations to the same operands in
the same order. -/
theorem process_plane_v_eq_process_plane_h {α : Type} [Zero α] [Add α] [Sub α] [Mul α]
    (height current_width current_height bandwidth n : ℕ)
    (L R : Array ℕ) (weights lower upper diagonal : Array α)
    (src_stride_v dst_stride_v : ℕ) (srcp_v dstp_v : ℕ → α)
    (src_stride_h dst_stride_h : ℕ) (srcp_h dstp_h : ℕ → α)
    (hv : current_width ≤ dst_stride_v) (hh : height ≤ dst_stride_h)
    (hR : ∀ j, j < height → rd R j ≤ n)
    (i : ℕ) (hi : i < current_width) (r : ℕ) (hr : r < current_height)
    (hsame : ∀ k, k < n → srcp_v (k * src_stride_v + i) = srcp_h (r * src_stride_h + k)) :
    ∀ j, j < height →
      process_plane_v height current_width bandwidth L R weights lower upper diagonal
          src_stride_v dst_stride_v srcp_v dstp_v (j * dst_stride_v + i)
        = process_plane_h height current_height bandwidth L R weights lower upper diagonal
            src_stride_h dst_stride_h srcp_h dstp_h (r * dst_stride_h + j) := by
  intro j hj
  rw [process_plane_v_solved height current_width bandwidth L R weights lower upper diagonal
      src_stride_v dst_stride_v srcp_v dstp_v hv i hi j hj,
    process_plane_h_solved height current_height bandwidth L R weights lower upper diagonal
      src_stride_h dst_stride_h srcp_h dstp_h hh r hr j hj]
  apply solve_row_h_congr
  · intro j' hj' t ht
    have := hR j' hj'
    exact hsame (rd L j' + t) (by omega)
  · exact hj

/-- Witness of C19 on formal expressions: a core with two solver rows
(`c = 2`, brackets `[0, 2)` and `[1, 3)`) whose coefficients are the atoms
`10..13` (weights), `20, 21` (lower), `30, 31` (upper), `40, 41` (diagonal),
applied by `process_plane_v` to column `1` of an image of width 2 and by
`process_plane_h` to row `0` holding the same three samples (atoms `0, 1, 2`).
Both write the same expressions; the second entry is
`((0 + w12·s1 + w13·s2) − (0 + l21·z0))·d41` with
`z0 = ((0 + w10·s0 + w11·s1) − 0)·d40`. -/
theorem process_plane_v_eq_process_plane_h_witness :
    OpTerm.add (.atom 0) (.atom 1) ≠ OpTerm.add (.atom 1) (.atom 0)
    ∧ process_plane_h 2 1 3 #[0, 1] #[2, 3]
        #[OpTerm.atom 10, .atom 11, .atom 12, .atom 13] #[.atom 20, .atom 21]
        #[.atom 30, .atom 31] #[.atom 40, .atom 41] 3 2 (fun k => .atom k) (fun _ => .zero)
        (0 * 2 + 1)
      = .mul (.sub (.add (.add .zero (.mul (.atom 12) (.atom 1))) (.mul (.atom 13) (.atom 2)))
            (.add .zero (.mul (.atom 21)
              (.mul (.sub (.add (.add .zero (.mul (.atom 10) (.atom 0)))
                  (.mul (.atom 11) (.atom 1))) .zero) (.atom 40)))))
          (.atom 41)
    ∧ ∀ j, j < 2 →
      process_plane_v 2 2 3 #[0, 1] #[2, 3]
          #[OpTerm.atom 10, .atom 11, .atom 12, .atom 13] #[.atom 20, .atom 21]
          #[.atom 30, .atom 31] #[.atom 40, .atom 41] 2 2
          (fun k => if k % 2 = 1 then .atom (k / 2) else .atom 99) (fun _ => .zero)
          (j * 2 + 1)
        = process_plane_h 2 1 3 #[0, 1] #[2, 3]
            #[OpTerm.atom 10, .atom 11, .atom 12, .atom 13] #[.atom 20, .atom 21]
            #[.atom 30, .atom 31] #[.atom 40, .atom 41] 3 2 (fun k => .atom k)
            (fun _ => .zero) (0 * 2 + j) :=
  ⟨by decide, by decide!,
    process_plane_v_eq_process_plane_h 2 2 1 3 3 #[0, 1] #[2, 3]
      #[OpTerm.atom 10, .atom 11, .atom 12, .atom 13] #[.atom 20, .atom 21]
      #[.atom 30, .atom 31] #[.atom 40, .atom 41] 2 2
      (fun k => if k % 2 = 1 then .atom (k / 2) else .atom 99) (fun _ => .zero)
      3 2 (fun k => .atom k) (fun _ => .zero) (by decide) (by decide) (by decide!)
      1 (by decide) 0 (by decide) (by decide)⟩

end VerticalSolver

section PluginCreate
variable {K : Type} [LinearOrderedField K] [FloorRing K]

/-- The checks of `descale_create` up to the blur check pass for a call with
valid arguments and accepted sizes; what remains is the early return, the
`post_conv` checks and `createVideoFilter`. -/
theorem descale_create_valid (a : VSPlugin.Args K) (hv : VSPlugin.base_args_valid a)
    (hd : ¬ VSPlugin.dims_rejected a) :
    ∃ mode, a.mode = some mode ∧
    VSPlugin.descale_create a
      = if VSPlugin.process_h_flag a = false ∧ VSPlugin.process_v_flag a = false then
          { VSPlugin.Outcome.start with clip_returned := true, node_frees := 1 }
        else if VSPlugin.post_conv_size a ≠ 0 ∧ VSPlugin.post_conv_size a % 2 ≠ 1 then
          ({ VSPlugin.Outcome.start with
              process_h := VSPlugin.process_h_flag a
              process_v := VSPlugin.process_v_flag a } : VSPlugin.Outcome).fail
            (VSPlugin.funcname mode false) "Post-convolution kernel must have odd length."
        else if VSPlugin.post_conv_size a ≠ 0
            ∧ ((VSPlugin.process_h_flag a = true
                ∧ (VSPlugin.post_conv_size a : ℤ) > 2 * a.width + 1)
              ∨ (VSPlugin.process_v_flag a = true
                ∧ (VSPlugin.post_conv_size a : ℤ) > 2 * a.height + 1)) then
          ({ VSPlugin.Outcome.start with
              process_h := VSPlugin.process_h_flag a
              process_v := VSPlugin.process_v_flag a } : VSPlugin.Outcome).fail
            (VSPlugin.funcname mode false)
            "Post-convolution kernel is too large, exceeds clip dimensions."
        else
          { VSPlugin.Outcome.start with
              filter_created := true
              process_h := VSPlugin.process_h_flag a
              process_v := VSPlugin.process_v_flag a } := by
  obtain ⟨h1, h2, h3, h4, h5, h6, h7, h8, h9, h10⟩ := hv
  unfold VSPlugin.dims_rejected at hd
  push_neg at hd
  obtain ⟨d1, d2, d3, d4, d5, d6⟩ := hd
  obtain ⟨mode, hmode⟩ := Option.isSome_iff_exists.mp h1
  refine ⟨mode, hmode, ?_⟩
  unfold VSPlugin.descale_create
  rw [hmode]
  dsimp only
  have hblur : ¬ (a.blur.getD 1 ≥ ((a.src.width / 2 ^ a.src.format.subSamplingW : ℤ) : K)
      ∨ a.blur.getD 1 ≥ ((a.src.height / 2 ^ a.src.format.subSamplingH : ℤ) : K)
      ∨ a.blur.getD 1 ≤ 0) := by
    intro h
    rcases h with h | h | h
    · exact absurd h9 (not_lt.mpr h)
    · exact absurd h10 (not_lt.mpr h)
    · exact absurd h8 (not_lt.mpr h)
  have htaps : ¬ ((mode = VSPlugin.Mode.lanczos ∨ mode = VSPlugin.Mode.custom)
      ∧ a.taps.getD 3 < 1) := by
    intro h
    have := h7 (by rcases h.1 with h' | h' <;> simp [hmode, h'])
    omega
  rw [if_neg (by rw [h3]; simp), if_neg (by rw [h4, h5]; simp), if_neg (by rw [d1]; simp),
    if_neg (by rw [d2]; simp), h6]
  dsimp only
  rw [if_neg (by omega), if_neg (by omega), if_neg (by intro h; omega),
    if_neg (by rw [h2]; simp), if_neg htaps, if_neg hblur]
  have e1 : (decide (a.width ≠ a.src.width ∨ a.src_left.getD 0 ≠ 0
        ∨ a.src_width.getD (if a.upscale then (a.src.width : K) else (a.width : K))
          ≠ (a.width : K))
      || decide (a.force_h.getD (a.force.getD 0) ≠ 0)) = VSPlugin.process_h_flag a := rfl
  have e2 : (decide (a.height ≠ a.src.height ∨ a.src_top.getD 0 ≠ 0
        ∨ a.src_height.getD (if a.upscale then (a.src.height : K) else (a.height : K))
          ≠ (a.height : K))
      || decide (a.force_v.getD (a.force.getD 0) ≠ 0)) = VSPlugin.process_v_flag a := rfl
  have e3 : (match a.post_conv with
      | none => 0
      | some l => l.length) = VSPlugin.post_conv_size a := rfl
  rw [e1, e2, e3, h2]
  generalize VSPlugin.process_h_flag a = ph
  generalize VSPlugin.process_v_flag a = pv
  generalize VSPlugin.post_conv_size a = n
  cases ph <;> cases pv <;> simp [VSPlugin.Outcome.start, VSPlugin.Outcome.fail]

/-- A call with valid arguments and a rejected size stops at one of the
dimension errors. -/
theorem descale_create_rejected (a : VSPlugin.Args K) (hv : VSPlugin.base_args_valid a)
    (hd : VSPlugin.dims_rejected a) :
    VSPlugin.dimension_error a (VSPlugin.descale_create a).error
    ∧ (VSPlugin.descale_create a).filter_created = false
    ∧ (VSPlugin.descale_create a).clip_returned = false := by
  obtain ⟨h1, h2, h3, h4, h5, h6, h7, h8, h9, h10⟩ := hv
  obtain ⟨mode, hmode⟩ := Option.isSome_iff_exists.mp h1
  unfold VSPlugin.dimension_error VSPlugin.descale_create
  rw [hmode]
  dsimp only
  rw [if_neg (by rw [h3]; simp), if_neg (by rw [h4, h5]; simp)]
  by_cases c1 : a.width % 2 ^ a.src.format.subSamplingW ≠ 0
  · rw [if_pos c1]
    exact ⟨Or.inl rfl, rfl, rfl⟩
  rw [if_neg c1]
  by_cases c2 : a.height % 2 ^ a.src.format.subSamplingH ≠ 0
  · rw [if_pos c2]
    exact ⟨Or.inr (Or.inl rfl), rfl, rfl⟩
  rw [if_neg c2, h6]
  dsimp only
  by_cases c3 : a.width < 1
  · rw [if_pos c3]
    exact ⟨Or.inr (Or.inr (Or.inl rfl)), rfl, rfl⟩
  rw [if_neg c3]
  by_cases c4 : a.height < 8
  · rw [if_pos c4]
    exact ⟨Or.inr (Or.inr (Or.inr (Or.inl rfl))), rfl, rfl⟩
  rw [if_neg c4]
  have c5 : ¬ a.upscale = true ∧ (a.width > a.src.width ∨ a.height > a.src.height) := by
    refine ⟨by rw [h2]; simp, ?_⟩
    unfold VSPlugin.dims_rejected at hd
    rcases hd with h | h | h | h | h | h
    · exact absurd h c1
    · exact absurd h c2
    · exact absurd h c3
    · exact absurd h c4
    · exact Or.inl h
    · exact Or.inr h
  rw [if_pos c5]
  exact ⟨Or.inr (Or.inr (Or.inr (Or.inr rfl))), rfl, rfl⟩

/-- C13 as stated fails: `Debilinear` of a 16 × 16 `GrayS` clip to 4 × 4, every
other argument absent (so valid), has `1 ≤ width ≤ 16` and `1 ≤ height ≤ 16`
and is rejected: `descale_create` requires `height ≥ 8`. -/
theorem small_height_rejected :
    VSPlugin.base_args_valid
      (VSPlugin.plain_call .bilinear (VSPlugin.gray_clip 16 16) 4 4 : VSPlugin.Args ℚ)
    ∧ VSPlugin.post_conv_valid
      (VSPlugin.plain_call .bilinear (VSPlugin.gray_clip 16 16) 4 4 : VSPlugin.Args ℚ)
    ∧ (1 : ℤ) ≤ 4 ∧ (4 : ℤ) ≤ 16
    ∧ (VSPlugin.descale_create
        (VSPlugin.plain_call .bilinear (VSPlugin.gray_clip 16 16) 4 4 : VSPlugin.Args ℚ)).error
      = some "Debilinear: Output height must be greater than or equal to 8."
    ∧ (VSPlugin.descale_create
        (VSPlugin.plain_call .bilinear (VSPlugin.gray_clip 16 16) 4 4
          : VSPlugin.Args ℚ)).filter_created = false
    ∧ (VSPlugin.descale_create
        (VSPlugin.plain_call .bilinear (VSPlugin.gray_clip 16 16) 4 4
          : VSPlugin.Args ℚ)).clip_returned = false := by
  decide!

/-- C13, amended. Dimension errors: in descale mode, with every other argument
valid, `descale_create` fails with a dimension error if and only if the
requested width is less than 1, the requested height is less than 8, a
requested size exceeds the corresponding input dimension, or the output
subsampling does not divide a requested size; every other request is accepted
(the input clip is returned or a filter is created, and no error is set). -/
theorem dimension_errors (a : VSPlugin.Args K) (hv : VSPlugin.base_args_valid a)
    (hp : VSPlugin.post_conv_valid a) :
    (VSPlugin.dimension_error a (VSPlugin.descale_create a).error ↔ VSPlugin.dims_rejected a)
    ∧ (¬ VSPlugin.dims_rejected a →
      (VSPlugin.descale_create a).error = none
      ∧ ((VSPlugin.descale_create a).clip_returned = true
        ∨ (VSPlugin.descale_create a).filter_created = true)) := by
  have hacc : ¬ VSPlugin.dims_rejected a →
      (VSPlugin.descale_create a).error = none
      ∧ ((VSPlugin.descale_create a).clip_returned = true
        ∨ (VSPlugin.descale_create a).filter_created = true) := by
    intro hd
    obtain ⟨mode, _, e⟩ := descale_create_valid a hv hd
    rw [e]
    by_cases c1 : VSPlugin.process_h_flag a = false ∧ VSPlugin.process_v_flag a = false
    · rw [if_pos c1]
      exact ⟨rfl, Or.inl rfl⟩
    rw [if_neg c1]
    have c2 : ¬ (VSPlugin.post_conv_size a ≠ 0 ∧ VSPlugin.post_conv_size a % 2 ≠ 1) := by
      intro h
      rcases hp with h0 | h0
      · exact h.1 h0
      · exact h.2 h0.1
    have c3 : ¬ (VSPlugin.post_conv_size a ≠ 0
        ∧ ((VSPlugin.process_h_flag a = true
            ∧ (VSPlugin.post_conv_size a : ℤ) > 2 * a.width + 1)
          ∨ (VSPlugin.process_v_flag a = true
            ∧ (VSPlugin.post_conv_size a : ℤ) > 2 * a.height + 1))) := by
      intro h
      rcases hp with h0 | h0
      · exact h.1 h0
      · rcases h.2 with h' | h'
        · have := h0.2.1 h'.1
          omega
        · have := h0.2.2 h'.1
          omega
    rw [if_neg c2, if_neg c3]
    exact ⟨rfl, Or.inr rfl⟩
  refine ⟨⟨?_, fun hd => (descale_create_rejected a hv hd).1⟩, hacc⟩
  intro he
  by_contra hd
  have hn := (hacc hd).1
  rw [hn] at he
  unfold VSPlugin.dimension_error at he
  obtain ⟨mode, hmode⟩ := Option.isSome_iff_exists.mp hv.1
  rw [hmode] at he
  simp at he

/-- Witness of C13 (amended): `Debilinear` of a 16 × 16 `GrayS` clip to 8 × 8. -/
theorem dimension_errors_witness :
    VSPlugin.base_args_valid
      (VSPlugin.plain_call .bilinear (VSPlugin.gray_clip 16 16) 8 8 : VSPlugin.Args ℚ)
    ∧ VSPlugin.post_conv_valid
      (VSPlugin.plain_call .bilinear (VSPlugin.gray_clip 16 16) 8 8 : VSPlugin.Args ℚ)
    ∧ (VSPlugin.dimension_error
          (VSPlugin.plain_call .bilinear (VSPlugin.gray_clip 16 16) 8 8 : VSPlugin.Args ℚ)
          (VSPlugin.descale_create
            (VSPlugin.plain_call .bilinear (VSPlugin.gray_clip 16 16) 8 8
              : VSPlugin.Args ℚ)).error
        ↔ VSPlugin.dims_rejected
          (VSPlugin.plain_call .bilinear (VSPlugin.gray_clip 16 16) 8 8 : VSPlugin.Args ℚ)) :=
  ⟨by decide!, by decide!,
    (dimension_errors (VSPlugin.plain_call .bilinear (VSPlugin.gray_clip 16 16) 8 8)
      (by decide!) (by decide!)).1⟩

/-- C14 fails on the code: `Debilinear` of a 16 × 16 `GrayS` clip to 8 × 8 with
`blur = 0` sets the error "blur parameter is out of bounds." and frees the
node, but the block has no `return`: `createVideoFilter` is still called, with
the node that was freed. -/
theorem blur_error_does_not_return :
    VSPlugin.descale_create
      ({ (VSPlugin.plain_call .bilinear (VSPlugin.gray_clip 16 16) 8 8 : VSPlugin.Args ℚ) with
          blur := some 0 })
      = { error := some "Debilinear: blur parameter is out of bounds.", clip_returned := false,
          filter_created := true, node_frees := 1, stale_use := true, process_h := true,
          process_v := true } := by
  decide!

/-- C15 as stated fails: `Debilinear` of a 16 × 16 `GrayS` clip to 16 × 16 with
the even-length `post_conv = [1, 1]` and every other argument absent returns
the input clip without an error: the early return for "no processing
necessary" comes before the `post_conv` checks. -/
theorem even_post_conv_accepted :
    VSPlugin.base_args_valid
      ({ (VSPlugin.plain_call .bilinear (VSPlugin.gray_clip 16 16) 16 16 : VSPlugin.Args ℚ) with
          post_conv := some [1, 1] })
    ∧ VSPlugin.post_conv_size
      ({ (VSPlugin.plain_call .bilinear (VSPlugin.gray_clip 16 16) 16 16 : VSPlugin.Args ℚ) with
          post_conv := some [1, 1] }) = 2
    ∧ (VSPlugin.descale_create
      ({ (VSPlugin.plain_call .bilinear (VSPlugin.gray_clip 16 16) 16 16 : VSPlugin.Args ℚ) with
          post_conv := some [1, 1] })).error = none
    ∧ (VSPlugin.descale_create
      ({ (VSPlugin.plain_call .bilinear (VSPlugin.gray_clip 16 16) 16 16 : VSPlugin.Args ℚ) with
          post_conv := some [1, 1] })).clip_returned = true := by
  decide!

/-- C15, amended. Post-convolution validation: for every call in descale mode
whose other arguments are valid and whose sizes are accepted, if at least one
axis is processed then a non-empty `post_conv` of even length, or one whose
length exceeds `2·dst_dim + 1` on a processed axis, makes `descale_create`
fail with the matching error, and a filter is created only when `post_conv`
is empty or of odd length at most `2·dst_dim + 1` on every processed axis; if
no axis is processed the input clip is returned and `post_conv` is not
examined. -/
theorem post_conv_validation (a : VSPlugin.Args K) (hv : VSPlugin.base_args_valid a)
    (hd : ¬ VSPlugin.dims_rejected a) :
    ∃ mode, a.mode = some mode
    ∧ ((VSPlugin.process_h_flag a = true ∨ VSPlugin.process_v_flag a = true) →
        VSPlugin.post_conv_size a ≠ 0 → VSPlugin.post_conv_size a % 2 ≠ 1 →
        (VSPlugin.descale_create a).error
          = some (VSPlugin.get_error (VSPlugin.funcname mode false)
              "Post-convolution kernel must have odd length.")
        ∧ (VSPlugin.descale_create a).filter_created = false
        ∧ (VSPlugin.descale_create a).clip_returned = false)
    ∧ ((VSPlugin.process_h_flag a = true ∨ VSPlugin.process_v_flag a = true) →
        VSPlugin.post_conv_size a % 2 = 1 →
        ((VSPlugin.process_h_flag a = true ∧ (VSPlugin.post_conv_size a : ℤ) > 2 * a.width + 1)
          ∨ (VSPlugin.process_v_flag a = true
            ∧ (VSPlugin.post_conv_size a : ℤ) > 2 * a.height + 1)) →
        (VSPlugin.descale_create a).error
          = some (VSPlugin.get_error (VSPlugin.funcname mode false)
              "Post-convolution kernel is too large, exceeds clip dimensions.")
        ∧ (VSPlugin.descale_create a).filter_created = false
        ∧ (VSPlugin.descale_create a).clip_returned = false)
    ∧ ((VSPlugin.descale_create a).filter_created = true → VSPlugin.post_conv_valid a)
    ∧ ((VSPlugin.process_h_flag a = true ∨ VSPlugin.process_v_flag a = true) →
        VSPlugin.post_conv_valid a →
        (VSPlugin.descale_create a).filter_created = true
        ∧ (VSPlugin.descale_create a).error = none)
    ∧ (VSPlugin.process_h_flag a = false ∧ VSPlugin.process_v_flag a = false →
        (VSPlugin.descale_create a).clip_returned = true
        ∧ (VSPlugin.descale_create a).filter_created = false
        ∧ (VSPlugin.descale_create a).error = none) := by
  obtain ⟨mode, hmode, e⟩ := descale_create_valid a hv hd
  refine ⟨mode, hmode, ?_⟩
  rw [e]
  unfold VSPlugin.post_conv_valid
  generalize VSPlugin.process_h_flag a = ph
  generalize VSPlugin.process_v_flag a = pv
  generalize VSPlugin.post_conv_size a = n
  by_cases c1 : ph = false ∧ pv = false
  · rw [if_pos c1]
    obtain ⟨c1h, c1v⟩ := c1
    subst c1h c1v
    simp [VSPlugin.Outcome.start]
  rw [if_neg c1]
  have hproc : ph = true ∨ pv = true := by
    cases ph <;> cases pv <;> simp at c1 ⊢
  by_cases c2 : n ≠ 0 ∧ n % 2 ≠ 1
  · rw [if_pos c2]
    refine ⟨fun _ _ _ => ⟨rfl, rfl, rfl⟩, ?_, ?_, ?_, ?_⟩
    · intro _ h
      exact absurd h c2.2
    · intro h
      simp [VSPlugin.Outcome.start, VSPlugin.Outcome.fail] at h
    · intro _ h
      rcases h with h | h
      · exact absurd h c2.1
      · exact absurd h.1 c2.2
    · intro h
      exact absurd h c1
  rw [if_neg c2]
  by_cases c3 : n ≠ 0 ∧ ((ph = true ∧ (n : ℤ) > 2 * a.width + 1)
      ∨ (pv = true ∧ (n : ℤ) > 2 * a.height + 1))
  · rw [if_pos c3]
    refine ⟨?_, fun _ _ _ => ⟨rfl, rfl, rfl⟩, ?_, ?_, ?_⟩
    · intro _ h1 h2
      exact absurd ⟨h1, h2⟩ c2
    · intro h
      simp [VSPlugin.Outcome.start, VSPlugin.Outcome.fail] at h
    · intro _ h
      exfalso
      rcases h with h | h
      · exact c3.1 h
      · rcases c3.2 with h' | h'
        · have := h.2.1 h'.1
          omega
        · have := h.2.2 h'.1
          omega
    · intro h
      exact absurd h c1
  rw [if_neg c3]
  have hvalid : n = 0 ∨ (n % 2 = 1 ∧ (ph = true → (n : ℤ) ≤ 2 * a.width + 1)
      ∧ (pv = true → (n : ℤ) ≤ 2 * a.height + 1)) := by
    by_cases hn : n = 0
    · exact Or.inl hn
    · right
      refine ⟨?_, ?_, ?_⟩
      · by_contra h
        exact c2 ⟨hn, h⟩
      · intro hph
        by_contra h
        exact c3 ⟨hn, Or.inl ⟨hph, by omega⟩⟩
      · intro hpv
        by_contra h
        exact c3 ⟨hn, Or.inr ⟨hpv, by omega⟩⟩
  refine ⟨?_, ?_, fun _ => hvalid, fun _ _ => ⟨rfl, rfl⟩, ?_⟩
  · intro _ h1 h2
    exact absurd ⟨h1, h2⟩ c2
  · intro _ hodd h
    exfalso
    exact c3 ⟨by omega, h⟩
  · intro h
    exact absurd h c1

/-- Witness of C15 (amended): `Debilinear` of a 16 × 16 `GrayS` clip to 8 × 8
with `post_conv = [1/4, 1/2, 1/4]`. -/
theorem post_conv_validation_witness :
    VSPlugin.base_args_valid
      ({ (VSPlugin.plain_call .bilinear (VSPlugin.gray_clip 16 16) 8 8 : VSPlugin.Args ℚ) with
          post_conv := some [1 / 4, 1 / 2, 1 / 4] })
    ∧ ¬ VSPlugin.dims_rejected
      ({ (VSPlugin.plain_call .bilinear (VSPlugin.gray_clip 16 16) 8 8 : VSPlugin.Args ℚ) with
          post_conv := some [1 / 4, 1 / 2, 1 / 4] })
    ∧ ((VSPlugin.descale_create
        ({ (VSPlugin.plain_call .bilinear (VSPlugin.gray_clip 16 16) 8 8 : VSPlugin.Args ℚ) with
            post_conv := some [1 / 4, 1 / 2, 1 / 4] })).filter_created = true →
      VSPlugin.post_conv_valid
        ({ (VSPlugin.plain_call .bilinear (VSPlugin.gray_clip 16 16) 8 8 : VSPlugin.Args ℚ) with
            post_conv := some [1 / 4, 1 / 2, 1 / 4] })) :=
  ⟨by decide!, by decide!,
    (post_conv_validation
      ({ (VSPlugin.plain_call .bilinear (VSPlugin.gray_clip 16 16) 8 8 : VSPlugin.Args ℚ) with
          post_conv := some [1 / 4, 1 / 2, 1 / 4] })
      (by decide!) (by decide!)).choose_spec.2.2.2.1⟩

end PluginCreate

section PackedBand
variable {K : Type} [LinearOrderedField K] [FloorRing K]

/-- C21. Packed upper band: for every `rows`, every `bandwidth` with
`c = (bandwidth + 1) / 2 ≥ 1` and every matrix `M`,
`compress_symmetric_banded_matrix` returns an array of length `rows · c` with
`compressed[i·c + t] = M[i][i + t]` for `i < rows`, `t < c`, `i + t < rows`, and
`compressed[i·c + t] = 0` for the cells with `i + t ≥ rows`; the extra write of
row `rows − c − 1` into cell `(rows − c, 0)` is overwritten by the next row. -/
theorem compress_symmetric_packed_band (rows bandwidth : ℕ) (M : Array K)
    (hc : 1 ≤ (bandwidth + 1) / 2) :
    (compress_symmetric_banded_matrix rows bandwidth M).size = rows * ((bandwidth + 1) / 2)
    ∧ (∀ i t, i < rows → t < (bandwidth + 1) / 2 → i + t < rows →
      rd (compress_symmetric_banded_matrix rows bandwidth M) (i * ((bandwidth + 1) / 2) + t)
        = rd M (i * rows + (i + t)))
    ∧ (∀ i t, i < rows → t < (bandwidth + 1) / 2 → rows ≤ i + t →
      rd (compress_symmetric_banded_matrix rows bandwidth M) (i * ((bandwidth + 1) / 2) + t)
        = 0) := by
  obtain ⟨hs, hcell⟩ := rd_compress_symmetric rows bandwidth M hc
  refine ⟨hs, ?_, ?_⟩
  · intro i t hi ht hit
    rw [hcell i t hi ht, if_pos hit]
  · intro i t hi ht hit
    rw [hcell i t hi ht, if_neg (by omega)]

/-- Witness of C21: the band of width `c = 2` (`bandwidth = 3`) of the `4 × 4`
matrix with entries `1, …, 16`; row `1 = rows − c − 1` is the row where the two
copy branches meet. -/
theorem compress_symmetric_packed_band_witness :
    1 ≤ (3 + 1) / 2
    ∧ compress_symmetric_banded_matrix 4 3
        (#[1, 2, 3, 4, 5, 6, 7, 8, 9, 10, 11, 12, 13, 14, 15, 16] : Array ℚ)
      = #[1, 2, 6, 7, 11, 12, 16, 0]
    ∧ (compress_symmetric_banded_matrix 4 3
        (#[1, 2, 3, 4, 5, 6, 7, 8, 9, 10, 11, 12, 13, 14, 15, 16] : Array ℚ)).size
      = 4 * ((3 + 1) / 2)
    ∧ (∀ i t, i < 4 → t < (3 + 1) / 2 → i + t < 4 →
      rd (compress_symmetric_banded_matrix 4 3
          (#[1, 2, 3, 4, 5, 6, 7, 8, 9, 10, 11, 12, 13, 14, 15, 16] : Array ℚ))
        (i * ((3 + 1) / 2) + t)
        = rd (#[1, 2, 3, 4, 5, 6, 7, 8, 9, 10, 11, 12, 13, 14, 15, 16] : Array ℚ)
            (i * 4 + (i + t)))
    ∧ (∀ i t, i < 4 → t < (3 + 1) / 2 → 4 ≤ i + t →
      rd (compress_symmetric_banded_matrix 4 3
          (#[1, 2, 3, 4, 5, 6, 7, 8, 9, 10, 11, 12, 13, 14, 15, 16] : Array ℚ))
        (i * ((3 + 1) / 2) + t) = 0) :=
  ⟨by decide, by decide!,
    compress_symmetric_packed_band 4 3
      (#[1, 2, 3, 4, 5, 6, 7, 8, 9, 10, 11, 12, 13, 14, 15, 16] : Array ℚ) (by decide)⟩

end PackedBand

section PackedFactor
variable {K : Type} [LinearOrderedField K] [FloorRing K]

/-- The packed cells after `banded_cholesky_decomposition` (`eps = 0`, non-zero
pivots) factor the band they started from: for `i ≤ j < rows`,
`Σ_m L'[m][i]·D_mm·L'[m][j]` is the cell `(i, j − i)` of the input inside the
band and `0` outside it. -/
theorem packed_factor (rows bandwidth : ℕ) (P : Array K)
    (hc : 0 < (bandwidth + 1) / 2) (hsz : P.size = rows * ((bandwidth + 1) / 2))
    (hp : ∀ k, k < rows →
      rd (banded_cholesky_decomposition 0 rows bandwidth P) (k * ((bandwidth + 1) / 2)) ≠ 0)
    (i j : ℕ) (hij : i ≤ j) (hj : j < rows) :
    ∑ m in Finset.range rows,
      lt_entry ((bandwidth + 1) / 2)
          (cells (banded_cholesky_decomposition 0 rows bandwidth P) ((bandwidth + 1) / 2)) m i
        * rd (banded_cholesky_decomposition 0 rows bandwidth P) (m * ((bandwidth + 1) / 2))
        * lt_entry ((bandwidth + 1) / 2)
          (cells (banded_cholesky_decomposition 0 rows bandwidth P) ((bandwidth + 1) / 2)) m j
      = if j - i < (bandwidth + 1) / 2 then rd P (i * ((bandwidth + 1) / 2) + (j - i))
        else 0 := by
  obtain ⟨_, hcells⟩ := cholesky_cells (0 : K) rows bandwidth P hc hsz
  generalize banded_cholesky_decomposition 0 rows bandwidth P = F at hcells hp ⊢
  generalize (bandwidth + 1) / 2 = c at hc hsz hcells hp ⊢
  have hcell0 : ∀ m, rd F (m * c) = chol_iter 0 rows c rows (cells P c) m 0 := by
    intro m
    rw [← hcells m 0 hc]
    unfold cells
    rw [Nat.add_zero]
  have hfac := chol_iter_factor rows c (cells P c) hc
    (fun m hm => by rw [← hcell0 m]; exact hp m hm) i j hij hj
  have hterm : ∀ m ∈ Finset.range (i + 1),
      lt_entry c (cells F c) m i * rd F (m * c) * lt_entry c (cells F c) m j
        = lt_entry c (chol_iter 0 rows c rows (cells P c)) m i
          * chol_iter 0 rows c rows (cells P c) m 0
          * lt_entry c (chol_iter 0 rows c rows (cells P c)) m j := by
    intro m _
    rw [lt_entry_congr c _ _ hcells m i, lt_entry_congr c _ _ hcells m j, hcell0 m]
  have hsub : ∑ m in Finset.range (i + 1),
        lt_entry c (cells F c) m i * rd F (m * c) * lt_entry c (cells F c) m j
      = ∑ m in Finset.range rows,
        lt_entry c (cells F c) m i * rd F (m * c) * lt_entry c (cells F c) m j := by
    apply Finset.sum_subset
    · intro m hm
      exact Finset.mem_range.mpr (by have := Finset.mem_range.mp hm; omega)
    · intro m _ hnm
      have : i < m := by
        by_contra hcon
        exact hnm (Finset.mem_range.mpr (by omega))
      rw [lt_entry_low c _ m i this, zero_mul, zero_mul]
  rw [← hsub, Finset.sum_congr rfl hterm, hfac]
  rfl

/-- C22. Correctness of the banded LDL' factorisation: for every symmetric
`rows × rows` matrix `M` with `M[i][j] = 0` for `|i − j| ≥ c`, given in packed
upper-band form `P` (`P[i·c + t] = M[i][i + t]`), after
`banded_cholesky_decomposition` with `eps = 0` and all pivots non-zero, the
values `D_kk = packed[k·c]` and `L'[k][k + j] = packed[k·c + j]`
(`1 ≤ j < c`), with `L` the transpose of `L'` (unit lower triangular), satisfy
`(L·D·L')[i][j] = Σ_m L'[m][i]·D_mm·L'[m][j] = M[i][j]` for all `i, j < rows`. -/
theorem banded_cholesky_correct (rows bandwidth : ℕ) (P : Array K) (M : ℕ → ℕ → K)
    (hc : 0 < (bandwidth + 1) / 2) (hsz : P.size = rows * ((bandwidth + 1) / 2))
    (hsymm : ∀ i, i < rows → ∀ j, j < rows → M i j = M j i)
    (hband : ∀ i, i < rows → ∀ j, j < rows → i + (bandwidth + 1) / 2 ≤ j → M i j = 0)
    (hP : ∀ i, i < rows → ∀ t, t < (bandwidth + 1) / 2 → i + t < rows →
      rd P (i * ((bandwidth + 1) / 2) + t) = M i (i + t))
    (hp : ∀ k, k < rows →
      rd (banded_cholesky_decomposition 0 rows bandwidth P) (k * ((bandwidth + 1) / 2)) ≠ 0) :
    (∀ m, lt_entry ((bandwidth + 1) / 2)
        (cells (banded_cholesky_decomposition 0 rows bandwidth P) ((bandwidth + 1) / 2)) m m = 1)
    ∧ (∀ m i, i < m → lt_entry ((bandwidth + 1) / 2)
        (cells (banded_cholesky_decomposition 0 rows bandwidth P) ((bandwidth + 1) / 2)) m i = 0)
    ∧ (∀ k t, 1 ≤ t → t < (bandwidth + 1) / 2 → lt_entry ((bandwidth + 1) / 2)
        (cells (banded_cholesky_decomposition 0 rows bandwidth P) ((bandwidth + 1) / 2))
          k (k + t)
        = rd (banded_cholesky_decomposition 0 rows bandwidth P)
            (k * ((bandwidth + 1) / 2) + t))
    ∧ ∀ i j, i < rows → j < rows →
      ∑ m in Finset.range rows,
        lt_entry ((bandwidth + 1) / 2)
            (cells (banded_cholesky_decomposition 0 rows bandwidth P) ((bandwidth + 1) / 2)) m i
          * rd (banded_cholesky_decomposition 0 rows bandwidth P) (m * ((bandwidth + 1) / 2))
          * lt_entry ((bandwidth + 1) / 2)
            (cells (banded_cholesky_decomposition 0 rows bandwidth P) ((bandwidth + 1) / 2)) m j
        = M i j := by
  have hup : ∀ i j, i ≤ j → j < rows →
      ∑ m in Finset.range rows,
        lt_entry ((bandwidth + 1) / 2)
            (cells (banded_cholesky_decomposition 0 rows bandwidth P) ((bandwidth + 1) / 2)) m i
          * rd (banded_cholesky_decomposition 0 rows bandwidth P) (m * ((bandwidth + 1) / 2))
          * lt_entry ((bandwidth + 1) / 2)
            (cells (banded_cholesky_decomposition 0 rows bandwidth P) ((bandwidth + 1) / 2)) m j
        = M i j := by
    intro i j hij hj
    rw [packed_factor rows bandwidth P hc hsz hp i j hij hj]
    by_cases hb : j - i < (bandwidth + 1) / 2
    · rw [if_pos hb, hP i (by omega) (j - i) hb (by omega)]
      have e : i + (j - i) = j := by omega
      rw [e]
    · rw [if_neg hb]
      exact (hband i (by omega) j hj (by omega)).symm
  refine ⟨fun m => lt_entry_self _ _ m, fun m i h => lt_entry_low _ _ m i h, ?_, ?_⟩
  · intro k t h1 ht
    unfold lt_entry cells
    rw [if_neg (by omega), if_pos ⟨by omega, by omega⟩]
    have e : k + t - k = t := by omega
    rw [e]
  · intro i j hi hj
    by_cases hij : i ≤ j
    · exact hup i j hij hj
    · rw [hsymm i hi j hj, ← hup j i (by omega) hi]
      apply Finset.sum_congr rfl
      intro m _
      ring

/-- Witness of C22: the packed band `[4, 2, 5, 2, 5, 0]` (`c = 2`) of the
tridiagonal matrix `[[4, 2, 0], [2, 5, 2], [0, 2, 5]]`, whose pivots are
`4, 4, 4`. -/
theorem banded_cholesky_correct_witness :
    banded_cholesky_decomposition 0 3 3 (#[4, 2, 5, 2, 5, 0] : Array ℚ)
      = #[4, 1 / 2, 4, 1 / 2, 4, 0]
    ∧ ∀ i j, i < 3 → j < 3 →
      ∑ m in Finset.range 3,
        lt_entry ((3 + 1) / 2)
            (cells (banded_cholesky_decomposition 0 3 3 (#[4, 2, 5, 2, 5, 0] : Array ℚ))
              ((3 + 1) / 2)) m i
          * rd (banded_cholesky_decomposition 0 3 3 (#[4, 2, 5, 2, 5, 0] : Array ℚ))
              (m * ((3 + 1) / 2))
          * lt_entry ((3 + 1) / 2)
            (cells (banded_cholesky_decomposition 0 3 3 (#[4, 2, 5, 2, 5, 0] : Array ℚ))
              ((3 + 1) / 2)) m j
        = (fun i j => rd (#[4, 2, 0, 2, 5, 2, 0, 2, 5] : Array ℚ) (i * 3 + j)) i j :=
  ⟨by decide!,
    (banded_cholesky_correct 3 3 (#[4, 2, 5, 2, 5, 0] : Array ℚ)
      (fun i j => rd (#[4, 2, 0, 2, 5, 2, 0, 2, 5] : Array ℚ) (i * 3 + j))
      (by decide) (by decide) (by decide!) (by decide!) (by decide!) (by decide!)).2.2.2⟩

end PackedFactor

section DiagonalScale
variable {K : Type} [LinearOrderedField K] [FloorRing K]

/-- C23 as stated fails: in the `2 × 2` matrix `[[2, 0], [1, 3]]` with
`bandwidth = 3` (`c = 2`) the entry `(1, 0)` becomes `1 · 2`, the product with
the diagonal entry `L[0][0]` of its column, not `1 · 3`, the product with the
diagonal entry `L[1][1]` of its row. -/
theorem multiply_banded_scales_by_column :
    multiply_banded_matrix_with_diagonal 2 3 (#[2, 0, 1, 3] : Array ℚ) = #[2, 0, 2, 3]
    ∧ rd (multiply_banded_matrix_with_diagonal 2 3 (#[2, 0, 1, 3] : Array ℚ)) (1 * 2 + 0)
      ≠ rd (#[2, 0, 1, 3] : Array ℚ) (1 * 2 + 0) * rd (#[2, 0, 1, 3] : Array ℚ) (1 * 2 + 1) := by
  decide!

/-- C23, amended. Step (iii) of the layout conversion:
`multiply_banded_matrix_with_diagonal` multiplies every entry `(i, j)` of `L`
strictly below the diagonal and inside the band (`max(i − (c − 1), 0) ≤ j < i`)
by the diagonal entry of its column, `L[j][j]`, and leaves the diagonal and
every entry outside the band unchanged; the size stays `rows · rows`. -/
theorem multiply_banded_column_scale (rows bandwidth : ℕ) (Lw : Array K)
    (hsize : Lw.size = rows * rows) :
    (multiply_banded_matrix_with_diagonal rows bandwidth Lw).size = rows * rows
    ∧ (∀ i j, i < rows → j < i → i - ((bandwidth + 1) / 2 - 1) ≤ j →
      rd (multiply_banded_matrix_with_diagonal rows bandwidth Lw) (i * rows + j)
        = rd Lw (i * rows + j) * rd Lw (j * rows + j))
    ∧ (∀ i, i < rows →
      rd (multiply_banded_matrix_with_diagonal rows bandwidth Lw) (i * rows + i)
        = rd Lw (i * rows + i))
    ∧ (∀ i j, i < rows → j < rows → (i ≤ j ∨ j < i - ((bandwidth + 1) / 2 - 1)) →
      rd (multiply_banded_matrix_with_diagonal rows bandwidth Lw) (i * rows + j)
        = rd Lw (i * rows + j)) := by
  obtain ⟨hs, h⟩ := rd_multiply_banded rows bandwidth Lw hsize
  refine ⟨hs, ?_, ?_, ?_⟩
  · intro i j hi hji hb
    rw [h i j hi (by omega), if_pos ⟨hji, hb⟩]
  · intro i hi
    rw [h i i hi hi, if_neg (by omega)]
  · intro i j hi hj hout
    rw [h i j hi hj, if_neg (by omega)]

/-- Witness of C23 (amended): the `3 × 3` matrix `[[2, 0, 0], [1, 3, 0],
[7, 1, 5]]` with `bandwidth = 3` (`c = 2`): the entries `(1, 0)` and `(2, 1)`
are scaled by `L[0][0] = 2` and `L[1][1] = 3`, the entry `(2, 0)` outside the
band keeps its value. -/
theorem multiply_banded_column_scale_witness :
    (#[2, 0, 0, 1, 3, 0, 7, 1, 5] : Array ℚ).size = 3 * 3
    ∧ multiply_banded_matrix_with_diagonal 3 3 (#[2, 0, 0, 1, 3, 0, 7, 1, 5] : Array ℚ)
      = #[2, 0, 0, 2, 3, 0, 7, 3, 5]
    ∧ (∀ i j, i < 3 → j < i → i - ((3 + 1) / 2 - 1) ≤ j →
      rd (multiply_banded_matrix_with_diagonal 3 3 (#[2, 0, 0, 1, 3, 0, 7, 1, 5] : Array ℚ))
          (i * 3 + j)
        = rd (#[2, 0, 0, 1, 3, 0, 7, 1, 5] : Array ℚ) (i * 3 + j)
          * rd (#[2, 0, 0, 1, 3, 0, 7, 1, 5] : Array ℚ) (j * 3 + j)) :=
  ⟨by decide, by decide!,
    (multiply_banded_column_scale 3 3 (#[2, 0, 0, 1, 3, 0, 7, 1, 5] : Array ℚ)
      (by decide)).2.1⟩

end DiagonalScale

section SolverLayout
variable {K : Type} [LinearOrderedField K] [FloorRing K]

/-- `extract_compressed_lower_upper_diagonal` keeps the sizes of its three
output vectors. -/
theorem size_extract (eps : K) (rows bandwidth : ℕ) (lower upper cl cu dg : Array K)
    (hcl : cl.size = rows * ((bandwidth + 1) / 2 - 1))
    (hcu : cu.size = rows * ((bandwidth + 1) / 2 - 1)) (hdg : dg.size = rows) :
    (extract_compressed_lower_upper_diagonal eps rows bandwidth lower upper cl cu dg).1.size
      = rows * ((bandwidth + 1) / 2 - 1)
    ∧ (extract_compressed_lower_upper_diagonal eps rows bandwidth lower upper cl cu dg).2.1.size
      = rows * ((bandwidth + 1) / 2 - 1)
    ∧ (extract_compressed_lower_upper_diagonal eps rows bandwidth lower upper cl cu dg).2.2.size
      = rows := by
  unfold extract_compressed_lower_upper_diagonal
  simp only []
  generalize lower.size / rows = columns
  generalize (bandwidth + 1) / 2 = c at hcl hcu ⊢
  refine ⟨?_, ?_, ?_⟩
  · refine Eq.trans ?_ hcl
    refine loop_inv (fun _ (a : Array K) => a.size = cl.size) _ rows cl rfl ?_
    intro i _ a ha
    refine loop_inv (fun _ (a : Array K) => a.size = cl.size) _ (c - 1) a ha ?_
    intro t _ a' ha'
    rw [size_wr]
    exact ha'
  · refine Eq.trans ?_ hcu
    refine loop_inv (fun _ (a : Array K) => a.size = cu.size) _ rows cu rfl ?_
    intro i _ a ha
    refine loop_inv (fun _ (a : Array K) => a.size = cu.size) _ _ a ha ?_
    intro t _ a' ha'
    rw [size_wr]
    exact ha'
  · refine Eq.trans ?_ hdg
    refine loop_inv (fun _ (a : Array K) => a.size = dg.size) _ rows dg rfl ?_
    intro i _ a ha
    rw [size_wr]
    exact ha

/-- C24. The packed factors are laid out as the solver indexes them: after
`extract_compressed_lower_upper_diagonal` on `rows × rows` matrices, for every
row `i < rows`, `compressed_lower[i·(c−1) + k − max(0, i−c+1)] = lower[i][k]`
for `max(0, i−c+1) ≤ k < i`,
`compressed_upper[i·(c−1) + k + c − 2 − min(rows−1, i+c−1)] = upper[i][k]` for
`i < k ≤ min(rows−1, i+c−1)`, and `diagonal[i] = 1/(lower[i][i] + eps)`; the
packed arrays keep the length `rows·(c−1)` and `diagonal` the length `rows`
that `descale_create` gave them. These are the indices that `solve_row_h` reads. -/
theorem extract_layout (eps : K) (rows bandwidth : ℕ) (lower upper cl cu dg : Array K)
    (hrows : 0 < rows) (hlower : lower.size = rows * rows)
    (hcl : cl.size = rows * ((bandwidth + 1) / 2 - 1))
    (hcu : cu.size = rows * ((bandwidth + 1) / 2 - 1)) (hdg : dg.size = rows) :
    ((extract_compressed_lower_upper_diagonal eps rows bandwidth lower upper cl cu dg).1.size
        = rows * ((bandwidth + 1) / 2 - 1)
      ∧ (extract_compressed_lower_upper_diagonal eps rows bandwidth lower upper cl cu dg).2.1.size
        = rows * ((bandwidth + 1) / 2 - 1)
      ∧ (extract_compressed_lower_upper_diagonal eps rows bandwidth lower upper cl cu dg).2.2.size
        = rows)
    ∧ (∀ i k, i < rows → i + 1 - (bandwidth + 1) / 2 ≤ k → k < i →
      rd (extract_compressed_lower_upper_diagonal eps rows bandwidth lower upper cl cu dg).1
          (i * ((bandwidth + 1) / 2 - 1) + k - (i + 1 - (bandwidth + 1) / 2))
        = rd lower (i * rows + k))
    ∧ (∀ i k, i < rows → i < k → k ≤ min (rows - 1) (i + (bandwidth + 1) / 2 - 1) →
      rd (extract_compressed_lower_upper_diagonal eps rows bandwidth lower upper cl cu dg).2.1
          (i * ((bandwidth + 1) / 2 - 1) + k + (bandwidth + 1) / 2 - 2
            - min (rows - 1) (i + (bandwidth + 1) / 2 - 1))
        = rd upper (i * rows + k))
    ∧ (∀ i, i < rows →
      rd (extract_compressed_lower_upper_diagonal eps rows bandwidth lower upper cl cu dg).2.2 i
        = 1 / (rd lower (i * rows + i) + eps)) := by
  obtain ⟨h1, h2, h3⟩ := rd_extract eps rows bandwidth lower upper cl cu dg hrows hlower
    hcl hcu hdg
  refine ⟨size_extract eps rows bandwidth lower upper cl cu dg hcl hcu hdg, ?_, ?_, h3⟩
  · intro i k hi hk hki
    have e1 : i * ((bandwidth + 1) / 2 - 1) + k - (i + 1 - (bandwidth + 1) / 2)
        = i * ((bandwidth + 1) / 2 - 1) + (k - (i + 1 - (bandwidth + 1) / 2)) := by omega
    have e2 : i + 1 - (bandwidth + 1) / 2 + (k - (i + 1 - (bandwidth + 1) / 2)) = k := by omega
    rw [e1, h1 i (k - (i + 1 - (bandwidth + 1) / 2)) hi (by omega), e2]
  · intro i k hi hik hk
    rw [Nat.min_comm] at hk ⊢
    have hS := Nat.min_le_left (i + (bandwidth + 1) / 2 - 1) (rows - 1)
    have hS2 := Nat.min_le_right (i + (bandwidth + 1) / 2 - 1) (rows - 1)
    have := h2 i (min (i + (bandwidth + 1) / 2 - 1) (rows - 1) - k) hi (by omega)
    generalize min (i + (bandwidth + 1) / 2 - 1) (rows - 1) = S at hk hS hS2 this ⊢
    have e1 : i * ((bandwidth + 1) / 2 - 1) + k + (bandwidth + 1) / 2 - 2 - S
        = i * ((bandwidth + 1) / 2 - 1) + ((bandwidth + 1) / 2 - 2 - (S - k)) := by
      generalize i * ((bandwidth + 1) / 2 - 1) = X
      omega
    have e2 : S - (S - k) = k := by omega
    rw [e1, this, e2]

/-- Witness of C24: `rows = 3`, `bandwidth = 3` (`c = 2`), `eps = 0`, the
matrices `lower = [[2, 0, 0], [1, 3, 0], [7, 1, 5]]` and
`upper = [[2, 4, 6], [0, 3, 8], [0, 0, 5]]`, and zero-filled outputs. -/
theorem extract_layout_witness :
    extract_compressed_lower_upper_diagonal (0 : ℚ) 3 3 #[2, 0, 0, 1, 3, 0, 7, 1, 5]
        #[2, 4, 6, 0, 3, 8, 0, 0, 5] (mkArray 3 0) (mkArray 3 0) (mkArray 3 0)
      = (#[2, 1, 1], #[4, 8, 0], #[1 / 2, 1 / 3, 1 / 5])
    ∧ ∀ i k, i < 3 → i + 1 - (3 + 1) / 2 ≤ k → k < i →
      rd (extract_compressed_lower_upper_diagonal (0 : ℚ) 3 3 #[2, 0, 0, 1, 3, 0, 7, 1, 5]
          #[2, 4, 6, 0, 3, 8, 0, 0, 5] (mkArray 3 0) (mkArray 3 0) (mkArray 3 0)).1
          (i * ((3 + 1) / 2 - 1) + k - (i + 1 - (3 + 1) / 2))
        = rd (#[2, 0, 0, 1, 3, 0, 7, 1, 5] : Array ℚ) (i * 3 + k) :=
  ⟨by decide!,
    (extract_layout (0 : ℚ) 3 3 #[2, 0, 0, 1, 3, 0, 7, 1, 5] #[2, 4, 6, 0, 3, 8, 0, 0, 5]
      (mkArray 3 0) (mkArray 3 0) (mkArray 3 0) (by decide) (by decide) (by decide)
      (by decide) (by decide)).2.1⟩

end SolverLayout

section Projection
variable {K : Type} [LinearOrderedField K] [FloorRing K]

/-- The packed weights of a core and its index brackets give the full product
with the transposed weight matrix, whatever the kernel, the shift and `eps`. -/
theorem packed_projection (sin : K → K) (eps : K) (mode : DescaleMode) (s N H bw : ℕ)
    (b c shift : K) (hN : 0 < N) (hH : 0 < H) (srcp : ℕ → K) (j : ℕ) (hj : j < N) :
    ∑ t in Finset.range
        (rd (descale_create_axis sin eps mode s N H bw b c shift
            AxisCore.empty).weights_right_idx j
          - rd (descale_create_axis sin eps mode s N H bw b c shift
            AxisCore.empty).weights_left_idx j),
      rd (descale_create_axis sin eps mode s N H bw b c shift AxisCore.empty).weights
          (j * ((descale_create_axis sin eps mode s N H bw b c shift
              AxisCore.empty).weights.size / N)
            + (rd (descale_create_axis sin eps mode s N H bw b c shift
              AxisCore.empty).weights_left_idx j + t)
            - rd (descale_create_axis sin eps mode s N H bw b c shift
              AxisCore.empty).weights_left_idx j)
        * srcp (rd (descale_create_axis sin eps mode s N H bw b c shift
              AxisCore.empty).weights_left_idx j + t)
      = ∑ k in Finset.range H, rd (scaling_weights sin mode s N H b c shift) (k * N + j)
          * srcp k := by
  have hW := size_scaling_weights sin mode s N H b c shift
  unfold descale_create_axis
  dsimp only [AxisCore.empty]
  generalize scaling_weights sin mode s N H b c shift = W at hW ⊢
  have hTs : (transpose_matrix H W).size = N * H := by rw [size_transpose_matrix, hW]
  have hT : ∀ i k, i < N → k < H → rd (transpose_matrix H W) (i * H + k) = rd W (k * N + i) :=
    fun i k hi hk => rd_transpose_matrix H N W hH (by rw [hW, Nat.mul_comm]) k i hk hi
  have hbr := fun i hi f hf => idx_bracket N H (transpose_matrix H W) i hi f hf
  obtain ⟨hLsz, _, _⟩ := find_idx_spec N H (transpose_matrix H W) (resize (#[] : Array ℕ) N)
    (resize (#[] : Array ℕ) N) (size_resize _ _) (size_resize _ _)
  generalize transpose_matrix H W = T at hTs hT hbr hLsz ⊢
  generalize (find_idx N H T (resize (#[] : Array ℕ) N, resize (#[] : Array ℕ) N)).1 = L
    at hbr hLsz ⊢
  generalize (find_idx N H T (resize (#[] : Array ℕ) N, resize (#[] : Array ℕ) N)).2 = R
    at hbr ⊢
  obtain ⟨mx, hcs, hmxb, hcm⟩ := rd_compress_matrix N H L R T hN hTs
  have hcols : (compress_matrix N L R T).size / N = mx := by
    rw [hcs]; exact Nat.mul_div_cancel_left mx hN
  rw [hcols]
  obtain ⟨hws, hwr, _⟩ := loop2_wr N (fun _ => mx) (fun i j => i * mx + j)
    (fun i j => rd (compress_matrix N L R T) (i * mx + j)) (resize (#[] : Array K) (N * mx))
    (by
      intro a b a' b' _ hb _ hb' e
      exact idx_inj a b a' b' mx hb hb' e)
    (by
      intro a b ha hb
      rw [size_resize]
      exact idx_lt a b N mx ha hb)
  generalize (loop (fun i v => loop (fun j v => wr v ((fun i j => i * mx + j) i j)
    ((fun i j => rd (compress_matrix N L R T) (i * mx + j)) i j)) ((fun _ => mx) i) v) N
    (resize (#[] : Array K) (N * mx))) = Wout at hws hwr ⊢
  have hwcols : Wout.size / N = mx := by
    rw [hws, size_resize]; exact Nat.mul_div_cancel_left mx hN
  rw [hwcols]
  have h1 : ∀ t ∈ Finset.range (rd R j - rd L j),
      rd Wout (j * mx + (rd L j + t) - rd L j) * srcp (rd L j + t)
        = (fun k => rd T (j * H + k) * srcp k) (rd L j + t) := by
    intro t ht
    have ht' := Finset.mem_range.mp ht
    have hb := hmxb j (by rw [hLsz]; exact hj)
    have e : j * mx + (rd L j + t) - rd L j = j * mx + t := by omega
    have := hwr j t hj (by omega)
    rw [e, this, hcm j t hj (by omega)]
    dsimp only
    rw [Nat.add_assoc]
  rw [Finset.sum_congr rfl h1,
    hbr j hj (fun k => rd T (j * H + k) * srcp k)
      (fun k _ hz => by dsimp only; rw [hz, zero_mul])]
  apply Finset.sum_congr rfl
  intro k hk
  dsimp only
  rw [hT j k hj (Finset.mem_range.mp hk)]

/-- C25. The projection step computes `A'·b` from the packed weights: for
every core built by `descale_create` (any kernel, shift and `eps`) with the
matrix `A` returned by `scaling_weights`, every row `r` of the image and every
solver row `j < N`, the value `y_j` on which `process_plane_h` runs its forward
substitution is the full product `Σ_{k < H} A[k][j]·b[k]` with `b` the row `r`
of the source: (1) the row written by `process_plane_h` is the backward
substitution of the vector `z` with
`z_j = (Σ_{k < H} A[k][j]·b[k] − Σ_k lower[…]·z_k) · diagonal[j]`;
(2) with the trivial factors (`lower = upper = 0`, `diagonal = 1`) in place of
the core's, `solve_row_h`, the body of `process_plane_h`, returns
`Σ_{k < H} A[k][j]·b[k]` itself. -/
theorem projection_eq_transpose_product (sin : K → K) (eps : K) (mode : DescaleMode)
    (s N H bw : ℕ) (b c shift : K) (core : AxisCore K)
    (hcore : core = descale_create_axis sin eps mode s N H bw b c shift AxisCore.empty)
    (hN : 0 < N) (hH : 0 < H) (current_height src_stride dst_stride : ℕ)
    (hstride : N ≤ dst_stride) (srcp dstp : ℕ → K) (r : ℕ) (hr : r < current_height) :
    (∃ z : ℕ → K,
      (∀ j, j < N →
        z j = (∑ k in Finset.range H,
                rd (scaling_weights sin mode s N H b c shift) (k * N + j)
                  * srcp (r * src_stride + k)
              - ∑ t in Finset.range (j - (j + 1 - (bw + 1) / 2)),
                rd core.lower (j * ((bw + 1) / 2 - 1) + (j + 1 - (bw + 1) / 2 + t)
                    - (j + 1 - (bw + 1) / 2)) * z (j + 1 - (bw + 1) / 2 + t))
              * rd core.diagonal j)
      ∧ (∀ j, j < N →
        process_plane_h N current_height bw core.weights_left_idx core.weights_right_idx
            core.weights core.lower core.upper core.diagonal src_stride dst_stride srcp dstp
            (r * dst_stride + j)
          = z j - ∑ u in Finset.range (min (N - 1) (j + (bw + 1) / 2 - 1) - j),
              rd core.upper (j * ((bw + 1) / 2 - 1)
                  + (min (N - 1) (j + (bw + 1) / 2 - 1) - u) + (bw + 1) / 2 - 2
                  - min (N - 1) (j + (bw + 1) / 2 - 1))
                * process_plane_h N current_height bw core.weights_left_idx
                    core.weights_right_idx core.weights core.lower core.upper core.diagonal
                    src_stride dst_stride srcp dstp
                    (r * dst_stride + (min (N - 1) (j + (bw + 1) / 2 - 1) - u))))
    ∧ ∀ j, j < N →
      solve_row_h N ((bw + 1) / 2) (core.weights.size / N) core.weights_left_idx
          core.weights_right_idx core.weights (mkArray (N * ((bw + 1) / 2 - 1)) 0)
          (mkArray (N * ((bw + 1) / 2 - 1)) 0) (mkArray N 1)
          (fun k => srcp (r * src_stride + k)) (fun k => dstp (r * dst_stride + k)) j
        = ∑ k in Finset.range H,
            rd (scaling_weights sin mode s N H b c shift) (k * N + j)
              * srcp (r * src_stride + k) := by
  subst hcore
  constructor
  · obtain ⟨z, hz1, hz2, _⟩ := solve_row_h_spec N ((bw + 1) / 2)
      ((descale_create_axis sin eps mode s N H bw b c shift AxisCore.empty).weights.size / N)
      (descale_create_axis sin eps mode s N H bw b c shift AxisCore.empty).weights_left_idx
      (descale_create_axis sin eps mode s N H bw b c shift AxisCore.empty).weights_right_idx
      (descale_create_axis sin eps mode s N H bw b c shift AxisCore.empty).weights
      (descale_create_axis sin eps mode s N H bw b c shift AxisCore.empty).lower
      (descale_create_axis sin eps mode s N H bw b c shift AxisCore.empty).upper
      (descale_create_axis sin eps mode s N H bw b c shift AxisCore.empty).diagonal
      (fun k => srcp (r * src_stride + k)) (fun _ => 0)
    refine ⟨z, ?_, ?_⟩
    · intro j hj
      rw [hz1 j hj,
        packed_projection sin eps mode s N H bw b c shift hN hH
          (fun k => srcp (r * src_stride + k)) j hj]
    · intro j hj
      rw [process_plane_h_solved N current_height bw _ _ _ _ _ _ src_stride dst_stride
        srcp dstp hstride r hr j hj, hz2 j hj]
      congr 1
      apply Finset.sum_congr rfl
      intro u _
      rw [process_plane_h_solved N current_height bw _ _ _ _ _ _ src_stride dst_stride
        srcp dstp hstride r hr (min (N - 1) (j + (bw + 1) / 2 - 1) - u) (by omega)]
  · obtain ⟨z, hz1, hz2, _⟩ := solve_row_h_spec N ((bw + 1) / 2)
      ((descale_create_axis sin eps mode s N H bw b c shift AxisCore.empty).weights.size / N)
      (descale_create_axis sin eps mode s N H bw b c shift AxisCore.empty).weights_left_idx
      (descale_create_axis sin eps mode s N H bw b c shift AxisCore.empty).weights_right_idx
      (descale_create_axis sin eps mode s N H bw b c shift AxisCore.empty).weights
      (mkArray (N * ((bw + 1) / 2 - 1)) (0 : K)) (mkArray (N * ((bw + 1) / 2 - 1)) (0 : K))
      (mkArray N (1 : K)) (fun k => srcp (r * src_stride + k))
      (fun k => dstp (r * dst_stride + k))
    intro j hj
    have h1 : rd (mkArray N (1 : K)) j = 1 := by
      unfold rd Array.getD
      simp [hj]
    rw [hz2 j hj, hz1 j hj, h1,
      packed_projection sin eps mode s N H bw b c shift hN hH
        (fun k => srcp (r * src_stride + k)) j hj]
    simp only [rd_mkArray, zero_mul, Finset.sum_const_zero, sub_zero, mul_one]

/-- Witness of C25: the `Debilinear` core from width 4 to width 2 (`eps` the
machine epsilon), the one-row image `[1, 3, 5, 7]`: the projection step gives
`A'·b = [9/2, 23/2]`. -/
theorem projection_eq_transpose_product_witness :
    (∀ j, j < 2 →
      solve_row_h 2 ((3 + 1) / 2)
          ((descale_create_axis no_sin (DBL_EPSILON : ℚ) .bilinear 1 2 4 3 0 0 0
            AxisCore.empty).weights.size / 2)
          (descale_create_axis no_sin (DBL_EPSILON : ℚ) .bilinear 1 2 4 3 0 0 0
            AxisCore.empty).weights_left_idx
          (descale_create_axis no_sin (DBL_EPSILON : ℚ) .bilinear 1 2 4 3 0 0 0
            AxisCore.empty).weights_right_idx
          (descale_create_axis no_sin (DBL_EPSILON : ℚ) .bilinear 1 2 4 3 0 0 0
            AxisCore.empty).weights
          (mkArray (2 * ((3 + 1) / 2 - 1)) 0) (mkArray (2 * ((3 + 1) / 2 - 1)) 0) (mkArray 2 1)
          (fun k => scenario1_input (0 * 4 + k)) (fun k => (fun _ => (0 : ℚ)) (0 * 2 + k)) j
        = ∑ k in Finset.range 4,
            rd (scaling_weights no_sin .bilinear 1 2 4 (0 : ℚ) 0 0) (k * 2 + j)
              * scenario1_input (0 * 4 + k))
    ∧ (∑ k in Finset.range 4,
        rd (scaling_weights no_sin .bilinear 1 2 4 (0 : ℚ) 0 0) (k * 2 + 0)
          * scenario1_input (0 * 4 + k)) = 9 / 2
    ∧ (∑ k in Finset.range 4,
        rd (scaling_weights no_sin .bilinear 1 2 4 (0 : ℚ) 0 0) (k * 2 + 1)
          * scenario1_input (0 * 4 + k)) = 23 / 2 :=
  ⟨(projection_eq_transpose_product no_sin (DBL_EPSILON : ℚ) .bilinear 1 2 4 3 0 0 0 _ rfl
      (by decide) (by decide) 1 4 2 (by decide) scenario1_input (fun _ => 0) 0
      (by decide)).2,
    by decide!, by decide!⟩

end Projection

section PackedReads
variable {K : Type} [LinearOrderedField K] [FloorRing K]

/-- `compress_matrix` in terms of its row width and its read indices. -/
theorem compress_matrix_reads (rows : ℕ) (lidx ridx : Array ℕ) (matrix : Array K) :
    compress_matrix rows lidx ridx matrix
      = loop (fun i compressed =>
          loop (fun j compressed =>
            wr compressed (i * compress_matrix_width lidx ridx + j)
              (rd matrix (compress_matrix_read rows lidx matrix.size i j)))
            (compress_matrix_width lidx ridx) compressed)
          rows (mkArray (rows * compress_matrix_width lidx ridx) 0) := rfl

/-- C26 fails: in the `Debilinear` core from width 6 to width 3 with no shift
(`1 ≤ N ≤ H`, all tap indices in range) the rows of `A'` have the brackets
`[0, 3)`, `[1, 5)`, `[3, 6)`, so `max = 4`, and for the last row `i = 2` and
`j = 3` the read `matrix[i·columns + lidx[i] + j]` has
`lidx[i] + j = 6 = columns` and the index `18`, one past the end of the
18-element vector `transposed_weights`. -/
theorem compress_matrix_reads_past_end :
    taps_in_range 1 3 6 (0 : ℚ)
    ∧ (transpose_matrix 6 (scaling_weights no_sin .bilinear 1 3 6 (0 : ℚ) 0 0)).size = 18
    ∧ (find_idx 3 6 (transpose_matrix 6 (scaling_weights no_sin .bilinear 1 3 6 (0 : ℚ) 0 0))
        (resize (#[] : Array ℕ) 3, resize (#[] : Array ℕ) 3)) = (#[0, 1, 3], #[3, 5, 6])
    ∧ compress_matrix_width (#[0, 1, 3] : Array ℕ) #[3, 5, 6] = 4
    ∧ rd (#[0, 1, 3] : Array ℕ) 2 + 3 = 18 / 3
    ∧ compress_matrix_read 3 (#[0, 1, 3] : Array ℕ) 18 2 3 = 18 := by
  decide!

/-- The first output of `extract_compressed_lower_upper_diagonal` in terms of
its read indices. -/
theorem extract_lower_reads (eps : K) (rows bandwidth : ℕ)
    (lower upper cl cu dg : Array K) :
    (extract_compressed_lower_upper_diagonal eps rows bandwidth lower upper cl cu dg).1
      = loop (fun i compressed_lower =>
          loop (fun t compressed_lower =>
            wr compressed_lower
              (i * ((bandwidth + 1) / 2 - 1) + (i + 1 - (bandwidth + 1) / 2 + t)
                - (i + 1 - (bandwidth + 1) / 2))
              (rd lower (extract_lower_read rows bandwidth lower.size i t)))
            ((bandwidth + 1) / 2 - 1) compressed_lower) rows cl := rfl

/-- The reads of `lower` in `extract_compressed_lower_upper_diagonal` stay
inside the `rows × rows` matrix exactly when `rows ≥ c − 1`. -/
theorem extract_lower_read_in_bounds (rows bandwidth : ℕ) (hrows : 0 < rows)
    (hc : 2 ≤ (bandwidth + 1) / 2) :
    (∀ i, i < rows → ∀ t, t < (bandwidth + 1) / 2 - 1 →
        extract_lower_read rows bandwidth (rows * rows) i t < rows * rows)
      ↔ (bandwidth + 1) / 2 - 1 ≤ rows := by
  have hcols : rows * rows / rows = rows := Nat.mul_div_cancel_left rows hrows
  unfold extract_lower_read
  simp only [hcols]
  generalize (bandwidth + 1) / 2 = c at hc
  constructor
  · intro h
    by_contra hcon
    have := h (rows - 1) (by omega) (c - 2) (by omega)
    have e : rows - 1 + 1 - c = 0 := by omega
    rw [e, Nat.zero_add] at this
    have h2 : rows * rows = (rows - 1) * rows + rows := by
      conv_lhs => rw [show rows = rows - 1 + 1 by omega, Nat.add_mul, Nat.one_mul]
      rw [show rows - 1 + 1 = rows by omega]
    omega
  · intro h i hi t ht
    exact idx_lt i (i + 1 - c + t) rows rows hi (by omega)

/-- C27 fails when `rows < c − 1`: for `support = 2` (`bandwidth = 7`, `c = 4`)
and `rows = 2`, as in `Debicubic` to width 2, the matrix `lower` that
`descale_create` passes has `2 · 2 = 4` cells, and iteration `t = 2` of row
`i = 1` reads `lower[1 · 2 + 2] = lower[4]`, one past its end. -/
theorem extract_lower_read_past_end (P : Array K) :
    (multiply_banded_matrix_with_diagonal 2 (2 * 4 - 1)
        (transpose_matrix 2 (uncrompress_symmetric_banded_matrix 2 (2 * 4 - 1) P))).size = 2 * 2
    ∧ 2 < (2 * 4 - 1 + 1) / 2 - 1
    ∧ extract_lower_read 2 (2 * 4 - 1) (2 * 2) 1 2 = 4
    ∧ ¬ extract_lower_read 2 (2 * 4 - 1) (2 * 2) 1 2 < 2 * 2 := by
  refine ⟨?_, by decide, by decide, by decide⟩
  have h := (rd_uncrompress 2 (2 * 4 - 1) P).1
  exact (rd_multiply_banded 2 (2 * 4 - 1) _ (by rw [size_transpose_matrix]; exact h)).1

end PackedReads

section NoShiftRange
variable {K : Type} [LinearOrderedField K] [FloorRing K]

/-- `round_halfup` returns an integer at distance at most `1/2` from its
argument. -/
theorem round_halfup_near (x : K) :
    ∃ z : ℤ, round_halfup x = (z : K) ∧ x - 1 / 2 ≤ (z : K) ∧ (z : K) ≤ x + 1 / 2 := by
  unfold round_halfup std_round
  dsimp only
  have h1 := Int.floor_le (|x| + 1 / 2)
  have h2 := Int.lt_floor_add_one (|x| + 1 / 2)
  by_cases h : x < 0
  · rw [abs_of_neg h] at h1 h2 ⊢
    refine ⟨-⌊-x + 1 / 2⌋, by simp [h], ?_, ?_⟩
    · push_cast
      linarith
    · push_cast
      linarith
  · rw [abs_of_nonneg (not_lt.mp h)] at h1 h2 ⊢
    refine ⟨⌊x + 1 / 2⌋, by simp [h], ?_, ?_⟩
    · linarith
    · linarith

/-- With no shift the sampling position of a row lies strictly inside
`(0, src_dim)`. -/
theorem sample_pos_no_shift (src_dim dst_dim : ℕ) (hN : 0 < src_dim) (i : ℕ)
    (hi : i < dst_dim) :
    0 < sample_pos src_dim dst_dim (0 : K) i
    ∧ sample_pos src_dim dst_dim (0 : K) i < (src_dim : K) := by
  unfold sample_pos
  dsimp only
  have hNk : (0 : K) < (src_dim : K) := by exact_mod_cast hN
  have hHk : (0 : K) < (dst_dim : K) := by exact_mod_cast (by omega : 0 < dst_dim)
  have hik : (i : K) + 1 ≤ (dst_dim : K) := by exact_mod_cast hi
  have hi0 : (0 : K) ≤ (i : K) := Nat.cast_nonneg i
  rw [add_zero, div_div_eq_mul_div]
  constructor
  · positivity
  · rw [div_lt_iff₀ hHk]
    nlinarith

/-- C28. With no shift the tap indices are always in range: for `shift = 0`,
every `support ≥ 1`, every `src_dim ≥ support` and every `dst_dim`, each index
`idx` computed by `scaling_weights` for a row `i < dst_dim` and a tap
`j < 2·support` satisfies `0 ≤ idx < src_dim`. -/
theorem taps_in_range_no_shift (support src_dim dst_dim : ℕ) (hs : 1 ≤ support)
    (hN : support ≤ src_dim) : taps_in_range support src_dim dst_dim (0 : K) := by
  intro i hi j hj
  obtain ⟨hp0, hpN⟩ := sample_pos_no_shift (K := K) src_dim dst_dim (by omega) i hi
  obtain ⟨z, hz, hlo, hhi⟩ :=
    round_halfup_near (sample_pos src_dim dst_dim (0 : K) i - (support : K))
  have e : tap_idx support src_dim dst_dim (0 : K) i j
      = if z + j < 0 then -(z + j) - 1
        else if (src_dim : ℤ) ≤ z + j then 2 * (src_dim : ℤ) - (z + j) - 1 else z + j := by
    unfold tap_idx begin_pos
    rw [hz]
    have e : (z : K) + 1 / 2 + (j : K) = ((z + j : ℤ) : K) + 1 / 2 := by push_cast; ring
    rw [e, floor_mirror_pos]
  have hz1 : -(support : ℤ) ≤ z := by
    by_contra hcon
    have : z + (support : ℤ) ≤ -1 := by omega
    have hk : ((z + (support : ℤ) : ℤ) : K) ≤ ((-1 : ℤ) : K) := Int.cast_le.mpr this
    push_cast at hk
    linarith
  have hz2 : z ≤ (src_dim : ℤ) - (support : ℤ) := by
    by_contra hcon
    have : (src_dim : ℤ) + 1 ≤ z + (support : ℤ) := by omega
    have hk : (((src_dim : ℤ) + 1 : ℤ) : K) ≤ ((z + (support : ℤ) : ℤ) : K) :=
      Int.cast_le.mpr this
    push_cast at hk
    linarith
  rw [e]
  have hjz : (j : ℤ) < 2 * (support : ℤ) := by exact_mod_cast hj
  have hNz : (support : ℤ) ≤ (src_dim : ℤ) := by exact_mod_cast hN
  split_ifs <;> constructor <;> omega

/-- Witness of C28: the four taps of the two rows of the bicubic matrix from
length 2 to length 2 (`support = src_dim = 2`) are the columns `1, 0, 0, 1`
and `0, 0, 1, 1`. -/
theorem taps_in_range_no_shift_witness :
    1 ≤ 2 ∧ 2 ≤ 2 ∧ taps_in_range 2 2 2 (0 : ℚ)
    ∧ (List.range 4).map (tap_idx 2 2 2 (0 : ℚ) 0) = [1, 0, 0, 1]
    ∧ (List.range 4).map (tap_idx 2 2 2 (0 : ℚ) 1) = [0, 0, 1, 1] :=
  ⟨by decide, by decide, taps_in_range_no_shift 2 2 2 (by decide) (by decide),
    by decide!, by decide!⟩

end NoShiftRange

section TapTotal
variable {K : Type} [LinearOrderedField K] [FloorRing K]

/-- The tap total of row `i` is the tap total at its sampling position. -/
theorem row_total_eq_tap_total (sin : K → K) (mode : DescaleMode)
    (support src_dim dst_dim : ℕ) (b c shift : K) (i : ℕ) :
    row_total sin mode support src_dim dst_dim b c shift i
      = tap_total sin mode support b c (sample_pos src_dim dst_dim shift i) := rfl

/-- The taps of a row sit at the distances `δ − support + j` for one
`δ ∈ [0, 1]`. -/
theorem tap_total_offsets (sin : K → K) (mode : DescaleMode) (support : ℕ) (b c pos : K) :
    ∃ δ : K, 0 ≤ δ ∧ δ ≤ 1 ∧ tap_total sin mode support b c pos
      = ∑ j in Finset.range (2 * support),
          calculate_weight sin mode support (δ - (support : K) + (j : K)) b c := by
  obtain ⟨z, hz, hlo, hhi⟩ := round_halfup_near (pos - (support : K))
  refine ⟨(z : K) + 1 / 2 - (pos - (support : K)), by linarith, by linarith, ?_⟩
  unfold tap_total begin_pos
  dsimp only
  rw [loop_add_eq_sum, zero_add, hz]
  apply Finset.sum_congr rfl
  intro j _
  congr 1
  ring

/-- The bilinear taps sum to one. -/
theorem bilinear_total (sin : K → K) (b c δ : K) (h0 : 0 ≤ δ) (h1 : δ ≤ 1) :
    ∑ j in Finset.range (2 * 1),
      calculate_weight sin .bilinear 1 (δ - ((1 : ℕ) : K) + (j : K)) b c = 1 := by
  have e0 : |δ - 1| = 1 - δ := by rw [abs_of_nonpos (by linarith)]; ring
  have e1 : |δ| = δ := abs_of_nonneg h0
  simp only [Finset.sum_range_succ, Finset.sum_range_zero, calculate_weight, Nat.cast_one,
    Nat.cast_zero, Nat.mul_one, zero_add, add_zero]
  have a0 : δ - 1 + 1 = δ := by ring
  rw [a0, e0, e1, max_eq_left (by linarith), max_eq_left (by linarith)]
  ring

/-- The bicubic kernel on `[0, 1]`: the first polynomial, also at `1`. -/
theorem bicubic_piece0 (sin : K → K) (support : ℕ) (b c d u : K) (hd : |d| = u)
    (h0 : 0 ≤ u) (h1 : u ≤ 1) :
    calculate_weight sin .bicubic support d b c
      = ((12 - 9 * b - 6 * c) * (u * u * u) + (-18 + 12 * b + 6 * c) * (u * u)
          + (6 - 2 * b)) / 6 := by
  simp only [calculate_weight, cube, square, hd]
  rcases lt_or_eq_of_le h1 with h | h
  · rw [if_pos h]
  · subst h
    rw [if_neg (lt_irrefl _), if_pos (by norm_num)]
    ring

/-- The bicubic kernel on `[1, 2]`: the second polynomial, also at `2`. -/
theorem bicubic_piece1 (sin : K → K) (support : ℕ) (b c d u : K) (hd : |d| = 1 + u)
    (h0 : 0 ≤ u) (h1 : u ≤ 1) :
    calculate_weight sin .bicubic support d b c
      = ((-b - 6 * c) * ((1 + u) * (1 + u) * (1 + u))
          + (6 * b + 30 * c) * ((1 + u) * (1 + u))
          + (-12 * b - 48 * c) * (1 + u) + (8 * b + 24 * c)) / 6 := by
  simp only [calculate_weight, cube, square, hd]
  rw [if_neg (by linarith)]
  rcases lt_or_eq_of_le h1 with h | h
  · rw [if_pos (by linarith)]
  · subst h
    rw [if_neg (by norm_num)]
    ring

/-- The bicubic taps sum to one, for every `b` and `c`. -/
theorem bicubic_total (sin : K → K) (b c δ : K) (h0 : 0 ≤ δ) (h1 : δ ≤ 1) :
    ∑ j in Finset.range (2 * 2),
      calculate_weight sin .bicubic 2 (δ - ((2 : ℕ) : K) + (j : K)) b c = 1 := by
  have e0 : |δ - ((2 : ℕ) : K) + ((0 : ℕ) : K)| = 1 + (1 - δ) := by
    rw [abs_of_nonpos (by push_cast; linarith)]; push_cast; ring
  have e1 : |δ - ((2 : ℕ) : K) + ((1 : ℕ) : K)| = 1 - δ := by
    rw [abs_of_nonpos (by push_cast; linarith)]; push_cast; ring
  have e2 : |δ - ((2 : ℕ) : K) + ((2 : ℕ) : K)| = δ := by
    rw [abs_of_nonneg (by push_cast; linarith)]; push_cast; ring
  have e3 : |δ - ((2 : ℕ) : K) + ((3 : ℕ) : K)| = 1 + δ := by
    rw [abs_of_nonneg (by push_cast; linarith)]; push_cast; ring
  rw [show 2 * 2 = 4 from rfl, Finset.sum_range_succ, Finset.sum_range_succ,
    Finset.sum_range_succ, Finset.sum_range_succ, Finset.sum_range_zero,
    bicubic_piece1 sin 2 b c _ (1 - δ) e0 (by linarith) (by linarith),
    bicubic_piece0 sin 2 b c _ (1 - δ) e1 (by linarith) (by linarith),
    bicubic_piece0 sin 2 b c _ δ e2 h0 h1,
    bicubic_piece1 sin 2 b c _ δ e3 h0 h1]
  ring

/-- The spline16 kernel on `[0, 1]`. -/
theorem spline16_piece0 (sin : K → K) (support : ℕ) (b c d u : K) (hd : |d| = u)
    (h0 : 0 ≤ u) (h1 : u ≤ 1) :
    calculate_weight sin .spline16 support d b c
      = 1 - 1 / 5 * u - 9 / 5 * (u * u) + u * u * u := by
  simp only [calculate_weight, cube, square, hd]
  rcases lt_or_eq_of_le h1 with h | h
  · rw [if_pos h]
  · subst h
    rw [if_neg (lt_irrefl _), if_pos (by norm_num)]
    ring

/-- The spline16 kernel on `[1, 2]`. -/
theorem spline16_piece1 (sin : K → K) (support : ℕ) (b c d u : K) (hd : |d| = 1 + u)
    (h0 : 0 ≤ u) (h1 : u ≤ 1) :
    calculate_weight sin .spline16 support d b c
      = -7 / 15 * u + 4 / 5 * (u * u) - 1 / 3 * (u * u * u) := by
  simp only [calculate_weight, cube, square, hd]
  rw [if_neg (by linarith)]
  rcases lt_or_eq_of_le h1 with h | h
  · rw [if_pos (by linarith)]
    ring
  · subst h
    rw [if_neg (by norm_num)]
    ring

/-- The spline16 taps sum to one. -/
theorem spline16_total (sin : K → K) (b c δ : K) (h0 : 0 ≤ δ) (h1 : δ ≤ 1) :
    ∑ j in Finset.range (2 * 2),
      calculate_weight sin .spline16 2 (δ - ((2 : ℕ) : K) + (j : K)) b c = 1 := by
  have e0 : |δ - ((2 : ℕ) : K) + ((0 : ℕ) : K)| = 1 + (1 - δ) := by
    rw [abs_of_nonpos (by push_cast; linarith)]; push_cast; ring
  have e1 : |δ - ((2 : ℕ) : K) + ((1 : ℕ) : K)| = 1 - δ := by
    rw [abs_of_nonpos (by push_cast; linarith)]; push_cast; ring
  have e2 : |δ - ((2 : ℕ) : K) + ((2 : ℕ) : K)| = δ := by
    rw [abs_of_nonneg (by push_cast; linarith)]; push_cast; ring
  have e3 : |δ - ((2 : ℕ) : K) + ((3 : ℕ) : K)| = 1 + δ := by
    rw [abs_of_nonneg (by push_cast; linarith)]; push_cast; ring
  rw [show 2 * 2 = 4 from rfl, Finset.sum_range_succ, Finset.sum_range_succ,
    Finset.sum_range_succ, Finset.sum_range_succ, Finset.sum_range_zero,
    spline16_piece1 sin 2 b c _ (1 - δ) e0 (by linarith) (by linarith),
    spline16_piece0 sin 2 b c _ (1 - δ) e1 (by linarith) (by linarith),
    spline16_piece0 sin 2 b c _ δ e2 h0 h1,
    spline16_piece1 sin 2 b c _ δ e3 h0 h1]
  ring

end TapTotal

section SplineTotal
variable {K : Type} [LinearOrderedField K] [FloorRing K]

/-- The spline36 kernel on `[0, 1]`. -/
theorem spline36_piece0 (sin : K → K) (support : ℕ) (b c d u : K) (hd : |d| = u)
    (h0 : 0 ≤ u) (h1 : u ≤ 1) :
    calculate_weight sin .spline36 support d b c
      = 1 - 3 / 209 * u - 453 / 209 * (u * u) + 13 / 11 * (u * u * u) := by
  simp only [calculate_weight, cube, square, hd]
  rcases lt_or_eq_of_le h1 with h | h
  · rw [if_pos h]
  · subst h
    rw [if_neg (lt_irrefl _), if_pos (by norm_num)]
    ring

/-- The spline36 kernel on `[1, 2]`. -/
theorem spline36_piece1 (sin : K → K) (support : ℕ) (b c d u : K) (hd : |d| = 1 + u)
    (h0 : 0 ≤ u) (h1 : u ≤ 1) :
    calculate_weight sin .spline36 support d b c
      = -156 / 209 * u + 270 / 209 * (u * u) - 6 / 11 * (u * u * u) := by
  simp only [calculate_weight, cube, square, hd]
  rw [if_neg (by linarith)]
  rcases lt_or_eq_of_le h1 with h | h
  · rw [if_pos (by linarith)]
    ring
  · subst h
    rw [if_neg (by norm_num), if_pos (by norm_num)]
    ring

/-- The spline36 kernel on `[2, 3]`. -/
theorem spline36_piece2 (sin : K → K) (support : ℕ) (b c d u : K) (hd : |d| = 2 + u)
    (h0 : 0 ≤ u) (h1 : u ≤ 1) :
    calculate_weight sin .spline36 support d b c
      = 26 / 209 * u - 45 / 209 * (u * u) + 1 / 11 * (u * u * u) := by
  simp only [calculate_weight, cube, square, hd]
  rw [if_neg (by linarith), if_neg (by linarith)]
  rcases lt_or_eq_of_le h1 with h | h
  · rw [if_pos (by linarith)]
    ring
  · subst h
    rw [if_neg (by norm_num)]
    ring

/-- The spline36 taps sum to one. -/
theorem spline36_total (sin : K → K) (b c δ : K) (h0 : 0 ≤ δ) (h1 : δ ≤ 1) :
    ∑ j in Finset.range (2 * 3),
      calculate_weight sin .spline36 3 (δ - ((3 : ℕ) : K) + (j : K)) b c = 1 := by
  have e0 : |δ - ((3 : ℕ) : K) + ((0 : ℕ) : K)| = 2 + (1 - δ) := by
    rw [abs_of_nonpos (by push_cast; linarith)]; push_cast; ring
  have e1 : |δ - ((3 : ℕ) : K) + ((1 : ℕ) : K)| = 1 + (1 - δ) := by
    rw [abs_of_nonpos (by push_cast; linarith)]; push_cast; ring
  have e2 : |δ - ((3 : ℕ) : K) + ((2 : ℕ) : K)| = 1 - δ := by
    rw [abs_of_nonpos (by push_cast; linarith)]; push_cast; ring
  have e3 : |δ - ((3 : ℕ) : K) + ((3 : ℕ) : K)| = δ := by
    rw [abs_of_nonneg (by push_cast; linarith)]; push_cast; ring
  have e4 : |δ - ((3 : ℕ) : K) + ((4 : ℕ) : K)| = 1 + δ := by
    rw [abs_of_nonneg (by push_cast; linarith)]; push_cast; ring
  have e5 : |δ - ((3 : ℕ) : K) + ((5 : ℕ) : K)| = 2 + δ := by
    rw [abs_of_nonneg (by push_cast; linarith)]; push_cast; ring
  rw [show 2 * 3 = 6 from rfl, Finset.sum_range_succ, Finset.sum_range_succ,
    Finset.sum_range_succ, Finset.sum_range_succ, Finset.sum_range_succ,
    Finset.sum_range_succ, Finset.sum_range_zero,
    spline36_piece2 sin 3 b c _ (1 - δ) e0 (by linarith) (by linarith),
    spline36_piece1 sin 3 b c _ (1 - δ) e1 (by linarith) (by linarith),
    spline36_piece0 sin 3 b c _ (1 - δ) e2 (by linarith) (by linarith),
    spline36_piece0 sin 3 b c _ δ e3 h0 h1,
    spline36_piece1 sin 3 b c _ δ e4 h0 h1,
    spline36_piece2 sin 3 b c _ δ e5 h0 h1]
  ring

/-- C29. For the polynomial kernels the normalisation is a no-op: for
bilinear, bicubic with any `b` and `c`, spline16 and spline36 (with their
supports 1, 2, 2, 3) and every sampling position `pos`, the tap total
`Σ_{j < 2·support} calculate_weight(begin_pos + j − pos)` with
`begin_pos = round_halfup(pos − support) + 0.5` equals `1` in exact
arithmetic; so the `total` of every row of `scaling_weights` is `1`, never `0`. -/
theorem tap_total_eq_one (sin : K → K) (mode : DescaleMode) (taps : ℕ) (b c pos : K)
    (hm : mode ≠ .lanczos) :
    tap_total sin mode (kernel_support mode taps) b c pos = 1
    ∧ ∀ (src_dim dst_dim : ℕ) (shift : K) (i : ℕ),
      row_total sin mode (kernel_support mode taps) src_dim dst_dim b c shift i = 1 := by
  have key : ∀ p : K, tap_total sin mode (kernel_support mode taps) b c p = 1 := by
    intro p
    obtain ⟨δ, h0, h1, e⟩ := tap_total_offsets sin mode (kernel_support mode taps) b c p
    rw [e]
    cases mode with
    | bilinear => exact bilinear_total sin b c δ h0 h1
    | bicubic => exact bicubic_total sin b c δ h0 h1
    | lanczos => exact absurd rfl hm
    | spline16 => exact spline16_total sin b c δ h0 h1
    | spline36 => exact spline36_total sin b c δ h0 h1
  exact ⟨key pos, fun src_dim dst_dim shift i => key _⟩

/-- Witness of C29: the bicubic kernel with `b = c = 1/3` at the sampling
position `7/4`, and row 2 of the bicubic matrix from length 3 to length 5
with shift `1/7`. -/
theorem tap_total_eq_one_witness :
    DescaleMode.bicubic ≠ DescaleMode.lanczos
    ∧ tap_total no_sin .bicubic (kernel_support .bicubic 0) (1 / 3 : ℚ) (1 / 3) (7 / 4) = 1
    ∧ row_total no_sin .bicubic (kernel_support .bicubic 0) 3 5 (1 / 3 : ℚ) (1 / 3) (1 / 7) 2
      = 1 :=
  ⟨by decide,
    (tap_total_eq_one no_sin .bicubic 0 (1 / 3 : ℚ) (1 / 3) (7 / 4) (by decide)).1,
    (tap_total_eq_one no_sin .bicubic 0 (1 / 3 : ℚ) (1 / 3) (7 / 4) (by decide)).2 3 5 (1 / 7) 2⟩

end SplineTotal

section RowWidthBound
variable {K : Type} [LinearOrderedField K] [FloorRing K]

/-- With no shift, a tap of row `k` that lands in column `col` (directly or
mirrored) belongs to a row whose sampling position is within
`support + 1/2` of the centre `col + 1/2` of the column. -/
theorem tap_idx_position (support src_dim dst_dim : ℕ) (hs : 1 ≤ support)
    (hN : support ≤ src_dim) (k : ℕ) (hk : k < dst_dim) (j : ℕ) (hj : j < 2 * support)
    (col : ℕ) (htap : tap_idx support src_dim dst_dim (0 : K) k j = (col : ℤ)) :
    (col : K) - (support : K) + 1 / 2 ≤ sample_pos src_dim dst_dim (0 : K) k
    ∧ sample_pos src_dim dst_dim (0 : K) k ≤ (col : K) + (support : K) + 1 / 2 := by
  obtain ⟨hp0, hpN⟩ := sample_pos_no_shift (K := K) src_dim dst_dim (by omega) k hk
  obtain ⟨z, hz, hlo, hhi⟩ :=
    round_halfup_near (sample_pos src_dim dst_dim (0 : K) k - (support : K))
  have e : tap_idx support src_dim dst_dim (0 : K) k j
      = if z + j < 0 then -(z + j) - 1
        else if (src_dim : ℤ) ≤ z + j then 2 * (src_dim : ℤ) - (z + j) - 1 else z + j := by
    unfold tap_idx begin_pos
    rw [hz]
    have e : (z : K) + 1 / 2 + (j : K) = ((z + j : ℤ) : K) + 1 / 2 := by push_cast; ring
    rw [e, floor_mirror_pos]
  have hz1 : -(support : ℤ) ≤ z := by
    by_contra hcon
    have : z + (support : ℤ) ≤ -1 := by omega
    have hk : ((z + (support : ℤ) : ℤ) : K) ≤ ((-1 : ℤ) : K) := Int.cast_le.mpr this
    push_cast at hk
    linarith
  have hz2 : z ≤ (src_dim : ℤ) - (support : ℤ) := by
    by_contra hcon
    have : (src_dim : ℤ) + 1 ≤ z + (support : ℤ) := by omega
    have hk : (((src_dim : ℤ) + 1 : ℤ) : K) ≤ ((z + (support : ℤ) : ℤ) : K) :=
      Int.cast_le.mpr this
    push_cast at hk
    linarith
  rw [e] at htap
  have hjz : (j : ℤ) < 2 * (support : ℤ) := by exact_mod_cast hj
  have hNz : (support : ℤ) ≤ (src_dim : ℤ) := by exact_mod_cast hN
  have hsz : (1 : ℤ) ≤ (support : ℤ) := by exact_mod_cast hs
  have hj0 : (0 : ℤ) ≤ (j : ℤ) := Int.natCast_nonneg j
  have hc0 : (0 : ℤ) ≤ (col : ℤ) := Int.natCast_nonneg col
  -- the two integer facts behind each bound
  have hup : z ≤ (col : ℤ) ∨ (src_dim : ℤ) ≤ (col : ℤ) + (support : ℤ) := by
    split_ifs at htap <;> omega
  have hdown : (col : ℤ) - 2 * (support : ℤ) + 1 ≤ z ∨ (col : ℤ) ≤ (support : ℤ) - 1 := by
    split_ifs at htap <;> omega
  constructor
  · rcases hdown with h | h
    · have hk : (((col : ℤ) - 2 * (support : ℤ) + 1 : ℤ) : K) ≤ (z : K) := Int.cast_le.mpr h
      push_cast at hk
      linarith
    · have hk : (((col : ℤ) : ℤ) : K) ≤ (((support : ℤ) - 1 : ℤ) : K) := Int.cast_le.mpr h
      push_cast at hk
      linarith
  · rcases hup with h | h
    · have hk : (z : K) ≤ ((col : ℤ) : K) := Int.cast_le.mpr h
      push_cast at hk
      linarith
    · have hk : (((src_dim : ℤ) : ℤ) : K) ≤ (((col : ℤ) + (support : ℤ) : ℤ) : K) :=
        Int.cast_le.mpr h
      push_cast at hk
      linarith

/-- A solver row whose column of `A` is zero keeps the empty bracket `[0, 0)`. -/
theorem axis_idx_zero (sin : K → K) (eps : K) (mode : DescaleMode)
    (support dim vi_dim bandwidth : ℕ) (b c shift : K) (i : ℕ) (hi : i < dim)
    (hz : ∀ j, j < vi_dim →
      rd (scaling_weights sin mode support dim vi_dim b c shift) (j * dim + i) = 0) :
    rd (descale_create_axis sin eps mode support dim vi_dim bandwidth b c shift
        AxisCore.empty).weights_left_idx i = 0
    ∧ rd (descale_create_axis sin eps mode support dim vi_dim bandwidth b c shift
        AxisCore.empty).weights_right_idx i = 0 := by
  obtain ⟨eL, eR⟩ := descale_create_axis_fields sin eps mode support dim vi_dim bandwidth b c shift
  rw [eL, eR]
  obtain ⟨_, _, hspec⟩ := find_idx_spec dim vi_dim
    (transpose_matrix vi_dim (scaling_weights sin mode support dim vi_dim b c shift))
    (resize (#[] : Array ℕ) dim) (resize (#[] : Array ℕ) dim)
    (size_resize _ _) (size_resize _ _)
  have h0 : rd (resize (#[] : Array ℕ) dim) i = 0 := by
    rw [rd_resize, if_pos hi]
    exact rd_of_size_le _ _ (Nat.zero_le _)
  obtain ⟨h1, h2⟩ := (hspec i hi).1 (fun k hk => by
    rw [rd_transposed_weights sin mode support dim vi_dim b c shift (by omega) i k hi hk]
    exact hz k hk)
  rw [h0] at h1 h2
  exact ⟨h1, h2⟩

/-- With no shift and `src_dim ≥ support`, the bracket of a solver row of a
core holds at most `⌊2·support·H/N⌋ + 1` high-res samples. -/
theorem axis_row_width (sin : K → K) (eps : K) (mode : DescaleMode)
    (support N H bandwidth : ℕ) (b c : K) (hs : 1 ≤ support) (hN : support ≤ N)
    (i : ℕ) (hi : i < N) :
    (rd (descale_create_axis sin eps mode support N H bandwidth b c 0
          AxisCore.empty).weights_right_idx i
        - rd (descale_create_axis sin eps mode support N H bandwidth b c 0
          AxisCore.empty).weights_left_idx i) * N
      ≤ 2 * support * H + N := by
  have hr : taps_in_range support N H (0 : K) := taps_in_range_no_shift support N H hs hN
  obtain ⟨h1, h2, _, h4⟩ := axis_idx_spec sin eps mode support N H bandwidth b c 0 i hi
  have hzero := axis_idx_zero sin eps mode support N H bandwidth b c 0 i hi
  generalize rd (descale_create_axis sin eps mode support N H bandwidth b c 0
    AxisCore.empty).weights_left_idx i = L at h1 h2 h4 hzero ⊢
  generalize rd (descale_create_axis sin eps mode support N H bandwidth b c 0
    AxisCore.empty).weights_right_idx i = R at h1 h2 h4 hzero ⊢
  by_cases hLR : R ≤ L
  · have e : R - L = 0 := by omega
    rw [e, Nat.zero_mul]
    exact Nat.zero_le _
  · have hex : ∃ j, j < H ∧ rd (scaling_weights sin mode support N H b c 0) (j * N + i) ≠ 0 := by
      by_contra hcon
      have hz : ∀ j, j < H → rd (scaling_weights sin mode support N H b c 0) (j * N + i) = 0 := by
        intro j hj
        by_contra hne
        exact hcon ⟨j, hj, hne⟩
      obtain ⟨e1, e2⟩ := hzero hz
      omega
    obtain ⟨_, hl, hrr⟩ := h4 hex
    obtain ⟨hLH, jl, hjl, hlt⟩ := scaling_weights_entry_ne_zero sin mode support N H b c 0 hr
      L i hi hl
    obtain ⟨hRH, jr, hjr, hrt⟩ := scaling_weights_entry_ne_zero sin mode support N H b c 0 hr
      (R - 1) i hi hrr
    obtain ⟨pl, _⟩ := tap_idx_position support N H hs hN L hLH jl hjl i hlt
    obtain ⟨_, pr⟩ := tap_idx_position support N H hs hN (R - 1) hRH jr hjr i hrt
    have hNk : (0 : K) < (N : K) := by exact_mod_cast (by omega : 0 < N)
    have hHk : (0 : K) < (H : K) := by exact_mod_cast (by omega : 0 < H)
    unfold sample_pos at pl pr
    dsimp only at pl pr
    rw [add_zero, div_div_eq_mul_div] at pl pr
    have hR1 : ((R - 1 : ℕ) : K) = (R : K) - 1 := by
      rw [Nat.cast_sub (by omega)]
      simp
    rw [hR1] at pr
    rw [div_le_iff₀ hHk] at pr
    rw [le_div_iff₀ hHk] at pl
    have key : ((R : K) - (L : K) - 1) * (N : K) ≤ 2 * (support : K) * (H : K) := by
      nlinarith
    have hcast : (((R - L) * N : ℕ) : K) ≤ ((2 * support * H + N : ℕ) : K) := by
      push_cast
      rw [Nat.cast_sub (by omega)]
      linarith
    exact_mod_cast hcast

/-- C18, amended. Row-width bound of every built core (no shift, `blur = 1`):
for both cores that `descale_create` builds (horizontal when
`width ≠ vi_width`, vertical when `height ≠ vi_height`), every supported
kernel and every pair of lengths `N ≠ H` with `N ≥ support`, every solver row
`i` satisfies `weights_right_idx[i] − weights_left_idx[i] ≤ ⌊2·support·H/N⌋ + 1`,
stated without division as `(right − left)·N ≤ 2·support·H + N`: the bound
`2·support` of a row of `A` is scaled by the ratio `H/N` of the lengths. -/
theorem row_width_bound (sin : K → K) (eps : K) (mode : DescaleMode)
    (support vi_width vi_height width height taps : ℕ) (b c : K) (hs : 1 ≤ support) :
    (width ≠ vi_width → support ≤ width → ∀ i, i < width →
      (rd (descale_create sin eps mode support
            (fresh_data support vi_width vi_height width height taps b c 0
              0)).h.weights_right_idx i
          - rd (descale_create sin eps mode support
            (fresh_data support vi_width vi_height width height taps b c 0
              0)).h.weights_left_idx i) * width
        ≤ 2 * support * vi_width + width)
    ∧ (height ≠ vi_height → support ≤ height → ∀ i, i < height →
      (rd (descale_create sin eps mode support
            (fresh_data support vi_width vi_height width height taps b c 0
              0)).v.weights_right_idx i
          - rd (descale_create sin eps mode support
            (fresh_data support vi_width vi_height width height taps b c 0
              0)).v.weights_left_idx i) * height
        ≤ 2 * support * vi_height + height) := by
  obtain ⟨eh, ev⟩ := descale_create_fresh sin eps mode support vi_width vi_height width height
    taps b c 0 0
  constructor
  · intro hw hN i hi
    rw [eh hw]
    exact axis_row_width sin eps mode support width vi_width (support * 4 - 1) b c hs hN i hi
  · intro hh hN i hi
    rw [ev hh]
    exact axis_row_width sin eps mode support height vi_height (support * 4 - 1) b c hs hN i hi

/-- Witness of C18 (amended): the cores of `Debilinear` from 6 × 8 to 3 × 4
with no shift; the bound is `⌊2·1·6/3⌋ + 1 = 5` in both directions, and the
widest rows have the widths 4 (row 1 of the horizontal core) and 4 (row 1 of
the vertical core). -/
theorem row_width_bound_witness :
    1 ≤ 1 ∧ 3 ≠ 6 ∧ 1 ≤ 3 ∧ 4 ≠ 8 ∧ 1 ≤ 4
    ∧ rd (descale_create no_sin (DBL_EPSILON : ℚ) .bilinear 1
          (fresh_data 1 6 8 3 4 0 0 0 0 0)).h.weights_right_idx 1
        - rd (descale_create no_sin (DBL_EPSILON : ℚ) .bilinear 1
          (fresh_data 1 6 8 3 4 0 0 0 0 0)).h.weights_left_idx 1 = 4
    ∧ rd (descale_create no_sin (DBL_EPSILON : ℚ) .bilinear 1
          (fresh_data 1 6 8 3 4 0 0 0 0 0)).v.weights_right_idx 1
        - rd (descale_create no_sin (DBL_EPSILON : ℚ) .bilinear 1
          (fresh_data 1 6 8 3 4 0 0 0 0 0)).v.weights_left_idx 1 = 4
    ∧ (∀ i, i < 3 →
      (rd (descale_create no_sin (DBL_EPSILON : ℚ) .bilinear 1
            (fresh_data 1 6 8 3 4 0 0 0 0 0)).h.weights_right_idx i
          - rd (descale_create no_sin (DBL_EPSILON : ℚ) .bilinear 1
            (fresh_data 1 6 8 3 4 0 0 0 0 0)).h.weights_left_idx i) * 3
        ≤ 2 * 1 * 6 + 3)
    ∧ (∀ i, i < 4 →
      (rd (descale_create no_sin (DBL_EPSILON : ℚ) .bilinear 1
            (fresh_data 1 6 8 3 4 0 0 0 0 0)).v.weights_right_idx i
          - rd (descale_create no_sin (DBL_EPSILON : ℚ) .bilinear 1
            (fresh_data 1 6 8 3 4 0 0 0 0 0)).v.weights_left_idx i) * 4
        ≤ 2 * 1 * 8 + 4) :=
  ⟨by decide, by decide, by decide, by decide, by decide, by decide!, by decide!,
    (row_width_bound no_sin (DBL_EPSILON : ℚ) .bilinear 1 6 8 3 4 0 0 0 (by decide)).1
      (by decide) (by decide),
    (row_width_bound no_sin (DBL_EPSILON : ℚ) .bilinear 1 6 8 3 4 0 0 0 (by decide)).2
      (by decide) (by decide)⟩

/-- With a shift the reflections at the border widen a solver row beyond
`⌊2·support·H/N⌋ + 1`: in the bilinear core from width 4 to width 3 with
`src_left = -2` every tap index is in range, and solver row 1 has the bracket
`[0, 4)` of width `4 > ⌊2·1·4/3⌋ + 1 = 3`. -/
theorem row_width_with_shift :
    taps_in_range 1 3 4 (-2 : ℚ)
    ∧ rd (descale_create no_sin (DBL_EPSILON : ℚ) .bilinear 1
          (fresh_data 1 4 1 3 1 0 0 0 (-2) 0)).h.weights_right_idx 1
        - rd (descale_create no_sin (DBL_EPSILON : ℚ) .bilinear 1
          (fresh_data 1 4 1 3 1 0 0 0 (-2) 0)).h.weights_left_idx 1 = 4
    ∧ ¬ ((rd (descale_create no_sin (DBL_EPSILON : ℚ) .bilinear 1
            (fresh_data 1 4 1 3 1 0 0 0 (-2) 0)).h.weights_right_idx 1
          - rd (descale_create no_sin (DBL_EPSILON : ℚ) .bilinear 1
            (fresh_data 1 4 1 3 1 0 0 0 (-2) 0)).h.weights_left_idx 1) * 3
        ≤ 2 * 1 * 4 + 3) := by
  decide!

end RowWidthBound

section EqualSize
variable {K : Type} [LinearOrderedField K] [FloorRing K]

end EqualSize

section EqualSizeIdentity
variable {K : Type} [LinearOrderedField K] [FloorRing K]

end EqualSizeIdentity

section KernelTheorems

variable {K : Type} [LinearOrderedField K] [FloorRing K]

theorem sinc_neg (sin : K → K) (hsin : ∀ x, sin (-x) = -sin x) (x : K) :
    sinc sin (-x) = sinc sin x := by
  unfold sinc
  by_cases hx : x = 0
  · simp [hx]
  · have hx2 : -x ≠ 0 := neg_ne_zero.mpr hx
    rw [if_neg hx, if_neg hx2, neg_mul, hsin, neg_div_neg_eq]

theorem sinc_abs (sin : K → K) (hsin : ∀ x, sin (-x) = -sin x) (x : K) :
    sinc sin |x| = sinc sin x := by
  rcases abs_choice x with h | h
  · rw [h]
  · rw [h, sinc_neg sin hsin]

/-- The `sinc` of the source, `sin(x·PI)/(x·PI)` with the literal `PI`, is
the normalised sinc of the specification. -/
theorem sinc_eq_spec_sinc (sin : K → K) (x : K) : sinc sin x = spec_sinc sin x := by
  have hpi : (PI : K) = spec_pi := by
    unfold PI spec_pi
    norm_num
  unfold sinc spec_sinc
  rw [hpi, mul_comm x spec_pi]

/-- C4. For every signed distance `d`, all parameters `b`, `c` and `taps ≥ 1`,
`calculate_weight` equals the piecewise definitions of the specification:
bilinear `max(1 − |d|, 0)`, the two bicubic polynomials on `|d| < 1` and
`1 ≤ |d| < 2` (else `0`), and lanczos `sinc(d)·sinc(d/taps)` for `|d| < taps`
(else `0`) with the normalised `sinc(x) = sin(π·x)/(π·x)`, `sinc(0) = 1`;
`std::sin` is only assumed to be odd, and `π` is the decimal constant. -/
theorem calculate_weight_matches_spec (sin : K → K) (hsin : ∀ x, sin (-x) = -sin x)
    (support taps : ℕ) (htaps : 1 ≤ taps) (d b c : K) :
    calculate_weight sin .bilinear support d b c = spec_bilinear d
    ∧ calculate_weight sin .bicubic support d b c = spec_bicubic b c d
    ∧ calculate_weight sin .lanczos taps d b c = spec_lanczos sin taps d
    ∧ sinc sin 0 = 1 := by
  refine ⟨rfl, ?_, ?_, by simp [sinc]⟩
  · simp only [calculate_weight, spec_bicubic, cube, square]
    by_cases h1 : |d| < 1
    · have e1 : 0 ≤ |d| ∧ |d| < 1 := ⟨abs_nonneg d, h1⟩
      rw [if_pos h1, if_pos e1]; ring
    · have h1b : 1 ≤ |d| := not_lt.mp h1
      have e1 : ¬ (0 ≤ |d| ∧ |d| < 1) := fun h => h1 h.2
      rw [if_neg h1, if_neg e1]
      by_cases h2 : |d| < 2
      · have e2 : 1 ≤ |d| ∧ |d| < 2 := ⟨h1b, h2⟩
        rw [if_pos h2, if_pos e2]; ring
      · have e2 : ¬ (1 ≤ |d| ∧ |d| < 2) := fun h => h2 h.2
        rw [if_neg h2, if_neg e2]
  · simp only [calculate_weight, spec_lanczos]
    by_cases h : |d| < (taps : K)
    · have ht : (0 : K) < (taps : K) := by exact_mod_cast htaps
      rw [if_pos h, if_pos h, sinc_abs sin hsin, ← sinc_eq_spec_sinc, ← sinc_eq_spec_sinc]
      congr 1
      rcases abs_choice d with hd | hd
      · rw [hd]
      · rw [hd, neg_div, sinc_neg sin hsin]
    · rw [if_neg h, if_neg h]

/-- Witness of C4 with the odd function `sin y = y − y³/6`, `support = 1`,
`taps = 3`, `d = -1/2`, `b = 0`, `c = 1/2`; there `sinc(1/2)` is neither `0`
nor `1` and the lanczos weight is not `1`. -/
theorem calculate_weight_matches_spec_witness :
    (∀ x : ℚ, (fun y : ℚ => y - y * y * y / 6) (-x) = -(fun y : ℚ => y - y * y * y / 6) x)
    ∧ 1 ≤ 3
    ∧ spec_sinc (fun y : ℚ => y - y * y * y / 6) (1 / 2) ≠ 1
    ∧ spec_sinc (fun y : ℚ => y - y * y * y / 6) (1 / 2) ≠ 0
    ∧ calculate_weight (fun y : ℚ => y - y * y * y / 6) .lanczos 3 (-1 / 2) 0 (1 / 2) ≠ 1
    ∧ (calculate_weight (fun y : ℚ => y - y * y * y / 6) .bilinear 1 (-1 / 2) 0 (1 / 2)
        = spec_bilinear (-1 / 2 : ℚ)
      ∧ calculate_weight (fun y : ℚ => y - y * y * y / 6) .bicubic 1 (-1 / 2) 0 (1 / 2)
        = spec_bicubic 0 (1 / 2) (-1 / 2 : ℚ)
      ∧ calculate_weight (fun y : ℚ => y - y * y * y / 6) .lanczos 3 (-1 / 2) 0 (1 / 2)
        = spec_lanczos (fun y : ℚ => y - y * y * y / 6) 3 (-1 / 2 : ℚ)
      ∧ sinc (fun y : ℚ => y - y * y * y / 6) 0 = 1) :=
  ⟨fun x => by show -x - -x * -x * -x / 6 = -(x - x * x * x / 6); ring,
    by decide, by decide!, by decide!, by decide!,
    calculate_weight_matches_spec (fun y : ℚ => y - y * y * y / 6)
      (fun x => by show -x - -x * -x * -x / 6 = -(x - x * x * x / 6); ring) 1 3
      (by decide) (-1 / 2) 0 (1 / 2)⟩

/-- C5. With the support that the `*_create` functions pass (`1` bilinear, `2`
bicubic and spline16, `3` spline36, `taps` lanczos), `calculate_weight` is `0`
at every distance `d` with `|d| ≥ support`. -/
theorem calculate_weight_zero_outside_support (sin : K → K) (mode : DescaleMode)
    (taps : ℕ) (d b c : K) (hd : (kernel_support mode taps : K) ≤ |d|) :
    calculate_weight sin mode (kernel_support mode taps) d b c = 0 := by
  cases mode <;> simp only [kernel_support, Nat.cast_one, Nat.cast_ofNat] at hd
  · simp only [calculate_weight]
    exact max_eq_right (by linarith)
  · simp only [calculate_weight]
    rw [if_neg (by linarith), if_neg (by linarith)]
  · simp only [calculate_weight, kernel_support]
    rw [if_neg (not_lt.mpr hd)]
  · simp only [calculate_weight]
    rw [if_neg (by linarith), if_neg (by linarith)]
  · simp only [calculate_weight]
    rw [if_neg (by linarith), if_neg (by linarith), if_neg (by linarith)]

/-- Witness of C5: the spline36 kernel (support 3) at distance `-7/2`. -/
theorem calculate_weight_zero_outside_support_witness :
    ((kernel_support .spline36 0 : ℕ) : ℚ) ≤ |(-7 / 2 : ℚ)|
    ∧ calculate_weight no_sin .spline36 (kernel_support .spline36 0) (-7 / 2 : ℚ) 0 0 = 0 :=
  ⟨by decide!, calculate_weight_zero_outside_support no_sin .spline36 0 (-7 / 2) 0 0
    (by decide!)⟩

end KernelTheorems

section ScenarioTheorems

variable {K : Type} [LinearOrderedField K] [FloorRing K]

/-- C6. `round_halfup` breaks the pixel-grid invariant
`round_halfup(x − 1) = round_halfup(x) − 1` that the comment in its body
requires: at `x = 1/2` the left side is `-1` and the right side is `0`
(the function rounds halves away from zero). -/
theorem round_halfup_breaks_invariant :
    round_halfup ((1 / 2 : ℚ) - 1) = -1 ∧ round_halfup (1 / 2 : ℚ) - 1 = 0
    ∧ round_halfup ((1 / 2 : ℚ) - 1) ≠ round_halfup (1 / 2 : ℚ) - 1 := by
  decide!

/-- C7 as stated fails: for row `0` of a matrix with 4 rows and 2 columns and
no shift, `scaling_weights` samples at `1/4` while the formula of the
specification gives `1/2`. -/
theorem sample_pos_differs_from_spec :
    sample_pos 2 4 (0 : ℚ) 0 = 1 / 4 ∧ spec_pos 2 4 (0 : ℚ) 0 = 1 / 2
    ∧ sample_pos 2 4 (0 : ℚ) 0 ≠ spec_pos 2 4 (0 : ℚ) 0 := by
  decide!

/-- C7, amended. For every destination row `i`, the sampling position used by
`scaling_weights` is `pos = (i + 0.5)·(active_dim/dst_dim) + shift`, with
`dst_dim` the number of rows and `active_dim` the number of columns of `A`;
the term `− 0.5·(active_dim/dst_dim − 1)` of the specification is absent. -/
theorem sample_pos_eq (src_dim dst_dim : ℕ) (shift : K) (i : ℕ) :
    sample_pos src_dim dst_dim shift i
      = ((i : K) + 1 / 2) * ((src_dim : K) / (dst_dim : K)) + shift
    ∧ sample_pos src_dim dst_dim shift i
      = spec_pos src_dim dst_dim shift i + 1 / 2 * ((src_dim : K) / (dst_dim : K) - 1) := by
  have h : sample_pos src_dim dst_dim shift i
      = ((i : K) + 1 / 2) * ((src_dim : K) / (dst_dim : K)) + shift := by
    simp only [sample_pos, div_div_eq_mul_div, mul_div_assoc]
  refine ⟨h, ?_⟩
  rw [h, spec_pos]; ring

/-- C8. Mirror border handling does not always yield a valid source index:
for `src_dim = 1`, `dst_dim = 2`, `support = 2` and no shift (a bicubic descale
from width 2 to width 1), tap `0` of row `0` has `idx = 1 = src_dim` and tap
`3` of row `1` has `idx = -1`. -/
theorem tap_idx_out_of_range :
    tap_idx 2 1 2 (0 : ℚ) 0 0 = 1 ∧ tap_idx 2 1 2 (0 : ℚ) 1 3 = -1 := by
  decide!

/-- C9 as stated fails (exact arithmetic, `eps = DBL_EPSILON`): the output of
scenario 1 is not within `1e−4` of `[1.5, 6.5]`; already `X[0]` is more than
`0.29` away from `1.5`. -/
theorem scenario1_not_as_specified :
    ¬ (|scenario1_output 0 - 3 / 2| ≤ 1 / 10000 ∧ |scenario1_output 1 - 13 / 2| ≤ 1 / 10000)
    ∧ 29 / 100 < |scenario1_output 0 - 3 / 2| := by
  decide!

/-- C9, amended. For the bilinear core built for high-res length 4 and low-res
length 2 with shift 0, the solver applied to `Y = [1, 3, 5, 7]` returns `X`
with `|X[0] − 1.2| ≤ 1e−4` and `|X[1] − 6.8| ≤ 1e−4`, the least-squares
solution (exact arithmetic, `eps = DBL_EPSILON`). -/
theorem scenario1_least_squares :
    |scenario1_output 0 - 6 / 5| ≤ 1 / 10000 ∧ |scenario1_output 1 - 34 / 5| ≤ 1 / 10000 := by
  decide!

/-- C10 as stated fails (exact arithmetic, `eps = DBL_EPSILON`): the output of
scenario 2 is not within `1e−3` of `[0.5, 2.5, 4.5]`; `X[0]` and `X[2]` are
each more than `0.1` away. -/
theorem scenario2_not_as_specified :
    ¬ (|scenario2_output 0 - 1 / 2| ≤ 1 / 1000 ∧ |scenario2_output 1 - 5 / 2| ≤ 1 / 1000
        ∧ |scenario2_output 2 - 9 / 2| ≤ 1 / 1000)
    ∧ 1 / 10 < |scenario2_output 0 - 1 / 2| ∧ 1 / 10 < |scenario2_output 2 - 9 / 2| := by
  decide!

/-- C10, amended. For the bicubic core with `b = 0`, `c = 0.5` built for
high-res length 6 and low-res length 3 with shift 0, the solver applied to the
ramp `Y = [0, 1, 2, 3, 4, 5]` returns `X` with every component within `1e−3`
of `[71/182, 5/2, 839/182] ≈ [0.3901, 2.5, 4.6099]`, the least-squares
solution (exact arithmetic, `eps = DBL_EPSILON`). -/
theorem scenario2_least_squares :
    |scenario2_output 0 - 71 / 182| ≤ 1 / 1000 ∧ |scenario2_output 1 - 5 / 2| ≤ 1 / 1000
    ∧ |scenario2_output 2 - 839 / 182| ≤ 1 / 1000 := by
  decide!

end ScenarioTheorems

end Descale
